import Mathlib

/-!
# Zenhammer: DRAM address translation and frequency-based pattern building

A shallow embedding of `src/src/DRAMAddr.cpp`, `src/src/Fuzzer/PatternBuilder.cpp`, of
`get_random_indices`, `jit_hammering_code`, `hammer_and_improve_params` and the pair selection
of `generate_random_pattern` of `src/PatternBuilder.cpp`, and of `remove_aggs`,
`build_distribution`, `encode_double_ptr_chasing` and `generate_random_pattern` of
`src/src/PatternBuilder.cpp`.
`size_t` values are natural numbers; every operation that can leave the 64-bit range
is reduced modulo `2 ^ 64`.  The process-wide state (`MemConfig`, `base_msb`) is passed
explicitly.  Vectors are lists: reading beyond the end yields a default-constructed element,
and the assignments of `fill_slots` are kept as a list of `(index, value)` pairs, so that an
assignment beyond the end stays visible.  Loops without a fixed number of rounds take a
`fuel` argument and return `none` when it runs out.
-/

namespace Zenhammer

/-! ## DRAMAddr -/

/-- Number of values of a `size_t` (64-bit unsigned). -/
def SIZE_MAX1 : Nat := 2 ^ 64

/-- Modelled from the spec: the constant `MTX_SIZE` is declared in `DRAMAddr.hpp`, which is
not part of the sources; the spec gives the matrices as `DRAM_MTX[30]` and `ADDR_MTX[30]`,
and both initialisers in `DRAMAddr.cpp` have 30 rows. -/
def MTX_SIZE : Nat := 30

/-- The record `MemConfiguration` as it is initialised in `DRAMAddr::Configs`. -/
structure MemConfiguration where
  BK_SHIFT : Nat
  BK_MASK : Nat
  ROW_SHIFT : Nat
  ROW_MASK : Nat
  COL_SHIFT : Nat
  COL_MASK : Nat
  DRAM_MTX : List Nat
  ADDR_MTX : List Nat
deriving DecidableEq, Repr

/-- The fields of a `DRAMAddr` object. -/
structure DRAMAddr where
  bank : Nat
  row : Nat
  col : Nat
deriving DecidableEq, Repr

/-- Number of 1-bits among the low `n` bits of `x`. -/
def popcount : Nat → Nat → Nat
  | 0, _ => 0
  | n + 1, x => if x = 0 then 0 else x % 2 + popcount n (x / 2)

/-- Number of 1-bits of an `unsigned long` (64 bits). -/
def popcountl (x : Nat) : Nat :=
  popcount 64 x

/-- The builtin `__builtin_parityl`: the number of 1-bits of its argument modulo 2. -/
def parityl (x : Nat) : Nat :=
  popcountl x % 2

/-- Method `DRAMAddr::set_base`: `base_msb = (size_t) buff & (~((size_t)(1ULL<<30) - 1))`.
The result is the new value of the static `base_msb`. -/
def set_base (buff : Nat) : Nat :=
  buff &&& (SIZE_MAX1 - 1 - (((1 <<< 30) % SIZE_MAX1) - 1))

/-- The loop shared by the address constructor and `to_virt`:
`res <<= 1; res |= parity(p & mtx[i])` for `i` in `[0, MTX_SIZE)`, starting from `res = 0`. -/
def mtx_loop (mtx : List Nat) (p : Nat) : Nat :=
  (List.range MTX_SIZE).foldl
    (fun res i => ((res <<< 1) % SIZE_MAX1) ||| parityl (p &&& mtx.getD i 0)) 0

/-- The constructor `DRAMAddr::DRAMAddr(void* addr)` (the spec's `from_virt`), reading the
static `MemConfig`. -/
def DRAMAddr.from_virt (MemConfig : MemConfiguration) (addr : Nat) : DRAMAddr :=
  let p := addr
  let res := mtx_loop MemConfig.DRAM_MTX p
  { bank := (res >>> MemConfig.BK_SHIFT) &&& MemConfig.BK_MASK
    row := (res >>> MemConfig.ROW_SHIFT) &&& MemConfig.ROW_MASK
    col := (res >>> MemConfig.COL_SHIFT) &&& MemConfig.COL_MASK }

/-- Method `DRAMAddr::linearize`. -/
def DRAMAddr.linearize (MemConfig : MemConfiguration) (d : DRAMAddr) : Nat :=
  ((d.bank <<< MemConfig.BK_SHIFT) % SIZE_MAX1) ||| ((d.row <<< MemConfig.ROW_SHIFT) % SIZE_MAX1)
    ||| ((d.col <<< MemConfig.COL_SHIFT) % SIZE_MAX1)

/-- Method `DRAMAddr::to_virt`, reading the statics `MemConfig` and `base_msb`. -/
def DRAMAddr.to_virt (MemConfig : MemConfiguration) (base_msb : Nat) (d : DRAMAddr) : Nat :=
  let l := d.linearize MemConfig
  let res := mtx_loop MemConfig.ADDR_MTX l
  base_msb ||| res

/-- The entry of `DRAMAddr::Configs` for 1 channel, 1 DIMM, 1 rank, 16 banks. -/
def Config_1_1_1_16 : MemConfiguration where
  BK_SHIFT := 26
  BK_MASK := 0b1111
  ROW_SHIFT := 0
  ROW_MASK := 0b1111111111111
  COL_SHIFT := 13
  COL_MASK := 0b1111111111111
  DRAM_MTX := [
    0b000000000000000010000001000000,
    0b000000000000100100000000000000,
    0b000000000001001000000000000000,
    0b000000000010010000000000000000,
    0b000000000000000001000000000000,
    0b000000000000000000100000000000,
    0b000000000000000000010000000000,
    0b000000000000000000001000000000,
    0b000000000000000000000100000000,
    0b000000000000000000000010000000,
    0b000000000000000000000001000000,
    0b000000000000000000000000100000,
    0b000000000000000000000000010000,
    0b000000000000000000000000001000,
    0b000000000000000000000000000100,
    0b000000000000000000000000000010,
    0b000000000000000000000000000001,
    0b100000000000000000000000000000,
    0b010000000000000000000000000000,
    0b001000000000000000000000000000,
    0b000100000000000000000000000000,
    0b000010000000000000000000000000,
    0b000001000000000000000000000000,
    0b000000100000000000000000000000,
    0b000000010000000000000000000000,
    0b000000001000000000000000000000,
    0b000000000100000000000000000000,
    0b000000000010000000000000000000,
    0b000000000001000000000000000000,
    0b000000000000100000000000000000]
  ADDR_MTX := [
    0b000000000000000001000000000000,
    0b000000000000000000100000000000,
    0b000000000000000000010000000000,
    0b000000000000000000001000000000,
    0b000000000000000000000100000000,
    0b000000000000000000000010000000,
    0b000000000000000000000001000000,
    0b000000000000000000000000100000,
    0b000000000000000000000000010000,
    0b000000000000000000000000001000,
    0b000000000000000000000000000100,
    0b000000000000000000000000000010,
    0b000000000000000000000000000001,
    0b000100000000000000000000000100,
    0b001000000000000000000000000010,
    0b010000000000000000000000000001,
    0b100000000010000000000000000000,
    0b000010000000000000000000000000,
    0b000001000000000000000000000000,
    0b000000100000000000000000000000,
    0b000000010000000000000000000000,
    0b000000001000000000000000000000,
    0b000000000100000000000000000000,
    0b000000000010000000000000000000,
    0b000000000001000000000000000000,
    0b000000000000100000000000000000,
    0b000000000000010000000000000000,
    0b000000000000001000000000000000,
    0b000000000000000100000000000000,
    0b000000000000000010000000000000]

/-- The entry of `DRAMAddr::Configs` for 1 channel, 1 DIMM, 2 ranks, 16 banks. -/
def Config_1_1_2_16 : MemConfiguration where
  BK_SHIFT := 25
  BK_MASK := 0b11111
  ROW_SHIFT := 0
  ROW_MASK := 0b111111111111
  COL_SHIFT := 12
  COL_MASK := 0b1111111111111
  DRAM_MTX := [
    0b000000000000000010000001000000,
    0b000000000001000100000000000000,
    0b000000000010001000000000000000,
    0b000000000100010000000000000000,
    0b000000001000100000000000000000,
    0b000000000000000001000000000000,
    0b000000000000000000100000000000,
    0b000000000000000000010000000000,
    0b000000000000000000001000000000,
    0b000000000000000000000100000000,
    0b000000000000000000000010000000,
    0b000000000000000000000001000000,
    0b000000000000000000000000100000,
    0b000000000000000000000000010000,
    0b000000000000000000000000001000,
    0b000000000000000000000000000100,
    0b000000000000000000000000000010,
    0b000000000000000000000000000001,
    0b100000000000000000000000000000,
    0b010000000000000000000000000000,
    0b001000000000000000000000000000,
    0b000100000000000000000000000000,
    0b000010000000000000000000000000,
    0b000001000000000000000000000000,
    0b000000100000000000000000000000,
    0b000000010000000000000000000000,
    0b000000001000000000000000000000,
    0b000000000100000000000000000000,
    0b000000000010000000000000000000,
    0b000000000001000000000000000000]
  ADDR_MTX := [
    0b000000000000000000100000000000,
    0b000000000000000000010000000000,
    0b000000000000000000001000000000,
    0b000000000000000000000100000000,
    0b000000000000000000000010000000,
    0b000000000000000000000001000000,
    0b000000000000000000000000100000,
    0b000000000000000000000000010000,
    0b000000000000000000000000001000,
    0b000000000000000000000000000100,
    0b000000000000000000000000000010,
    0b000000000000000000000000000001,
    0b000010000000000000000000001000,
    0b000100000000000000000000000100,
    0b001000000000000000000000000010,
    0b010000000000000000000000000001,
    0b100000000001000000000000000000,
    0b000001000000000000000000000000,
    0b000000100000000000000000000000,
    0b000000010000000000000000000000,
    0b000000001000000000000000000000,
    0b000000000100000000000000000000,
    0b000000000010000000000000000000,
    0b000000000001000000000000000000,
    0b000000000000100000000000000000,
    0b000000000000010000000000000000,
    0b000000000000001000000000000000,
    0b000000000000000100000000000000,
    0b000000000000000010000000000000,
    0b000000000000000001000000000000]

/-- Modelled from the spec: the key macros `CHANS`, `DIMMS`, `RANKS` and `BANKS` of
`DRAMAddr.hpp` are not part of the sources; a configuration is "selected by
`(channels, dimms, ranks, banks)` key", so the key is that quadruple. -/
abbrev mem_config_t : Type := Nat × Nat × Nat × Nat

/-- The static map `DRAMAddr::Configs`. -/
def Configs : List (mem_config_t × MemConfiguration) :=
  [((1, 1, 1, 16), Config_1_1_1_16), ((1, 1, 2, 16), Config_1_1_2_16)]

/-- Method `DRAMAddr::load_mem_config`: `MemConfig = Configs[cfg]`; `none` when the key is
absent. -/
def load_mem_config (cfg : mem_config_t) : Option MemConfiguration :=
  Configs.lookup cfg

/-! ### Notions used by the proofs about DRAMAddr -/

/-- The first `n` rounds of the matrix loop. -/
def loopN (mtx : List Nat) (p : Nat) (n : Nat) : Nat :=
  (List.range n).foldl
    (fun res i => ((res <<< 1) % SIZE_MAX1) ||| parityl (p &&& mtx.getD i 0)) 0

/-- Every row of the matrix is a 30-bit value. -/
def RowsBounded (mtx : List Nat) : Prop := ∀ r ∈ mtx, r < 2 ^ 30

instance (mtx : List Nat) : Decidable (RowsBounded mtx) := by
  unfold RowsBounded; infer_instance

/-- The matrix `A` undoes the matrix `D` on every unit vector of the 30-bit space. -/
def InvOnBasis (A D : List Nat) : Prop :=
  (List.range 30).all (fun k => mtx_loop A (mtx_loop D (2 ^ k)) == 2 ^ k) = true

instance (A D : List Nat) : Decidable (InvOnBasis A D) := by
  unfold InvOnBasis; infer_instance

/-- The last three assignments of the address constructor, applied to the loop result. -/
def unpack (MemConfig : MemConfiguration) (res : Nat) : DRAMAddr :=
  { bank := (res >>> MemConfig.BK_SHIFT) &&& MemConfig.BK_MASK
    row := (res >>> MemConfig.ROW_SHIFT) &&& MemConfig.ROW_MASK
    col := (res >>> MemConfig.COL_SHIFT) &&& MemConfig.COL_MASK }

/-- The triple lies within the masks of the configuration. -/
def InRange (MemConfig : MemConfiguration) (d : DRAMAddr) : Prop :=
  d.bank ≤ MemConfig.BK_MASK ∧ d.row ≤ MemConfig.ROW_MASK ∧ d.col ≤ MemConfig.COL_MASK

/-- What the round-trip proofs need of a configuration: 30-bit rows, matrices that undo
each other on the unit vectors, and fields that tile the 30 bits of the linear address. -/
structure Translatable (cfg : MemConfiguration) : Prop where
  rowsD : RowsBounded cfg.DRAM_MTX
  rowsA : RowsBounded cfg.ADDR_MTX
  invAD : InvOnBasis cfg.ADDR_MTX cfg.DRAM_MTX
  invDA : InvOnBasis cfg.DRAM_MTX cfg.ADDR_MTX
  pack_unpack : ∀ res, res < 2 ^ 30 → (unpack cfg res).linearize cfg = res
  unpack_pack : ∀ d, InRange cfg d → d.linearize cfg < 2 ^ 30 ∧ unpack cfg (d.linearize cfg) = d

/-! ## PatternBuilder (frequency-based composition) -/

/-- Modelled from the spec: the type `AGGRESSOR_ID_TYPE` is declared in `Fuzzer/Aggressor.hpp`,
which is not part of the sources; an aggressor is "identified by a small integer ID", and
`get_n_aggressors` stores `(int) aggressor_id_counter` in it. -/
abbrev AGGRESSOR_ID_TYPE : Type := Int

/-- Modelled from the spec: the constant `ID_PLACEHOLDER_AGG` is declared in
`Fuzzer/Aggressor.hpp`, which is not part of the sources; it is the "reserved ID" that "denotes
an unfilled slot".  Every ID handed out by `get_n_aggressors` is a counter value `>= 0`, so
the reserved ID is the negative value `-1`. -/
def ID_PLACEHOLDER_AGG : AGGRESSOR_ID_TYPE := -1

/-- The class `Aggressor`: only its field `id` is used by the pattern builder. -/
structure Aggressor where
  id : AGGRESSOR_ID_TYPE
deriving DecidableEq, Repr

/-- Modelled from the spec: the default constructor `Aggressor()` is declared in
`Fuzzer/Aggressor.hpp`, which is not part of the sources; `generate_frequency_based_pattern`
initialises every slot with it and then tests slots against `ID_PLACEHOLDER_AGG`, the ID of
"an unfilled slot". -/
instance : Inhabited Aggressor := ⟨{ id := ID_PLACEHOLDER_AGG }⟩

/-- Modelled from the spec: the class `AggressorAccessPattern` is declared in
`Fuzzer/AggressorAccessPattern.hpp`, which is not part of the sources; it is the "tuple
`(period P, amplitude A, aggressors [a₁…a_N], offset k)`", built in this order by
`emplace_back(cur_period, cur_amplitude, aggressors, k)`. -/
structure AggressorAccessPattern where
  period : Nat
  amplitude : Nat
  aggressors : List Aggressor
  offset : Nat
deriving DecidableEq, Repr

/-- One call of `fill_slots` made by `generate_frequency_based_pattern`, kept for reasoning
only: the access pattern recorded just before the call, the vector `pattern.aggressors` as it
was when the call started, and the assignments `accesses[next_target] = aggressors[a]` the call
performed, in order. -/
structure FillRecord where
  access_pattern : AggressorAccessPattern
  before : List Aggressor
  writes : List (Nat × Aggressor)

/-- The fields of `HammeringPattern` written by the pattern builder. -/
structure HammeringPattern where
  aggressors : List Aggressor
  agg_access_patterns : List AggressorAccessPattern
  max_period : Nat

/-- Modelled from the spec: the class `FuzzingParameterSet` is declared in
`Fuzzer/FuzzingParameterSet.hpp`, which is not part of the sources.  The three plain getters
are fields.  The two random getters draw from the object's own random engine: the field
`get_random_N_sided k upper` is the value returned by the call `get_random_N_sided(upper)` made
for start slot `k`, and `get_random_amplitude k max` the value returned by
`get_random_amplitude(max)` made for start slot `k` (each is called at most once per start
slot). -/
structure FuzzingParameterSet where
  get_total_acts_pattern : Nat
  get_base_period : Nat
  get_num_aggressors : Nat
  get_random_N_sided : Nat → Nat → Nat
  get_random_amplitude : Nat → Nat → Nat

/-- The state of a `PatternBuilder`: the pattern it writes to, the cyclic ID counter, and the
number of samples already drawn from its random engine `gen`.  The field `fills` is not part
of the source's state; it records the calls of `fill_slots` for reasoning. -/
structure PatternBuilder where
  pattern : HammeringPattern
  aggressor_id_counter : Nat
  gen : Nat
  fills : List FillRecord

/-- The constructor `PatternBuilder::PatternBuilder`: `aggressor_id_counter(1)`. -/
def PatternBuilder.new (hammering_pattern : HammeringPattern) : PatternBuilder :=
  { pattern := hammering_pattern, aggressor_id_counter := 1, gen := 0, fills := [] }

/-- Method `PatternBuilder::get_random_gaussian`: the do-while loop that draws until the sample is
below `list.size()`.  `samples n` is the value assigned to `result` by the `n`-th draw
`d(gen)` of the builder's random engine; `gen` is the number of draws made so far.  Returns
the accepted sample and the new number of draws, or `none` when `fuel` draws were all
rejected. -/
def get_random_gaussian (samples : Nat → Nat) (list : List Int) : Nat → Nat → Option (Nat × Nat)
  | 0, _ => none
  | fuel + 1, gen =>
    let result := samples gen
    if result ≥ list.length then get_random_gaussian samples list fuel (gen + 1)
    else some (result, gen + 1)

/-- Method `PatternBuilder::remove_smaller_than`: erases every `x` with `x < N`. -/
def remove_smaller_than (vec : List Int) (N : Int) : List Int :=
  vec.filter (fun x => ¬ (x < N))

/-- The loop of `PatternBuilder::all_slots_full` over the remaining values of `i`. -/
def all_slots_full_loop (offset period pattern_length : Nat) (aggs : List Aggressor) :
    List Nat → Int
  | [] => -1
  | i :: rest =>
    let idx := ((offset + i * period) % SIZE_MAX1) % pattern_length
    if (aggs.getD idx default).id = ID_PLACEHOLDER_AGG then (idx : Int)
    else all_slots_full_loop offset period pattern_length aggs rest

/-- Method `PatternBuilder::all_slots_full`: the first index `(offset + i*period) % pattern_length`,
`i` in `[0, aggs.size())`, whose slot holds the placeholder, or `-1`. -/
def all_slots_full (offset period pattern_length : Nat) (aggs : List Aggressor) : Int :=
  all_slots_full_loop offset period pattern_length aggs (List.range aggs.length)

/-- The innermost loop of `fill_slots` over the remaining values of `a`: the assignments made,
and whether `return` was executed. -/
def fill_slots_aggressors (idx j : Nat) (aggressors : List Aggressor) (pattern_length : Nat) :
    List Nat → List (Nat × Aggressor) × Bool
  | [] => ([], false)
  | a :: rest =>
    let next_target := (idx + aggressors.length * j + a) % SIZE_MAX1
    if next_target > pattern_length then ([], true)
    else
      let r := fill_slots_aggressors idx j aggressors pattern_length rest
      ((next_target, aggressors.getD a default) :: r.1, r.2)

/-- The middle loop of `fill_slots` over the remaining values of `j`. -/
def fill_slots_amplitude (idx : Nat) (aggressors : List Aggressor) (pattern_length : Nat) :
    List Nat → List (Nat × Aggressor) × Bool
  | [] => ([], false)
  | j :: rest =>
    let r := fill_slots_aggressors idx j aggressors pattern_length (List.range aggressors.length)
    if r.2 then r
    else
      let r2 := fill_slots_amplitude idx aggressors pattern_length rest
      (r.1 ++ r2.1, r2.2)

/-- The outer loop of `fill_slots`, `for (idx = start_period; idx < pattern_length;
idx += period)`, run for at most `fuel` rounds: the assignments made, in order. -/
def fill_slots_periods (period amplitude : Nat) (aggressors : List Aggressor)
    (pattern_length : Nat) : Nat → Nat → Option (List (Nat × Aggressor))
  | 0, _ => none
  | fuel + 1, idx =>
    if idx < pattern_length then
      let r := fill_slots_amplitude idx aggressors pattern_length (List.range amplitude)
      if r.2 then some r.1
      else
        match fill_slots_periods period amplitude aggressors pattern_length fuel
            ((idx + period) % SIZE_MAX1) with
        | none => none
        | some ws => some (r.1 ++ ws)
    else some []

/-- The assignments `accesses[next_target] = aggressors[a]` that `PatternBuilder::fill_slots`
performs, in order, as pairs `(next_target, aggressors[a])`. -/
def fill_slots_writes (start_period period amplitude : Nat) (aggressors : List Aggressor)
    (pattern_length fuel : Nat) : Option (List (Nat × Aggressor)) :=
  fill_slots_periods period amplitude aggressors pattern_length fuel start_period

/-- Performs assignments on the vector.  An assignment at an index beyond the end of the vector
is undefined behaviour in the code (`accesses[next_target]` is unchecked); here it leaves the
vector as it is and stays visible in the list of assignments, so a statement about the vector
after a call describes the code only where every assignment is shown to be below the length of
the vector. -/
def apply_writes (accesses : List Aggressor) (writes : List (Nat × Aggressor)) :
    List Aggressor :=
  writes.foldl (fun acc w => acc.set w.1 w.2) accesses

/-- Method `PatternBuilder::fill_slots`: the vector `accesses` after the call. -/
def fill_slots (start_period period amplitude : Nat) (aggressors accesses : List Aggressor)
    (pattern_length fuel : Nat) : Option (List Aggressor) :=
  match fill_slots_writes start_period period amplitude aggressors pattern_length fuel with
  | none => none
  | some ws => some (apply_writes accesses ws)

/-- The loop of `PatternBuilder::get_n_aggressors` with `n` aggressors still to add: the
aggressors added and the final value of `aggressor_id_counter`. -/
def get_n_aggressors_loop (max_num_aggressors : Nat) : Nat → Nat → List Aggressor × Nat
  | 0, aggressor_id_counter => ([], aggressor_id_counter)
  | n + 1, aggressor_id_counter =>
    let r := get_n_aggressors_loop max_num_aggressors n
      ((aggressor_id_counter + 1) % max_num_aggressors)
    ({ id := (aggressor_id_counter : Int) } :: r.1, r.2)

/-- Method `PatternBuilder::get_n_aggressors`: the new content of `aggs` (cleared first) and the new
value of `aggressor_id_counter`. -/
def get_n_aggressors (N : Nat) (max_num_aggressors : Nat) (aggressor_id_counter : Nat) :
    List Aggressor × Nat :=
  get_n_aggressors_loop max_num_aggressors N aggressor_id_counter

/-- The loop `for (i = 0; std::pow(2, i) <= num_base_periods; ++i)` of
`generate_frequency_based_pattern`, run for at most `fuel` rounds. -/
def allowed_multiplicators_loop (num_base_periods : Nat) : Nat → Nat → List Int
  | 0, _ => []
  | fuel + 1, i =>
    if 2 ^ i ≤ num_base_periods then
      ((2 ^ i : Nat) : Int) :: allowed_multiplicators_loop num_base_periods fuel (i + 1)
    else []

/-- The vector `allowed_multiplicators` of `generate_frequency_based_pattern`; the loop ends
before `i` reaches `num_base_periods + 1`, because `2 ^ i > i`. -/
def allowed_multiplicators (num_base_periods : Nat) : List Int :=
  allowed_multiplicators_loop num_base_periods (num_base_periods + 1) 0

/-- One fill of `generate_frequency_based_pattern` (lines 94-96 and 102-104, and again
109-114): draw a multiplier, remove the smaller ones, allocate `num_aggressors` IDs, record the
access pattern with offset `slot`, and fill the slots.  Returns the remaining multipliers and
the new builder state. -/
def draw_and_fill (fuzzing_params : FuzzingParameterSet) (samples : Nat → Nat) (fuel : Nat)
    (num_aggressors cur_amplitude slot : Nat) (cur_multiplicators : List Int)
    (pb : PatternBuilder) : Option (List Int × PatternBuilder) :=
  match get_random_gaussian samples cur_multiplicators fuel pb.gen with
  | none => none
  | some (r, gen) =>
    match cur_multiplicators.get? r with
    | none => none
    | some cur_m =>
      let cur_multiplicators := remove_smaller_than cur_multiplicators cur_m
      let cur_period := (fuzzing_params.get_base_period * cur_m.toNat) % SIZE_MAX1
      let r := get_n_aggressors num_aggressors fuzzing_params.get_num_aggressors
        pb.aggressor_id_counter
      let aggressors := r.1
      let access_pattern : AggressorAccessPattern :=
        { period := cur_period, amplitude := cur_amplitude, aggressors := aggressors,
          offset := slot }
      match fill_slots_writes slot cur_period cur_amplitude aggressors
          fuzzing_params.get_total_acts_pattern fuel with
      | none => none
      | some ws =>
        some (cur_multiplicators,
          { pattern :=
              { aggressors := apply_writes pb.pattern.aggressors ws
                agg_access_patterns := pb.pattern.agg_access_patterns ++ [access_pattern]
                max_period := pb.pattern.max_period }
            aggressor_id_counter := r.2
            gen := gen
            fills := pb.fills ++
              [{ access_pattern := access_pattern, before := pb.pattern.aggressors,
                 writes := ws }] })

/-- The inner loop of `generate_frequency_based_pattern` (lines 106-115): while
`all_slots_full` finds an empty slot, fill from it.  Run for at most `fuel` rounds. -/
def refill_loop (fuzzing_params : FuzzingParameterSet) (samples : Nat → Nat) (fuel : Nat)
    (k num_aggressors cur_amplitude : Nat) : Nat → List Int → PatternBuilder →
    Option PatternBuilder
  | 0, _, _ => none
  | rounds + 1, cur_multiplicators, pb =>
    let next_slot := all_slots_full k fuzzing_params.get_base_period
      fuzzing_params.get_total_acts_pattern pb.pattern.aggressors
    if next_slot = -1 then some pb
    else
      match draw_and_fill fuzzing_params samples fuel num_aggressors cur_amplitude
          next_slot.toNat cur_multiplicators pb with
      | none => none
      | some (cur_multiplicators, pb) =>
        refill_loop fuzzing_params samples fuel k num_aggressors cur_amplitude rounds
          cur_multiplicators pb

/-- The body of the loop over `k` of `generate_frequency_based_pattern` (lines 89-115). -/
def generate_slot (fuzzing_params : FuzzingParameterSet) (samples : Nat → Nat) (fuel : Nat)
    (allowed_multiplicators : List Int) (pb : PatternBuilder) (k : Nat) :
    Option PatternBuilder :=
  let base_period := fuzzing_params.get_base_period
  if (pb.pattern.aggressors.getD k default).id ≠ ID_PLACEHOLDER_AGG then some pb
  else
    let num_aggressors :=
      if base_period - k = 1 then 1 else fuzzing_params.get_random_N_sided k (base_period - k)
    let cur_amplitude := fuzzing_params.get_random_amplitude k ((base_period - k) / num_aggressors)
    match draw_and_fill fuzzing_params samples fuel num_aggressors cur_amplitude k
        allowed_multiplicators pb with
    | none => none
    | some (cur_multiplicators, pb) =>
      refill_loop fuzzing_params samples fuel k num_aggressors cur_amplitude fuel
        cur_multiplicators pb

/-- The loop over `k` of `generate_frequency_based_pattern` for the remaining values of `k`. -/
def generate_slots (fuzzing_params : FuzzingParameterSet) (samples : Nat → Nat) (fuel : Nat)
    (allowed_multiplicators : List Int) : List Nat → PatternBuilder → Option PatternBuilder
  | [], pb => some pb
  | k :: rest, pb =>
    match generate_slot fuzzing_params samples fuel allowed_multiplicators pb k with
    | none => none
    | some pb => generate_slots fuzzing_params samples fuel allowed_multiplicators rest pb

/-- Method `PatternBuilder::generate_frequency_based_pattern` (without the logging).  Every loop
whose number of rounds is not fixed in advance runs for at most `fuel` rounds; the result is
`none` when one of them needs more, when `cur_multiplicators.at` is out of range, or when
`allowed_multiplicators` is empty at line 86, where the code calls `back()` on it (undefined
behaviour, before any slot is handled). -/
def generate_frequency_based_pattern (fuzzing_params : FuzzingParameterSet)
    (samples : Nat → Nat) (fuel : Nat) (pb : PatternBuilder) : Option PatternBuilder :=
  let base_period := fuzzing_params.get_base_period
  let num_base_periods := fuzzing_params.get_total_acts_pattern / fuzzing_params.get_base_period
  let allowed := allowed_multiplicators num_base_periods
  if allowed = [] then none
  else
    let pb : PatternBuilder :=
      { pb with
        pattern :=
          { aggressors := List.replicate fuzzing_params.get_total_acts_pattern default
            agg_access_patterns := pb.pattern.agg_access_patterns
            max_period := (allowed.getLastD 0).toNat * base_period } }
    generate_slots fuzzing_params samples fuel allowed (List.range base_period) pb

/-! ### Notions used by the proofs about PatternBuilder -/

/-- The slot holds a real aggressor ID. -/
def Filled (aggs : List Aggressor) (s : Nat) : Prop :=
  (aggs.getD s default).id ≠ ID_PLACEHOLDER_AGG

/-- The assignments of one round of the outer loop of `fill_slots` when nothing is cut off:
the tuple `aggs`, `amplitude` times back-to-back from `idx` on. -/
def window_writes (idx : Nat) (aggs : List Aggressor) (js : List Nat) : List (Nat × Aggressor) :=
  js.flatMap (fun j => (List.range aggs.length).map
    (fun a => (idx + aggs.length * j + a, aggs.getD a default)))

/-- The list of multipliers is not empty, and each entry is a power of two that is a multiple
of `μ` and at most `nbp`. -/
def MultsOK (nbp μ : Nat) (mults : List Int) : Prop :=
  mults ≠ [] ∧ ∀ x ∈ mults, ∃ e : Nat, x = ((2 ^ e : Nat) : Int) ∧ μ ∣ 2 ^ e ∧ 2 ^ e ≤ nbp

/-- The parameters the claims about `generate_frequency_based_pattern` assume: the pattern
length is a positive multiple (`nbp >= 1` times) of `base_period >= 1` and fits an `int`, and
there is at least one aggressor ID. -/
structure GoodParams (fp : FuzzingParameterSet) (nbp : Nat) : Prop where
  total : fp.get_total_acts_pattern = nbp * fp.get_base_period
  base : 1 ≤ fp.get_base_period
  periods : 1 ≤ nbp
  int_range : fp.get_total_acts_pattern < 2 ^ 31
  num_aggressors : 1 ≤ fp.get_num_aggressors

/-- Rejection sampling ends: from every position of the sample stream on, one of the next `T`
samples is below `size`, for every size `> 0`. -/
def SamplesAccepted (samples : Nat → Nat) (T : Nat) : Prop :=
  ∀ gen size, 0 < size → ∃ n, n < T ∧ samples (gen + n) < size

/-- For every recorded fill, the assignments are those `fill_slots` makes for the recorded
access pattern, and each of them goes to a slot below the pattern length that held the
placeholder when the fill started. -/
def FillsFresh (fp : FuzzingParameterSet) (fuel : Nat) (pb : PatternBuilder) : Prop :=
  ∀ f ∈ pb.fills,
    fill_slots_writes f.access_pattern.offset f.access_pattern.period f.access_pattern.amplitude
        f.access_pattern.aggressors fp.get_total_acts_pattern fuel = some f.writes ∧
    ∀ w ∈ f.writes,
      w.1 < fp.get_total_acts_pattern ∧ (f.before.getD w.1 default).id = ID_PLACEHOLDER_AGG

/-- The access patterns recorded since the start are those of the recorded fills, in order. -/
def FillsLinked (init : List AggressorAccessPattern) (pb : PatternBuilder) : Prop :=
  pb.pattern.agg_access_patterns = init ++ pb.fills.map (fun f => f.access_pattern)

/-- The state while start slot `k` is being filled with windows of `W` slots: positions
below `k` are filled in every base period, a position of the window `[k, k + W)` is filled
exactly when the window start of its base period is, the windows of the first `lo` base periods
are filled, and whether a window is filled depends only on its base period modulo `μ`. -/
structure RefillInv (fp : FuzzingParameterSet) (nbp fuel : Nat)
    (init : List AggressorAccessPattern) (k W lo μ : Nat) (mults : List Int)
    (pb : PatternBuilder) : Prop where
  mults_ok : MultsOK nbp μ mults
  len : pb.pattern.aggressors.length = fp.get_total_acts_pattern
  mid : ∀ q r, q < nbp → r < fp.get_base_period →
    (Filled pb.pattern.aggressors (q * fp.get_base_period + r) ↔
      (r < k ∨ (r < k + W ∧ Filled pb.pattern.aggressors (q * fp.get_base_period + k))))
  low : ∀ q, q < lo → Filled pb.pattern.aggressors (q * fp.get_base_period + k)
  periodic : ∀ q q', q < nbp → q' < nbp → q % μ = q' % μ →
    Filled pb.pattern.aggressors (q * fp.get_base_period + k) →
    Filled pb.pattern.aggressors (q' * fp.get_base_period + k)
  fresh : FillsFresh fp fuel pb
  linked : FillsLinked init pb

/-- The state between two start slots: in every base period exactly the positions below `b`
are filled. -/
structure OuterInv (fp : FuzzingParameterSet) (nbp fuel : Nat)
    (init : List AggressorAccessPattern) (b : Nat) (pb : PatternBuilder) : Prop where
  len : pb.pattern.aggressors.length = fp.get_total_acts_pattern
  filled_iff : ∀ q r, q < nbp → r < fp.get_base_period →
    (Filled pb.pattern.aggressors (q * fp.get_base_period + r) ↔ r < b)
  fresh : FillsFresh fp fuel pb
  linked : FillsLinked init pb

/-- The draws of tuple size and amplitude are within the room left in the base period:
`1 <= N <= base_period - k` and `1 <= A <= (base_period - k) / N`. -/
def GoodDraws (fp : FuzzingParameterSet) : Prop :=
  (∀ k, k < fp.get_base_period →
    1 ≤ fp.get_random_N_sided k (fp.get_base_period - k) ∧
      fp.get_random_N_sided k (fp.get_base_period - k) ≤ fp.get_base_period - k) ∧
  (∀ k N, k < fp.get_base_period → 1 ≤ N → N ≤ fp.get_base_period - k →
    1 ≤ fp.get_random_amplitude k ((fp.get_base_period - k) / N) ∧
      fp.get_random_amplitude k ((fp.get_base_period - k) / N) ≤ (fp.get_base_period - k) / N)

/-- Example parameters: 16 activations in 4 base periods of 4 slots, 3 aggressor IDs, tuples
of at most 2 aggressors, amplitude 1. -/
def example_params : FuzzingParameterSet where
  get_total_acts_pattern := 16
  get_base_period := 4
  get_num_aggressors := 3
  get_random_N_sided := fun _ upper => min 2 upper
  get_random_amplitude := fun _ max => min 1 max

/-- Example sample stream of the random engine of the builder: 1, 0, 1, 0, ... -/
def example_samples : Nat → Nat :=
  fun n => (n + 1) % 2

/-- Successive calls `get_n_aggressors(N_1, ..)`, `get_n_aggressors(N_2, ..)`, ... on one
builder, for the sizes in the list: the concatenation of the vectors they return, starting from
the given value of `aggressor_id_counter`. -/
def get_n_aggressors_calls (max_num_aggressors : Nat) : List Nat → Nat → List Aggressor
  | [], _ => []
  | N :: rest, aggressor_id_counter =>
    let r := get_n_aggressors N max_num_aggressors aggressor_id_counter
    r.1 ++ get_n_aggressors_calls max_num_aggressors rest r.2

/-- The tuple size used for start slot `k` (line 98 of `generate_frequency_based_pattern`):
1 when `base_period - k == 1`, else the value drawn by `get_random_N_sided`. -/
def tuple_size (fp : FuzzingParameterSet) (k : Nat) : Nat :=
  if fp.get_base_period - k = 1 then 1
  else fp.get_random_N_sided k (fp.get_base_period - k)

/-- The amplitude used for start slot `k` (line 99 of `generate_frequency_based_pattern`). -/
def amplitude_of (fp : FuzzingParameterSet) (k : Nat) : Nat :=
  fp.get_random_amplitude k ((fp.get_base_period - k) / tuple_size fp k)

/-- The positions at which the loop over `k` finds an empty slot, as long as the windows fit:
0, and after a start slot `k` the position behind its window of `N * A` slots. -/
inductive Boundary (fp : FuzzingParameterSet) : Nat → Prop
  | first : Boundary fp 0
  | next (k : Nat) : Boundary fp k → Boundary fp (k + tuple_size fp k * amplitude_of fp k)

/-- At every start slot the drawn tuple size and amplitude are within the room left in the
base period: `1 <= N <= base_period - k` and `1 <= A <= (base_period - k) / N`. -/
def DrawsInRange (fp : FuzzingParameterSet) : Prop :=
  ∀ k, Boundary fp k → k < fp.get_base_period →
    1 ≤ tuple_size fp k ∧ tuple_size fp k ≤ fp.get_base_period - k ∧
    1 ≤ amplitude_of fp k ∧ amplitude_of fp k ≤ (fp.get_base_period - k) / tuple_size fp k

/-- The recorded access pattern of a fill: its offset is below the pattern length and lies at
a start slot `k = offset mod base_period`, its period is `base_period` times a power of two
that is at most `nbp`, and its tuple size and amplitude are those of the start slot. -/
def RecordShape (fp : FuzzingParameterSet) (nbp : Nat) (f : FillRecord) : Prop :=
  f.access_pattern.offset < fp.get_total_acts_pattern ∧
  Boundary fp (f.access_pattern.offset % fp.get_base_period) ∧
  (∃ e : Nat, f.access_pattern.period = fp.get_base_period * 2 ^ e ∧ 2 ^ e ≤ nbp) ∧
  f.access_pattern.aggressors.length
    = tuple_size fp (f.access_pattern.offset % fp.get_base_period) ∧
  f.access_pattern.amplitude = amplitude_of fp (f.access_pattern.offset % fp.get_base_period)

/-- Among the fills of one start slot (same offset modulo `base_period`), a later fill has a
period at least as large as an earlier one. -/
def PeriodsMonotone (fp : FuzzingParameterSet) (fills : List FillRecord) : Prop :=
  fills.Pairwise (fun f g =>
    f.access_pattern.offset % fp.get_base_period = g.access_pattern.offset % fp.get_base_period →
    f.access_pattern.period ≤ g.access_pattern.period)

/-- What is known of the recorded fills between two start slots, with `b` the first position
not yet filled. -/
structure ExtOuter (fp : FuzzingParameterSet) (nbp b : Nat) (pb : PatternBuilder) : Prop where
  boundary : Boundary fp b
  shape : ∀ f ∈ pb.fills,
    RecordShape fp nbp f ∧ f.access_pattern.offset % fp.get_base_period < b
  monotone : PeriodsMonotone fp pb.fills
  count : pb.fills.length ≤ nbp * b
  nonempty : 0 < b → pb.fills ≠ []

/-- What is known of the recorded fills while start slot `k` is being filled, with `lo` base
periods done and `mults` the multipliers still allowed. -/
structure ExtRefill (fp : FuzzingParameterSet) (nbp k lo : Nat) (mults : List Int)
    (pb : PatternBuilder) : Prop where
  boundary : Boundary fp k
  shape : ∀ f ∈ pb.fills,
    RecordShape fp nbp f ∧ f.access_pattern.offset % fp.get_base_period ≤ k
  monotone : PeriodsMonotone fp pb.fills
  capped : ∀ f ∈ pb.fills, f.access_pattern.offset % fp.get_base_period = k →
    ∀ x ∈ mults, f.access_pattern.period ≤ fp.get_base_period * x.toNat
  count : pb.fills.length ≤ nbp * k + lo
  nonempty : 0 < lo → pb.fills ≠ []
  lo_le : lo ≤ nbp

/-- Example parameters with a single allowed tuple size: 3 activations in 1 base period of 3
slots, `get_random_N_sided` always returns 2, amplitude 1. -/
def example_params_two_sided : FuzzingParameterSet where
  get_total_acts_pattern := 3
  get_base_period := 3
  get_num_aggressors := 3
  get_random_N_sided := fun _ _ => 2
  get_random_amplitude := fun _ _ => 1

/-- Example parameters of the scenario `base_period = 64`, `num_base_periods = 4`,
`num_aggressors = 8`: tuples of at most 2 aggressors with the largest amplitude that fits. -/
def example_params_e2 : FuzzingParameterSet where
  get_total_acts_pattern := 256
  get_base_period := 64
  get_num_aggressors := 8
  get_random_N_sided := fun _ upper => min 2 upper
  get_random_amplitude := fun _ max => max

/-- Example sample stream of the random engine of the builder: 0, 0, 0, ... -/
def zero_samples : Nat → Nat :=
  fun _ => 0

/-- The two sample streams agree at the positions `a <= n < b`. -/
def SamplesAgree (samples1 samples2 : Nat → Nat) (a b : Nat) : Prop :=
  ∀ n, a ≤ n → n < b → samples1 n = samples2 n

/-- Example sample stream that agrees with `example_samples` on its first four samples
only: 1, 0, 1, 0, 5, 5, 5, ... -/
def example_samples_prefix : Nat → Nat :=
  fun n => if n < 4 then (n + 1) % 2 else 5

/-! ## PatternBuilder (JIT hammering code)

Embedding of `src/PatternBuilder.cpp`: `get_random_indices` and `jit_hammering_code`.  The
function `jit_hammering_code` drives an asmjit assembler `a`; the model returns the sequence of
the calls made on `a` (instructions and label bindings), in order. -/

/-- Loop `while (nums.size() < num_indices)` of `get_random_indices`: `rand n` is the value
returned by the `n`-th call of `rand()` (from 0), `nums` is the `std::set` as its ascending
list of elements.  Without fuel left, or for `max = 0` (division by zero in `rand() % max`),
there is no result. -/
def get_random_indices_loop (rand : Nat → Nat) (max num_indices : Nat) :
    Nat → Nat → List Nat → Option (List Nat)
  | 0, _, _ => none
  | fuel + 1, n, nums =>
    if nums.length < num_indices then
      if max = 0 then none
      else
        let candidate := rand n % max
        if candidate ∈ nums then get_random_indices_loop rand max num_indices fuel (n + 1) nums
        else get_random_indices_loop rand max num_indices fuel (n + 1)
          (nums.orderedInsert (fun a b => a ≤ b) candidate)
    else some nums

/-- Method `PatternBuilder::get_random_indices(max, num_indices, indices)`: the returned list is
the content of `indices` after the call.  `num_indices - 1` is computed on `size_t`. -/
def get_random_indices (rand : Nat → Nat) (fuel : Nat) (max num_indices : Nat)
    (indices : List Nat) : Option (List Nat) :=
  let indices := indices.take num_indices ++ List.replicate (num_indices - indices.length) 0
  if max = (num_indices + SIZE_MAX1 - 1) % SIZE_MAX1 then
    some (List.range indices.length)
  else
    match get_random_indices_loop rand max num_indices fuel 0 [] with
    | none => none
    | some nums => some (indices ++ nums)

/-- The registers named by `jit_hammering_code` (`asmjit::x86::rax`, ..). -/
inductive Reg where
  | rax | rbx | rcx | rsi | eax | ebx | edx
deriving DecidableEq

/-- The six labels created by `jit_hammering_code`. -/
inductive Label where
  | while1_begin | while1_end | for1_begin | for1_end | while2_begin | while2_end
deriving DecidableEq

/-- Operands: a register, an immediate, or the memory operand `asmjit::x86::ptr(base)`. -/
inductive Operand where
  | reg (r : Reg)
  | imm (v : Nat)
  | ptr (base : Reg)
deriving DecidableEq

/-- One call on the assembler: an x86 instruction (`a.mov(..)`, `a.rdtscp()`, ..) or the
binding of a label at the current position (`a.bind(..)`). -/
inductive Instr where
  | mov (dst src : Operand)
  | clflushopt (m : Operand)
  | mfence
  | lfence
  | rdtscp
  | sub (dst src : Operand)
  | cmp (dst src : Operand)
  | jg (target : Label)
  | jmp (target : Label)
  | jz (target : Label)
  | dec (dst : Operand)
  | inc (dst : Operand)
  | push (src : Operand)
  | pop (dst : Operand)
  | ret
  | bind (label : Label)
deriving DecidableEq

/-- Method `PatternBuilder::jit_hammering_code(agg_rounds, hammering_intervals)`, with the
members `aggressor_pairs` and `nops` (addresses) as parameters: the sequence of calls made on
the assembler.  `nops[idx]` out of bounds is read as 0.  There is no result if
`get_random_indices` has none. -/
def jit_hammering_code (rand : Nat → Nat) (fuel : Nat) (agg_rounds hammering_intervals : Nat)
    (aggressor_pairs nops : List Nat) : Option (List Instr) :=
  match get_random_indices rand fuel 1 2 [] with
  | none => none
  | some random_indices =>
    some (
      -- part 1: synchronize with the beginning of an interval
      random_indices.flatMap (fun idx =>
        [Instr.mov (.reg .rax) (.imm (nops.getD idx 0)),
         Instr.mov (.reg .rbx) (.ptr .rax)]) ++
      [Instr.bind .while1_begin] ++
      random_indices.flatMap (fun idx =>
        [Instr.mov (.reg .rax) (.imm (nops.getD idx 0)),
         Instr.clflushopt (.ptr .rax)]) ++
      [Instr.mfence,
       Instr.rdtscp,
       Instr.lfence,
       Instr.mov (.reg .ebx) (.reg .eax)] ++
      random_indices.flatMap (fun idx =>
        [Instr.mov (.reg .rax) (.imm (nops.getD idx 0)),
         Instr.mov (.reg .rcx) (.ptr .rax)]) ++
      [Instr.rdtscp,
       Instr.sub (.reg .eax) (.reg .ebx),
       Instr.cmp (.reg .eax) (.imm 1000),
       Instr.jg .while1_end,
       Instr.jmp .while1_begin,
       Instr.bind .while1_end,
       -- part 2: perform hammering and then check for next ACTIVATE
       Instr.mov (.reg .rsi) (.imm hammering_intervals),
       Instr.mov (.reg .edx) (.imm 0),
       Instr.bind .for1_begin,
       Instr.cmp (.reg .rsi) (.imm 0),
       Instr.jz .for1_end,
       Instr.dec (.reg .rsi)] ++
      (List.range agg_rounds).flatMap (fun _ =>
        aggressor_pairs.flatMap (fun addr =>
          [Instr.mov (.reg .rax) (.imm addr),
           Instr.mov (.reg .rbx) (.ptr .rax)]) ++
        aggressor_pairs.flatMap (fun addr =>
          [Instr.mov (.reg .rax) (.imm addr),
           Instr.clflushopt (.ptr .rax)]) ++
        [Instr.mfence]) ++
      [Instr.bind .while2_begin] ++
      random_indices.flatMap (fun idx =>
        [Instr.mov (.reg .rax) (.imm (nops.getD idx 0)),
         Instr.clflushopt (.ptr .rax)]) ++
      [Instr.mfence,
       Instr.lfence,
       Instr.push (.reg .edx),
       Instr.rdtscp,
       Instr.mov (.reg .ebx) (.reg .eax),
       Instr.lfence,
       Instr.pop (.reg .edx)] ++
      random_indices.flatMap (fun idx =>
        [Instr.mov (.reg .rax) (.imm (nops.getD idx 0)),
         Instr.mov (.reg .rax) (.ptr .rax),
         Instr.inc (.reg .edx)]) ++
      [Instr.push (.reg .edx),
       Instr.rdtscp,
       Instr.lfence,
       Instr.pop (.reg .edx),
       Instr.sub (.reg .eax) (.reg .ebx),
       Instr.cmp (.reg .eax) (.imm 1000),
       Instr.jg .while2_end,
       Instr.jmp .while2_begin,
       Instr.bind .while2_end,
       Instr.jmp .for1_begin,
       Instr.bind .for1_end,
       Instr.mov (.reg .eax) (.reg .edx),
       Instr.ret])

/-! ## Notions used by the proofs about the JIT hammering code -/

/-- The label a jump instruction targets. -/
def Instr.jump_target : Instr → Option Label
  | .jg l => some l
  | .jmp l => some l
  | .jz l => some l
  | _ => none

/-- Loads from memory: `mov reg, [base]`. -/
def Instr.is_load : Instr → Bool
  | .mov (.reg _) (.ptr _) => true
  | _ => false

/-- Operand size in bits of a register. -/
def Reg.width : Reg → Nat
  | .eax => 32
  | .ebx => 32
  | .edx => 32
  | _ => 64

/-- Two's complement reading of a `w`-bit value. -/
def to_signed (w x : Nat) : Int :=
  if x < 2 ^ (w - 1) then (x : Int) else (x : Int) - 2 ^ w

/-- State of the abstract x86 machine running the emitted code.  `pc` indexes the emitted
sequence; `flags` keeps the signed result of the last flag-setting instruction (ZF is
`flags = 0`, the condition of `jg` is `0 < flags`); `loads` records the executed memory loads as
(position of the instruction, address), most recent first. -/
structure Machine where
  pc : Nat
  rax : Nat
  rbx : Nat
  rcx : Nat
  rdx : Nat
  rsi : Nat
  flags : Int
  stack : List Nat
  rdtscp_count : Nat
  loads : List (Nat × Nat)

/-- What the code observes from outside: the time stamp counter and `IA32_TSC_AUX` read by the
`n`-th executed `rdtscp`, and the value returned by the `n`-th executed load. -/
structure World where
  tsc : Nat → Nat
  tsc_aux : Nat → Nat
  loaded : Nat → Nat

/-- Value of a register; the 32-bit names are the low halves. -/
def Machine.read (s : Machine) : Reg → Nat
  | .rax => s.rax
  | .rbx => s.rbx
  | .rcx => s.rcx
  | .rsi => s.rsi
  | .eax => s.rax % 2 ^ 32
  | .ebx => s.rbx % 2 ^ 32
  | .edx => s.rdx % 2 ^ 32

/-- Register write; a write to a 32-bit name clears the upper half. -/
def Machine.write (s : Machine) (r : Reg) (v : Nat) : Machine :=
  match r with
  | .rax => { s with rax := v % 2 ^ 64 }
  | .rbx => { s with rbx := v % 2 ^ 64 }
  | .rcx => { s with rcx := v % 2 ^ 64 }
  | .rsi => { s with rsi := v % 2 ^ 64 }
  | .eax => { s with rax := v % 2 ^ 32 }
  | .ebx => { s with rbx := v % 2 ^ 32 }
  | .edx => { s with rdx := v % 2 ^ 32 }

/-- Fall through to the next position. -/
def Machine.next (s : Machine) : Machine := { s with pc := s.pc + 1 }

/-- Position at which a label is bound in the emitted sequence, if it is bound. -/
def label_pos (prog : List Instr) (l : Label) : Option Nat :=
  if Instr.bind l ∈ prog then some (prog.indexOf (Instr.bind l)) else none

/-- Transfer control to a label; a label that is not bound is a fault. -/
def Machine.goto (prog : List Instr) (s : Machine) (l : Label) : Option Machine :=
  match label_pos prog l with
  | none => none
  | some p => some { s with pc := p }

/-- Effect of one instruction other than `ret`.  Operand forms the emitted code does not use are
faults (`none`), and so is `pop` on an empty stack. -/
def exec (prog : List Instr) (w : World) (s : Machine) : Instr → Option Machine
  | .mov (.reg d) (.imm v) => some (s.write d v).next
  | .mov (.reg d) (.reg r) => some (s.write d (s.read r)).next
  | .mov (.reg d) (.ptr b) =>
    some { (s.write d (w.loaded s.loads.length)).next with loads := (s.pc, s.read b) :: s.loads }
  | .clflushopt (.ptr _) => some s.next
  | .mfence => some s.next
  | .lfence => some s.next
  | .rdtscp =>
    some { s with
      pc := s.pc + 1
      rax := w.tsc s.rdtscp_count % 2 ^ 32
      rdx := w.tsc s.rdtscp_count / 2 ^ 32 % 2 ^ 32
      rcx := w.tsc_aux s.rdtscp_count % 2 ^ 32
      rdtscp_count := s.rdtscp_count + 1 }
  | .sub (.reg d) (.reg r) =>
    some { (s.write d (s.read d + (2 ^ d.width - s.read r % 2 ^ d.width))).next with
      flags := to_signed d.width (s.read d) - to_signed d.width (s.read r % 2 ^ d.width) }
  | .cmp (.reg d) (.imm v) =>
    some { s.next with
      flags := to_signed d.width (s.read d) - to_signed d.width (v % 2 ^ d.width) }
  | .jg l => if 0 < s.flags then s.goto prog l else some s.next
  | .jz l => if s.flags = 0 then s.goto prog l else some s.next
  | .jmp l => s.goto prog l
  | .dec (.reg d) =>
    some { (s.write d (s.read d + (2 ^ d.width - 1))).next with
      flags := to_signed d.width (s.read d) - 1 }
  | .inc (.reg d) =>
    some { (s.write d (s.read d + 1)).next with
      flags := to_signed d.width (s.read d) + 1 }
  | .push (.reg r) => some { s.next with stack := s.read r :: s.stack }
  | .pop (.reg d) =>
    match s.stack with
    | [] => none
    | v :: stack => some { (s.write d v).next with stack := stack }
  | .bind _ => some s.next
  | _ => none

/-- One step: fetch the instruction at `pc` and execute it.  There is no step from `ret`, from
a position outside the sequence, or from a fault. -/
def step (prog : List Instr) (w : World) (s : Machine) : Option Machine :=
  match prog[s.pc]? with
  | none => none
  | some Instr.ret => none
  | some i => exec prog w s i

/-- Run the emitted code until it executes `ret`; the result is the state at the `ret`. -/
def run (prog : List Instr) (w : World) : Nat → Machine → Option Machine
  | 0, _ => none
  | fuel + 1, s =>
    if prog[s.pc]? = some Instr.ret then some s
    else
      match step prog w s with
      | none => none
      | some s' => run prog w fuel s'

/-- The first `k` steps. -/
def steps (prog : List Instr) (w : World) : Nat → Machine → Option Machine
  | 0, s => some s
  | k + 1, s =>
    match step prog w s with
    | none => none
    | some s' => steps prog w k s'

/-- Position of the first instruction of the unrolled hammer body: after
`bind for1_begin; cmp rsi, 0; jz for1_end; dec rsi`. -/
def hammer_body_begin (prog : List Instr) : Nat :=
  prog.indexOf (Instr.bind .for1_begin) + 4

/-- Position after the unrolled hammer body: where `while2_begin` is bound. -/
def hammer_body_end (prog : List Instr) : Nat :=
  prog.indexOf (Instr.bind .while2_begin)

/-- The unrolled hammer body of the emitted sequence. -/
def hammer_body (prog : List Instr) : List Instr :=
  (prog.drop (hammer_body_begin prog)).take (hammer_body_end prog - hammer_body_begin prog)

/-- Number of executed loads that belong to the hammer body (aggressor loads). -/
def hammer_loads (prog : List Instr) (s : Machine) : Nat :=
  (s.loads.filter (fun l =>
    decide (hammer_body_begin prog ≤ l.1 ∧ l.1 < hammer_body_end prog))).length

/-- The difference `sub eax, ebx` computes from the time stamp counters read by the `c`-th and
the `c+1`-st executed `rdtscp` (low halves, modulo `2^32`). -/
def measured (w : World) (c : Nat) : Nat :=
  (w.tsc (c + 1) % 2 ^ 32 + (2 ^ 32 - w.tsc c % 2 ^ 32)) % 2 ^ 32

/-- The timing measurement that starts with the `c`-th executed `rdtscp` shows a difference
above 1000 cycles, as tested by `cmp eax, 1000; jg`. -/
def Delay (w : World) (c : Nat) : Prop :=
  (1000 : Int) < to_signed 32 (measured w c)

/-- Example world: the time stamp counter advances by 2000 cycles between two reads, every load
returns 0. -/
def example_world : World :=
  { tsc := fun n => 2000 * n, tsc_aux := fun _ => 0, loaded := fun _ => 0 }

/-- Entry state used in the examples: all registers 0, empty stack. -/
def example_entry : Machine :=
  { pc := 0, rax := 0, rbx := 0, rcx := 0, rdx := 0, rsi := 0, flags := 0, stack := [],
    rdtscp_count := 0, loads := [] }
/-- The calls of `jit_hammering_code` up to and including `dec rsi`, for
`random_indices = [0, 1]`. -/
def jit_prologue (hammering_intervals : Nat) (nops : List Nat) : List Instr :=
  [Instr.mov (.reg .rax) (.imm (nops.getD 0 0)),
   Instr.mov (.reg .rbx) (.ptr .rax),
   Instr.mov (.reg .rax) (.imm (nops.getD 1 0)),
   Instr.mov (.reg .rbx) (.ptr .rax),
   Instr.bind .while1_begin,
   Instr.mov (.reg .rax) (.imm (nops.getD 0 0)),
   Instr.clflushopt (.ptr .rax),
   Instr.mov (.reg .rax) (.imm (nops.getD 1 0)),
   Instr.clflushopt (.ptr .rax),
   Instr.mfence,
   Instr.rdtscp,
   Instr.lfence,
   Instr.mov (.reg .ebx) (.reg .eax),
   Instr.mov (.reg .rax) (.imm (nops.getD 0 0)),
   Instr.mov (.reg .rcx) (.ptr .rax),
   Instr.mov (.reg .rax) (.imm (nops.getD 1 0)),
   Instr.mov (.reg .rcx) (.ptr .rax),
   Instr.rdtscp,
   Instr.sub (.reg .eax) (.reg .ebx),
   Instr.cmp (.reg .eax) (.imm 1000),
   Instr.jg .while1_end,
   Instr.jmp .while1_begin,
   Instr.bind .while1_end,
   Instr.mov (.reg .rsi) (.imm hammering_intervals),
   Instr.mov (.reg .edx) (.imm 0),
   Instr.bind .for1_begin,
   Instr.cmp (.reg .rsi) (.imm 0),
   Instr.jz .for1_end,
   Instr.dec (.reg .rsi)]

/-- One unrolled round of the hammer body: a load of every aggressor, a flush of every
aggressor, `mfence`. -/
def jit_round (aggressor_pairs : List Nat) : List Instr :=
  aggressor_pairs.flatMap (fun addr =>
    [Instr.mov (.reg .rax) (.imm addr), Instr.mov (.reg .rbx) (.ptr .rax)]) ++
  aggressor_pairs.flatMap (fun addr =>
    [Instr.mov (.reg .rax) (.imm addr), Instr.clflushopt (.ptr .rax)]) ++
  [Instr.mfence]

/-- The unrolled hammer body: `agg_rounds` rounds. -/
def jit_body (agg_rounds : Nat) (aggressor_pairs : List Nat) : List Instr :=
  (List.range agg_rounds).flatMap (fun _ => jit_round aggressor_pairs)

/-- The calls of `jit_hammering_code` from `bind while2_begin` on, for
`random_indices = [0, 1]`. -/
def jit_epilogue (nops : List Nat) : List Instr :=
  [Instr.bind .while2_begin,
   Instr.mov (.reg .rax) (.imm (nops.getD 0 0)),
   Instr.clflushopt (.ptr .rax),
   Instr.mov (.reg .rax) (.imm (nops.getD 1 0)),
   Instr.clflushopt (.ptr .rax),
   Instr.mfence,
   Instr.lfence,
   Instr.push (.reg .edx),
   Instr.rdtscp,
   Instr.mov (.reg .ebx) (.reg .eax),
   Instr.lfence,
   Instr.pop (.reg .edx),
   Instr.mov (.reg .rax) (.imm (nops.getD 0 0)),
   Instr.mov (.reg .rax) (.ptr .rax),
   Instr.inc (.reg .edx),
   Instr.mov (.reg .rax) (.imm (nops.getD 1 0)),
   Instr.mov (.reg .rax) (.ptr .rax),
   Instr.inc (.reg .edx),
   Instr.push (.reg .edx),
   Instr.rdtscp,
   Instr.lfence,
   Instr.pop (.reg .edx),
   Instr.sub (.reg .eax) (.reg .ebx),
   Instr.cmp (.reg .eax) (.imm 1000),
   Instr.jg .while2_end,
   Instr.jmp .while2_begin,
   Instr.bind .while2_end,
   Instr.jmp .for1_begin,
   Instr.bind .for1_end,
   Instr.mov (.reg .eax) (.reg .edx),
   Instr.ret]

/-- Instructions of the hammer body: they fall through and touch only `rax`, `rbx` and the
record of loads. -/
def Instr.is_body : Instr → Bool
  | .mov (.reg .rax) (.imm _) => true
  | .mov (.reg .rbx) (.ptr .rax) => true
  | .clflushopt (.ptr .rax) => true
  | .mfence => true
  | _ => false

/-- Shape of every emitted sequence: prologue, a body, epilogue. -/
def jit_layout (hammering_intervals : Nat) (nops : List Nat) (body : List Instr) : List Instr :=
  jit_prologue hammering_intervals nops ++ body ++ jit_epilogue nops

/-- The operand names register `r`. -/
def Operand.names (r : Reg) : Operand → Bool
  | .reg r' => decide (r' = r)
  | .ptr b => decide (b = r)
  | .imm _ => false

/-- The instruction has an operand that names register `r`. -/
def Instr.names (r : Reg) : Instr → Bool
  | .mov d s => d.names r || s.names r
  | .clflushopt m => m.names r
  | .sub d s => d.names r || s.names r
  | .cmp d s => d.names r || s.names r
  | .dec d => d.names r
  | .inc d => d.names r
  | .push s => s.names r
  | .pop d => d.names r
  | _ => false

/-- The label an `a.bind(..)` call binds. -/
def Instr.bound_label : Instr → Option Label
  | .bind l => some l
  | _ => none

/-- The instruction is `mfence`. -/
def Instr.is_mfence : Instr → Bool
  | .mfence => true
  | _ => false

/-- The instruction is a `clflushopt`. -/
def Instr.is_flush : Instr → Bool
  | .clflushopt _ => true
  | _ => false

/-- The `r`-th unrolled round of the hammer body of an emitted sequence, for rounds of
`4 * n + 1` instructions. -/
def hammer_round (prog : List Instr) (n r : Nat) : List Instr :=
  ((hammer_body prog).drop (r * (4 * n + 1))).take (4 * n + 1)

/-- Number of executed loads of the synchronisation block behind the hammer body (the NOP
loads of the post-hammer loop): loads at positions after `while2_begin`. -/
def sync_loads (prog : List Instr) (s : Machine) : Nat :=
  (s.loads.filter (fun l => decide (hammer_body_end prog < l.1))).length

/-- The instruction changes `edx` or depends on it: it names `edx`, or it is `rdtscp`, which
writes `edx:eax`. -/
def Instr.touches_edx : Instr → Bool
  | .rdtscp => true
  | i => i.names .edx

/-- The counter `edx` holds the number of NOP loads of the post-hammer block executed since
there were `n0` of them, modulo `2^32`; `rsi` is a 64-bit value. -/
def CounterInv (prog : List Instr) (n0 : Nat) (s : Machine) : Prop :=
  s.rsi < 2 ^ 64 ∧ n0 ≤ sync_loads prog s ∧ s.rdx = (sync_loads prog s - n0) % 2 ^ 32

/-! ## PatternBuilder (improving the parameters)

Embedding of `PatternBuilder::hammer_and_improve_params` of `src/PatternBuilder.cpp`.  The
members `num_activations`, `num_refresh_intervals`, `agg_rounds` (all `int`), `nops` and
`aggressor_pairs` are passed explicitly; `int` arithmetic is done on unbounded integers with
the truncating division and remainder of C (no operation of the function overflows an `int`
when `|num_activations| < 2^30`).  What a call `fn()` of the jitted code returns depends on
timing: `fn n` is the value returned by the `n`-th call (from 0). -/

/-- One round of the do-while loop, kept for reasoning: the value of
`num_activations_to_next_refresh` and the number of `pop_back` calls of the round. -/
structure OptimizationRound where
  num_activations_to_next_refresh : Int
  removed : Nat
deriving DecidableEq, Repr

/-- State of `hammer_and_improve_params` when it returns: the local `optimization_rounds`, the
member `aggressor_pairs`, and the code emitted by the last call of `jit_hammering_code`.  The
field `rounds` is not part of the source's state; it records the rounds for reasoning. -/
structure ImprovedParams where
  optimization_rounds : Nat
  aggressor_pairs : List Nat
  fn_code : List Instr
  rounds : List OptimizationRound

/-- The do-while loop of `hammer_and_improve_params`, run for at most `fuel` rounds.  There is no
result when the fuel runs out, on a division by zero, when `pop_back` is called on an empty
`aggressor_pairs`, or when `jit_hammering_code` has none. -/
def hammer_and_improve_loop (fn : Nat → Int) (rand : Nat → Nat) (rand_fuel : Nat)
    (num_activations num_refresh_intervals agg_rounds : Int) (nops : List Nat) :
    Nat → Nat → List Nat → List OptimizationRound → Option ImprovedParams
  | 0, _, _, _ => none
  | fuel + 1, optimization_rounds, aggressor_pairs, rounds =>
    let optimization_rounds := optimization_rounds + 1
    let num_total_acts_trailing_sync := fn (optimization_rounds - 1)
    if num_refresh_intervals = 0 ∨ num_activations = 0 then none
    else
      let num_activations_after_last_refresh :=
        (num_total_acts_trailing_sync.tdiv num_refresh_intervals).tmod num_activations
      let num_activations_to_next_refresh :=
        num_activations - num_activations_after_last_refresh
      let removed :=
        (num_activations_to_next_refresh.tdiv (2 * (optimization_rounds : Int))).toNat
      if aggressor_pairs.length < removed then none
      else
        let aggressor_pairs := aggressor_pairs.take (aggressor_pairs.length - removed)
        let rounds := rounds ++
          [{ num_activations_to_next_refresh := num_activations_to_next_refresh,
             removed := removed }]
        match jit_hammering_code rand rand_fuel (agg_rounds % 2 ^ 64).toNat
            (num_refresh_intervals % 2 ^ 64).toNat aggressor_pairs nops with
        | none => none
        | some fn_code =>
          if num_activations_to_next_refresh > 10 ∧ optimization_rounds < 25 then
            hammer_and_improve_loop fn rand rand_fuel num_activations num_refresh_intervals
              agg_rounds nops fuel optimization_rounds aggressor_pairs rounds
          else
            some { optimization_rounds := optimization_rounds,
                   aggressor_pairs := aggressor_pairs,
                   fn_code := fn_code,
                   rounds := rounds }

/-- Method `PatternBuilder::hammer_and_improve_params` (without the logging): `optimization_rounds`
starts at 0. -/
def hammer_and_improve_params (fn : Nat → Int) (rand : Nat → Nat) (rand_fuel : Nat)
    (num_activations num_refresh_intervals agg_rounds : Int) (nops aggressor_pairs : List Nat)
    (fuel : Nat) : Option ImprovedParams :=
  hammer_and_improve_loop fn rand rand_fuel num_activations num_refresh_intervals agg_rounds
    nops fuel 0 aggressor_pairs []

/-! ### Notions used by the proofs about improving the parameters -/

/-- The value of `num_activations_to_next_refresh` in round `j` (from 1), which depends only on
the value returned by the `j`-th call of `fn`. -/
def acts_to_next_refresh (fn : Nat → Int) (num_activations num_refresh_intervals : Int)
    (j : Nat) : Int :=
  num_activations - ((fn (j - 1)).tdiv num_refresh_intervals).tmod num_activations

/-- The number of `pop_back` calls of round `j` (from 1). -/
def removed_in_round (fn : Nat → Int) (num_activations num_refresh_intervals : Int)
    (j : Nat) : Nat :=
  ((acts_to_next_refresh fn num_activations num_refresh_intervals j).tdiv (2 * (j : Int))).toNat

/-- The record of round `j` (from 1). -/
def round_record (fn : Nat → Int) (num_activations num_refresh_intervals : Int)
    (j : Nat) : OptimizationRound :=
  { num_activations_to_next_refresh :=
      acts_to_next_refresh fn num_activations num_refresh_intervals j,
    removed := removed_in_round fn num_activations num_refresh_intervals j }

/-- The number of `pop_back` calls of the rounds `1 .. c` together. -/
def total_removed (fn : Nat → Int) (num_activations num_refresh_intervals : Int)
    (c : Nat) : Nat :=
  ((List.range c).map
    (fun i => removed_in_round fn num_activations num_refresh_intervals (i + 1))).sum

/-! ## PatternBuilder (parameters and pointer chasing)

Embedding of `build_distribution` and `PatternBuilder::encode_double_ptr_chasing` of
`src/src/PatternBuilder.cpp`. -/

/-- Modelled from the spec: the class template `Range` is declared in a header that is not part
of the sources; the parameters `N_sided` and `amplitude` are a `Range<int>` given by a minimum
and a maximum, and the code reads its fields `min` and `max`. -/
structure Range where
  min : Int
  max : Int

/-- Function `build_distribution`: the vector `dd` of weights from which the
`std::discrete_distribution<int>` is constructed.  The map `probabilities` is a list of
key-value pairs with distinct keys.  The loop `for (int i = 0; i <= range_N_sided.max; i++)`
makes `max + 1` rounds (none for a negative `max`). -/
def build_distribution (range_N_sided : Range) (probabilities : List (Int × Int)) : List Int :=
  (List.range (range_N_sided.max + 1).toNat).map (fun (i : Nat) =>
    match probabilities.lookup (i : Int) with
    | some p => p
    | none => 0)

/-! ### Notions used by the proofs about the parameters -/

/-- The probability with which a `std::discrete_distribution` constructed from the weights
produces the value `i`: the weight of `i` divided by the sum of the weights. -/
def discrete_probability (weights : List Int) (i : Nat) : ℚ :=
  (weights.getD i 0 : ℚ) / (weights.sum : ℚ)

/-- State of `encode_double_ptr_chasing`.  Addresses are numbers and 0 is `nullptr`;
`first_start` and `second_start` are the pointers `*first_start` and `*second_start`;
`first_cur` and `second_cur` are `none` as long as they are not initialised.  The two
`std::unordered_map`s are lists of key-value pairs in which the first pair of a key is its
binding.  The field `encoded` lists the stores of `encode_into_slot` as (target, slot,
address): the pointer `address` is written to slot `slot` of the container at `target`.  The
field `chases` is not part of the source's state; it records, for each address handled so far,
whether it was added to the first chase. -/
structure ChaseState where
  first_start : Nat
  second_start : Nat
  first_cur : Option Nat
  second_cur : Option Nat
  elems_first : Nat
  elems_second : Nat
  address_to_chase_mapping : List (Nat × Nat)
  occupied_slots : List (Nat × Int)
  encoded : List (Nat × Nat × Nat)
  chases : List Bool

/-- The constant `num_slots` of `encode_double_ptr_chasing`: `container_size / 64` with
`container_size = 8192`. -/
def num_slots : Int := 8192 / 64

/-- The lambda `encode_into_slot(target, address_to_encode)`: the next free slot of the
container at `target` receives the address.  A slot number outside the local array `slots`
(of `num_slots` pointers) gives no result. -/
def encode_into_slot (st : ChaseState) (target address_to_encode : Nat) : Option ChaseState :=
  let target_slot_no : Int :=
    match st.occupied_slots.lookup target with
    | some n => n + 1
    | none => 0
  if target_slot_no < 0 ∨ num_slots ≤ target_slot_no then none
  else
    some { st with
      occupied_slots := (target, target_slot_no) :: st.occupied_slots
      encoded := st.encoded ++ [(target, target_slot_no.toNat, address_to_encode)] }

/-- The body of the loop of `encode_double_ptr_chasing` for the address `cur_agg`.  Using
`first_cur` or `second_cur` before it is initialised gives no result. -/
def chase_step (st : ChaseState) (cur_agg : Nat) : Option ChaseState :=
  let historical_preference := (st.address_to_chase_mapping.lookup cur_agg).isSome
  let pref_first_chase :=
    match st.address_to_chase_mapping.lookup cur_agg with
    | some start => decide (start = st.first_start)
    | none => false
  if (historical_preference ∧ pref_first_chase = true) ∨
      (¬ historical_preference ∧ st.elems_first ≤ st.elems_second) then
    let r : Option ChaseState :=
      if st.first_start = 0 then
        some { st with first_start := cur_agg, first_cur := some cur_agg }
      else
        match st.first_cur with
        | none => none
        | some first_cur =>
          match encode_into_slot st first_cur cur_agg with
          | none => none
          | some st => some { st with first_cur := some cur_agg }
    match r with
    | none => none
    | some st =>
      some { st with
        elems_first := st.elems_first + 1
        address_to_chase_mapping := (cur_agg, st.first_start) :: st.address_to_chase_mapping
        chases := st.chases ++ [true] }
  else
    let r : Option ChaseState :=
      if st.second_start = 0 then
        some { st with second_start := cur_agg, second_cur := some cur_agg }
      else
        match st.second_cur with
        | none => none
        | some second_cur =>
          match encode_into_slot st second_cur cur_agg with
          | none => none
          | some st => some { st with second_cur := some cur_agg }
    match r with
    | none => none
    | some st =>
      some { st with
        elems_second := st.elems_second + 1
        address_to_chase_mapping := (cur_agg, st.second_start) :: st.address_to_chase_mapping
        chases := st.chases ++ [false] }

/-- The loop of `encode_double_ptr_chasing` over the remaining addresses. -/
def chase_loop : List Nat → ChaseState → Option ChaseState
  | [], st => some st
  | cur_agg :: rest, st =>
    match chase_step st cur_agg with
    | none => none
    | some st => chase_loop rest st

/-- Method `PatternBuilder::encode_double_ptr_chasing(aggressors, first_start, second_start)`,
with the values of `*first_start` and `*second_start` at the call as arguments. -/
def encode_double_ptr_chasing (aggressors : List Nat) (first_start second_start : Nat) :
    Option ChaseState :=
  chase_loop aggressors
    { first_start := first_start, second_start := second_start, first_cur := none,
      second_cur := none, elems_first := 0, elems_second := 0, address_to_chase_mapping := [],
      occupied_slots := [], encoded := [], chases := [] }

/-! ### Notions used by the proofs about pointer chasing -/

/-- What holds of the state of `encode_double_ptr_chasing` while all addresses are pairwise
distinct: the ends of both chases have been handled and differ, no address has been encoded into
them yet, and a chase that has a start has an end. -/
structure ChaseInv (st : ChaseState) : Prop where
  first_cur_seen : ∀ t, st.first_cur = some t →
    (st.address_to_chase_mapping.lookup t).isSome = true
  second_cur_seen : ∀ t, st.second_cur = some t →
    (st.address_to_chase_mapping.lookup t).isSome = true
  curs_ne : ∀ t, st.first_cur = some t → st.second_cur ≠ some t
  occupied_seen : ∀ t, (st.occupied_slots.lookup t).isSome = true →
    (st.address_to_chase_mapping.lookup t).isSome = true ∧ st.first_cur ≠ some t ∧
      st.second_cur ≠ some t
  first_init : st.first_start ≠ 0 → st.first_cur ≠ none
  second_init : st.second_start ≠ 0 → st.second_cur ≠ none

/-- The start of the chase selected by an entry of `chases`. -/
def ChaseState.start_of (st : ChaseState) (c : Bool) : Nat :=
  if c then st.first_start else st.second_start

/-- What holds of the state of `encode_double_ptr_chasing`, started with both start pointers
null, after the non-null addresses `pre` have been handled: every handled address is bound in
`address_to_chase_mapping` to the start of the chase it was added to, the two starts are
handled addresses and differ, and the slot numbers in use are below the number of handled
addresses. -/
structure ChaseHist (pre : List Nat) (st : ChaseState) : Prop where
  len : st.chases.length = pre.length
  counts : st.elems_first + st.elems_second = pre.length
  seen : ∀ x, (st.address_to_chase_mapping.lookup x).isSome = true ↔ x ∈ pre
  binding : ∀ x c, (x, c) ∈ pre.zip st.chases →
    st.address_to_chase_mapping.lookup x = some (st.start_of c) ∧ st.start_of c ≠ 0
  first_nz : pre ≠ [] → st.first_start ≠ 0
  first_seen : st.first_start ≠ 0 → st.first_start ∈ pre
  second_seen : st.second_start ≠ 0 → st.second_start ∈ pre
  starts_ne : st.second_start ≠ 0 → st.first_start ≠ st.second_start
  first_init : st.first_start ≠ 0 → st.first_cur ≠ none
  second_init : st.second_start ≠ 0 → st.second_cur ≠ none
  occupied : ∀ t k, st.occupied_slots.lookup t = some k → 0 ≤ k ∧ k < (pre.length : Int)

/-- The end of the chase selected by an entry of `chases`: `first_cur` or `second_cur`. -/
def ChaseState.cur_of (st : ChaseState) (c : Bool) : Option Nat :=
  if c then st.first_cur else st.second_cur

/-- The slot number `target_slot_no` that `encode_into_slot` computes for the container at
`target` in the given state. -/
def next_slot (st : ChaseState) (target : Nat) : Int :=
  match st.occupied_slots.lookup target with
  | some n => n + 1
  | none => 0

/-- The addresses added to the chase `c`, in input order: the addresses at the positions whose
entry of `chases` is `c`. -/
def chase_elems (aggressors : List Nat) (chases : List Bool) (c : Bool) : List Nat :=
  ((aggressors.zip chases).filter (fun p => p.2 == c)).map Prod.fst

/-- The stores (target, slot, address) that make a pointer chain of the given addresses: every
address but the last one gets the address that follows it, written to the next free slot of its
container.  The list `seen` holds the addresses that precede in the chain; an address that
occurs `k` times in it has its slots `0 .. k - 1` in use. -/
def chase_links : List Nat → List Nat → List (Nat × Nat × Nat)
  | seen, a :: b :: rest => (a, seen.count a, b) :: chase_links (seen ++ [a]) (b :: rest)
  | _, [] => []
  | _, [_] => []

/-- What holds of the state of `encode_double_ptr_chasing`, started with both start pointers
null, after the non-null addresses `pre` have been handled, for the two lists of addresses
added to the first and to the second chase: the start pointer of a chase is its first address
and its end the last one, the stores into the containers of its addresses are the links from
each address to the one that follows it, no other store has been made, the next free slot of
a container is the number of stores made into it, and the counters `elems_first` and
`elems_second` are the lengths of the two chases. -/
structure ChaseLinks (pre : List Nat) (st : ChaseState) : Prop where
  start : ∀ c, st.start_of c = (chase_elems pre st.chases c).headD 0
  cur : ∀ c, st.cur_of c = (chase_elems pre st.chases c).getLast?
  links : ∀ c, st.encoded.filter (fun e => decide (e.1 ∈ chase_elems pre st.chases c))
    = chase_links [] (chase_elems pre st.chases c)
  targets : ∀ e ∈ st.encoded, ∃ c, e.1 ∈ chase_elems pre st.chases c
  slots : ∀ t, next_slot st t = ((st.encoded.countP (fun e => e.1 == t) : Nat) : Int)
  count_first : st.elems_first = (chase_elems pre st.chases true).length
  count_second : st.elems_second = (chase_elems pre st.chases false).length

/-- What holds of the state of `encode_double_ptr_chasing`, started with both start pointers
null, after the pairwise distinct non-null addresses `pre` have been handled: the start
pointers are the first two addresses, the end of the chase that takes the next address is the
last address but one and the end of the other chase is the last address, the counters are
`ceil(n/2)` and `floor(n/2)`, the handled addresses are the keys of
`address_to_chase_mapping`, only containers of addresses before the last two have a slot in
use, and the stores link every address to the next but one, in slot 0. -/
structure ChaseAlt (pre : List Nat) (st : ChaseState) : Prop where
  start_first : st.start_of true = pre.headD 0
  start_second : st.start_of false = (pre.drop 1).headD 0
  cur_next : st.cur_of (decide (pre.length % 2 = 0)) = pre.dropLast.getLast?
  cur_last : st.cur_of (!decide (pre.length % 2 = 0)) = pre.getLast?
  elems_first : st.elems_first = (pre.length + 1) / 2
  elems_second : st.elems_second = pre.length / 2
  seen : ∀ x, (st.address_to_chase_mapping.lookup x).isSome = true ↔ x ∈ pre
  occupied : ∀ t, (st.occupied_slots.lookup t).isSome = true → t ∈ pre.dropLast.dropLast
  encoded : st.encoded = (pre.zip (pre.drop 2)).map (fun p => (p.1, 0, p.2))

/-! ### Further notions used by the proofs about the frequency-based composition -/

/-- Example parameters with fewer activations than one base period: 3 activations and a base
period of 4 slots, so that `num_base_periods = 3 / 4 = 0` and `allowed_multiplicators` is
empty. -/
def example_params_short : FuzzingParameterSet where
  get_total_acts_pattern := 3
  get_base_period := 4
  get_num_aggressors := 3
  get_random_N_sided := fun _ upper => min 2 upper
  get_random_amplitude := fun _ max => min 1 max

/-- The vectors passed to `get_random_gaussian` at line 109 by the rounds of `refill_loop`, in
the order of the calls (kept for reasoning only).  The list ends with the call that does not
return, if there is one. -/
def refill_loop_lists (fuzzing_params : FuzzingParameterSet) (samples : Nat → Nat) (fuel : Nat)
    (k num_aggressors cur_amplitude : Nat) : Nat → List Int → PatternBuilder → List (List Int)
  | 0, _, _ => []
  | rounds + 1, cur_multiplicators, pb =>
    let next_slot := all_slots_full k fuzzing_params.get_base_period
      fuzzing_params.get_total_acts_pattern pb.pattern.aggressors
    if next_slot = -1 then []
    else
      cur_multiplicators ::
        match draw_and_fill fuzzing_params samples fuel num_aggressors cur_amplitude
            next_slot.toNat cur_multiplicators pb with
        | none => []
        | some (cur_multiplicators, pb) =>
          refill_loop_lists fuzzing_params samples fuel k num_aggressors cur_amplitude rounds
            cur_multiplicators pb

/-- The vectors passed to `get_random_gaussian` while `generate_slot` handles start slot `k`:
the copy of `allowed_multiplicators` at line 94, then those of the refill loop. -/
def generate_slot_lists (fuzzing_params : FuzzingParameterSet) (samples : Nat → Nat)
    (fuel : Nat) (allowed_multiplicators : List Int) (pb : PatternBuilder) (k : Nat) :
    List (List Int) :=
  let base_period := fuzzing_params.get_base_period
  if (pb.pattern.aggressors.getD k default).id ≠ ID_PLACEHOLDER_AGG then []
  else
    let num_aggressors :=
      if base_period - k = 1 then 1 else fuzzing_params.get_random_N_sided k (base_period - k)
    let cur_amplitude := fuzzing_params.get_random_amplitude k ((base_period - k) / num_aggressors)
    allowed_multiplicators ::
      match draw_and_fill fuzzing_params samples fuel num_aggressors cur_amplitude k
          allowed_multiplicators pb with
      | none => []
      | some (cur_multiplicators, pb) =>
        refill_loop_lists fuzzing_params samples fuel k num_aggressors cur_amplitude fuel
          cur_multiplicators pb

/-- The vectors passed to `get_random_gaussian` by `generate_slots`, in the order of the
calls. -/
def generate_slots_lists (fuzzing_params : FuzzingParameterSet) (samples : Nat → Nat)
    (fuel : Nat) (allowed_multiplicators : List Int) :
    List Nat → PatternBuilder → List (List Int)
  | [], _ => []
  | k :: rest, pb =>
    generate_slot_lists fuzzing_params samples fuel allowed_multiplicators pb k ++
      match generate_slot fuzzing_params samples fuel allowed_multiplicators pb k with
      | none => []
      | some pb =>
        generate_slots_lists fuzzing_params samples fuel allowed_multiplicators rest pb

/-- The vectors passed to `get_random_gaussian` during a run of
`generate_frequency_based_pattern`, in the order of the calls; the run is set up as in
`generate_frequency_based_pattern`, and no call is made when the run ends at line 86. -/
def gaussian_lists (fuzzing_params : FuzzingParameterSet) (samples : Nat → Nat) (fuel : Nat)
    (pb : PatternBuilder) : List (List Int) :=
  let base_period := fuzzing_params.get_base_period
  let num_base_periods := fuzzing_params.get_total_acts_pattern / fuzzing_params.get_base_period
  let allowed := allowed_multiplicators num_base_periods
  if allowed = [] then []
  else
    let pb : PatternBuilder :=
      { pb with
        pattern :=
          { aggressors := List.replicate fuzzing_params.get_total_acts_pattern default
            agg_access_patterns := pb.pattern.agg_access_patterns
            max_period := (allowed.getLastD 0).toNat * base_period } }
    generate_slots_lists fuzzing_params samples fuel allowed (List.range base_period) pb
/-- The number of placeholder slots in the `bp`-strided subsequence that starts at `k`: the
base periods `q < nbp` whose slot `q * bp + k` holds the placeholder. -/
def stride_placeholders (bp nbp k : Nat) (aggs : List Aggressor) : Nat :=
  (List.range nbp).countP
    (fun q => decide ((aggs.getD (q * bp + k) default).id = ID_PLACEHOLDER_AGG))

/-- A recorded fill makes progress on its strided subsequence: its offset is below the pattern
length and is the slot `all_slots_full` returns for the vector as it was before the fill, that
slot held the placeholder before the fill and holds a real ID after it, and the number of
placeholder slots in the strided subsequence is smaller after the fill than before. -/
def FillProgress (fp : FuzzingParameterSet) (nbp : Nat) (f : FillRecord) : Prop :=
  f.access_pattern.offset < fp.get_total_acts_pattern ∧
  all_slots_full (f.access_pattern.offset % fp.get_base_period) fp.get_base_period
    fp.get_total_acts_pattern f.before = (f.access_pattern.offset : Int) ∧
  (f.before.getD f.access_pattern.offset default).id = ID_PLACEHOLDER_AGG ∧
  Filled (apply_writes f.before f.writes) f.access_pattern.offset ∧
  stride_placeholders fp.get_base_period nbp (f.access_pattern.offset % fp.get_base_period)
      (apply_writes f.before f.writes)
    < stride_placeholders fp.get_base_period nbp
      (f.access_pattern.offset % fp.get_base_period) f.before

/-! ## Conversions between `size_t` and `int` -/

/-- The conversion `(int) x` of a `size_t`: the low 32 bits, read in two's complement. -/
def int_of_size (x : Nat) : Int :=
  to_signed 32 (x % 2 ^ 32)

/-- The conversion `(size_t) x` of an `int`. -/
def size_of_int (x : Int) : Nat :=
  (x % 2 ^ 64).toNat

/-- Subtraction of two `size_t` values. -/
def size_sub (a b : Nat) : Nat :=
  (a + (SIZE_MAX1 - b % SIZE_MAX1)) % SIZE_MAX1

/-! ## PatternBuilder (random pattern of hammering pairs)

Embedding of the candidate construction and of the pair selection of
`PatternBuilder::generate_random_pattern` of `src/PatternBuilder.cpp`.  The function
`normalize_addr_to_bank` is not part of the sources: the lambda `normalize_address` built on it
is a parameter. -/

/-- The lambda `get_address` of `generate_random_pattern`: for every offset `val`, in order,
`cur_next_addr = normalize_address(cur_next_addr + (val * row_increment))` is pushed to
`addresses`.  Returns the last `cur_next_addr` and the vector `addresses`.  The product of the
`int` with the `u_int64_t` and the pointer addition are taken modulo `2^64`. -/
def get_address (normalize_address : Nat → Nat) (row_increment : Nat) :
    Nat → List Int → List Nat → Nat × List Nat
  | cur_next_addr, [], addresses => (cur_next_addr, addresses)
  | cur_next_addr, val :: offsets, addresses =>
    let cur_next_addr := normalize_address
      ((cur_next_addr + (size_of_int val * row_increment) % SIZE_MAX1) % SIZE_MAX1)
    get_address normalize_address row_increment cur_next_addr offsets
      (addresses ++ [cur_next_addr])

/-- The loop `for (int i = 0; i < num_hammering_pairs; i++)` of lines 294-296 with `n` rounds
left: each round calls `get_address` with the offsets
`{agg_inter_distance, agg_intra_distance}`. -/
def aggressor_candidates_loop (normalize_address : Nat → Nat) (row_increment : Nat)
    (agg_inter_distance agg_intra_distance : Int) : Nat → Nat → List Nat → Nat × List Nat
  | 0, cur_next_addr, aggressor_candidates => (cur_next_addr, aggressor_candidates)
  | n + 1, cur_next_addr, aggressor_candidates =>
    let r := get_address normalize_address row_increment cur_next_addr
      [agg_inter_distance, agg_intra_distance] aggressor_candidates
    aggressor_candidates_loop normalize_address row_increment agg_inter_distance
      agg_intra_distance n r.1 r.2

/-- Lines 288-296 of `generate_random_pattern`: the vector `aggressor_candidates` once the sets
of aggressors are built (and the last `cur_next_addr`). -/
def build_aggressor_candidates (normalize_address : Nat → Nat)
    (row_increment random_start_address : Nat)
    (num_hammering_pairs agg_inter_distance agg_intra_distance : Int) : Nat × List Nat :=
  aggressor_candidates_loop normalize_address row_increment agg_inter_distance
    agg_intra_distance num_hammering_pairs.toNat (normalize_address random_start_address) []

/-- Method `std::vector::at` called with an `int` index: a negative index converts to a
`size_t` beyond every size, so the call throws (no result) like any index `>= size()`. -/
def vector_at (v : List Nat) (i : Int) : Option Nat :=
  if i < 0 then none else v[i.toNat]?

/-- How one round of the hammering-pair branch (lines 317-325) ends: with the abort
`exit(1)` of line 320, with a division by zero at line 323, with an exception of
`aggressor_candidates.at`, or with the index `rand_even_idx` and the two aggressors picked. -/
inductive PairSelection where
  | aborted
  | division_by_zero
  | out_of_range
  | picked (rand_even_idx : Int) (agg1 agg2 : Nat)
deriving DecidableEq

/-- Lines 317-325 of `generate_random_pattern`: the selection of a hammering pair, where
`rand_value` is the value returned by the call `rand()` of line 323. -/
def pick_hammering_pair (rand_value : Int) (aggressor_candidates : List Nat) : PairSelection :=
  let num_aggr_candidates := int_of_size aggressor_candidates.length
  if num_aggr_candidates.tmod 2 ≠ 0 then .aborted
  else
    let num_aggr_candidates := num_aggr_candidates - 1
    if num_aggr_candidates.tdiv 2 + 1 = 0 then .division_by_zero
    else
      let rand_even_idx := rand_value.tmod (num_aggr_candidates.tdiv 2 + 1) * 2
      match vector_at aggressor_candidates rand_even_idx,
          vector_at aggressor_candidates (rand_even_idx + 1) with
      | some agg1, some agg2 => .picked rand_even_idx agg1 agg2
      | _, _ => .out_of_range

/-! ## PatternBuilder (random pattern of aggressor tuples)

Embedding of `count_aggs`, `remove_aggs` and `generate_random_pattern` of
`src/src/PatternBuilder.cpp`.  Addresses (`volatile char*`) are natural numbers below `2^64`;
`int` arithmetic is done on unbounded integers with the truncating division and remainder of C
(signed overflow is not modelled).  The functions `normalize_addr_to_bank` and `get_row_index`, the random
sources and `Range::get_random_number` are not part of the sources: they are parameters. -/

/-- Method `PatternBuilder::count_aggs`. -/
def count_aggs (aggressor_pairs : List Nat) : Nat :=
  aggressor_pairs.length

/-- The loop `while (N > 1 && aggressor_pairs.size() > 0)` of `remove_aggs`, run for at most
`fuel` rounds: the final `aggressor_pairs`. -/
def remove_aggs_loop : Nat → Int → List Nat → Option (List Nat)
  | 0, _, _ => none
  | fuel + 1, N, aggressor_pairs =>
    if N > 1 ∧ aggressor_pairs.length > 0 then
      remove_aggs_loop fuel (N - 1) aggressor_pairs.dropLast
    else some aggressor_pairs

/-- Method `PatternBuilder::remove_aggs`: the returned `int` and the member `aggressor_pairs`
after the call. -/
def remove_aggs (N : Int) (aggressor_pairs : List Nat) (fuel : Nat) : Option (Int × List Nat) :=
  match remove_aggs_loop fuel N aggressor_pairs with
  | none => none
  | some aggressor_pairs => some (int_of_size aggressor_pairs.length, aggressor_pairs)

/-- Modelled from the spec: the members of `PatternBuilder` read by `generate_random_pattern`
are declared in `PatternBuilder.hpp`, which is not part of the sources.  Their types are those
of their uses in `PatternBuilder.cpp`: `total_acts_pattern` is a `size_t` (printed with `%zu`,
compared with `aggressor_pairs.size()`), the ranges are `Range<int>`, the flags are `bool`, the
other numbers are `int`, and `random_start_address` is a `volatile char*`. -/
structure PatternMembers where
  total_acts_pattern : Nat
  num_aggressors : Int
  N_sided : Range
  amplitude : Range
  agg_frequency : Range
  agg_inter_distance : Int
  agg_intra_distance : Int
  distance_to_dummy_pair : Int
  random_start_address : Nat
  use_sequential_aggressors : Bool
  use_fixed_amplitude_per_aggressor : Bool
  use_unused_pair_as_dummies : Bool

/-- What `generate_random_pattern` takes from outside the sources.  `normalize_address` is the
lambda built on `normalize_addr_to_bank`, `get_row_index` the function of that name (both for
the arguments of the call); `N_sided_probabilities n`, `rand n` and `get_random_number n M_max`
are the values returned by the `n`-th call (from 0) of `N_sided_probabilities(generator)`, of
`rand()` and of `amplitude.get_random_number(M_max)`. -/
structure PatternEnv where
  normalize_address : Nat → Nat
  row_increment : Nat
  get_row_index : Nat → Nat
  N_sided_probabilities : Nat → Int
  rand : Nat → Nat
  get_random_number : Nat → Int → Int

/-- Assignment `m[k] = v` on a map kept as a list of key-value pairs with distinct keys: the
value of an existing key is replaced, a new key is added at the end.  (No result of the code
depends on the order in which a map is traversed.) -/
def assoc_set {κ β : Type} [DecidableEq κ] (m : List (κ × β)) (k : κ) (v : β) : List (κ × β) :=
  if (m.lookup k).isSome then m.map (fun e => if e.1 = k then (k, v) else e)
  else m ++ [(k, v)]

/-- The lambda `add_aggressors`: the offsets are `agg_inter_distance` followed by
`N_sided - 1` times `agg_intra_distance` (when `N_sided > 1`); the addresses reached by adding
them one after the other (the loop is that of `get_address`) form one new entry of `addresses`.
Returns the last address and the vector `addresses`. -/
def add_aggressors (env : PatternEnv) (cur_next_addr : Nat)
    (N_sided agg_inter_distance agg_intra_distance : Int) (addresses : List (List Nat)) :
    Nat × List (List Nat) :=
  let offsets := agg_inter_distance ::
    (if N_sided > 1 then List.replicate (size_of_int (N_sided - 1)) agg_intra_distance else [])
  let r := get_address env.normalize_address env.row_increment cur_next_addr offsets []
  (r.1, addresses ++ [r.2])

/-- The lambda `valid_aggressors_exist`, reading `total_acts_pattern`, `aggressor_pairs` and
`agg_candidates_by_size`. -/
def valid_aggressors_exist (total_acts_pattern : Nat) (aggressor_pairs : List Nat)
    (agg_candidates_by_size : List (Int × List (List Nat))) : Bool :=
  let remaining_accesses := int_of_size (size_sub total_acts_pattern aggressor_pairs.length)
  agg_candidates_by_size.any
    (fun size_aggs => decide (size_aggs.1 < remaining_accesses) && !size_aggs.2.isEmpty)

/-- The loop `while (num_aggressor_candidates < num_aggressors)` of lines 285-297, run for at
most `fuel` rounds: `draws` counts the calls of `N_sided_probabilities(generator)`.  Returns
`num_aggressor_candidates`, `cur_next_addr` and `agg_candidates_by_size`. -/
def candidates_loop (P : PatternMembers) (env : PatternEnv) :
    Nat → Nat → Int → Nat → List (Int × List (List Nat)) →
      Option (Int × Nat × List (Int × List (List Nat)))
  | 0, _, _, _, _ => none
  | fuel + 1, draws, num_aggressor_candidates, cur_next_addr, agg_candidates_by_size =>
    if num_aggressor_candidates < P.num_aggressors then
      let N := env.N_sided_probabilities draws
      if num_aggressor_candidates + N > P.num_aggressors then
        if num_aggressor_candidates + P.N_sided.min > P.num_aggressors then
          some (num_aggressor_candidates, cur_next_addr, agg_candidates_by_size)
        else
          candidates_loop P env fuel (draws + 1) num_aggressor_candidates cur_next_addr
            agg_candidates_by_size
      else
        let r := add_aggressors env cur_next_addr N P.agg_inter_distance P.agg_intra_distance
          ((agg_candidates_by_size.lookup N).getD [])
        candidates_loop P env fuel (draws + 1) (num_aggressor_candidates + N) r.1
          (assoc_set agg_candidates_by_size N r.2)
    else some (num_aggressor_candidates, cur_next_addr, agg_candidates_by_size)

/-- The loop of the sequential variant (lines 312-328), run for at most `fuel` rounds: the
final `aggressor_pairs`.  There is no result when `at` throws. -/
def sequential_loop (P : PatternMembers) (agg_candidates_by_size : List (Int × List (List Nat))) :
    Nat → Nat → Nat → List Nat → Option (List Nat)
  | 0, _, _, _ => none
  | fuel + 1, N, set_idx, aggressor_pairs =>
    if aggressor_pairs.length < P.total_acts_pattern ∧
        valid_aggressors_exist P.total_acts_pattern aggressor_pairs agg_candidates_by_size
          = true then
      match agg_candidates_by_size.lookup (int_of_size N) with
      | none => none
      | some sets =>
        match sets[set_idx]? with
        | none => none
        | some curr_agg_set =>
          let aggressor_pairs := aggressor_pairs ++ curr_agg_set
          if ¬ sets.isEmpty ∧ set_idx < size_sub sets.length 1 then
            sequential_loop P agg_candidates_by_size fuel N (set_idx + 1) aggressor_pairs
          else if N < size_of_int P.N_sided.max then
            sequential_loop P agg_candidates_by_size fuel ((N + 1) % SIZE_MAX1) 0 aggressor_pairs
          else
            sequential_loop P agg_candidates_by_size fuel (size_of_int P.N_sided.min) 0
              aggressor_pairs
    else some aggressor_pairs

/-- The state of the loop of the random variant (lines 330-439): `aggressor_pairs`,
`dummy_pair` and the locals of `generate_random_pattern`.  `rand_calls` and `amplitude_calls`
count the calls of `rand()` and of `amplitude.get_random_number`.  The keys of
`frequency_counts` are the strings built by `get_row_string`, kept as the list of row indices
they print.  The field `picks` is not part of the source's state: it records, for reasoning,
every aggressor set appended to the pattern with the amplitude `M` it was given. -/
structure RandomLoopState where
  aggressor_pairs : List Nat
  dummy_pair : List Nat
  dummy_pair_accesses : Int
  agg_candidates_by_size : List (Int × List (List Nat))
  frequency_counts : List (List Nat × Int)
  amplitudes_per_agg_pair : List (List Nat × Int)
  num_accesses_req_until_min_freq : Int
  minimum_frequency_reached : Bool
  num_times_each_agg_accessed : Int
  failed_tries : Int
  rand_calls : Nat
  amplitude_calls : Nat
  picks : List (List Nat × Int)

/-- The loop `while (M--) aggressor_pairs.insert(aggressor_pairs.end(), ...)` of line 400, run
for at most `fuel` rounds: the condition reads `M` and then decrements it, also when it ends
the loop.  Returns the final value of `M` and `aggressor_pairs`. -/
def repeat_aggressor_set (aggressor_set : List Nat) : Nat → Int → List Nat →
    Option (Int × List Nat)
  | 0, _, _ => none
  | fuel + 1, M, aggressor_pairs =>
    if M ≠ 0 then
      repeat_aggressor_set aggressor_set fuel (M - 1) (aggressor_pairs ++ aggressor_set)
    else some (M - 1, aggressor_pairs)

/-- Lines 369-397 of `generate_random_pattern`: the choice of the amplitude `M`.  The result is
`none` on a division by zero; otherwise it holds `none` when the round is given up (`continue`
of line 390, with `failed_tries` incremented) or the amplitude, and the new state. -/
def choose_amplitude (P : PatternMembers) (env : PatternEnv) (s : RandomLoopState)
    (remaining_accesses : Int) (aggressor_set : List Nat) :
    Option (Option Int × RandomLoopState) :=
  if P.use_fixed_amplitude_per_aggressor = true ∧
      (s.amplitudes_per_agg_pair.lookup aggressor_set).isSome = true then
    some (some ((s.amplitudes_per_agg_pair.lookup aggressor_set).getD 0), s)
  else if s.minimum_frequency_reached = false ∧ s.num_accesses_req_until_min_freq = 0 then none
  else
    let M_max :=
      if s.minimum_frequency_reached = true then min remaining_accesses P.amplitude.max
      else min (remaining_accesses.tdiv s.num_accesses_req_until_min_freq) P.amplitude.max
    let M := env.get_random_number s.amplitude_calls M_max
    let s := { s with amplitude_calls := s.amplitude_calls + 1 }
    if M < 1 ∨ P.amplitude.min > M then
      some (none, { s with failed_tries := s.failed_tries + 1 })
    else if P.use_fixed_amplitude_per_aggressor = true then
      some (some M,
        { s with amplitudes_per_agg_pair := assoc_set s.amplitudes_per_agg_pair aggressor_set M })
    else some (some M, s)

/-- Lines 399-438 of `generate_random_pattern`: the aggressor set is appended `M` times, the
dummy pair is updated, and the candidates are updated.  `M0` is the amplitude chosen, `key` the
row string of the aggressor set. -/
def register_aggressor_set (P : PatternMembers)
    (backup_candidates : List (Int × List (List Nat))) (fuel : Nat) (s : RandomLoopState)
    (idx_size : Int) (idx_set : Nat) (suitable_candidates : List (List Nat))
    (aggressor_set : List Nat) (key : List Nat) (M0 : Int) : Option RandomLoopState :=
  let num_elements_in_aggressor_set := aggressor_set.length
  match repeat_aggressor_set aggressor_set fuel M0 s.aggressor_pairs with
  | none => none
  | some (M, aggressor_pairs) =>
    let s := { s with aggressor_pairs := aggressor_pairs, picks := s.picks ++ [(aggressor_set, M0)] }
    let s :=
      if P.use_unused_pair_as_dummies = false ∧ num_elements_in_aggressor_set ≥ 2 ∧
          M < s.dummy_pair_accesses then
        { s with dummy_pair := aggressor_set, dummy_pair_accesses := M }
      else s
    let s :=
      if s.minimum_frequency_reached = false ∨
          (s.frequency_counts.lookup key).getD 0 = P.agg_frequency.max then
        let s := { s with
          num_accesses_req_until_min_freq :=
            s.num_accesses_req_until_min_freq - (aggressor_set.length : Int)
          agg_candidates_by_size :=
            assoc_set s.agg_candidates_by_size idx_size (suitable_candidates.eraseIdx idx_set) }
        if s.minimum_frequency_reached = false then
          let all_empty := s.agg_candidates_by_size.any
            (fun pair => pair.2.any (fun vec => vec.isEmpty))
          if all_empty = true ∨
              valid_aggressors_exist P.total_acts_pattern s.aggressor_pairs
                s.agg_candidates_by_size = false then
            { s with
              num_times_each_agg_accessed := s.num_times_each_agg_accessed + 1
              minimum_frequency_reached :=
                decide (s.num_times_each_agg_accessed + 1 = P.agg_frequency.min)
              agg_candidates_by_size := backup_candidates }
          else s
        else s
      else s
    some { s with failed_tries := 0 }

/-- The body of the loop of the random variant (lines 350-438).  There is no result when
`agg_candidates_by_size.at` throws or on a division by zero. -/
def random_round (P : PatternMembers) (env : PatternEnv)
    (backup_candidates : List (Int × List (List Nat))) (fuel : Nat) (s : RandomLoopState) :
    Option RandomLoopState :=
  let remaining_accesses := int_of_size (size_sub P.total_acts_pattern s.aggressor_pairs.length)
  if min remaining_accesses P.N_sided.max + 1 - P.N_sided.min = 0 then none
  else
    let idx_size := ((env.rand s.rand_calls : Nat) : Int).tmod
      (min remaining_accesses P.N_sided.max + 1 - P.N_sided.min) + P.N_sided.min
    let s := { s with rand_calls := s.rand_calls + 1 }
    match s.agg_candidates_by_size.lookup idx_size with
    | none => none
    | some suitable_candidates =>
      let number_of_sets := suitable_candidates.length
      if number_of_sets = 0 then some { s with failed_tries := s.failed_tries + 1 }
      else
        let idx_set := env.rand s.rand_calls % number_of_sets
        let s := { s with rand_calls := s.rand_calls + 1 }
        match suitable_candidates[idx_set]? with
        | none => none
        | some aggressor_set =>
          let key := aggressor_set.map env.get_row_index
          let s := { s with
            frequency_counts :=
              assoc_set s.frequency_counts key ((s.frequency_counts.lookup key).getD 0 + 1) }
          match choose_amplitude P env s remaining_accesses aggressor_set with
          | none => none
          | some (none, s) => some s
          | some (some M, s) =>
            register_aggressor_set P backup_candidates fuel s idx_size idx_set
              suitable_candidates aggressor_set key M

/-- The loop of the random variant (line 349), run for at most `fuel` rounds; `max_tries` is
20. -/
def random_loop (P : PatternMembers) (env : PatternEnv)
    (backup_candidates : List (Int × List (List Nat))) :
    Nat → RandomLoopState → Option RandomLoopState
  | 0, _ => none
  | fuel + 1, s =>
    if s.aggressor_pairs.length < P.total_acts_pattern ∧
        valid_aggressors_exist P.total_acts_pattern s.aggressor_pairs s.agg_candidates_by_size
          = true ∧
        s.failed_tries < 20 then
      match random_round P env backup_candidates fuel s with
      | none => none
      | some s => random_loop P env backup_candidates fuel s
    else some s

/-- The state in which the loop of the random variant starts (lines 277, 303-306 and 330-345),
given the candidates and their number. -/
def random_loop_init (P : PatternMembers) (num_aggressor_candidates : Int)
    (agg_candidates_by_size : List (Int × List (List Nat))) : RandomLoopState :=
  { aggressor_pairs := []
    dummy_pair := []
    dummy_pair_accesses := 2 ^ 31 - 1
    agg_candidates_by_size := agg_candidates_by_size
    frequency_counts := []
    amplitudes_per_agg_pair := []
    num_accesses_req_until_min_freq := num_aggressor_candidates * P.agg_frequency.min
    minimum_frequency_reached :=
      !(decide (P.total_acts_pattern
          ≥ size_of_int (num_aggressor_candidates * P.agg_frequency.min)))
        || decide (P.agg_frequency.min = 0)
    num_times_each_agg_accessed := 0
    failed_tries := 0
    rand_calls := 0
    amplitude_calls := 0
    picks := [] }

/-- What `generate_random_pattern` leaves behind: the members `aggressor_pairs` and
`dummy_pair`, the two addresses written through `first_address` and `last_address`, and the
recorded picks of the random variant. -/
structure GeneratedPattern where
  aggressor_pairs : List Nat
  dummy_pair : List Nat
  first_address : Nat
  last_address : Nat
  picks : List (List Nat × Int)

/-- Method `PatternBuilder::generate_random_pattern` of `src/src/PatternBuilder.cpp` (without the
printing and without the call of `jit_code`).  Every loop runs for at most `fuel` rounds. -/
def generate_random_pattern (P : PatternMembers) (env : PatternEnv) (fuel : Nat) :
    Option GeneratedPattern :=
  let cur_next_addr := env.normalize_address P.random_start_address
  let first_address := cur_next_addr
  match candidates_loop P env fuel 0 0 cur_next_addr [] with
  | none => none
  | some (num_aggressor_candidates, cur_next_addr, agg_candidates_by_size) =>
    let last_address := cur_next_addr
    let r : Option (List Nat × List Nat × List (List Nat × Int)) :=
      if P.use_sequential_aggressors = true then
        match sequential_loop P agg_candidates_by_size fuel (size_of_int P.N_sided.min) 0 [] with
        | none => none
        | some aggressor_pairs => some (aggressor_pairs, [], [])
      else
        match random_loop P env agg_candidates_by_size fuel
            (random_loop_init P num_aggressor_candidates agg_candidates_by_size) with
        | none => none
        | some s => some (s.aggressor_pairs, s.dummy_pair, s.picks)
    match r with
    | none => none
    | some (aggressor_pairs, dummy_pair, picks) =>
      let dummy_pair :=
        if P.use_unused_pair_as_dummies = true then
          ((add_aggressors env cur_next_addr 2 P.distance_to_dummy_pair P.agg_intra_distance
            []).2.head?).getD []
        else dummy_pair
      some { aggressor_pairs := aggressor_pairs, dummy_pair := dummy_pair,
             first_address := first_address, last_address := last_address, picks := picks }

/-! ### Notions used by the proofs about the random pattern of aggressor tuples -/

/-- Example members: a pattern of 60 activations, 8 aggressors, tuples of 1 or 2 aggressors,
amplitudes 1..7, frequencies 1..20, the random variant, a dedicated dummy pair. -/
def example_members : PatternMembers where
  total_acts_pattern := 60
  num_aggressors := 8
  N_sided := { min := 1, max := 2 }
  amplitude := { min := 1, max := 7 }
  agg_frequency := { min := 1, max := 20 }
  agg_inter_distance := 4
  agg_intra_distance := 2
  distance_to_dummy_pair := 80
  random_start_address := 0
  use_sequential_aggressors := false
  use_fixed_amplitude_per_aggressor := false
  use_unused_pair_as_dummies := true

/-- Example environment: addresses are already normalized, a row is 8192 bytes, the tuple sizes
drawn are 1, 1, 2, 2, 2, the calls of `rand()` return 1, 0, 1, 0, 1, 0, 0, 0, 0, 0, 1, 0, 0, ...,
and `amplitude.get_random_number(M_max)` returns `M_max`. -/
def example_pattern_env : PatternEnv where
  normalize_address := fun a => a
  row_increment := 8192
  get_row_index := fun a => a / 8192
  N_sided_probabilities := fun n => if n < 2 then 1 else 2
  rand := fun n => [1, 0, 1, 0, 1, 0, 0, 0, 0, 0, 1, 0].getD n 0
  get_random_number := fun _ M_max => M_max

/-- Example members: as `example_members`, with a pattern of 24 activations and the dummy pair
taken from the picked aggressor sets (`use_unused_pair_as_dummies == false`). -/
def example_members_dummy : PatternMembers :=
  { example_members with total_acts_pattern := 24, use_unused_pair_as_dummies := false }

/-- Example environment: as `example_pattern_env`, where the calls of `rand()` return
1, 0, 1, 0, 1, 0, 0, 0, ... and the calls of `amplitude.get_random_number(M_max)` return 3, then
four times 1, then `M_max` (each at most `M_max` in the run of the example). -/
def example_env_dummy : PatternEnv :=
  { example_pattern_env with
    rand := fun n => [1, 0, 1, 0, 1, 0].getD n 0
    get_random_number := fun n M_max => if n = 0 then 3 else if n ≤ 4 then 1 else M_max }

/-! ## Theorems about DRAMAddr -/

theorem popcount_zero_arg (n : Nat) : popcount n 0 = 0 := by
  cases n <;> simp [popcount]

theorem popcount_succ (n x : Nat) : popcount (n + 1) x = x % 2 + popcount n (x / 2) := by
  by_cases hx : x = 0
  · subst hx; simp [popcount, popcount_zero_arg]
  · simp [popcount, hx]

theorem popcount_xor (n a b : Nat) :
    popcount n (a ^^^ b) % 2 = (popcount n a + popcount n b) % 2 := by
  induction n generalizing a b with
  | zero => simp [popcount]
  | succ n ih =>
    have h1 := ih (a / 2) (b / 2)
    have h2 : (a ^^^ b) % 2 = (a + b) % 2 := Nat.xor_mod_two_eq
    rw [popcount_succ, popcount_succ, popcount_succ, Nat.xor_div_two]
    omega

theorem parityl_lt (x : Nat) : parityl x < 2 := by
  unfold parityl; omega

theorem parityl_xor (a b : Nat) : parityl (a ^^^ b) = (parityl a + parityl b) % 2 := by
  unfold parityl popcountl
  rw [popcount_xor]; omega

theorem parityl_zero : parityl 0 = 0 := by
  simp [parityl, popcountl, popcount_zero_arg]

theorem loopN_succ (mtx : List Nat) (p n : Nat) :
    loopN mtx p (n + 1)
      = ((loopN mtx p n <<< 1) % SIZE_MAX1) ||| parityl (p &&& mtx.getD n 0) := by
  simp [loopN, List.range_succ, List.foldl_append]

theorem testBit_of_lt_two (b j : Nat) (hb : b < 2) :
    b.testBit j = (decide (j = 0) && decide (b = 1)) := by
  have : b = 0 ∨ b = 1 := by omega
  rcases this with h | h
  · subst h; simp
  · subst h
    cases j with
    | zero => simp
    | succ j => simp [Nat.testBit_succ]

theorem testBit_loopN (mtx : List Nat) (p n : Nat) (hn : n ≤ 63) (j : Nat) :
    (loopN mtx p n).testBit j
      = (decide (j < n) && decide (parityl (p &&& mtx.getD (n - 1 - j) 0) = 1)) := by
  induction n generalizing j with
  | zero => simp [loopN]
  | succ n ih =>
    rw [loopN_succ, Nat.testBit_or, SIZE_MAX1, Nat.testBit_mod_two_pow, Nat.testBit_shiftLeft,
      testBit_of_lt_two _ _ (parityl_lt _)]
    cases j with
    | zero => simp
    | succ j =>
      rw [Nat.add_sub_cancel, ih (by omega) j]
      have e1 : n + 1 - 1 - (j + 1) = n - 1 - j := by omega
      rw [e1]
      by_cases hj : j < n
      · have : j + 1 < 64 := by omega
        simp [hj, this]
      · simp [hj]

theorem testBit_mtx_loop (mtx : List Nat) (p j : Nat) :
    (mtx_loop mtx p).testBit j
      = (decide (j < 30) && decide (parityl (p &&& mtx.getD (29 - j) 0) = 1)) := by
  have h := testBit_loopN mtx p 30 (by omega) j
  simpa [loopN, mtx_loop, MTX_SIZE] using h

theorem mtx_loop_lt (mtx : List Nat) (p : Nat) : mtx_loop mtx p < 2 ^ 30 := by
  apply Nat.lt_pow_two_of_testBit
  intro i hi
  rw [testBit_mtx_loop]
  have : ¬ i < 30 := by omega
  simp [this]

theorem mtx_loop_xor (mtx : List Nat) (a b : Nat) :
    mtx_loop mtx (a ^^^ b) = mtx_loop mtx a ^^^ mtx_loop mtx b := by
  apply Nat.eq_of_testBit_eq
  intro j
  rw [Nat.testBit_xor, testBit_mtx_loop, testBit_mtx_loop, testBit_mtx_loop,
    Nat.and_xor_distrib_right, parityl_xor]
  have ha := parityl_lt (a &&& mtx.getD (29 - j) 0)
  have hb := parityl_lt (b &&& mtx.getD (29 - j) 0)
  generalize parityl (a &&& mtx.getD (29 - j) 0) = x at ha ⊢
  generalize parityl (b &&& mtx.getD (29 - j) 0) = y at hb ⊢
  have hx : x = 0 ∨ x = 1 := by omega
  have hy : y = 0 ∨ y = 1 := by omega
  rcases hx with rfl | rfl <;> rcases hy with rfl | rfl <;> cases decide (j < 30) <;> simp

theorem mtx_loop_zero (mtx : List Nat) : mtx_loop mtx 0 = 0 := by
  apply Nat.eq_of_testBit_eq
  intro j
  simp [testBit_mtx_loop, parityl_zero]

theorem and_mod_of_lt (p r : Nat) (hr : r < 2 ^ 30) : (p % 2 ^ 30) &&& r = p &&& r := by
  apply Nat.eq_of_testBit_eq
  intro i
  rw [Nat.testBit_and, Nat.testBit_and, Nat.testBit_mod_two_pow]
  by_cases hi : i < 30
  · simp [hi]
  · have : r.testBit i = false :=
      Nat.testBit_lt_two_pow (Nat.lt_of_lt_of_le hr (Nat.pow_le_pow_right (by omega) (by omega)))
    simp [this]

theorem getD_lt_of_rowsBounded (mtx : List Nat) (h : RowsBounded mtx) (i : Nat) :
    mtx.getD i 0 < 2 ^ 30 := by
  by_cases hi : i < mtx.length
  · rw [List.getD_eq_getElem _ _ hi]
    exact h _ (List.getElem_mem hi)
  · rw [List.getD_eq_default _ _ (by omega)]
    exact Nat.two_pow_pos 30

theorem mtx_loop_mod (mtx : List Nat) (h : RowsBounded mtx) (p : Nat) :
    mtx_loop mtx (p % 2 ^ 30) = mtx_loop mtx p := by
  apply Nat.eq_of_testBit_eq
  intro j
  rw [testBit_mtx_loop, testBit_mtx_loop, and_mod_of_lt _ _ (getD_lt_of_rowsBounded mtx h _)]

theorem invOnBasis_apply (A D : List Nat) (h : InvOnBasis A D) (k : Nat) (hk : k < 30) :
    mtx_loop A (mtx_loop D (2 ^ k)) = 2 ^ k := by
  unfold InvOnBasis at h
  rw [List.all_eq_true] at h
  have := h k (List.mem_range.mpr hk)
  simpa using this

theorem two_pow_add_eq_xor (n w : Nat) (hw : w < 2 ^ n) : 2 ^ n + w = 2 ^ n ^^^ w := by
  apply Nat.eq_of_testBit_eq
  intro i
  rw [Nat.testBit_xor, Nat.testBit_two_pow]
  rcases Nat.lt_trichotomy i n with hi | hi | hi
  · have : ¬ n = i := by omega
    simp only [this, decide_False, Bool.false_xor]
    exact Nat.testBit_two_pow_add_gt hi w
  · subst hi
    rw [Nat.testBit_two_pow_add_eq, Nat.testBit_lt_two_pow hw]; simp
  · have : ¬ n = i := by omega
    simp only [this, decide_False, Bool.false_xor]
    have hle : 2 ^ (n + 1) ≤ 2 ^ i := Nat.pow_le_pow_right (by omega) (by omega)
    have h1 : 2 ^ n + w < 2 ^ i := by rw [Nat.pow_succ] at hle; omega
    have h2 : w < 2 ^ i := by omega
    rw [Nat.testBit_lt_two_pow h1, Nat.testBit_lt_two_pow h2]

theorem inv_of_invOnBasis (A D : List Nat) (h : InvOnBasis A D) (n : Nat) (hn : n ≤ 30) :
    ∀ v, v < 2 ^ n → mtx_loop A (mtx_loop D v) = v := by
  induction n with
  | zero =>
    intro v hv
    have : v = 0 := by simpa using hv
    subst this
    rw [mtx_loop_zero, mtx_loop_zero]
  | succ n ih =>
    intro v hv
    by_cases hlt : v < 2 ^ n
    · exact ih (by omega) v hlt
    · have hw : v - 2 ^ n < 2 ^ n := by
        rw [Nat.pow_succ] at hv; omega
      have hv2 : v = 2 ^ n ^^^ (v - 2 ^ n) := by
        rw [← two_pow_add_eq_xor _ _ hw]; omega
      rw [hv2, mtx_loop_xor, mtx_loop_xor, invOnBasis_apply A D h n (by omega),
        ih (by omega) _ hw]

theorem from_virt_eq_unpack (cfg : MemConfiguration) (v : Nat) :
    DRAMAddr.from_virt cfg v = unpack cfg (mtx_loop cfg.DRAM_MTX v) := rfl

theorem or_fields (b r c s1 s2 : Nat) (hr : r < 2 ^ s1) (hc : 2 ^ s1 * c + r < 2 ^ s2) :
    (2 ^ s2 * b ||| r) ||| 2 ^ s1 * c = 2 ^ s2 * b + 2 ^ s1 * c + r := by
  rw [Nat.or_assoc, Nat.or_comm r, ← Nat.mul_add_lt_is_or hr, ← Nat.mul_add_lt_is_or hc]
  omega

theorem linearize_1_1_1_16 (d : DRAMAddr) (h : InRange Config_1_1_1_16 d) :
    d.linearize Config_1_1_1_16 = 2 ^ 26 * d.bank + 2 ^ 13 * d.col + d.row := by
  obtain ⟨hb, hr, hc⟩ := h
  simp only [Config_1_1_1_16] at hb hr hc
  have e := or_fields d.bank d.row d.col 13 26 (by omega) (by omega)
  simp only [DRAMAddr.linearize, Config_1_1_1_16, SIZE_MAX1, Nat.shiftLeft_eq]
  rw [Nat.mod_eq_of_lt (by omega), Nat.mod_eq_of_lt (by omega), Nat.mod_eq_of_lt (by omega)]
  rw [Nat.mul_comm d.bank, Nat.mul_comm d.col, Nat.pow_zero, Nat.mul_one]
  exact e

theorem unpack_1_1_1_16 (res : Nat) :
    unpack Config_1_1_1_16 res
      = { bank := res / 2 ^ 26 % 2 ^ 4, row := res % 2 ^ 13, col := res / 2 ^ 13 % 2 ^ 13 } := by
  simp only [unpack, Config_1_1_1_16, Nat.shiftRight_eq_div_pow]
  rw [show (0b1111 : Nat) = 2 ^ 4 - 1 from rfl, show (0b1111111111111 : Nat) = 2 ^ 13 - 1 from rfl]
  simp only [Nat.and_pow_two_sub_one_eq_mod, Nat.pow_zero, Nat.div_one]

theorem linearize_1_1_2_16 (d : DRAMAddr) (h : InRange Config_1_1_2_16 d) :
    d.linearize Config_1_1_2_16 = 2 ^ 25 * d.bank + 2 ^ 12 * d.col + d.row := by
  obtain ⟨hb, hr, hc⟩ := h
  simp only [Config_1_1_2_16] at hb hr hc
  have e := or_fields d.bank d.row d.col 12 25 (by omega) (by omega)
  simp only [DRAMAddr.linearize, Config_1_1_2_16, SIZE_MAX1, Nat.shiftLeft_eq]
  rw [Nat.mod_eq_of_lt (by omega), Nat.mod_eq_of_lt (by omega), Nat.mod_eq_of_lt (by omega)]
  rw [Nat.mul_comm d.bank, Nat.mul_comm d.col, Nat.pow_zero, Nat.mul_one]
  exact e

theorem unpack_1_1_2_16 (res : Nat) :
    unpack Config_1_1_2_16 res
      = { bank := res / 2 ^ 25 % 2 ^ 5, row := res % 2 ^ 12, col := res / 2 ^ 12 % 2 ^ 13 } := by
  simp only [unpack, Config_1_1_2_16, Nat.shiftRight_eq_div_pow]
  rw [show (0b11111 : Nat) = 2 ^ 5 - 1 from rfl, show (0b111111111111 : Nat) = 2 ^ 12 - 1 from rfl,
    show (0b1111111111111 : Nat) = 2 ^ 13 - 1 from rfl]
  simp only [Nat.and_pow_two_sub_one_eq_mod, Nat.pow_zero, Nat.div_one]

theorem unpack_inRange (cfg : MemConfiguration) (res : Nat) : InRange cfg (unpack cfg res) :=
  ⟨Nat.and_le_right, Nat.and_le_right, Nat.and_le_right⟩

theorem translatable_1_1_1_16 : Translatable Config_1_1_1_16 where
  rowsD := by decide
  rowsA := by decide
  invAD := by decide!
  invDA := by decide!
  pack_unpack := by
    intro res hres
    rw [linearize_1_1_1_16 _ (unpack_inRange _ _), unpack_1_1_1_16]
    simp only
    omega
  unpack_pack := by
    intro d hd
    rw [linearize_1_1_1_16 _ hd, unpack_1_1_1_16]
    obtain ⟨hb, hr, hc⟩ := hd
    simp only [Config_1_1_1_16] at hb hr hc
    refine ⟨by omega, ?_⟩
    cases d with
    | mk b r c =>
      simp only at hb hr hc ⊢
      congr 1 <;> omega

theorem translatable_1_1_2_16 : Translatable Config_1_1_2_16 where
  rowsD := by decide
  rowsA := by decide
  invAD := by decide!
  invDA := by decide!
  pack_unpack := by
    intro res hres
    rw [linearize_1_1_2_16 _ (unpack_inRange _ _), unpack_1_1_2_16]
    simp only
    omega
  unpack_pack := by
    intro d hd
    rw [linearize_1_1_2_16 _ hd, unpack_1_1_2_16]
    obtain ⟨hb, hr, hc⟩ := hd
    simp only [Config_1_1_2_16] at hb hr hc
    refine ⟨by omega, ?_⟩
    cases d with
    | mk b r c =>
      simp only at hb hr hc ⊢
      congr 1 <;> omega

theorem builtin_translatable (key : mem_config_t) (cfg : MemConfiguration)
    (h : load_mem_config key = some cfg) : Translatable cfg := by
  unfold load_mem_config Configs at h
  simp only [List.lookup] at h
  split at h
  · cases h; exact translatable_1_1_1_16
  · split at h
    · cases h; exact translatable_1_1_2_16
    · cases h

theorem set_base_eq (buff : Nat) : set_base buff = 2 ^ 30 * (buff % 2 ^ 64 / 2 ^ 30) := by
  have hm : SIZE_MAX1 - 1 - (((1 <<< 30) % SIZE_MAX1) - 1) = 2 ^ 30 * (2 ^ 34 - 1) := by decide
  unfold set_base
  rw [hm]
  apply Nat.eq_of_testBit_eq
  intro i
  rw [Nat.testBit_and, Nat.testBit_mul_pow_two, Nat.testBit_mul_pow_two,
    Nat.testBit_two_pow_sub_one, ← Nat.shiftRight_eq_div_pow, Nat.testBit_shiftRight,
    Nat.testBit_mod_two_pow]
  by_cases h : 30 ≤ i
  · have e : 30 + (i - 30) = i := by omega
    rw [e]
    by_cases h2 : i < 64
    · have : i - 30 < 34 := by omega
      simp [h, h2, this]
    · have : ¬ i - 30 < 34 := by omega
      simp [h, h2, this]
  · simp [h]

/-! ### Round trips of the address translation -/

theorem to_virt_from_virt_of_translatable (cfg : MemConfiguration) (T : Translatable cfg)
    (buff v : Nat) (hb : buff < 2 ^ 64) (hreg : buff / 2 ^ 30 = v / 2 ^ 30) :
    DRAMAddr.to_virt cfg (set_base buff) (DRAMAddr.from_virt cfg v)
      = 2 ^ 30 * (v / 2 ^ 30) + v % 2 ^ 30 := by
  unfold DRAMAddr.to_virt
  simp only
  rw [from_virt_eq_unpack, T.pack_unpack _ (mtx_loop_lt _ _), ← mtx_loop_mod _ T.rowsD v,
    inv_of_invOnBasis _ _ T.invAD 30 (Nat.le_refl _) _ (Nat.mod_lt _ (Nat.two_pow_pos 30)),
    set_base_eq, Nat.mod_eq_of_lt hb, hreg,
    ← Nat.mul_add_lt_is_or (Nat.mod_lt _ (Nat.two_pow_pos 30))]

theorem or_base_mod (base_msb x : Nat) (hbase : base_msb % 2 ^ 30 = 0) (hx : x < 2 ^ 30) :
    (base_msb ||| x) % 2 ^ 30 = x := by
  have e : base_msb = 2 ^ 30 * (base_msb / 2 ^ 30) := by
    have := Nat.div_add_mod base_msb (2 ^ 30)
    omega
  rw [e, ← Nat.mul_add_lt_is_or hx, Nat.mul_add_mod, Nat.mod_eq_of_lt hx]

theorem from_virt_to_virt_of_translatable (cfg : MemConfiguration) (T : Translatable cfg)
    (base_msb : Nat) (hbase : base_msb % 2 ^ 30 = 0) (d : DRAMAddr) (hd : InRange cfg d) :
    DRAMAddr.from_virt cfg (DRAMAddr.to_virt cfg base_msb d) = d := by
  obtain ⟨hlin, hun⟩ := T.unpack_pack d hd
  unfold DRAMAddr.to_virt
  simp only
  rw [from_virt_eq_unpack, ← mtx_loop_mod _ T.rowsD, or_base_mod _ _ hbase (mtx_loop_lt _ _),
    inv_of_invOnBasis _ _ T.invDA 30 (Nat.le_refl _) _ hlin, hun]

theorem set_base_mod (buff : Nat) : set_base buff % 2 ^ 30 = 0 := by
  rw [set_base_eq, Nat.mul_mod_right]

/-- C1: for each built-in memory configuration and every virtual address `v`, when the base
was recorded by `set_base` on a 64-bit address `buff` of the same 1 GiB-aligned region as `v`
(so the base is `v` with its low 30 bits cleared), translating `v` to a DRAM address and back
with `to_virt` returns `v`. -/
theorem to_virt_from_virt_roundtrip (key : mem_config_t) (MemConfig : MemConfiguration)
    (hcfg : load_mem_config key = some MemConfig) (buff v : Nat)
    (hbuff : buff < 2 ^ 64) (hregion : buff / 2 ^ 30 = v / 2 ^ 30) :
    set_base buff = v - v % 2 ^ 30 ∧
      DRAMAddr.to_virt MemConfig (set_base buff) (DRAMAddr.from_virt MemConfig v) = v := by
  constructor
  · rw [set_base_eq, Nat.mod_eq_of_lt hbuff, hregion]
    have := Nat.div_add_mod v (2 ^ 30)
    omega
  · rw [to_virt_from_virt_of_translatable MemConfig (builtin_translatable key MemConfig hcfg)
      buff v hbuff hregion]
    exact Nat.div_add_mod v (2 ^ 30)

/-- Witness of C1 under the (1,1,1,16) configuration at `v = 0x40020000`, with the base taken
from the region start `0x40000000`. -/
theorem to_virt_from_virt_roundtrip_witness :
    set_base 0x40000000 = 0x40020000 - 0x40020000 % 2 ^ 30 ∧
      DRAMAddr.to_virt Config_1_1_1_16 (set_base 0x40000000)
        (DRAMAddr.from_virt Config_1_1_1_16 0x40020000) = 0x40020000 :=
  to_virt_from_virt_roundtrip (1, 1, 1, 16) Config_1_1_1_16 rfl 0x40000000 0x40020000
    (by decide) (by decide)

/-- C2: for each built-in memory configuration, every in-range triple `(bank, row, col)` and
every `base_msb` whose low 30 bits are zero, the address constructor applied to
`DRAMAddr(bank, row, col).to_virt()` yields exactly `(bank, row, col)`. -/
theorem from_virt_to_virt_roundtrip (key : mem_config_t) (MemConfig : MemConfiguration)
    (hcfg : load_mem_config key = some MemConfig) (base_msb bank row col : Nat)
    (hbase : base_msb % 2 ^ 30 = 0) (hbank : bank ≤ MemConfig.BK_MASK)
    (hrow : row ≤ MemConfig.ROW_MASK) (hcol : col ≤ MemConfig.COL_MASK) :
    DRAMAddr.from_virt MemConfig
        (DRAMAddr.to_virt MemConfig base_msb { bank := bank, row := row, col := col })
      = { bank := bank, row := row, col := col } :=
  from_virt_to_virt_of_translatable MemConfig (builtin_translatable key MemConfig hcfg)
    base_msb hbase _ ⟨hbank, hrow, hcol⟩

/-- Witness of C2 under the (1,1,2,16) configuration at the largest in-range triple. -/
theorem from_virt_to_virt_roundtrip_witness :
    DRAMAddr.from_virt Config_1_1_2_16
        (DRAMAddr.to_virt Config_1_1_2_16 0x40000000 { bank := 31, row := 4095, col := 8191 })
      = { bank := 31, row := 4095, col := 8191 } :=
  from_virt_to_virt_roundtrip (1, 1, 2, 16) Config_1_1_2_16 rfl 0x40000000 31 4095 8191
    (by decide) (by decide) (by decide) (by decide)

/-- C3: for each built-in memory configuration and a base recorded by `set_base`, `to_virt`
is injective on in-range triples: two in-range triples with the same virtual address are
equal. -/
theorem to_virt_injective (key : mem_config_t) (MemConfig : MemConfiguration)
    (hcfg : load_mem_config key = some MemConfig) (buff : Nat) (d1 d2 : DRAMAddr)
    (h1 : d1.bank ≤ MemConfig.BK_MASK ∧ d1.row ≤ MemConfig.ROW_MASK ∧ d1.col ≤ MemConfig.COL_MASK)
    (h2 : d2.bank ≤ MemConfig.BK_MASK ∧ d2.row ≤ MemConfig.ROW_MASK ∧ d2.col ≤ MemConfig.COL_MASK)
    (hne : d1 ≠ d2) :
    DRAMAddr.to_virt MemConfig (set_base buff) d1 ≠ DRAMAddr.to_virt MemConfig (set_base buff) d2 := by
  intro heq
  apply hne
  have T := builtin_translatable key MemConfig hcfg
  have e1 := from_virt_to_virt_of_translatable MemConfig T _ (set_base_mod buff) d1 h1
  have e2 := from_virt_to_virt_of_translatable MemConfig T _ (set_base_mod buff) d2 h2
  rw [← e1, ← e2, heq]

/-- Witness of C3: two triples of the (1,1,1,16) configuration that differ in the bank. -/
theorem to_virt_injective_witness :
    DRAMAddr.to_virt Config_1_1_1_16 (set_base 0x40000000) { bank := 2, row := 1, col := 0 }
      ≠ DRAMAddr.to_virt Config_1_1_1_16 (set_base 0x40000000) { bank := 4, row := 1, col := 0 } :=
  to_virt_injective (1, 1, 1, 16) Config_1_1_1_16 rfl 0x40000000 _ _
    (by decide) (by decide) (by decide)

/-- C4 as stated fails: under the (1,1,1,16) configuration the address `0x40020000` is not
translated to `(bank = 2, row = 1, col = 0)`. -/
theorem from_virt_0x40020000_ne_bank_2 :
    DRAMAddr.from_virt Config_1_1_1_16 0x40020000 ≠ { bank := 2, row := 1, col := 0 } := by
  decide!

/-- C4, amended: under the (1,1,1,16) configuration with base `0x40000000`, the address
`v = 0x40020000` is translated to `(bank = 4, row = 1, col = 0)`, and `to_virt` of that result
returns `v`. -/
theorem from_virt_0x40020000 :
    set_base 0x40000000 = 0x40000000 ∧
    DRAMAddr.from_virt Config_1_1_1_16 0x40020000 = { bank := 4, row := 1, col := 0 } ∧
      DRAMAddr.to_virt Config_1_1_1_16 (set_base 0x40000000)
        (DRAMAddr.from_virt Config_1_1_1_16 0x40020000) = 0x40020000 := by
  decide!

/-- C5: for every memory configuration (so for each built-in one) and every base,
`DRAMAddr(0, 0, 0).to_virt()` equals `base_msb` exactly. -/
theorem to_virt_zero (MemConfig : MemConfiguration) (base_msb : Nat) :
    DRAMAddr.to_virt MemConfig base_msb { bank := 0, row := 0, col := 0 } = base_msb := by
  simp [DRAMAddr.to_virt, DRAMAddr.linearize, mtx_loop_zero]

/-- C6: `set_base(ptr)` stores exactly the bits of the 64-bit pointer `ptr` at positions
`>= 30`: the low 30 bits of the stored base are zero, every bit at a position `>= 30` is the
bit of `ptr`, and `set_base` of the stored base is the stored base. -/
theorem set_base_high_bits (ptr : Nat) (hptr : ptr < 2 ^ 64) :
    set_base ptr % 2 ^ 30 = 0 ∧
      (∀ i, 30 ≤ i → (set_base ptr).testBit i = ptr.testBit i) ∧
      (∀ i, i < 30 → (set_base ptr).testBit i = false) ∧
      set_base (set_base ptr) = set_base ptr := by
  have e := set_base_eq ptr
  rw [Nat.mod_eq_of_lt hptr] at e
  refine ⟨set_base_mod ptr, ?_, ?_, ?_⟩
  · intro i hi
    rw [e, Nat.testBit_mul_pow_two, ← Nat.shiftRight_eq_div_pow, Nat.testBit_shiftRight]
    have : 30 + (i - 30) = i := by omega
    simp [hi, this]
  · intro i hi
    rw [e, Nat.testBit_mul_pow_two]
    have : ¬ 30 ≤ i := by omega
    simp [this]
  · have hlt : set_base ptr < 2 ^ 64 := by
      have := Nat.div_add_mod ptr (2 ^ 30)
      omega
    rw [set_base_eq (set_base ptr), Nat.mod_eq_of_lt hlt, e, Nat.mul_div_cancel_left _ (Nat.two_pow_pos 30)]

/-- Witness of C6 at a pointer with bits on both sides of position 30. -/
theorem set_base_high_bits_witness :
    set_base 0x7f3a40020040 % 2 ^ 30 = 0 ∧
      (∀ i, 30 ≤ i → (set_base 0x7f3a40020040).testBit i = (0x7f3a40020040 : Nat).testBit i) ∧
      (∀ i, i < 30 → (set_base 0x7f3a40020040).testBit i = false) ∧
      set_base (set_base 0x7f3a40020040) = set_base 0x7f3a40020040 :=
  set_base_high_bits 0x7f3a40020040 (by decide)

/-- C7 as stated fails: there is no built-in configuration, base and virtual address outside
the region of that base for which the address constructor produces a row above `ROW_MASK` or a
col above `COL_MASK`. -/
theorem no_out_of_range_row_col :
    ¬ ∃ (key : mem_config_t) (MemConfig : MemConfiguration) (buff v : Nat),
        load_mem_config key = some MemConfig ∧ v / 2 ^ 30 ≠ buff / 2 ^ 30 ∧
          ((DRAMAddr.from_virt MemConfig v).row > MemConfig.ROW_MASK ∨
            (DRAMAddr.from_virt MemConfig v).col > MemConfig.COL_MASK) := by
  rintro ⟨key, cfg, buff, v, -, -, h⟩
  have hr : (DRAMAddr.from_virt cfg v).row ≤ cfg.ROW_MASK := Nat.and_le_right
  have hc : (DRAMAddr.from_virt cfg v).col ≤ cfg.COL_MASK := Nat.and_le_right
  omega

/-- C7, amended: the translator does not validate its input, and an address outside the
configured 1 GiB region is translated like the address of the region with the same low 30
bits: its bank, row and col are within the masks, and `to_virt` of the result is
`base_msb + v mod 2^30`, which differs from `v`. -/
theorem from_virt_outside_region (key : mem_config_t) (MemConfig : MemConfiguration)
    (hcfg : load_mem_config key = some MemConfig) (buff v : Nat)
    (hbuff : buff < 2 ^ 64) (houtside : v / 2 ^ 30 ≠ buff / 2 ^ 30) :
    (DRAMAddr.from_virt MemConfig v).bank ≤ MemConfig.BK_MASK ∧
      (DRAMAddr.from_virt MemConfig v).row ≤ MemConfig.ROW_MASK ∧
      (DRAMAddr.from_virt MemConfig v).col ≤ MemConfig.COL_MASK ∧
      DRAMAddr.to_virt MemConfig (set_base buff) (DRAMAddr.from_virt MemConfig v)
        = set_base buff + v % 2 ^ 30 ∧
      DRAMAddr.to_virt MemConfig (set_base buff) (DRAMAddr.from_virt MemConfig v) ≠ v := by
  have T := builtin_translatable key MemConfig hcfg
  have hbase : set_base buff = 2 ^ 30 * (buff / 2 ^ 30) := by
    rw [set_base_eq, Nat.mod_eq_of_lt hbuff]
  have hres : DRAMAddr.to_virt MemConfig (set_base buff) (DRAMAddr.from_virt MemConfig v)
      = set_base buff + v % 2 ^ 30 := by
    unfold DRAMAddr.to_virt
    simp only
    rw [from_virt_eq_unpack, T.pack_unpack _ (mtx_loop_lt _ _), ← mtx_loop_mod _ T.rowsD v,
      inv_of_invOnBasis _ _ T.invAD 30 (Nat.le_refl _) _ (Nat.mod_lt _ (Nat.two_pow_pos 30)),
      hbase, ← Nat.mul_add_lt_is_or (Nat.mod_lt _ (Nat.two_pow_pos 30))]
  refine ⟨Nat.and_le_right, Nat.and_le_right, Nat.and_le_right, hres, ?_⟩
  rw [hres, hbase]
  intro h
  apply houtside
  have := Nat.div_add_mod v (2 ^ 30)
  omega

/-- Witness of the amended C7: `0x80020000` lies in the region above the one of the base
`0x40000000`. -/
theorem from_virt_outside_region_witness :
    (DRAMAddr.from_virt Config_1_1_1_16 0x80020000).bank ≤ Config_1_1_1_16.BK_MASK ∧
      (DRAMAddr.from_virt Config_1_1_1_16 0x80020000).row ≤ Config_1_1_1_16.ROW_MASK ∧
      (DRAMAddr.from_virt Config_1_1_1_16 0x80020000).col ≤ Config_1_1_1_16.COL_MASK ∧
      DRAMAddr.to_virt Config_1_1_1_16 (set_base 0x40000000)
          (DRAMAddr.from_virt Config_1_1_1_16 0x80020000)
        = set_base 0x40000000 + 0x80020000 % 2 ^ 30 ∧
      DRAMAddr.to_virt Config_1_1_1_16 (set_base 0x40000000)
          (DRAMAddr.from_virt Config_1_1_1_16 0x80020000) ≠ 0x80020000 :=
  from_virt_outside_region (1, 1, 1, 16) Config_1_1_1_16 rfl 0x40000000 0x80020000
    (by decide) (by decide)

/-! ## Theorems about PatternBuilder -/

/-! ### Random index -/

theorem get_random_gaussian_lt (samples : Nat → Nat) (list : List Int) (fuel gen r g : Nat)
    (h : get_random_gaussian samples list fuel gen = some (r, g)) : r < list.length := by
  induction fuel generalizing gen with
  | zero => simp [get_random_gaussian] at h
  | succ fuel ih =>
    simp only [get_random_gaussian] at h
    split at h
    · exact ih _ h
    · simp only [Option.some.injEq, Prod.mk.injEq] at h
      omega

theorem get_random_gaussian_isSome (samples : Nat → Nat) (list : List Int) (fuel gen : Nat)
    (h : ∃ n, n < fuel ∧ samples (gen + n) < list.length) :
    ∃ r g, get_random_gaussian samples list fuel gen = some (r, g) := by
  induction fuel generalizing gen with
  | zero => obtain ⟨n, hn, -⟩ := h; omega
  | succ fuel ih =>
    simp only [get_random_gaussian]
    split
    · rename_i hge
      obtain ⟨n, hn, hs⟩ := h
      cases n with
      | zero => simp at hs; omega
      | succ n =>
        apply ih
        exact ⟨n, by omega, by rw [show gen + 1 + n = gen + (n + 1) by omega]; exact hs⟩
    · exact ⟨_, _, rfl⟩

/-! ### Aggressor IDs -/

theorem get_n_aggressors_loop_spec (max n c : Nat) :
    (get_n_aggressors_loop max n c).1.length = n ∧
      ∀ a ∈ (get_n_aggressors_loop max n c).1, 0 ≤ a.id := by
  induction n generalizing c with
  | zero => simp [get_n_aggressors_loop]
  | succ n ih =>
    obtain ⟨h1, h2⟩ := ih ((c + 1) % max)
    simp only [get_n_aggressors_loop, List.length_cons, h1, List.mem_cons, true_and]
    intro a ha
    rcases ha with rfl | ha
    · simp
    · exact h2 a ha

theorem ne_placeholder_of_nonneg (a : Aggressor) (h : 0 ≤ a.id) : a.id ≠ ID_PLACEHOLDER_AGG := by
  intro h2
  rw [h2] at h
  exact absurd h (by decide)

/-! ### Assignments -/

theorem apply_writes_cons (acc : List Aggressor) (w : Nat × Aggressor)
    (ws : List (Nat × Aggressor)) :
    apply_writes acc (w :: ws) = apply_writes (acc.set w.1 w.2) ws := rfl

theorem apply_writes_length (acc : List Aggressor) (ws : List (Nat × Aggressor)) :
    (apply_writes acc ws).length = acc.length := by
  induction ws generalizing acc with
  | nil => rfl
  | cons w ws ih => rw [apply_writes_cons, ih, List.length_set]

theorem apply_writes_getD_of_not_mem (acc : List Aggressor) (ws : List (Nat × Aggressor))
    (s : Nat) (h : ∀ w ∈ ws, w.1 ≠ s) :
    (apply_writes acc ws).getD s default = acc.getD s default := by
  induction ws generalizing acc with
  | nil => rfl
  | cons w ws ih =>
    rw [apply_writes_cons, ih _ (fun x hx => h x (List.mem_cons_of_mem _ hx))]
    have hne : w.1 ≠ s := h w (List.mem_cons_self _ _)
    simp [List.getD_eq_getElem?_getD, List.getElem?_set, hne]

theorem apply_writes_getD_of_mem (acc : List Aggressor) (ws : List (Nat × Aggressor))
    (s : Nat) (hs : s < acc.length) (h : ∃ w ∈ ws, w.1 = s) :
    ∃ w ∈ ws, w.1 = s ∧ (apply_writes acc ws).getD s default = w.2 := by
  induction ws generalizing acc with
  | nil => simp at h
  | cons w ws ih =>
    rw [apply_writes_cons]
    by_cases hlater : ∃ x ∈ ws, x.1 = s
    · obtain ⟨x, hx, hxs, hval⟩ := ih (acc.set w.1 w.2) (by rw [List.length_set]; exact hs) hlater
      exact ⟨x, List.mem_cons_of_mem _ hx, hxs, hval⟩
    · have hw : w.1 = s := by
        obtain ⟨x, hx, hxs⟩ := h
        rcases List.mem_cons.mp hx with rfl | hx
        · exact hxs
        · exact absurd ⟨x, hx, hxs⟩ hlater
      refine ⟨w, List.mem_cons_self _ _, hw, ?_⟩
      rw [apply_writes_getD_of_not_mem _ _ _ (fun x hx hxs => hlater ⟨x, hx, hxs⟩)]
      subst hw
      simp [List.getD_eq_getElem?_getD, List.getElem?_set, hs]

/-! ### The assignments of `fill_slots` -/

theorem fill_slots_aggressors_eq (idx j : Nat) (aggs : List Aggressor) (L : Nat)
    (hL : L < SIZE_MAX1) (as : List Nat) (h : ∀ a ∈ as, idx + aggs.length * j + a ≤ L) :
    fill_slots_aggressors idx j aggs L as
      = (as.map (fun a => (idx + aggs.length * j + a, aggs.getD a default)), false) := by
  induction as with
  | nil => rfl
  | cons a rest ih =>
    have ha := h a (List.mem_cons_self _ _)
    have hmod : (idx + aggs.length * j + a) % SIZE_MAX1 = idx + aggs.length * j + a :=
      Nat.mod_eq_of_lt (by omega)
    simp only [fill_slots_aggressors, hmod, List.map_cons]
    rw [if_neg (by omega), ih (fun x hx => h x (List.mem_cons_of_mem _ hx))]

theorem fill_slots_amplitude_eq (idx : Nat) (aggs : List Aggressor) (L : Nat)
    (hL : L < SIZE_MAX1) (js : List Nat)
    (h : ∀ j ∈ js, ∀ a, a < aggs.length → idx + aggs.length * j + a ≤ L) :
    fill_slots_amplitude idx aggs L js = (window_writes idx aggs js, false) := by
  induction js with
  | nil => rfl
  | cons j rest ih =>
    have hj := h j (List.mem_cons_self _ _)
    simp only [fill_slots_amplitude]
    rw [fill_slots_aggressors_eq idx j aggs L hL _
      (fun a ha => hj a (List.mem_range.mp ha))]
    simp only [Bool.false_eq_true, if_false]
    rw [ih (fun x hx => h x (List.mem_cons_of_mem _ hx))]
    simp [window_writes, List.flatMap_cons]

theorem mem_window_writes (idx : Nat) (aggs : List Aggressor) (A t : Nat) (v : Aggressor) :
    (t, v) ∈ window_writes idx aggs (List.range A) ↔
      ∃ j a, j < A ∧ a < aggs.length ∧ t = idx + aggs.length * j + a ∧ v = aggs.getD a default := by
  simp only [window_writes, List.mem_flatMap, List.mem_map, List.mem_range, Prod.mk.injEq]
  constructor
  · rintro ⟨j, hj, a, ha, h1, h2⟩
    exact ⟨j, a, hj, ha, h1.symm, h2.symm⟩
  · rintro ⟨j, a, hj, ha, h1, h2⟩
    exact ⟨j, hj, a, ha, h1.symm, h2.symm⟩

theorem fill_slots_periods_spec (P A : Nat) (aggs : List Aggressor) (L : Nat) (hP : 1 ≤ P)
    (hL : L + P < SIZE_MAX1) (fuel idx : Nat) (hfuel : L - idx < fuel)
    (hfit : ∀ i, idx + i * P < L → idx + i * P + aggs.length * A ≤ L) :
    ∃ ws, fill_slots_periods P A aggs L fuel idx = some ws ∧
      ∀ t v, (t, v) ∈ ws ↔ ∃ i j a, idx + i * P < L ∧ j < A ∧ a < aggs.length ∧
        t = idx + i * P + aggs.length * j + a ∧ v = aggs.getD a default := by
  induction fuel generalizing idx with
  | zero => omega
  | succ fuel ih =>
    simp only [fill_slots_periods]
    by_cases hidx : idx < L
    · rw [if_pos hidx]
      have h0 := hfit 0 (by simpa using hidx)
      rw [fill_slots_amplitude_eq idx aggs L (by omega) _ (by
        intro j hj a ha
        have hj' := List.mem_range.mp hj
        have : aggs.length * j + aggs.length ≤ aggs.length * A := by
          rw [← Nat.mul_succ]; exact Nat.mul_le_mul_left _ hj'
        omega)]
      simp only [Bool.false_eq_true, if_false]
      rw [Nat.mod_eq_of_lt (by omega)]
      obtain ⟨ws, hws, hmem⟩ := ih (idx + P) (by omega) (by
        intro i hi
        have := hfit (i + 1) (by rw [Nat.succ_mul]; omega)
        rw [Nat.succ_mul] at this
        omega)
      rw [hws]
      refine ⟨_, rfl, ?_⟩
      intro t v
      rw [List.mem_append, mem_window_writes, hmem]
      constructor
      · rintro (⟨j, a, hj, ha, ht, hv⟩ | ⟨i, j, a, hi, hj, ha, ht, hv⟩)
        · exact ⟨0, j, a, by simpa using hidx, hj, ha, by simpa using ht, hv⟩
        · exact ⟨i + 1, j, a, by rw [Nat.succ_mul]; omega, hj, ha, by rw [Nat.succ_mul]; omega, hv⟩
      · rintro ⟨i, j, a, hi, hj, ha, ht, hv⟩
        cases i with
        | zero => exact Or.inl ⟨j, a, hj, ha, by simpa using ht, hv⟩
        | succ i =>
          rw [Nat.succ_mul] at hi ht
          exact Or.inr ⟨i, j, a, by omega, hj, ha, by omega, hv⟩
    · rw [if_neg hidx]
      refine ⟨[], rfl, ?_⟩
      intro t v
      simp only [List.not_mem_nil, false_iff]
      rintro ⟨i, j, a, hi, -⟩
      have : idx ≤ idx + i * P := Nat.le_add_right _ _
      omega

/-! ### Arithmetic of slots: slot `q * bp + r` is position `r` of base period `q` -/

theorem slot_unique (bp q r q' r' : Nat) (hr : r < bp) (hr' : r' < bp)
    (h : q * bp + r = q' * bp + r') : q = q' ∧ r = r' := by
  have hbp : 0 < bp := by omega
  have h1 : (q * bp + r) / bp = q := by
    rw [Nat.mul_comm, Nat.mul_add_div hbp, Nat.div_eq_of_lt hr, Nat.add_zero]
  have h2 : (q' * bp + r') / bp = q' := by
    rw [Nat.mul_comm, Nat.mul_add_div hbp, Nat.div_eq_of_lt hr', Nat.add_zero]
  have hq : q = q' := by rw [← h1, ← h2, h]
  subst hq
  exact ⟨rfl, by omega⟩

theorem slot_lt_iff (bp nbp q r : Nat) (hr : r < bp) : q * bp + r < nbp * bp ↔ q < nbp := by
  constructor
  · intro h
    by_contra hq
    have : nbp * bp ≤ q * bp := Nat.mul_le_mul_right _ (by omega)
    omega
  · intro h
    have : (q + 1) * bp ≤ nbp * bp := Nat.mul_le_mul_right _ (by omega)
    rw [Nat.succ_mul] at this
    omega

theorem slot_mod (bp nbp k i : Nat) (hk : k < bp) (hn : 0 < nbp) :
    (k + i * bp) % (nbp * bp) = (i % nbp) * bp + k := by
  have hi : i = nbp * (i / nbp) + i % nbp := (Nat.div_add_mod i nbp).symm
  have hlt : (i % nbp) * bp + k < nbp * bp :=
    (slot_lt_iff bp nbp _ k hk).mpr (Nat.mod_lt _ hn)
  have e : k + i * bp = (i % nbp) * bp + k + (nbp * bp) * (i / nbp) := by
    conv_lhs => rw [hi]
    ring
  rw [e, Nat.add_mul_mod_self_left, Nat.mod_eq_of_lt hlt]

/-! ### `all_slots_full` -/

theorem all_slots_full_loop_spec (offset period L : Nat) (aggs : List Aggressor) (n s : Nat) :
    (all_slots_full_loop offset period L aggs (List.range' s n) = -1 ∧
      ∀ i, s ≤ i → i < s + n → Filled aggs (((offset + i * period) % SIZE_MAX1) % L)) ∨
    (∃ i0, s ≤ i0 ∧ i0 < s + n ∧
      all_slots_full_loop offset period L aggs (List.range' s n)
        = (((((offset + i0 * period) % SIZE_MAX1) % L : Nat)) : Int) ∧
      ¬ Filled aggs (((offset + i0 * period) % SIZE_MAX1) % L) ∧
      ∀ i, s ≤ i → i < i0 → Filled aggs (((offset + i * period) % SIZE_MAX1) % L)) := by
  induction n generalizing s with
  | zero =>
    left
    refine ⟨rfl, ?_⟩
    intro i h1 h2
    omega
  | succ n ih =>
    rw [List.range'_succ]
    simp only [all_slots_full_loop]
    by_cases hs : (aggs.getD (((offset + s * period) % SIZE_MAX1) % L) default).id
        = ID_PLACEHOLDER_AGG
    · right
      rw [if_pos hs]
      refine ⟨s, Nat.le_refl _, by omega, rfl, ?_, ?_⟩
      · intro hf; exact hf hs
      · intro i h1 h2; omega
    · rw [if_neg hs]
      rcases ih (s + 1) with ⟨h1, h2⟩ | ⟨i0, h1, h2, h3, h4, h5⟩
      · left
        refine ⟨h1, ?_⟩
        intro i hi1 hi2
        by_cases hi : i = s
        · subst hi; exact hs
        · exact h2 i (by omega) (by omega)
      · right
        refine ⟨i0, by omega, by omega, h3, h4, ?_⟩
        intro i hi1 hi2
        by_cases hi : i = s
        · subst hi; exact hs
        · exact h5 i (by omega) hi2

theorem all_slots_full_spec (nbp bp k : Nat) (hk : k < bp) (hL : nbp * bp < 2 ^ 31)
    (aggs : List Aggressor) (hlen : aggs.length = nbp * bp) :
    (all_slots_full k bp (nbp * bp) aggs = -1 ∧ ∀ q, q < nbp → Filled aggs (q * bp + k)) ∨
    (∃ q0, q0 < nbp ∧ all_slots_full k bp (nbp * bp) aggs = ((q0 * bp + k : Nat) : Int) ∧
      ¬ Filled aggs (q0 * bp + k) ∧ ∀ q, q < q0 → Filled aggs (q * bp + k)) := by
  have hidx : ∀ i, i < nbp * bp →
      ((k + i * bp) % SIZE_MAX1) % (nbp * bp) = (i % nbp) * bp + k := by
    intro i hi
    have hn : 0 < nbp := by
      rcases Nat.eq_zero_or_pos nbp with h | h
      · subst h; simp at hi
      · exact h
    have hbp : bp ≤ nbp * bp := Nat.le_mul_of_pos_left _ hn
    have h1 : i * bp < 2 ^ 31 * 2 ^ 31 := Nat.mul_lt_mul'' (by omega) (by omega)
    have hsm : (k + i * bp) % SIZE_MAX1 = k + i * bp :=
      Nat.mod_eq_of_lt (by unfold SIZE_MAX1; omega)
    rw [hsm, slot_mod bp nbp k i hk hn]
  have hq : ∀ q, q < nbp → q < nbp * bp ∧ q % nbp = q := by
    intro q hq
    have : nbp * 1 ≤ nbp * bp := Nat.mul_le_mul_left _ (by omega)
    exact ⟨by omega, Nat.mod_eq_of_lt hq⟩
  unfold all_slots_full
  rw [hlen, List.range_eq_range']
  rcases all_slots_full_loop_spec k bp (nbp * bp) aggs (nbp * bp) 0 with
    ⟨h1, h2⟩ | ⟨i0, -, h2, h3, h4, h5⟩
  · left
    refine ⟨h1, ?_⟩
    intro q hq'
    have := h2 q (Nat.zero_le _) (by have := (hq q hq').1; omega)
    rw [hidx q (hq q hq').1, (hq q hq').2] at this
    exact this
  · right
    have hi0 : i0 < nbp * bp := by omega
    rw [hidx i0 hi0] at h3 h4
    have hn : 0 < nbp := by
      rcases Nat.eq_zero_or_pos nbp with h | h
      · subst h; simp at hi0
      · exact h
    have hlt : i0 < nbp := by
      by_contra hge
      have hm : i0 % nbp < nbp := Nat.mod_lt _ hn
      have := h5 (i0 % nbp) (Nat.zero_le _) (by omega)
      rw [hidx _ (hq _ hm).1, (hq _ hm).2] at this
      exact h4 this
    rw [Nat.mod_eq_of_lt hlt] at h3 h4
    refine ⟨i0, hlt, h3, h4, ?_⟩
    intro q hq'
    have := h5 q (Nat.zero_le _) hq'
    rw [hidx q (hq q (by omega)).1, (hq q (by omega)).2] at this
    exact this

/-! ### Which slots a fill assigns -/

theorem mul_add_lt_mul (N A j a : Nat) (hj : j < A) (ha : a < N) : N * j + a < N * A := by
  have : N * (j + 1) ≤ N * A := Nat.mul_le_mul_left _ hj
  rw [Nat.mul_succ] at this
  omega

theorem window_slot_iff (bp nbp k N A q0 m q r : Nat) (hW : k + N * A ≤ bp) (hq : q < nbp)
    (hr : r < bp) :
    (∃ i j a, (q0 * bp + k) + i * (bp * m) < nbp * bp ∧ j < A ∧ a < N ∧
        q * bp + r = (q0 * bp + k) + i * (bp * m) + N * j + a) ↔
      (k ≤ r ∧ r < k + N * A ∧ ∃ i, q = q0 + i * m) := by
  constructor
  · rintro ⟨i, j, a, -, hj, ha, hs⟩
    have hlt := mul_add_lt_mul N A j a hj ha
    have e : (q0 * bp + k) + i * (bp * m) + N * j + a = (q0 + i * m) * bp + (k + N * j + a) := by
      ring
    rw [e] at hs
    obtain ⟨h1, h2⟩ := slot_unique bp q r (q0 + i * m) (k + N * j + a) hr (by omega) hs
    exact ⟨by omega, by omega, i, h1⟩
  · rintro ⟨h1, h2, i, hi⟩
    have hN : 0 < N := by
      rcases Nat.eq_zero_or_pos N with h | h
      · subst h; simp at h2; omega
      · exact h
    refine ⟨i, (r - k) / N, (r - k) % N, ?_, ?_, Nat.mod_lt _ hN, ?_⟩
    · have e : (q0 * bp + k) + i * (bp * m) = (q0 + i * m) * bp + k := by ring
      rw [e, ← hi]
      exact (slot_lt_iff bp nbp q k (by omega)).mpr hq
    · rw [Nat.div_lt_iff_lt_mul hN, Nat.mul_comm]; omega
    · have e : (q0 * bp + k) + i * (bp * m) = (q0 + i * m) * bp + k := by ring
      have := Nat.div_add_mod (r - k) N
      rw [e, ← hi]
      omega

theorem filled_apply_writes (aggs : List Aggressor) (ws : List (Nat × Aggressor)) (s : Nat)
    (hs : s < aggs.length) (hv : ∀ w ∈ ws, w.2.id ≠ ID_PLACEHOLDER_AGG) :
    Filled (apply_writes aggs ws) s ↔ (Filled aggs s ∨ ∃ w ∈ ws, w.1 = s) := by
  by_cases hw : ∃ w ∈ ws, w.1 = s
  · obtain ⟨w, hw1, -, hw3⟩ := apply_writes_getD_of_mem aggs ws s hs hw
    unfold Filled
    rw [hw3]
    exact ⟨fun _ => Or.inr hw, fun _ => hv w hw1⟩
  · unfold Filled
    rw [apply_writes_getD_of_not_mem aggs ws s (fun w hw1 hw2 => hw ⟨w, hw1, hw2⟩)]
    exact ⟨fun h => Or.inl h, fun h => h.resolve_right hw⟩

/-! ### The multipliers -/

theorem allowed_multiplicators_loop_mem (nbp fuel i : Nat) (x : Int)
    (hx : x ∈ allowed_multiplicators_loop nbp fuel i) :
    ∃ e : Nat, x = ((2 ^ e : Nat) : Int) ∧ 2 ^ e ≤ nbp := by
  induction fuel generalizing i with
  | zero => simp [allowed_multiplicators_loop] at hx
  | succ fuel ih =>
    simp only [allowed_multiplicators_loop] at hx
    split at hx
    · rcases List.mem_cons.mp hx with rfl | hx
      · exact ⟨i, rfl, by assumption⟩
      · exact ih _ hx
    · simp at hx

theorem allowed_multiplicators_ok (nbp : Nat) (hn : 1 ≤ nbp) :
    MultsOK nbp 1 (allowed_multiplicators nbp) := by
  constructor
  · unfold allowed_multiplicators
    simp only [allowed_multiplicators_loop]
    rw [if_pos (by simpa using hn)]
    simp
  · intro x hx
    obtain ⟨e, h1, h2⟩ := allowed_multiplicators_loop_mem nbp _ _ x hx
    exact ⟨e, h1, Nat.one_dvd _, h2⟩

theorem remove_smaller_than_ok (nbp μ : Nat) (mults : List Int) (h : MultsOK nbp μ mults)
    (r : Nat) (hr : r < mults.length) :
    ∃ e : Nat, mults.get? r = some ((2 ^ e : Nat) : Int) ∧ μ ∣ 2 ^ e ∧ 2 ^ e ≤ nbp ∧
      MultsOK nbp (2 ^ e) (remove_smaller_than mults ((2 ^ e : Nat) : Int)) := by
  have hmem : mults[r] ∈ mults := List.getElem_mem hr
  obtain ⟨e, he, hd, hle⟩ := h.2 _ hmem
  refine ⟨e, ?_, hd, hle, ?_, ?_⟩
  · rw [List.get?_eq_getElem?, List.getElem?_eq_getElem hr, he]
  · intro hnil
    have : mults[r] ∈ remove_smaller_than mults ((2 ^ e : Nat) : Int) := by
      unfold remove_smaller_than
      rw [List.mem_filter]
      refine ⟨hmem, ?_⟩
      rw [he]
      simp
    rw [hnil] at this
    simp at this
  · intro x hx
    unfold remove_smaller_than at hx
    rw [List.mem_filter] at hx
    obtain ⟨hx1, hx2⟩ := hx
    obtain ⟨e', he', -, hle'⟩ := h.2 x hx1
    refine ⟨e', he', ?_, hle'⟩
    rw [he'] at hx2
    have h3 : 2 ^ e ≤ 2 ^ e' := by
      have hx3 : ¬ (((2 ^ e' : Nat) : Int) < ((2 ^ e : Nat) : Int)) := by simpa using hx2
      have hx4 : ((2 ^ e : Nat) : Int) ≤ ((2 ^ e' : Nat) : Int) := Int.not_lt.mp hx3
      exact Int.ofNat_le.mp hx4
    exact Nat.pow_dvd_pow 2 ((Nat.pow_le_pow_iff_right (by omega)).mp h3)

/-! ### One fill -/

theorem draw_and_fill_spec (fp : FuzzingParameterSet) (nbp : Nat) (G : GoodParams fp nbp)
    (samples : Nat → Nat) (T fuel : Nat) (hs : SamplesAccepted samples T) (hT : T ≤ fuel)
    (hfuel : fp.get_total_acts_pattern < fuel) (k N A q0 μ : Nat) (mults : List Int)
    (pb : PatternBuilder) (hk : k < fp.get_base_period) (hW : k + N * A ≤ fp.get_base_period)
    (hm : MultsOK nbp μ mults)
    (hlen : pb.pattern.aggressors.length = fp.get_total_acts_pattern) :
    ∃ (e : Nat) (mults' : List Int) (pb' : PatternBuilder) (rec : FillRecord),
      draw_and_fill fp samples fuel N A (q0 * fp.get_base_period + k) mults pb
        = some (mults', pb') ∧
      μ ∣ 2 ^ e ∧ MultsOK nbp (2 ^ e) mults' ∧
      pb'.pattern.aggressors.length = fp.get_total_acts_pattern ∧
      (∀ q r, q < nbp → r < fp.get_base_period →
        (Filled pb'.pattern.aggressors (q * fp.get_base_period + r) ↔
          (Filled pb.pattern.aggressors (q * fp.get_base_period + r) ∨
            (k ≤ r ∧ r < k + N * A ∧ ∃ i, q = q0 + i * 2 ^ e)))) ∧
      pb'.fills = pb.fills ++ [rec] ∧ rec.before = pb.pattern.aggressors ∧
      pb'.pattern.agg_access_patterns = pb.pattern.agg_access_patterns ++ [rec.access_pattern] ∧
      fill_slots_writes rec.access_pattern.offset rec.access_pattern.period
        rec.access_pattern.amplitude rec.access_pattern.aggressors fp.get_total_acts_pattern fuel
          = some rec.writes ∧
      (∀ w ∈ rec.writes, ∃ q r, q < nbp ∧ k ≤ r ∧ r < k + N * A ∧ (∃ i, q = q0 + i * 2 ^ e) ∧
        w.1 = q * fp.get_base_period + r) := by
  obtain ⟨hL, hbp, hnbp, hint, -⟩ := G
  have hmlen : 0 < mults.length := List.length_pos.mpr hm.1
  obtain ⟨n, hn1, hn2⟩ := hs pb.gen mults.length hmlen
  obtain ⟨r, g, hg⟩ := get_random_gaussian_isSome samples mults fuel pb.gen ⟨n, by omega, hn2⟩
  have hr := get_random_gaussian_lt samples mults fuel pb.gen r g hg
  obtain ⟨e, he, hd, hle, hm'⟩ := remove_smaller_than_ok nbp μ mults hm r hr
  have hP : fp.get_base_period * 2 ^ e ≤ fp.get_total_acts_pattern := by
    rw [hL, Nat.mul_comm]; exact Nat.mul_le_mul_right _ hle
  have hPpos : 1 ≤ fp.get_base_period * 2 ^ e := Nat.mul_pos hbp (Nat.two_pow_pos e)
  have hPmod : (fp.get_base_period * 2 ^ e) % SIZE_MAX1 = fp.get_base_period * 2 ^ e :=
    Nat.mod_eq_of_lt (by unfold SIZE_MAX1; omega)
  obtain ⟨hlenA, hidA⟩ := get_n_aggressors_loop_spec fp.get_num_aggressors N pb.aggressor_id_counter
  obtain ⟨ws, hws, hmem⟩ := fill_slots_periods_spec (fp.get_base_period * 2 ^ e) A
    (get_n_aggressors N fp.get_num_aggressors pb.aggressor_id_counter).1
    fp.get_total_acts_pattern hPpos (by unfold SIZE_MAX1; omega) fuel
    (q0 * fp.get_base_period + k) (by omega) (by
      intro i hi
      have e1 : q0 * fp.get_base_period + k + i * (fp.get_base_period * 2 ^ e)
          = (q0 + i * 2 ^ e) * fp.get_base_period + k := by ring
      rw [e1, hL] at hi
      have hq := (slot_lt_iff fp.get_base_period nbp _ k (by omega)).mp hi
      have h2 : (q0 + i * 2 ^ e + 1) * fp.get_base_period ≤ nbp * fp.get_base_period :=
        Nat.mul_le_mul_right _ hq
      rw [Nat.succ_mul] at h2
      rw [e1, hL]
      have : (get_n_aggressors N fp.get_num_aggressors pb.aggressor_id_counter).1.length = N :=
        hlenA
      rw [this]
      omega)
  have hlenA' : (get_n_aggressors N fp.get_num_aggressors pb.aggressor_id_counter).1.length = N :=
    hlenA
  rw [hlenA'] at hmem
  have hval : ∀ w ∈ ws, w.2.id ≠ ID_PLACEHOLDER_AGG := by
    intro w hw
    obtain ⟨i, j, a, -, -, ha, -, hv⟩ := (hmem w.1 w.2).mp hw
    rw [hv, List.getD_eq_getElem _ _ (by rw [hlenA']; exact ha)]
    exact ne_placeholder_of_nonneg _ (hidA _ (List.getElem_mem _))
  have hwritten : ∀ q r, q < nbp → r < fp.get_base_period →
      ((∃ w ∈ ws, w.1 = q * fp.get_base_period + r) ↔
        (k ≤ r ∧ r < k + N * A ∧ ∃ i, q = q0 + i * 2 ^ e)) := by
    intro q r hq hr
    rw [← window_slot_iff fp.get_base_period nbp k N A q0 (2 ^ e) q r hW hq hr, ← hL]
    constructor
    · rintro ⟨w, hw, hw1⟩
      obtain ⟨i, j, a, h1, h2, h3, h4, -⟩ := (hmem w.1 w.2).mp hw
      exact ⟨i, j, a, h1, h2, h3, by rw [← hw1]; exact h4⟩
    · rintro ⟨i, j, a, h1, h2, h3, h4⟩
      exact ⟨(q * fp.get_base_period + r, _), (hmem _ _).mpr ⟨i, j, a, h1, h2, h3, h4, rfl⟩, rfl⟩
  have hrun : draw_and_fill fp samples fuel N A (q0 * fp.get_base_period + k) mults pb
      = some (remove_smaller_than mults ((2 ^ e : Nat) : Int),
          { pattern :=
              { aggressors := apply_writes pb.pattern.aggressors ws
                agg_access_patterns := pb.pattern.agg_access_patterns ++
                  [{ period := fp.get_base_period * 2 ^ e, amplitude := A,
                     aggressors :=
                       (get_n_aggressors N fp.get_num_aggressors pb.aggressor_id_counter).1,
                     offset := q0 * fp.get_base_period + k }]
                max_period := pb.pattern.max_period }
            aggressor_id_counter :=
              (get_n_aggressors N fp.get_num_aggressors pb.aggressor_id_counter).2
            gen := g
            fills := pb.fills ++
              [{ access_pattern :=
                   { period := fp.get_base_period * 2 ^ e, amplitude := A,
                     aggressors :=
                       (get_n_aggressors N fp.get_num_aggressors pb.aggressor_id_counter).1,
                     offset := q0 * fp.get_base_period + k },
                 before := pb.pattern.aggressors, writes := ws }] }) := by
    unfold draw_and_fill
    rw [hg]
    simp only [he, Int.toNat_ofNat, hPmod]
    unfold fill_slots_writes
    rw [hws]
  refine ⟨e, _, _, _, hrun, hd, hm', ?_, ?_, rfl, rfl, rfl, hws, ?_⟩
  · simp only [apply_writes_length, hlen]
  · intro q r hq hr
    have hslot : q * fp.get_base_period + r < pb.pattern.aggressors.length := by
      rw [hlen, hL]; exact (slot_lt_iff _ _ _ _ hr).mpr hq
    simp only
    rw [filled_apply_writes _ _ _ hslot hval, hwritten q r hq hr]
  · intro w hw
    simp only at hw
    obtain ⟨i, j, a, h1, h2, h3, h4, -⟩ := (hmem w.1 w.2).mp hw
    have hlt := mul_add_lt_mul N A j a h2 h3
    refine ⟨q0 + i * 2 ^ e, k + N * j + a, ?_, by omega, by omega, ⟨i, rfl⟩, ?_⟩
    · have e1 : q0 * fp.get_base_period + k + i * (fp.get_base_period * 2 ^ e)
          = (q0 + i * 2 ^ e) * fp.get_base_period + k := by ring
      rw [e1, hL] at h1
      exact (slot_lt_iff fp.get_base_period nbp _ k (by omega)).mp h1
    · rw [h4]; ring

/-! ### The invariant of the fills for one start slot -/

theorem exists_mul_of_mod_eq (m q0 q : Nat) (hle : q0 ≤ q) (h : q % m = q0 % m) :
    ∃ i, q = q0 + i * m := by
  have h0 : (q - q0) % m = 0 := Nat.sub_mod_eq_zero_of_mod_eq h
  have := Nat.div_add_mod (q - q0) m
  refine ⟨(q - q0) / m, ?_⟩
  rw [Nat.mul_comm]
  omega

theorem fill_step (fp : FuzzingParameterSet) (nbp : Nat) (G : GoodParams fp nbp)
    (samples : Nat → Nat) (T fuel : Nat) (hs : SamplesAccepted samples T) (hT : T ≤ fuel)
    (hfuel : fp.get_total_acts_pattern < fuel) (init : List AggressorAccessPattern)
    (k N A lo μ q0 : Nat) (mults : List Int) (pb : PatternBuilder)
    (hk : k < fp.get_base_period) (hW1 : 1 ≤ N * A) (hW : k + N * A ≤ fp.get_base_period)
    (I : RefillInv fp nbp fuel init k (N * A) lo μ mults pb) (hq0 : q0 < nbp)
    (hmin : ∀ q, q < q0 → Filled pb.pattern.aggressors (q * fp.get_base_period + k))
    (hempty : ¬ Filled pb.pattern.aggressors (q0 * fp.get_base_period + k)) :
    ∃ (e : Nat) (mults' : List Int) (pb' : PatternBuilder),
      draw_and_fill fp samples fuel N A (q0 * fp.get_base_period + k) mults pb
        = some (mults', pb') ∧
      RefillInv fp nbp fuel init k (N * A) (q0 + 1) (2 ^ e) mults' pb' := by
  obtain ⟨e, mults', pb', rec, hrun, hd, hm', hlen', hfilled, hfills, hbefore, haps, hreplay,
      hwrites⟩ :=
    draw_and_fill_spec fp nbp G samples T fuel hs hT hfuel k N A q0 μ mults pb hk hW
      I.mults_ok I.len
  have hk' : ∀ q, q < nbp →
      (Filled pb'.pattern.aggressors (q * fp.get_base_period + k) ↔
        (Filled pb.pattern.aggressors (q * fp.get_base_period + k) ∨ ∃ i, q = q0 + i * 2 ^ e)) := by
    intro q hq
    rw [hfilled q k hq hk]
    constructor
    · rintro (h | ⟨-, -, h⟩)
      · exact Or.inl h
      · exact Or.inr h
    · rintro (h | h)
      · exact Or.inl h
      · exact Or.inr ⟨Nat.le_refl _, by omega, h⟩
  have hmodμ : ∀ q i, q = q0 + i * 2 ^ e → q % μ = q0 % μ := by
    intro q i hq
    obtain ⟨c, hc⟩ := hd
    have e1 : q0 + i * (μ * c) = q0 + μ * (i * c) := by ring
    rw [hq, hc, e1]
    exact Nat.add_mul_mod_self_left _ _ _
  refine ⟨e, mults', pb', hrun, ⟨hm', hlen', ?_, ?_, ?_, ?_, ?_⟩⟩
  · intro q r hq hr
    rw [hfilled q r hq hr, hk' q hq, I.mid q r hq hr]
    by_cases hrk : r < k
    · exact ⟨fun _ => Or.inl hrk, fun _ => Or.inl (Or.inl hrk)⟩
    · constructor
      · rintro ((h | ⟨h1, h2⟩) | ⟨-, h1, h2⟩)
        · exact absurd h hrk
        · exact Or.inr ⟨h1, Or.inl h2⟩
        · exact Or.inr ⟨h1, Or.inr h2⟩
      · rintro (h | ⟨h1, h2 | h2⟩)
        · exact absurd h hrk
        · exact Or.inl (Or.inr ⟨h1, h2⟩)
        · exact Or.inr ⟨by omega, h1, h2⟩
  · intro q hq
    have hqn : q < nbp := by omega
    rw [hk' q hqn]
    by_cases hqq : q < q0
    · exact Or.inl (hmin q hqq)
    · exact Or.inr ⟨0, by omega⟩
  · intro q q' hq hq' hmod hf
    rw [hk' q' hq']
    rw [hk' q hq] at hf
    rcases hf with hf | ⟨i, hi⟩
    · left
      refine I.periodic q q' hq hq' ?_ hf
      rw [← Nat.mod_mod_of_dvd q hd, ← Nat.mod_mod_of_dvd q' hd, hmod]
    · by_cases hqq : q' < q0
      · exact Or.inl (hmin q' hqq)
      · right
        apply exists_mul_of_mod_eq (2 ^ e) q0 q' (by omega)
        rw [← hmod, hi]
        exact Nat.add_mul_mod_self_right _ _ _
  · intro f hf
    rw [hfills, List.mem_append, List.mem_singleton] at hf
    rcases hf with hf | rfl
    · exact I.fresh f hf
    · refine ⟨hreplay, ?_⟩
      intro w hw
      obtain ⟨q, r, hq, hr1, hr2, ⟨i, hi⟩, hwq⟩ := hwrites w hw
      have hr : r < fp.get_base_period := by omega
      refine ⟨?_, ?_⟩
      · rw [hwq, G.total]
        exact (slot_lt_iff _ _ _ _ hr).mpr hq
      · rw [hbefore, hwq]
        by_contra hne
        have hF : Filled pb.pattern.aggressors (q * fp.get_base_period + r) := hne
        rw [I.mid q r hq hr] at hF
        rcases hF with hF | ⟨-, hF⟩
        · omega
        · exact hempty (I.periodic q q0 hq hq0 (hmodμ q i hi) hF)
  · unfold FillsLinked
    rw [haps, hfills, I.linked, List.map_append, List.append_assoc]
    rfl

theorem refill_loop_spec (fp : FuzzingParameterSet) (nbp : Nat) (G : GoodParams fp nbp)
    (samples : Nat → Nat) (T fuel : Nat) (hs : SamplesAccepted samples T) (hT : T ≤ fuel)
    (hfuel : fp.get_total_acts_pattern < fuel) (init : List AggressorAccessPattern)
    (k N A : Nat) (hk : k < fp.get_base_period) (hW1 : 1 ≤ N * A)
    (hW : k + N * A ≤ fp.get_base_period) (rounds : Nat) :
    ∀ (lo μ : Nat) (mults : List Int) (pb : PatternBuilder), nbp - lo < rounds →
      RefillInv fp nbp fuel init k (N * A) lo μ mults pb →
      ∃ pb', refill_loop fp samples fuel k N A rounds mults pb = some pb' ∧
        OuterInv fp nbp fuel init (k + N * A) pb' := by
  induction rounds with
  | zero => intro lo μ mults pb h; omega
  | succ rounds ih =>
    intro lo μ mults pb hrounds I
    have hspec := all_slots_full_spec nbp fp.get_base_period k hk
      (by rw [← G.total]; exact G.int_range) pb.pattern.aggressors (by rw [I.len, G.total])
    rw [← G.total] at hspec
    simp only [refill_loop]
    rcases hspec with ⟨hfull, hall⟩ | ⟨q0, hq0, hslot, hempty, hmin⟩
    · rw [if_pos hfull]
      refine ⟨pb, rfl, ⟨I.len, ?_, I.fresh, I.linked⟩⟩
      intro q r hq hr
      rw [I.mid q r hq hr]
      constructor
      · rintro (h | ⟨h, -⟩) <;> omega
      · intro h
        by_cases hrk : r < k
        · exact Or.inl hrk
        · exact Or.inr ⟨h, hall q hq⟩
    · have hne : all_slots_full k fp.get_base_period fp.get_total_acts_pattern
          pb.pattern.aggressors ≠ -1 := by
        rw [hslot]; omega
      rw [if_neg hne, hslot, Int.toNat_ofNat]
      have hlo : lo ≤ q0 := by
        by_contra hlt
        exact hempty (I.low q0 (by omega))
      obtain ⟨e, mults', pb1, hrun, I1⟩ := fill_step fp nbp G samples T fuel hs hT hfuel init
        k N A lo μ q0 mults pb hk hW1 hW I hq0 hmin hempty
      rw [hrun]
      exact ih (q0 + 1) (2 ^ e) mults' pb1 (by omega) I1

theorem generate_slot_spec (fp : FuzzingParameterSet) (nbp : Nat) (G : GoodParams fp nbp)
    (D : GoodDraws fp) (samples : Nat → Nat) (T fuel : Nat) (hs : SamplesAccepted samples T)
    (hT : T ≤ fuel) (hfuel : fp.get_total_acts_pattern < fuel)
    (init : List AggressorAccessPattern) (k b : Nat) (pb : PatternBuilder)
    (hk : k < fp.get_base_period) (hkb : k ≤ b) (hb : b ≤ fp.get_base_period)
    (I : OuterInv fp nbp fuel init b pb) :
    ∃ pb' b', generate_slot fp samples fuel (allowed_multiplicators nbp) pb k = some pb' ∧
      k + 1 ≤ b' ∧ b' ≤ fp.get_base_period ∧ OuterInv fp nbp fuel init b' pb' := by
  have h0 := I.filled_iff 0 k G.periods hk
  rw [Nat.zero_mul, Nat.zero_add] at h0
  unfold generate_slot
  simp only
  by_cases hf : Filled pb.pattern.aggressors k
  · have hf' : (pb.pattern.aggressors.getD k default).id ≠ ID_PLACEHOLDER_AGG := hf
    rw [if_pos hf']
    exact ⟨pb, b, rfl, by have := h0.mp hf; omega, hb, I⟩
  · have hf' : ¬ (pb.pattern.aggressors.getD k default).id ≠ ID_PLACEHOLDER_AGG := hf
    rw [if_neg hf']
    have hbk : b = k := by
      by_contra hne
      exact hf (h0.mpr (by omega))
    subst hbk
    obtain ⟨N, hNdef⟩ : ∃ N, N = (if fp.get_base_period - b = 1 then 1
        else fp.get_random_N_sided b (fp.get_base_period - b)) := ⟨_, rfl⟩
    have hN : 1 ≤ N ∧ N ≤ fp.get_base_period - b := by
      rw [hNdef]
      split
      · omega
      · exact D.1 b hk
    obtain ⟨A, hAdef⟩ : ∃ A, A = fp.get_random_amplitude b ((fp.get_base_period - b) / N) :=
      ⟨_, rfl⟩
    have hA : 1 ≤ A ∧ A ≤ (fp.get_base_period - b) / N := by
      rw [hAdef]; exact D.2 b N hk hN.1 hN.2
    have hNA : N * A ≤ fp.get_base_period - b := by
      have h1 : N * A ≤ N * ((fp.get_base_period - b) / N) := Nat.mul_le_mul_left _ hA.2
      have h2 : N * ((fp.get_base_period - b) / N) ≤ fp.get_base_period - b :=
        Nat.mul_div_le _ _
      omega
    have hW1 : 1 ≤ N * A := Nat.mul_pos hN.1 hA.1
    have hW : b + N * A ≤ fp.get_base_period := by omega
    rw [← hNdef, ← hAdef]
    have I0 : RefillInv fp nbp fuel init b (N * A) 0 1 (allowed_multiplicators nbp) pb := by
      refine ⟨allowed_multiplicators_ok nbp G.periods, I.len, ?_, ?_, ?_, I.fresh, I.linked⟩
      · intro q r hq hr
        rw [I.filled_iff q r hq hr, I.filled_iff q b hq hk]
        constructor
        · intro h; exact Or.inl h
        · rintro (h | ⟨-, h⟩) <;> omega
      · intro q hq; omega
      · intro q q' hq hq' _ hF
        rw [I.filled_iff q b hq hk] at hF
        omega
    have hempty : ¬ Filled pb.pattern.aggressors (0 * fp.get_base_period + b) := by
      rw [Nat.zero_mul, Nat.zero_add]; exact hf
    obtain ⟨e, mults', pb1, hrun, I1⟩ := fill_step fp nbp G samples T fuel hs hT hfuel init
      b N A 0 1 0 (allowed_multiplicators nbp) pb hk hW1 hW I0 G.periods
      (fun q hq => by omega) hempty
    rw [Nat.zero_mul, Nat.zero_add] at hrun
    rw [hrun]
    simp only
    have hnbp : nbp ≤ fp.get_total_acts_pattern := by
      rw [G.total]; exact Nat.le_mul_of_pos_right _ G.base
    obtain ⟨pb', hrun', I'⟩ := refill_loop_spec fp nbp G samples T fuel hs hT hfuel init b N A
      hk hW1 hW fuel (0 + 1) (2 ^ e) mults' pb1 (by omega) I1
    exact ⟨pb', b + N * A, hrun', by omega, hW, I'⟩

theorem generate_slots_spec (fp : FuzzingParameterSet) (nbp : Nat) (G : GoodParams fp nbp)
    (D : GoodDraws fp) (samples : Nat → Nat) (T fuel : Nat) (hs : SamplesAccepted samples T)
    (hT : T ≤ fuel) (hfuel : fp.get_total_acts_pattern < fuel)
    (init : List AggressorAccessPattern) (n : Nat) :
    ∀ (k b : Nat) (pb : PatternBuilder), k + n = fp.get_base_period → k ≤ b →
      b ≤ fp.get_base_period → OuterInv fp nbp fuel init b pb →
      ∃ pb', generate_slots fp samples fuel (allowed_multiplicators nbp) (List.range' k n) pb
          = some pb' ∧ OuterInv fp nbp fuel init fp.get_base_period pb' := by
  induction n with
  | zero =>
    intro k b pb hkn hkb hb I
    have : b = fp.get_base_period := by omega
    subst this
    exact ⟨pb, rfl, I⟩
  | succ n ih =>
    intro k b pb hkn hkb hb I
    obtain ⟨pb1, b1, hrun, h1, h2, I1⟩ := generate_slot_spec fp nbp G D samples T fuel hs hT hfuel
      init k b pb (by omega) hkb hb I
    rw [List.range'_succ]
    simp only [generate_slots]
    rw [hrun]
    exact ih (k + 1) b1 pb1 (by omega) h1 h2 I1

theorem filled_replicate (n s : Nat) : ¬ Filled (List.replicate n (default : Aggressor)) s := by
  unfold Filled
  intro h
  apply h
  by_cases hs : s < n
  · rw [List.getD_eq_getElem _ _ (by simpa using hs)]
    simp
    rfl
  · rw [List.getD_eq_default _ _ (by simpa using hs)]
    rfl

theorem generate_spec (fp : FuzzingParameterSet) (nbp : Nat) (G : GoodParams fp nbp)
    (D : GoodDraws fp) (samples : Nat → Nat) (T fuel : Nat) (hs : SamplesAccepted samples T)
    (hT : T ≤ fuel) (hfuel : fp.get_total_acts_pattern < fuel) (pb : PatternBuilder)
    (hfills : pb.fills = []) :
    ∃ pb', generate_frequency_based_pattern fp samples fuel pb = some pb' ∧
      OuterInv fp nbp fuel pb.pattern.agg_access_patterns fp.get_base_period pb' := by
  unfold generate_frequency_based_pattern
  simp only
  have hn : fp.get_total_acts_pattern / fp.get_base_period = nbp := by
    rw [G.total]; exact Nat.mul_div_cancel _ G.base
  rw [hn, if_neg (allowed_multiplicators_ok nbp G.periods).1, List.range_eq_range']
  apply generate_slots_spec fp nbp G D samples T fuel hs hT hfuel _ fp.get_base_period 0 0 _
    (by omega) (Nat.le_refl _) (Nat.zero_le _)
  refine ⟨by simp, ?_, ?_, ?_⟩
  · intro q r _ _
    simp only [Nat.not_lt_zero, iff_false]
    exact filled_replicate _ _
  · intro f hf
    simp only [hfills, List.not_mem_nil] at hf
  · unfold FillsLinked
    simp [hfills]

theorem example_params_good : GoodParams example_params 4 :=
  ⟨rfl, by decide, by decide, by decide, by decide⟩

theorem example_params_draws : GoodDraws example_params := by
  constructor
  · intro k hk
    simp only [example_params] at hk ⊢
    omega
  · intro k N hk h1 h2
    simp only [example_params] at hk h2 ⊢
    have : 1 ≤ (4 - k) / N := (Nat.le_div_iff_mul_le (by omega)).mpr (by omega)
    omega

theorem example_samples_accepted : SamplesAccepted example_samples 2 := by
  intro gen size hsize
  refine ⟨(gen + 1) % 2, Nat.mod_lt _ (by omega), ?_⟩
  simp only [example_samples]
  omega

/-- C8: when `total_acts_pattern` is a positive multiple of `base_period` (and an `int`),
`num_aggressors >= 1`, every drawn tuple size and amplitude satisfies
`1 <= N <= base_period - k` and `1 <= A <= (base_period - k) / N`, and the rejection sampling of
`get_random_gaussian` accepts within `T` draws, then with fuel above `T` and the pattern length
`generate_frequency_based_pattern` returns, the pattern has `total_acts_pattern` slots, and
every slot holds an ID different from the placeholder. -/
theorem generate_fills_every_slot (fp : FuzzingParameterSet) (nbp : Nat)
    (G : GoodParams fp nbp) (D : GoodDraws fp) (samples : Nat → Nat) (T fuel : Nat)
    (hs : SamplesAccepted samples T) (hT : T ≤ fuel) (hfuel : fp.get_total_acts_pattern < fuel)
    (hammering_pattern : HammeringPattern) (aggressor_id_counter gen : Nat) :
    ∃ pb', generate_frequency_based_pattern fp samples fuel
        { pattern := hammering_pattern, aggressor_id_counter := aggressor_id_counter,
          gen := gen, fills := [] } = some pb' ∧
      pb'.pattern.aggressors.length = fp.get_total_acts_pattern ∧
      ∀ a ∈ pb'.pattern.aggressors, a.id ≠ ID_PLACEHOLDER_AGG := by
  obtain ⟨pb', hrun, I⟩ := generate_spec fp nbp G D samples T fuel hs hT hfuel
    { pattern := hammering_pattern, aggressor_id_counter := aggressor_id_counter,
      gen := gen, fills := [] } rfl
  refine ⟨pb', hrun, I.len, ?_⟩
  intro a ha
  obtain ⟨s, hs1, hs2⟩ := List.getElem_of_mem ha
  have hbp : 0 < fp.get_base_period := G.base
  have hsL : s < nbp * fp.get_base_period := by rw [← G.total, ← I.len]; exact hs1
  have hq : s / fp.get_base_period < nbp := (Nat.div_lt_iff_lt_mul hbp).mpr hsL
  have hr : s % fp.get_base_period < fp.get_base_period := Nat.mod_lt _ hbp
  have hF := (I.filled_iff _ _ hq hr).mpr hr
  have e : s / fp.get_base_period * fp.get_base_period + s % fp.get_base_period = s := by
    rw [Nat.mul_comm]; exact Nat.div_add_mod s _
  rw [e] at hF
  unfold Filled at hF
  rw [List.getD_eq_getElem _ _ hs1, hs2] at hF
  exact hF

/-- Witness of C8 on the example parameters (16 slots, base period 4). -/
theorem generate_fills_every_slot_witness :
    ∃ pb', generate_frequency_based_pattern example_params example_samples 17
        { pattern := { aggressors := [], agg_access_patterns := [], max_period := 0 },
          aggressor_id_counter := 1, gen := 0, fills := [] } = some pb' ∧
      pb'.pattern.aggressors.length = example_params.get_total_acts_pattern ∧
      ∀ a ∈ pb'.pattern.aggressors, a.id ≠ ID_PLACEHOLDER_AGG :=
  generate_fills_every_slot example_params 4 example_params_good example_params_draws
    example_samples 2 17 example_samples_accepted (by decide) (by decide) _ 1 0

/-- C9: under the same assumptions as C8, `generate_frequency_based_pattern` returns, the
access patterns it recorded are those of its fills, in order, and for each of them every
assignment `fill_slots` made went to an index below `pattern_length` whose slot held the
placeholder ID when that fill started. -/
theorem generate_fills_only_placeholders (fp : FuzzingParameterSet) (nbp : Nat)
    (G : GoodParams fp nbp) (D : GoodDraws fp) (samples : Nat → Nat) (T fuel : Nat)
    (hs : SamplesAccepted samples T) (hT : T ≤ fuel) (hfuel : fp.get_total_acts_pattern < fuel)
    (hammering_pattern : HammeringPattern) (aggressor_id_counter gen : Nat) :
    ∃ pb', generate_frequency_based_pattern fp samples fuel
        { pattern := hammering_pattern, aggressor_id_counter := aggressor_id_counter,
          gen := gen, fills := [] } = some pb' ∧
      pb'.pattern.agg_access_patterns
        = hammering_pattern.agg_access_patterns ++ pb'.fills.map (fun f => f.access_pattern) ∧
      ∀ f ∈ pb'.fills,
        fill_slots_writes f.access_pattern.offset f.access_pattern.period
            f.access_pattern.amplitude f.access_pattern.aggressors fp.get_total_acts_pattern fuel
          = some f.writes ∧
        ∀ w ∈ f.writes,
          w.1 < fp.get_total_acts_pattern ∧
            (f.before.getD w.1 default).id = ID_PLACEHOLDER_AGG := by
  obtain ⟨pb', hrun, I⟩ := generate_spec fp nbp G D samples T fuel hs hT hfuel
    { pattern := hammering_pattern, aggressor_id_counter := aggressor_id_counter,
      gen := gen, fills := [] } rfl
  exact ⟨pb', hrun, I.linked, I.fresh⟩

/-- Witness of C9 on the example parameters (16 slots, base period 4). -/
theorem generate_fills_only_placeholders_witness :
    ∃ pb', generate_frequency_based_pattern example_params example_samples 17
        { pattern := { aggressors := [], agg_access_patterns := [], max_period := 0 },
          aggressor_id_counter := 1, gen := 0, fills := [] } = some pb' ∧
      pb'.pattern.agg_access_patterns
        = [] ++ pb'.fills.map (fun f => f.access_pattern) ∧
      ∀ f ∈ pb'.fills,
        fill_slots_writes f.access_pattern.offset f.access_pattern.period
            f.access_pattern.amplitude f.access_pattern.aggressors
            example_params.get_total_acts_pattern 17
          = some f.writes ∧
        ∀ w ∈ f.writes,
          w.1 < example_params.get_total_acts_pattern ∧
            (f.before.getD w.1 default).id = ID_PLACEHOLDER_AGG :=
  generate_fills_only_placeholders example_params 4 example_params_good example_params_draws
    example_samples 2 17 example_samples_accepted (by decide) (by decide)
    { aggressors := [], agg_access_patterns := [], max_period := 0 } 1 0

/-- C10 fails on the code: `fill_slots(3, 4, 1, [a1, a2], accesses, 4)` assigns to
`accesses[4]`, the index equal to `pattern_length`, because the guard is
`next_target > pattern_length`. -/
theorem fill_slots_writes_at_pattern_length :
    fill_slots_writes 3 4 1 [{ id := 1 }, { id := 2 }] 4 2
      = some [(3, { id := 1 }), (4, { id := 2 })] := by
  decide

/-! ### The cyclic ID counter -/

theorem get_n_aggressors_loop_eq (max n c : Nat) :
    get_n_aggressors_loop max n c
      = ((List.range n).map
          (fun j => ({ id := ((if j = 0 then c else (c + j) % max : Nat) : Int) } : Aggressor)),
        if n = 0 then c else (c + n) % max) := by
  induction n generalizing c with
  | zero => rfl
  | succ n ih =>
    simp only [get_n_aggressors_loop, ih, List.range_succ_eq_map, List.map_cons, List.map_map]
    refine Prod.ext ?_ ?_
    · simp only [if_true, List.cons.injEq, true_and]
      apply List.map_congr_left
      intro j _
      simp only [Function.comp, Nat.succ_ne_zero, if_false]
      by_cases hj : j = 0
      · subst hj; simp
      · simp only [hj, if_false]
        rw [Nat.mod_add_mod, Nat.add_assoc, Nat.add_comm 1 j]
    · simp only [Nat.succ_ne_zero, if_false]
      by_cases hn : n = 0
      · subst hn; simp
      · simp only [hn, if_false]
        rw [Nat.mod_add_mod, Nat.add_assoc, Nat.add_comm 1 n]

theorem get_n_aggressors_reduced (max n i0 : Nat) :
    get_n_aggressors n max ((1 + i0) % max)
      = ((List.range n).map (fun j => ({ id := (((1 + i0 + j) % max : Nat) : Int) } : Aggressor)),
        (1 + i0 + n) % max) := by
  unfold get_n_aggressors
  rw [get_n_aggressors_loop_eq]
  refine Prod.ext ?_ ?_
  · apply List.map_congr_left
    intro j _
    by_cases hj : j = 0
    · subst hj; simp
    · simp only [hj, if_false, Nat.mod_add_mod]
  · by_cases hn : n = 0
    · subst hn; simp
    · simp only [hn, if_false, Nat.mod_add_mod]

theorem get_n_aggressors_calls_eq (max : Nat) (Ns : List Nat) (i0 : Nat) :
    get_n_aggressors_calls max Ns ((1 + i0) % max)
      = (List.range Ns.sum).map
          (fun i => ({ id := (((1 + i0 + i) % max : Nat) : Int) } : Aggressor)) := by
  induction Ns generalizing i0 with
  | nil => rfl
  | cons N rest ih =>
    simp only [get_n_aggressors_calls, get_n_aggressors_reduced, List.sum_cons]
    rw [Nat.add_assoc 1 i0 N, ih (i0 + N), List.range_add, List.map_append, List.map_map]
    congr 1
    apply List.map_congr_left
    intro i _
    simp only [Function.comp]
    rw [← Nat.add_assoc, ← Nat.add_assoc]

/-- C14: aggressor IDs come from a modular counter that persists across calls.  For
`max_num_aggressors >= 2`: every call `get_n_aggressors(N, ..)` returns exactly `N` aggressors,
whatever the counter; a freshly constructed builder has the counter at 1; and over any sequence
of calls on a fresh builder the `i`-th ID handed out overall (from 0) is
`(1 + i) mod max_num_aggressors`. -/
theorem get_n_aggressors_modular_counter (max_num_aggressors : Nat)
    (hmax : 2 ≤ max_num_aggressors) (hammering_pattern : HammeringPattern) (Ns : List Nat) :
    (∀ N c, (get_n_aggressors N max_num_aggressors c).1.length = N) ∧
      (PatternBuilder.new hammering_pattern).aggressor_id_counter = 1 ∧
      (get_n_aggressors_calls max_num_aggressors Ns
        (PatternBuilder.new hammering_pattern).aggressor_id_counter).length = Ns.sum ∧
      ∀ i, i < Ns.sum →
        ((get_n_aggressors_calls max_num_aggressors Ns
          (PatternBuilder.new hammering_pattern).aggressor_id_counter).getD i default).id
          = (((1 + i) % max_num_aggressors : Nat) : Int) := by
  have h1 : (PatternBuilder.new hammering_pattern).aggressor_id_counter
      = (1 + 0) % max_num_aggressors := by
    simp only [PatternBuilder.new, Nat.add_zero]
    exact (Nat.mod_eq_of_lt (by omega)).symm
  refine ⟨fun N c => (get_n_aggressors_loop_spec max_num_aggressors N c).1, rfl, ?_, ?_⟩
  · rw [h1, get_n_aggressors_calls_eq]
    simp
  · intro i hi
    rw [h1, get_n_aggressors_calls_eq]
    rw [List.getD_eq_getElem _ _ (by simpa using hi)]
    simp

/-- Witness of C14 with 3 IDs and the calls for 2, 0, 3 and 1 aggressors. -/
theorem get_n_aggressors_modular_counter_witness :
    (∀ N c, (get_n_aggressors N 3 c).1.length = N) ∧
      (PatternBuilder.new { aggressors := [], agg_access_patterns := [], max_period := 0 }
        ).aggressor_id_counter = 1 ∧
      (get_n_aggressors_calls 3 [2, 0, 3, 1]
        (PatternBuilder.new { aggressors := [], agg_access_patterns := [], max_period := 0 }
          ).aggressor_id_counter).length = [2, 0, 3, 1].sum ∧
      ∀ i, i < [2, 0, 3, 1].sum →
        ((get_n_aggressors_calls 3 [2, 0, 3, 1]
          (PatternBuilder.new { aggressors := [], agg_access_patterns := [], max_period := 0 }
            ).aggressor_id_counter).getD i default).id
          = (((1 + i) % 3 : Nat) : Int) :=
  get_n_aggressors_modular_counter 3 (by decide) _ [2, 0, 3, 1]

theorem get_n_aggressors_ids (N num_aggressors aggressor_id_counter : Nat) :
    (get_n_aggressors N num_aggressors aggressor_id_counter).1.map (fun a => a.id)
      = (List.range N).map (fun j =>
          ((if j = 0 then aggressor_id_counter
            else (aggressor_id_counter + j) % num_aggressors : Nat) : Int)) := by
  unfold get_n_aggressors
  rw [get_n_aggressors_loop_eq]
  simp only [List.map_map]
  rfl

theorem get_n_aggressors_ids_nodup_iff (N num_aggressors aggressor_id_counter : Nat) :
    ((get_n_aggressors N num_aggressors aggressor_id_counter).1.map (fun a => a.id)).Nodup ↔
      ∀ i j, i < j → j < N →
        (if i = 0 then aggressor_id_counter else (aggressor_id_counter + i) % num_aggressors)
          ≠ (aggressor_id_counter + j) % num_aggressors := by
  rw [get_n_aggressors_ids]
  constructor
  · intro h i j hij hj heq
    have hinj := List.inj_on_of_nodup_map h (List.mem_range.mpr (Nat.lt_trans hij hj))
      (List.mem_range.mpr hj)
    have hj0 : j ≠ 0 := by omega
    simp only [hj0, if_false, Nat.cast_inj] at hinj
    have := hinj heq
    omega
  · intro h
    apply List.Nodup.map_on _ (List.nodup_range N)
    intro j hj j' hj' heq
    simp only [Nat.cast_inj] at heq
    have hj := List.mem_range.mp hj
    have hj' := List.mem_range.mp hj'
    rcases Nat.lt_trichotomy j j' with hlt | hlt | hlt
    · exfalso
      have hj'0 : j' ≠ 0 := by omega
      simp only [hj'0, if_false] at heq
      exact h j j' hlt hj' heq
    · exact hlt
    · exfalso
      have hj0 : j ≠ 0 := by omega
      simp only [hj0, if_false] at heq
      exact h j' j hlt hj heq.symm

theorem mod_add_ne_of_lt (m c a b : Nat) (hab : a < b) (hb : b < a + m) :
    (c + a) % m ≠ (c + b) % m := by
  intro hmod
  have hdvd : m ∣ (c + b) - (c + a) := (Nat.modEq_iff_dvd' (by omega)).mp hmod
  have hle := Nat.le_of_dvd (by omega) hdvd
  omega

/-- C15 as stated fails: with 2 aggressor IDs, the 3 IDs allocated for one tuple by a fresh
builder are 1, 0, 1. -/
theorem get_n_aggressors_repeats :
    (get_n_aggressors 3 2 (PatternBuilder.new
        { aggressors := [], agg_access_patterns := [], max_period := 0 }).aggressor_id_counter).1
      = [{ id := 1 }, { id := 0 }, { id := 1 }] ∧
    ¬ ((get_n_aggressors 3 2 (PatternBuilder.new
        { aggressors := [], agg_access_patterns := [], max_period := 0 }).aggressor_id_counter
        ).1.map (fun a => a.id)).Nodup := by
  decide

/-- C15, amended: for `num_aggressors >= 1`, the `N` aggressor IDs allocated for one tuple by
`get_n_aggressors(N, aggs, num_aggressors)` are pairwise distinct exactly when
`N <= num_aggressors`, or `N = num_aggressors + 1` and the counter at the call is not below
`num_aggressors` (a counter that no earlier call has reduced).  In every other case an ID
repeats within the tuple. -/
theorem get_n_aggressors_nodup (N num_aggressors aggressor_id_counter : Nat)
    (hm : 1 ≤ num_aggressors) :
    ((get_n_aggressors N num_aggressors aggressor_id_counter).1.map (fun a => a.id)).Nodup ↔
      N ≤ num_aggressors ∨
        (N = num_aggressors + 1 ∧ num_aggressors ≤ aggressor_id_counter) := by
  rw [get_n_aggressors_ids_nodup_iff]
  constructor
  · intro h
    by_contra hcon
    have hN : num_aggressors < N := by omega
    by_cases hc : aggressor_id_counter < num_aggressors
    · apply h 0 num_aggressors (by omega) hN
      simp only [if_true, Nat.add_mod_right, Nat.mod_eq_of_lt hc]
    · apply h 1 (num_aggressors + 1) (by omega) (by omega)
      simp only [Nat.one_ne_zero, if_false]
      rw [← Nat.add_assoc, Nat.add_right_comm, Nat.add_mod_right]
  · intro h i j hij hj heq
    by_cases hi : i = 0
    · subst hi
      simp only [if_true] at heq
      have hlt : aggressor_id_counter < num_aggressors := by
        rw [heq]; exact Nat.mod_lt _ (by omega)
      have h2 : (aggressor_id_counter + 0) % num_aggressors
          = (aggressor_id_counter + j) % num_aggressors := by
        rw [Nat.add_zero, Nat.mod_eq_of_lt hlt]; exact heq
      exact mod_add_ne_of_lt num_aggressors aggressor_id_counter 0 j hij (by omega) h2
    · simp only [hi, if_false] at heq
      exact mod_add_ne_of_lt num_aggressors aggressor_id_counter i j hij (by omega) heq

/-- Witness of the amended C15: the 2 IDs allocated with `num_aggressors = 1` from the counter
of a fresh builder are 1 and 0. -/
theorem get_n_aggressors_nodup_witness :
    ((get_n_aggressors 2 1 (PatternBuilder.new
        { aggressors := [], agg_access_patterns := [], max_period := 0 }).aggressor_id_counter
        ).1.map (fun a => a.id)).Nodup :=
  (get_n_aggressors_nodup 2 1 _ (by decide)).mpr (Or.inr ⟨rfl, by decide⟩)

/-! ### The list of allowed multipliers -/

theorem allowed_multiplicators_loop_eq (nbp e : Nat) (he1 : 2 ^ e ≤ nbp)
    (he2 : nbp < 2 ^ (e + 1)) (fuel : Nat) :
    ∀ i, i ≤ e + 1 → e + 1 - i < fuel →
      allowed_multiplicators_loop nbp fuel i
        = (List.range' i (e + 1 - i)).map (fun j => ((2 ^ j : Nat) : Int)) := by
  induction fuel with
  | zero => intro i _ h; omega
  | succ fuel ih =>
    intro i hi hfuel
    simp only [allowed_multiplicators_loop]
    by_cases hle : 2 ^ i ≤ nbp
    · have hie : i ≤ e := by
        by_contra hgt
        have : 2 ^ (e + 1) ≤ 2 ^ i := Nat.pow_le_pow_right (by omega) (by omega)
        omega
      rw [if_pos hle, ih (i + 1) (by omega) (by omega)]
      have e1 : e + 1 - i = (e + 1 - (i + 1)) + 1 := by omega
      rw [e1, List.range'_succ, List.map_cons]
    · have hie : i = e + 1 := by
        by_contra hne
        have : 2 ^ i ≤ 2 ^ e := Nat.pow_le_pow_right (by omega) (by omega)
        omega
      rw [if_neg hle, hie, Nat.sub_self]
      rfl

theorem allowed_multiplicators_eq_range (nbp e : Nat) (he1 : 2 ^ e ≤ nbp)
    (he2 : nbp < 2 ^ (e + 1)) :
    allowed_multiplicators nbp = (List.range (e + 1)).map (fun j => ((2 ^ j : Nat) : Int)) := by
  have hlt : e < 2 ^ e := Nat.lt_two_pow e
  unfold allowed_multiplicators
  rw [allowed_multiplicators_loop_eq nbp e he1 he2 (nbp + 1) 0 (by omega) (by omega),
    List.range_eq_range']
  rfl

theorem draw_and_fill_some (fp : FuzzingParameterSet) (samples : Nat → Nat)
    (fuel N A slot : Nat) (mults mults' : List Int) (pb pb' : PatternBuilder)
    (h : draw_and_fill fp samples fuel N A slot mults pb = some (mults', pb')) :
    ∃ (r g : Nat) (m : Int) (ws : List (Nat × Aggressor)),
      get_random_gaussian samples mults fuel pb.gen = some (r, g) ∧
      mults.get? r = some m ∧
      mults' = remove_smaller_than mults m ∧
      fill_slots_writes slot ((fp.get_base_period * m.toNat) % SIZE_MAX1) A
        (get_n_aggressors N fp.get_num_aggressors pb.aggressor_id_counter).1
        fp.get_total_acts_pattern fuel = some ws ∧
      pb' =
        { pattern :=
            { aggressors := apply_writes pb.pattern.aggressors ws
              agg_access_patterns := pb.pattern.agg_access_patterns ++
                [{ period := (fp.get_base_period * m.toNat) % SIZE_MAX1, amplitude := A,
                   aggressors :=
                     (get_n_aggressors N fp.get_num_aggressors pb.aggressor_id_counter).1,
                   offset := slot }]
              max_period := pb.pattern.max_period }
          aggressor_id_counter :=
            (get_n_aggressors N fp.get_num_aggressors pb.aggressor_id_counter).2
          gen := g
          fills := pb.fills ++
            [{ access_pattern :=
                 { period := (fp.get_base_period * m.toNat) % SIZE_MAX1, amplitude := A,
                   aggressors :=
                     (get_n_aggressors N fp.get_num_aggressors pb.aggressor_id_counter).1,
                   offset := slot },
               before := pb.pattern.aggressors, writes := ws }] } := by
  unfold draw_and_fill at h
  split at h
  · cases h
  · rename_i r g hg
    split at h
    · cases h
    · rename_i m hm
      simp only at h
      split at h
      · cases h
      · rename_i ws hws
        simp only [Option.some.injEq, Prod.mk.injEq] at h
        exact ⟨r, g, m, ws, hg, hm, h.1.symm, hws, h.2.symm⟩

theorem refill_loop_max_period (fp : FuzzingParameterSet) (samples : Nat → Nat)
    (fuel k N A rounds : Nat) :
    ∀ (mults : List Int) (pb pb' : PatternBuilder),
      refill_loop fp samples fuel k N A rounds mults pb = some pb' →
      pb'.pattern.max_period = pb.pattern.max_period := by
  induction rounds with
  | zero => intro mults pb pb' h; simp [refill_loop] at h
  | succ rounds ih =>
    intro mults pb pb' h
    simp only [refill_loop] at h
    split at h
    · cases h; rfl
    · split at h
      · cases h
      · rename_i mults1 pb1 hrun
        obtain ⟨r, g, m, ws, -, -, -, -, hpb1⟩ :=
          draw_and_fill_some fp samples fuel N A _ mults mults1 pb pb1 hrun
        rw [ih mults1 pb1 pb' h, hpb1]

theorem generate_slot_max_period (fp : FuzzingParameterSet) (samples : Nat → Nat)
    (fuel : Nat) (allowed : List Int) (pb pb' : PatternBuilder) (k : Nat)
    (h : generate_slot fp samples fuel allowed pb k = some pb') :
    pb'.pattern.max_period = pb.pattern.max_period := by
  unfold generate_slot at h
  simp only at h
  split at h
  · cases h; rfl
  · split at h
    · cases h
    · rename_i mults1 pb1 hrun
      obtain ⟨r, g, m, ws, -, -, -, -, hpb1⟩ :=
        draw_and_fill_some fp samples fuel _ _ _ allowed mults1 pb pb1 hrun
      rw [refill_loop_max_period fp samples fuel _ _ _ _ mults1 pb1 pb' h, hpb1]

theorem generate_slots_max_period (fp : FuzzingParameterSet) (samples : Nat → Nat)
    (fuel : Nat) (allowed : List Int) (ks : List Nat) :
    ∀ (pb pb' : PatternBuilder), generate_slots fp samples fuel allowed ks pb = some pb' →
      pb'.pattern.max_period = pb.pattern.max_period := by
  induction ks with
  | nil => intro pb pb' h; simp only [generate_slots, Option.some.injEq] at h; rw [h]
  | cons k rest ih =>
    intro pb pb' h
    simp only [generate_slots] at h
    split at h
    · cases h
    · rename_i pb1 hrun
      rw [ih pb1 pb' h, generate_slot_max_period fp samples fuel allowed pb pb1 k hrun]

/-- C13: with `num_base_periods = total_acts_pattern / base_period >= 1` and
`e = floor(log2(num_base_periods))` (the exponent with `2^e <= num_base_periods < 2^(e+1)`),
the list of allowed multipliers is `[2^0, 2^1, ..., 2^e]` in this order, and every run of
`generate_frequency_based_pattern` that returns has left `2^e * base_period` in
`pattern.max_period`. -/
theorem allowed_multiplicators_powers_of_two (fp : FuzzingParameterSet)
    (hnbp : 1 ≤ fp.get_total_acts_pattern / fp.get_base_period) :
    2 ^ Nat.log2 (fp.get_total_acts_pattern / fp.get_base_period)
        ≤ fp.get_total_acts_pattern / fp.get_base_period ∧
      fp.get_total_acts_pattern / fp.get_base_period
        < 2 ^ (Nat.log2 (fp.get_total_acts_pattern / fp.get_base_period) + 1) ∧
      allowed_multiplicators (fp.get_total_acts_pattern / fp.get_base_period)
        = (List.range (Nat.log2 (fp.get_total_acts_pattern / fp.get_base_period) + 1)).map
            (fun i => ((2 ^ i : Nat) : Int)) ∧
      ∀ (samples : Nat → Nat) (fuel : Nat) (pb pb' : PatternBuilder),
        generate_frequency_based_pattern fp samples fuel pb = some pb' →
        pb'.pattern.max_period
          = 2 ^ Nat.log2 (fp.get_total_acts_pattern / fp.get_base_period) * fp.get_base_period := by
  have hne : fp.get_total_acts_pattern / fp.get_base_period ≠ 0 := by omega
  have he1 := Nat.log2_self_le hne
  have he2 : fp.get_total_acts_pattern / fp.get_base_period
      < 2 ^ (Nat.log2 (fp.get_total_acts_pattern / fp.get_base_period) + 1) :=
    Nat.lt_log2_self
  have hlist := allowed_multiplicators_eq_range _ _ he1 he2
  refine ⟨he1, he2, hlist, ?_⟩
  intro samples fuel pb pb' h
  unfold generate_frequency_based_pattern at h
  simp only at h
  rw [if_neg (by rw [hlist]; simp)] at h
  rw [generate_slots_max_period fp samples fuel _ _ _ pb' h]
  simp only [hlist, List.range_succ, List.map_append, List.map_cons, List.map_nil]
  rw [List.getLastD_concat, Int.toNat_ofNat]

/-- Witness of C13 on the example parameters: 16 / 4 = 4 base periods, multipliers 1, 2, 4,
`max_period = 16`. -/
theorem allowed_multiplicators_powers_of_two_witness :
    allowed_multiplicators (example_params.get_total_acts_pattern / example_params.get_base_period)
        = [1, 2, 4] ∧
      ∃ pb', generate_frequency_based_pattern example_params example_samples 17
          (PatternBuilder.new { aggressors := [], agg_access_patterns := [], max_period := 0 })
          = some pb' ∧ pb'.pattern.max_period = 16 := by
  have h := allowed_multiplicators_powers_of_two example_params (by decide)
  refine ⟨by decide, ?_⟩
  obtain ⟨pb', hrun, -⟩ := generate_spec example_params 4 example_params_good
    example_params_draws example_samples 2 17 example_samples_accepted (by decide) (by decide)
    (PatternBuilder.new { aggressors := [], agg_access_patterns := [], max_period := 0 }) rfl
  refine ⟨pb', hrun, ?_⟩
  rw [h.2.2.2 example_samples 17 _ pb' hrun]
  decide!

/-! ### What `fill_slots` leaves in the vector -/

theorem window_le_period (start period N A L : Nat) (hp : 1 ≤ period) (hN : 1 ≤ N)
    (hA : 1 ≤ A) (hstart : start < L)
    (htargets : ∀ i j a, start + i * period < L → j < A → a < N →
      start + i * period + N * j + a < L) :
    N * A ≤ period := by
  have hdm := Nat.div_add_mod (L - 1 - start) period
  have hmod : (L - 1 - start) % period < period := Nat.mod_lt _ (by omega)
  have h1 := htargets ((L - 1 - start) / period) (A - 1) (N - 1)
    (by rw [Nat.mul_comm]; omega) (by omega) (by omega)
  have h2 : N * (A - 1) + N = N * A := by
    rw [← Nat.mul_succ]
    congr 1
    omega
  rw [Nat.mul_comm] at h1
  omega

theorem fill_target_unique (start period N A L : Nat) (hp : 1 ≤ period)
    (htargets : ∀ i j a, start + i * period < L → j < A → a < N →
      start + i * period + N * j + a < L)
    (i j a i' j' a' : Nat) (hi : start + i * period < L) (hj : j < A) (ha : a < N)
    (ha' : a' < N) (hle : i ≤ i')
    (heq : start + i * period + N * j + a = start + i' * period + N * j' + a') : a = a' := by
  have hstart : start < L := by
    have : start ≤ start + i * period := Nat.le_add_right _ _
    omega
  have hNA := window_le_period start period N A L hp (by omega) (by omega) hstart htargets
  have hlt := mul_add_lt_mul N A j a hj ha
  have hii : i = i' := by
    by_contra hne
    have h1 : (i + 1) * period ≤ i' * period := Nat.mul_le_mul_right _ (by omega)
    rw [Nat.succ_mul] at h1
    omega
  subst hii
  have h3 : N * j + a = N * j' + a' := by omega
  have h4 : (N * j + a) % N = a := by rw [Nat.mul_add_mod, Nat.mod_eq_of_lt ha]
  have h5 : (N * j' + a') % N = a' := by rw [Nat.mul_add_mod, Nat.mod_eq_of_lt ha']
  rw [← h4, ← h5, h3]

/-- C11: for `period >= 1` and sizes in the `size_t` range, whenever every target index
`idx + N*j + a` (`idx = start, start + period, ...` below `L`, `j < A`, `a < N`) is below
`pattern_length = L`, the call `fill_slots(start, period, A, aggressors, accesses, L)` on a
vector of `L` slots returns, leaves `aggressors[a]` in every slot `idx + N*j + a`, and leaves
every other slot as it was. -/
theorem fill_slots_realises_pattern (start period A : Nat) (aggressors accesses : List Aggressor)
    (L fuel : Nat) (hperiod : 1 ≤ period) (hrange : L + period < 2 ^ 64)
    (hlen : accesses.length = L) (hfuel : L < fuel)
    (htargets : ∀ i j a, start + i * period < L → j < A → a < aggressors.length →
      start + i * period + aggressors.length * j + a < L) :
    ∃ acc', fill_slots start period A aggressors accesses L fuel = some acc' ∧
      acc'.length = L ∧
      (∀ i j a, start + i * period < L → j < A → a < aggressors.length →
        acc'.getD (start + i * period + aggressors.length * j + a) default
          = aggressors.getD a default) ∧
      (∀ s, (∀ i j a, start + i * period < L → j < A → a < aggressors.length →
          s ≠ start + i * period + aggressors.length * j + a) →
        acc'.getD s default = accesses.getD s default) := by
  have hfit : ∀ i, start + i * period < L →
      start + i * period + aggressors.length * A ≤ L := by
    intro i hi
    rcases Nat.eq_zero_or_pos (aggressors.length * A) with h0 | hpos
    · omega
    · have hN : 0 < aggressors.length := Nat.pos_of_mul_pos_right hpos
      have hA : 0 < A := Nat.pos_of_mul_pos_left hpos
      have h1 := htargets i (A - 1) (aggressors.length - 1) hi (by omega) (by omega)
      have h2 : aggressors.length * (A - 1) + aggressors.length = aggressors.length * A := by
        rw [← Nat.mul_succ]
        congr 1
        omega
      omega
  obtain ⟨ws, hws, hmem⟩ := fill_slots_periods_spec period A aggressors L hperiod
    (by unfold SIZE_MAX1; exact hrange) fuel start (by omega) hfit
  refine ⟨apply_writes accesses ws, ?_, ?_, ?_, ?_⟩
  · unfold fill_slots fill_slots_writes
    rw [hws]
  · rw [apply_writes_length, hlen]
  · intro i j a hi hj ha
    have hin : (start + i * period + aggressors.length * j + a, aggressors.getD a default) ∈ ws :=
      (hmem _ _).mpr ⟨i, j, a, hi, hj, ha, rfl, rfl⟩
    obtain ⟨w, hw, hw1, hw2⟩ := apply_writes_getD_of_mem accesses ws
      (start + i * period + aggressors.length * j + a)
      (by rw [hlen]; exact htargets i j a hi hj ha) ⟨_, hin, rfl⟩
    rw [hw2]
    obtain ⟨i', j', a', hi', hj', ha', ht, hv⟩ := (hmem w.1 w.2).mp hw
    rw [hv]
    rw [hw1] at ht
    have haa : a = a' := by
      rcases Nat.le_total i i' with hle | hle
      · exact fill_target_unique start period aggressors.length A L hperiod htargets
          i j a i' j' a' hi hj ha ha' hle ht
      · exact (fill_target_unique start period aggressors.length A L hperiod htargets
          i' j' a' i j a hi' hj' ha' ha hle ht.symm).symm
    rw [haa]
  · intro s hs
    apply apply_writes_getD_of_not_mem
    intro w hw hw1
    obtain ⟨i, j, a, hi, hj, ha, ht, -⟩ := (hmem w.1 w.2).mp hw
    exact hs i j a hi hj ha (by rw [← hw1]; exact ht)

/-- Witness of C11: the tuple `(5, 6)` twice back-to-back, every 5 slots from slot 1 on, in a
vector of 10 placeholders. -/
theorem fill_slots_realises_pattern_witness :
    ∃ acc', fill_slots 1 5 2 [{ id := 5 }, { id := 6 }] (List.replicate 10 default) 10 11
        = some acc' ∧
      acc'.length = 10 ∧
      (∀ i j a, 1 + i * 5 < 10 → j < 2 → a < [({ id := 5 } : Aggressor), { id := 6 }].length →
        acc'.getD (1 + i * 5 + [({ id := 5 } : Aggressor), { id := 6 }].length * j + a) default
          = [({ id := 5 } : Aggressor), { id := 6 }].getD a default) ∧
      (∀ s, (∀ i j a, 1 + i * 5 < 10 → j < 2 →
          a < [({ id := 5 } : Aggressor), { id := 6 }].length →
          s ≠ 1 + i * 5 + [({ id := 5 } : Aggressor), { id := 6 }].length * j + a) →
        acc'.getD s default = (List.replicate 10 (default : Aggressor)).getD s default) :=
  fill_slots_realises_pattern 1 5 2 [{ id := 5 }, { id := 6 }] (List.replicate 10 default) 10 11
    (by decide) (by decide) (by decide) (by decide) (by
      intro i j a hi hj ha
      simp only [List.length_cons, List.length_nil] at ha ⊢
      omega)

/-! ### The recorded access patterns -/

theorem ext_fill_step (fp : FuzzingParameterSet) (nbp : Nat) (G : GoodParams fp nbp)
    (samples : Nat → Nat) (fuel k lo μ q0 : Nat) (mults mults' : List Int)
    (pb pb' : PatternBuilder) (hk : k < fp.get_base_period) (hM : MultsOK nbp μ mults)
    (E : ExtRefill fp nbp k lo mults pb) (hlo : lo ≤ q0) (hq0 : q0 < nbp)
    (hrun : draw_and_fill fp samples fuel (tuple_size fp k) (amplitude_of fp k)
      (q0 * fp.get_base_period + k) mults pb = some (mults', pb')) :
    ExtRefill fp nbp k (q0 + 1) mults' pb' := by
  obtain ⟨r, g, m, ws, -, hm, hmults', -, hpb'⟩ :=
    draw_and_fill_some fp samples fuel _ _ _ mults mults' pb pb' hrun
  have hmem : m ∈ mults := List.get?_mem hm
  obtain ⟨e, he, -, hle⟩ := hM.2 m hmem
  have hP : fp.get_base_period * 2 ^ e ≤ fp.get_total_acts_pattern := by
    rw [G.total, Nat.mul_comm]; exact Nat.mul_le_mul_right _ hle
  have hint := G.int_range
  have hPmod : (fp.get_base_period * m.toNat) % SIZE_MAX1 = fp.get_base_period * 2 ^ e := by
    rw [he, Int.toNat_ofNat]
    exact Nat.mod_eq_of_lt (by unfold SIZE_MAX1; omega)
  have hres : (q0 * fp.get_base_period + k) % fp.get_base_period = k := by
    rw [Nat.mul_comm, Nat.mul_add_mod, Nat.mod_eq_of_lt hk]
  have hfills : pb'.fills = pb.fills ++
      [{ access_pattern :=
           { period := fp.get_base_period * 2 ^ e, amplitude := amplitude_of fp k,
             aggressors := (get_n_aggressors (tuple_size fp k) fp.get_num_aggressors
               pb.aggressor_id_counter).1,
             offset := q0 * fp.get_base_period + k },
         before := pb.pattern.aggressors, writes := ws }] := by
    rw [hpb', hPmod]
  refine ⟨E.boundary, ?_, ?_, ?_, ?_, ?_, by omega⟩
  · intro f hf
    rw [hfills, List.mem_append, List.mem_singleton] at hf
    rcases hf with hf | rfl
    · exact E.shape f hf
    · refine ⟨⟨?_, ?_, ⟨e, rfl, hle⟩, ?_, ?_⟩, ?_⟩
      · simp only
        rw [G.total]
        exact (slot_lt_iff _ _ _ _ hk).mpr hq0
      · simp only [hres]; exact E.boundary
      · simp only [hres]
        exact (get_n_aggressors_loop_spec _ _ _).1
      · simp only [hres]
      · simp only [hres]; exact Nat.le_refl _
  · unfold PeriodsMonotone
    rw [hfills, List.pairwise_append]
    refine ⟨E.monotone, List.pairwise_singleton _ _, ?_⟩
    intro f hf g hg
    rw [List.mem_singleton] at hg
    subst hg
    simp only [hres]
    intro hfk
    have := E.capped f hf hfk m hmem
    rw [he, Int.toNat_ofNat] at this
    exact this
  · intro f hf hfk x hx
    rw [hmults'] at hx
    unfold remove_smaller_than at hx
    rw [List.mem_filter] at hx
    rw [hfills, List.mem_append, List.mem_singleton] at hf
    rcases hf with hf | rfl
    · exact E.capped f hf hfk x hx.1
    · simp only
      have hx2 : ¬ x < m := by simpa using hx.2
      have hmx : m.toNat ≤ x.toNat := Int.toNat_le_toNat (Int.not_lt.mp hx2)
      rw [he, Int.toNat_ofNat] at hmx
      exact Nat.mul_le_mul_left _ hmx
  · rw [hfills, List.length_append, List.length_singleton]
    have := E.count
    omega
  · intro _
    rw [hfills]
    simp

theorem refill_loop_full (fp : FuzzingParameterSet) (nbp : Nat) (G : GoodParams fp nbp)
    (samples : Nat → Nat) (T fuel : Nat) (hs : SamplesAccepted samples T) (hT : T ≤ fuel)
    (hfuel : fp.get_total_acts_pattern < fuel) (init : List AggressorAccessPattern)
    (k : Nat) (hk : k < fp.get_base_period)
    (hW1 : 1 ≤ tuple_size fp k * amplitude_of fp k)
    (hW : k + tuple_size fp k * amplitude_of fp k ≤ fp.get_base_period) (rounds : Nat) :
    ∀ (lo μ : Nat) (mults : List Int) (pb : PatternBuilder), nbp - lo < rounds → 1 ≤ lo →
      RefillInv fp nbp fuel init k (tuple_size fp k * amplitude_of fp k) lo μ mults pb →
      ExtRefill fp nbp k lo mults pb →
      ∃ pb', refill_loop fp samples fuel k (tuple_size fp k) (amplitude_of fp k) rounds mults pb
          = some pb' ∧
        OuterInv fp nbp fuel init (k + tuple_size fp k * amplitude_of fp k) pb' ∧
        ExtOuter fp nbp (k + tuple_size fp k * amplitude_of fp k) pb' := by
  induction rounds with
  | zero => intro lo μ mults pb h; omega
  | succ rounds ih =>
    intro lo μ mults pb hrounds hlo1 I E
    have hspec := all_slots_full_spec nbp fp.get_base_period k hk
      (by rw [← G.total]; exact G.int_range) pb.pattern.aggressors (by rw [I.len, G.total])
    rw [← G.total] at hspec
    simp only [refill_loop]
    rcases hspec with ⟨hfull, hall⟩ | ⟨q0, hq0, hslot, hempty, hmin⟩
    · rw [if_pos hfull]
      refine ⟨pb, rfl, ⟨I.len, ?_, I.fresh, I.linked⟩, ⟨Boundary.next k E.boundary, ?_,
        E.monotone, ?_, fun _ => E.nonempty hlo1⟩⟩
      · intro q r hq hr
        rw [I.mid q r hq hr]
        constructor
        · rintro (h | ⟨h, -⟩) <;> omega
        · intro h
          by_cases hrk : r < k
          · exact Or.inl hrk
          · exact Or.inr ⟨h, hall q hq⟩
      · intro f hf
        have := E.shape f hf
        exact ⟨this.1, by omega⟩
      · have h1 := E.count
        have h2 := E.lo_le
        have h3 : nbp * (k + 1) ≤ nbp * (k + tuple_size fp k * amplitude_of fp k) :=
          Nat.mul_le_mul_left _ (by omega)
        rw [Nat.mul_succ] at h3
        omega
    · have hne : all_slots_full k fp.get_base_period fp.get_total_acts_pattern
          pb.pattern.aggressors ≠ -1 := by
        rw [hslot]; omega
      rw [if_neg hne, hslot, Int.toNat_ofNat]
      have hlo : lo ≤ q0 := by
        by_contra hlt
        exact hempty (I.low q0 (by omega))
      obtain ⟨e, mults', pb1, hrun, I1⟩ := fill_step fp nbp G samples T fuel hs hT hfuel init
        k _ _ lo μ q0 mults pb hk hW1 hW I hq0 hmin hempty
      have E1 := ext_fill_step fp nbp G samples fuel k lo μ q0 mults mults' pb pb1 hk
        I.mults_ok E hlo hq0 hrun
      rw [hrun]
      exact ih (q0 + 1) (2 ^ e) mults' pb1 (by omega) (by omega) I1 E1

theorem generate_slot_full (fp : FuzzingParameterSet) (nbp : Nat) (G : GoodParams fp nbp)
    (D : DrawsInRange fp) (samples : Nat → Nat) (T fuel : Nat) (hs : SamplesAccepted samples T)
    (hT : T ≤ fuel) (hfuel : fp.get_total_acts_pattern < fuel)
    (init : List AggressorAccessPattern) (k b : Nat) (pb : PatternBuilder)
    (hk : k < fp.get_base_period) (hkb : k ≤ b) (hb : b ≤ fp.get_base_period)
    (I : OuterInv fp nbp fuel init b pb) (E : ExtOuter fp nbp b pb) :
    ∃ pb' b', generate_slot fp samples fuel (allowed_multiplicators nbp) pb k = some pb' ∧
      k + 1 ≤ b' ∧ b' ≤ fp.get_base_period ∧ OuterInv fp nbp fuel init b' pb' ∧
      ExtOuter fp nbp b' pb' := by
  have h0 := I.filled_iff 0 k G.periods hk
  rw [Nat.zero_mul, Nat.zero_add] at h0
  unfold generate_slot
  simp only
  by_cases hf : Filled pb.pattern.aggressors k
  · have hf' : (pb.pattern.aggressors.getD k default).id ≠ ID_PLACEHOLDER_AGG := hf
    rw [if_pos hf']
    exact ⟨pb, b, rfl, by have := h0.mp hf; omega, hb, I, E⟩
  · have hf' : ¬ (pb.pattern.aggressors.getD k default).id ≠ ID_PLACEHOLDER_AGG := hf
    rw [if_neg hf']
    have hbk : b = k := by
      by_contra hne
      exact hf (h0.mpr (by omega))
    subst hbk
    obtain ⟨hN1, hN2, hA1, hA2⟩ := D b E.boundary hk
    have hNA : tuple_size fp b * amplitude_of fp b ≤ fp.get_base_period - b := by
      have h1 : tuple_size fp b * amplitude_of fp b
          ≤ tuple_size fp b * ((fp.get_base_period - b) / tuple_size fp b) :=
        Nat.mul_le_mul_left _ hA2
      have h2 : tuple_size fp b * ((fp.get_base_period - b) / tuple_size fp b)
          ≤ fp.get_base_period - b := Nat.mul_div_le _ _
      omega
    have hW1 : 1 ≤ tuple_size fp b * amplitude_of fp b := Nat.mul_pos hN1 hA1
    have hW : b + tuple_size fp b * amplitude_of fp b ≤ fp.get_base_period := by omega
    have I0 : RefillInv fp nbp fuel init b (tuple_size fp b * amplitude_of fp b) 0 1
        (allowed_multiplicators nbp) pb := by
      refine ⟨allowed_multiplicators_ok nbp G.periods, I.len, ?_, ?_, ?_, I.fresh, I.linked⟩
      · intro q r hq hr
        rw [I.filled_iff q r hq hr, I.filled_iff q b hq hk]
        constructor
        · intro h; exact Or.inl h
        · rintro (h | ⟨-, h⟩) <;> omega
      · intro q hq; omega
      · intro q q' hq hq' _ hF
        rw [I.filled_iff q b hq hk] at hF
        omega
    have E0 : ExtRefill fp nbp b 0 (allowed_multiplicators nbp) pb := by
      refine ⟨E.boundary, ?_, E.monotone, ?_, ?_, ?_, Nat.zero_le _⟩
      · intro f hf
        have := E.shape f hf
        exact ⟨this.1, by omega⟩
      · intro f hf hfb
        have := (E.shape f hf).2
        omega
      · have := E.count
        omega
      · intro h; omega
    have hempty : ¬ Filled pb.pattern.aggressors (0 * fp.get_base_period + b) := by
      rw [Nat.zero_mul, Nat.zero_add]; exact hf
    obtain ⟨e, mults', pb1, hrun, I1⟩ := fill_step fp nbp G samples T fuel hs hT hfuel init
      b _ _ 0 1 0 (allowed_multiplicators nbp) pb hk hW1 hW I0 G.periods
      (fun q hq => by omega) hempty
    have E1 := ext_fill_step fp nbp G samples fuel b 0 1 0 (allowed_multiplicators nbp) mults'
      pb pb1 hk I0.mults_ok E0 (Nat.le_refl _) G.periods hrun
    rw [Nat.zero_mul, Nat.zero_add] at hrun
    have hrun2 : draw_and_fill fp samples fuel
        (if fp.get_base_period - b = 1 then 1
          else fp.get_random_N_sided b (fp.get_base_period - b))
        (fp.get_random_amplitude b ((fp.get_base_period - b) /
          (if fp.get_base_period - b = 1 then 1
            else fp.get_random_N_sided b (fp.get_base_period - b))))
        b (allowed_multiplicators nbp) pb = some (mults', pb1) := hrun
    rw [hrun2]
    simp only
    have hnbp : nbp ≤ fp.get_total_acts_pattern := by
      rw [G.total]; exact Nat.le_mul_of_pos_right _ G.base
    obtain ⟨pb', hrun', I', E'⟩ := refill_loop_full fp nbp G samples T fuel hs hT hfuel init b
      hk hW1 hW fuel (0 + 1) (2 ^ e) mults' pb1 (by omega) (by omega) I1 E1
    exact ⟨pb', b + tuple_size fp b * amplitude_of fp b, hrun', by omega, hW, I', E'⟩

theorem generate_slots_full (fp : FuzzingParameterSet) (nbp : Nat) (G : GoodParams fp nbp)
    (D : DrawsInRange fp) (samples : Nat → Nat) (T fuel : Nat) (hs : SamplesAccepted samples T)
    (hT : T ≤ fuel) (hfuel : fp.get_total_acts_pattern < fuel)
    (init : List AggressorAccessPattern) (n : Nat) :
    ∀ (k b : Nat) (pb : PatternBuilder), k + n = fp.get_base_period → k ≤ b →
      b ≤ fp.get_base_period → OuterInv fp nbp fuel init b pb → ExtOuter fp nbp b pb →
      ∃ pb', generate_slots fp samples fuel (allowed_multiplicators nbp) (List.range' k n) pb
          = some pb' ∧ OuterInv fp nbp fuel init fp.get_base_period pb' ∧
        ExtOuter fp nbp fp.get_base_period pb' := by
  induction n with
  | zero =>
    intro k b pb hkn hkb hb I E
    have : b = fp.get_base_period := by omega
    subst this
    exact ⟨pb, rfl, I, E⟩
  | succ n ih =>
    intro k b pb hkn hkb hb I E
    obtain ⟨pb1, b1, hrun, h1, h2, I1, E1⟩ := generate_slot_full fp nbp G D samples T fuel hs hT
      hfuel init k b pb (by omega) hkb hb I E
    rw [List.range'_succ]
    simp only [generate_slots]
    rw [hrun]
    exact ih (k + 1) b1 pb1 (by omega) h1 h2 I1 E1

theorem generate_full (fp : FuzzingParameterSet) (nbp : Nat) (G : GoodParams fp nbp)
    (D : DrawsInRange fp) (samples : Nat → Nat) (T fuel : Nat) (hs : SamplesAccepted samples T)
    (hT : T ≤ fuel) (hfuel : fp.get_total_acts_pattern < fuel) (pb : PatternBuilder)
    (hfills : pb.fills = []) :
    ∃ pb', generate_frequency_based_pattern fp samples fuel pb = some pb' ∧
      OuterInv fp nbp fuel pb.pattern.agg_access_patterns fp.get_base_period pb' ∧
      ExtOuter fp nbp fp.get_base_period pb' := by
  unfold generate_frequency_based_pattern
  simp only
  have hn : fp.get_total_acts_pattern / fp.get_base_period = nbp := by
    rw [G.total]; exact Nat.mul_div_cancel _ G.base
  rw [hn, if_neg (allowed_multiplicators_ok nbp G.periods).1, List.range_eq_range']
  apply generate_slots_full fp nbp G D samples T fuel hs hT hfuel _ fp.get_base_period 0 0 _
    (by omega) (Nat.le_refl _) (Nat.zero_le _)
  · refine ⟨by simp, ?_, ?_, ?_⟩
    · intro q r _ _
      simp only [Nat.not_lt_zero, iff_false]
      exact filled_replicate _ _
    · intro f hf
      simp only [hfills, List.not_mem_nil] at hf
    · unfold FillsLinked
      simp [hfills]
  · refine ⟨Boundary.first, ?_, ?_, ?_, ?_⟩
    · intro f hf
      simp only [hfills, List.not_mem_nil] at hf
    · unfold PeriodsMonotone
      simp only [hfills]
      exact List.Pairwise.nil
    · simp [hfills]
    · intro h; omega

theorem zero_samples_accepted : SamplesAccepted zero_samples 1 := by
  intro gen size hsize
  exact ⟨0, by omega, hsize⟩

theorem all_filled_of_outer (fp : FuzzingParameterSet) (nbp fuel : Nat)
    (G : GoodParams fp nbp) (init : List AggressorAccessPattern) (pb : PatternBuilder)
    (I : OuterInv fp nbp fuel init fp.get_base_period pb) :
    ∀ a ∈ pb.pattern.aggressors, a.id ≠ ID_PLACEHOLDER_AGG := by
  intro a ha
  obtain ⟨s, hs1, hs2⟩ := List.getElem_of_mem ha
  have hbp : 0 < fp.get_base_period := G.base
  have hsL : s < nbp * fp.get_base_period := by rw [← G.total, ← I.len]; exact hs1
  have hq : s / fp.get_base_period < nbp := (Nat.div_lt_iff_lt_mul hbp).mpr hsL
  have hr : s % fp.get_base_period < fp.get_base_period := Nat.mod_lt _ hbp
  have hF := (I.filled_iff _ _ hq hr).mpr hr
  have e : s / fp.get_base_period * fp.get_base_period + s % fp.get_base_period = s := by
    rw [Nat.mul_comm]; exact Nat.div_add_mod s _
  rw [e] at hF
  unfold Filled at hF
  rw [List.getD_eq_getElem _ _ hs1, hs2] at hF
  exact hF

theorem example_params_draws_in_range : DrawsInRange example_params := by
  intro k _ hk
  simp only [tuple_size, amplitude_of, example_params] at hk ⊢
  split
  · rename_i h1
    rw [h1]
    decide
  · rename_i h1
    have h2 : 1 ≤ (4 - k) / min 2 (4 - k) :=
      (Nat.le_div_iff_mul_le (by omega)).mpr (by omega)
    omega

/-- C12 as stated fails: on the example parameters the fills for start slot 0 (offsets 0
and 4) both use period 8, and so do the fills for start slot 2 (offsets 2 and 6). -/
theorem generate_repeats_period :
    (generate_frequency_based_pattern example_params example_samples 17
        (PatternBuilder.new { aggressors := [], agg_access_patterns := [], max_period := 0 })).map
      (fun pb => pb.pattern.agg_access_patterns.map (fun p => (p.offset, p.period)))
      = some [(0, 8), (4, 8), (2, 8), (6, 8)] := by
  decide!

/-- C12, amended: under the assumptions of C8, `generate_frequency_based_pattern` returns, the
access patterns it recorded are those of its fills, in order, and among the fills of one start
slot `k` (offset congruent to `k` modulo `base_period`) a later fill has a period greater than
or equal to the period of every earlier one. -/
theorem generate_periods_monotone (fp : FuzzingParameterSet) (nbp : Nat)
    (G : GoodParams fp nbp) (D : DrawsInRange fp) (samples : Nat → Nat) (T fuel : Nat)
    (hs : SamplesAccepted samples T) (hT : T ≤ fuel) (hfuel : fp.get_total_acts_pattern < fuel)
    (hammering_pattern : HammeringPattern) (aggressor_id_counter gen : Nat) :
    ∃ pb', generate_frequency_based_pattern fp samples fuel
        { pattern := hammering_pattern, aggressor_id_counter := aggressor_id_counter,
          gen := gen, fills := [] } = some pb' ∧
      pb'.pattern.agg_access_patterns
        = hammering_pattern.agg_access_patterns ++ pb'.fills.map (fun f => f.access_pattern) ∧
      pb'.fills.Pairwise (fun f g =>
        f.access_pattern.offset % fp.get_base_period
          = g.access_pattern.offset % fp.get_base_period →
        f.access_pattern.period ≤ g.access_pattern.period) := by
  obtain ⟨pb', hrun, I, E⟩ := generate_full fp nbp G D samples T fuel hs hT hfuel
    { pattern := hammering_pattern, aggressor_id_counter := aggressor_id_counter,
      gen := gen, fills := [] } rfl
  exact ⟨pb', hrun, I.linked, E.monotone⟩

/-- Witness of the amended C12 on the example parameters. -/
theorem generate_periods_monotone_witness :
    ∃ pb', generate_frequency_based_pattern example_params example_samples 17
        { pattern := { aggressors := [], agg_access_patterns := [], max_period := 0 },
          aggressor_id_counter := 1, gen := 0, fills := [] } = some pb' ∧
      pb'.pattern.agg_access_patterns
        = [] ++ pb'.fills.map (fun f => f.access_pattern) ∧
      pb'.fills.Pairwise (fun f g =>
        f.access_pattern.offset % example_params.get_base_period
          = g.access_pattern.offset % example_params.get_base_period →
        f.access_pattern.period ≤ g.access_pattern.period) :=
  generate_periods_monotone example_params 4 example_params_good example_params_draws_in_range
    example_samples 2 17 example_samples_accepted (by decide) (by decide)
    { aggressors := [], agg_access_patterns := [], max_period := 0 } 1 0

theorem example_params_two_sided_good : GoodParams example_params_two_sided 1 :=
  ⟨rfl, by decide, by decide, by decide, by decide⟩

theorem example_params_two_sided_boundary (k : Nat) (h : Boundary example_params_two_sided k) :
    k = 0 ∨ 2 ≤ k := by
  induction h with
  | first => exact Or.inl rfl
  | next k _ ih =>
    right
    rcases ih with rfl | h2
    · decide
    · omega

theorem example_params_two_sided_draws : DrawsInRange example_params_two_sided := by
  intro k hB hk
  have hk3 : k < 3 := hk
  rcases example_params_two_sided_boundary k hB with rfl | h2
  · decide
  · have : k = 2 := by omega
    subst this
    decide

/-- C16 as stated fails: with a tuple size that is always drawn as 2 and a base period of 3,
the access pattern recorded for the last start slot (offset 2) has 1 aggressor. -/
theorem generate_last_slot_one_sided :
    (∀ k upper, example_params_two_sided.get_random_N_sided k upper = 2) ∧
    (generate_frequency_based_pattern example_params_two_sided zero_samples 4
        (PatternBuilder.new { aggressors := [], agg_access_patterns := [], max_period := 0 })).map
      (fun pb => pb.pattern.agg_access_patterns.map (fun p => (p.offset, p.aggressors.length)))
      = some [(0, 2), (2, 1)] := by
  refine ⟨fun _ _ => rfl, ?_⟩
  decide!

/-- C16, amended: if `get_random_N_sided` always returns `N` then, under the assumptions of
C8, `generate_frequency_based_pattern` returns and every access pattern it recorded has a tuple
of exactly `N` aggressors, except those of the start slot `k = base_period - 1`, which have
exactly 1 aggressor. -/
theorem generate_tuple_sizes (fp : FuzzingParameterSet) (nbp N : Nat)
    (hN : ∀ k upper, fp.get_random_N_sided k upper = N)
    (G : GoodParams fp nbp) (D : DrawsInRange fp) (samples : Nat → Nat) (T fuel : Nat)
    (hs : SamplesAccepted samples T) (hT : T ≤ fuel) (hfuel : fp.get_total_acts_pattern < fuel)
    (hammering_pattern : HammeringPattern) (aggressor_id_counter gen : Nat) :
    ∃ pb', generate_frequency_based_pattern fp samples fuel
        { pattern := hammering_pattern, aggressor_id_counter := aggressor_id_counter,
          gen := gen, fills := [] } = some pb' ∧
      pb'.pattern.agg_access_patterns
        = hammering_pattern.agg_access_patterns ++ pb'.fills.map (fun f => f.access_pattern) ∧
      ∀ f ∈ pb'.fills,
        f.access_pattern.aggressors.length
          = if f.access_pattern.offset % fp.get_base_period = fp.get_base_period - 1 then 1
            else N := by
  obtain ⟨pb', hrun, I, E⟩ := generate_full fp nbp G D samples T fuel hs hT hfuel
    { pattern := hammering_pattern, aggressor_id_counter := aggressor_id_counter,
      gen := gen, fills := [] } rfl
  refine ⟨pb', hrun, I.linked, ?_⟩
  intro f hf
  obtain ⟨⟨-, -, -, hlen, -⟩, hlt⟩ := E.shape f hf
  rw [hlen]
  unfold tuple_size
  rw [hN]
  by_cases h1 : fp.get_base_period - f.access_pattern.offset % fp.get_base_period = 1
  · rw [if_pos h1, if_pos (by omega)]
  · rw [if_neg h1, if_neg (by omega)]

/-- Witness of the amended C16: tuple size 2 in a base period of 3 slots. -/
theorem generate_tuple_sizes_witness :
    ∃ pb', generate_frequency_based_pattern example_params_two_sided zero_samples 4
        { pattern := { aggressors := [], agg_access_patterns := [], max_period := 0 },
          aggressor_id_counter := 1, gen := 0, fills := [] } = some pb' ∧
      pb'.pattern.agg_access_patterns
        = [] ++ pb'.fills.map (fun f => f.access_pattern) ∧
      ∀ f ∈ pb'.fills,
        f.access_pattern.aggressors.length
          = if f.access_pattern.offset % example_params_two_sided.get_base_period
                = example_params_two_sided.get_base_period - 1 then 1
            else 2 :=
  generate_tuple_sizes example_params_two_sided 1 2 (fun _ _ => rfl)
    example_params_two_sided_good example_params_two_sided_draws zero_samples 1 4
    zero_samples_accepted (by decide) (by decide)
    { aggressors := [], agg_access_patterns := [], max_period := 0 } 1 0

theorem example_params_e2_good : GoodParams example_params_e2 4 :=
  ⟨rfl, by decide, by decide, by decide, by decide⟩

theorem example_params_e2_draws : DrawsInRange example_params_e2 := by
  intro k _ hk
  simp only [tuple_size, amplitude_of, example_params_e2] at hk ⊢
  split
  · rename_i h1
    rw [h1]
    decide
  · rename_i h1
    have h2 : 1 ≤ (64 - k) / min 2 (64 - k) :=
      (Nat.le_div_iff_mul_le (by omega)).mpr (by omega)
    omega

/-- C17 as stated fails: with `base_period = 64`, `total_acts_pattern = 256` and
`num_aggressors = 8`, a run whose first tuple fills the whole base period records one access
pattern, not 64. -/
theorem generate_e2_one_pattern :
    (generate_frequency_based_pattern example_params_e2 zero_samples 257
        (PatternBuilder.new { aggressors := [], agg_access_patterns := [], max_period := 0 })).map
      (fun pb => pb.pattern.agg_access_patterns.map
        (fun p => (p.offset, p.period, p.amplitude, p.aggressors.length)))
      = some [(0, 64, 32, 2)] := by
  decide!

/-- C17, amended: for `base_period = 64`, `total_acts_pattern = 256` and `num_aggressors = 8`,
under the assumptions of C8 on the draws, `generate_frequency_based_pattern` returns, records
one access pattern per fill, at least 1 and at most 256 of them, each with a period in
`{64, 128, 256}`, and fills every slot of the pattern. -/
theorem generate_e2 (fp : FuzzingParameterSet) (htotal : fp.get_total_acts_pattern = 256)
    (hbase : fp.get_base_period = 64) (hagg : fp.get_num_aggressors = 8)
    (D : DrawsInRange fp) (samples : Nat → Nat) (T fuel : Nat)
    (hs : SamplesAccepted samples T) (hT : T ≤ fuel) (hfuel : 256 < fuel)
    (hammering_pattern : HammeringPattern) (aggressor_id_counter gen : Nat) :
    ∃ pb', generate_frequency_based_pattern fp samples fuel
        { pattern := hammering_pattern, aggressor_id_counter := aggressor_id_counter,
          gen := gen, fills := [] } = some pb' ∧
      pb'.pattern.agg_access_patterns
        = hammering_pattern.agg_access_patterns ++ pb'.fills.map (fun f => f.access_pattern) ∧
      1 ≤ pb'.fills.length ∧ pb'.fills.length ≤ 256 ∧
      (∀ f ∈ pb'.fills, f.access_pattern.period = 64 ∨ f.access_pattern.period = 128 ∨
        f.access_pattern.period = 256) ∧
      pb'.pattern.aggressors.length = 256 ∧
      ∀ a ∈ pb'.pattern.aggressors, a.id ≠ ID_PLACEHOLDER_AGG := by
  have G : GoodParams fp 4 := ⟨by rw [htotal, hbase], by omega, by omega, by omega, by omega⟩
  obtain ⟨pb', hrun, I, E⟩ := generate_full fp 4 G D samples T fuel hs hT (by omega)
    { pattern := hammering_pattern, aggressor_id_counter := aggressor_id_counter,
      gen := gen, fills := [] } rfl
  refine ⟨pb', hrun, I.linked, ?_, ?_, ?_, by rw [I.len, htotal],
    all_filled_of_outer fp 4 fuel G _ pb' I⟩
  · have := E.nonempty (by omega)
    exact List.length_pos.mpr this
  · have := E.count
    omega
  · intro f hf
    obtain ⟨⟨-, -, ⟨e, he, hle⟩, -, -⟩, -⟩ := E.shape f hf
    have he2 : e ≤ 2 := by
      by_contra hgt
      have : 2 ^ 3 ≤ 2 ^ e := Nat.pow_le_pow_right (by omega) (by omega)
      omega
    rw [he, hbase]
    interval_cases e <;> simp

/-- Witness of the amended C17 on the example parameters of the scenario. -/
theorem generate_e2_witness :
    ∃ pb', generate_frequency_based_pattern example_params_e2 zero_samples 257
        { pattern := { aggressors := [], agg_access_patterns := [], max_period := 0 },
          aggressor_id_counter := 1, gen := 0, fills := [] } = some pb' ∧
      pb'.pattern.agg_access_patterns
        = [] ++ pb'.fills.map (fun f => f.access_pattern) ∧
      1 ≤ pb'.fills.length ∧ pb'.fills.length ≤ 256 ∧
      (∀ f ∈ pb'.fills, f.access_pattern.period = 64 ∨ f.access_pattern.period = 128 ∨
        f.access_pattern.period = 256) ∧
      pb'.pattern.aggressors.length = 256 ∧
      ∀ a ∈ pb'.pattern.aggressors, a.id ≠ ID_PLACEHOLDER_AGG :=
  generate_e2 example_params_e2 rfl rfl rfl example_params_e2_draws zero_samples 1 257
    zero_samples_accepted (by decide) (by decide)
    { aggressors := [], agg_access_patterns := [], max_period := 0 } 1 0

/-! ### Dependence on the samples of the random engine -/

theorem get_random_gaussian_congr (s1 s2 : Nat → Nat) (list : List Int) (fuel : Nat) :
    ∀ (gen r g : Nat), get_random_gaussian s1 list fuel gen = some (r, g) →
      gen ≤ g ∧ (SamplesAgree s1 s2 gen g → get_random_gaussian s2 list fuel gen = some (r, g)) := by
  induction fuel with
  | zero => intro gen r g h; simp [get_random_gaussian] at h
  | succ fuel ih =>
    intro gen r g h
    simp only [get_random_gaussian] at h ⊢
    split at h
    · rename_i hge
      obtain ⟨h1, h2⟩ := ih (gen + 1) r g h
      refine ⟨by omega, ?_⟩
      intro hag
      rw [← hag gen (Nat.le_refl _) (by omega), if_pos hge]
      exact h2 (fun n hn1 hn2 => hag n (by omega) hn2)
    · rename_i hlt
      simp only [Option.some.injEq, Prod.mk.injEq] at h
      refine ⟨by omega, ?_⟩
      intro hag
      rw [← hag gen (Nat.le_refl _) (by omega), if_neg hlt]
      simp only [Option.some.injEq, Prod.mk.injEq]
      exact h

theorem draw_and_fill_congr (fp : FuzzingParameterSet) (s1 s2 : Nat → Nat)
    (fuel N A slot : Nat) (mults mults' : List Int) (pb pb' : PatternBuilder)
    (h : draw_and_fill fp s1 fuel N A slot mults pb = some (mults', pb')) :
    pb.gen ≤ pb'.gen ∧
      (SamplesAgree s1 s2 pb.gen pb'.gen →
        draw_and_fill fp s2 fuel N A slot mults pb = some (mults', pb')) := by
  obtain ⟨r, g, m, ws, hg, hm, hmults', hws, hpb'⟩ :=
    draw_and_fill_some fp s1 fuel N A slot mults mults' pb pb' h
  obtain ⟨h1, h2⟩ := get_random_gaussian_congr s1 s2 mults fuel pb.gen r g hg
  have hgen : pb'.gen = g := by rw [hpb']
  refine ⟨by omega, ?_⟩
  intro hag
  rw [hgen] at hag
  unfold draw_and_fill
  rw [h2 hag]
  simp only [hm, hws, hmults', hpb']

theorem refill_loop_congr (fp : FuzzingParameterSet) (s1 s2 : Nat → Nat)
    (fuel k N A rounds : Nat) :
    ∀ (mults : List Int) (pb pb' : PatternBuilder),
      refill_loop fp s1 fuel k N A rounds mults pb = some pb' →
      pb.gen ≤ pb'.gen ∧
        (SamplesAgree s1 s2 pb.gen pb'.gen →
          refill_loop fp s2 fuel k N A rounds mults pb = some pb') := by
  induction rounds with
  | zero => intro mults pb pb' h; simp [refill_loop] at h
  | succ rounds ih =>
    intro mults pb pb' h
    simp only [refill_loop] at h ⊢
    split at h
    · rename_i hfull
      cases h
      refine ⟨Nat.le_refl _, fun _ => ?_⟩
      rw [if_pos hfull]
    · rename_i hne
      split at h
      · cases h
      · rename_i mults1 pb1 hrun
        obtain ⟨h1, h2⟩ := draw_and_fill_congr fp s1 s2 fuel N A _ mults mults1 pb pb1 hrun
        obtain ⟨h3, h4⟩ := ih mults1 pb1 pb' h
        refine ⟨by omega, ?_⟩
        intro hag
        rw [if_neg hne, h2 (fun n hn1 hn2 => hag n hn1 (by omega))]
        exact h4 (fun n hn1 hn2 => hag n (by omega) hn2)

theorem generate_slot_congr (fp : FuzzingParameterSet) (s1 s2 : Nat → Nat)
    (fuel : Nat) (allowed : List Int) (pb pb' : PatternBuilder) (k : Nat)
    (h : generate_slot fp s1 fuel allowed pb k = some pb') :
    pb.gen ≤ pb'.gen ∧
      (SamplesAgree s1 s2 pb.gen pb'.gen →
        generate_slot fp s2 fuel allowed pb k = some pb') := by
  unfold generate_slot at h ⊢
  simp only at h ⊢
  split at h
  · rename_i hf
    cases h
    refine ⟨Nat.le_refl _, fun _ => ?_⟩
    rw [if_pos hf]
  · rename_i hf
    split at h
    · cases h
    · rename_i mults1 pb1 hrun
      obtain ⟨h1, h2⟩ := draw_and_fill_congr fp s1 s2 fuel _ _ _ allowed mults1 pb pb1 hrun
      obtain ⟨h3, h4⟩ := refill_loop_congr fp s1 s2 fuel _ _ _ _ mults1 pb1 pb' h
      refine ⟨by omega, ?_⟩
      intro hag
      rw [if_neg hf, h2 (fun n hn1 hn2 => hag n hn1 (by omega))]
      exact h4 (fun n hn1 hn2 => hag n (by omega) hn2)

theorem generate_slots_congr (fp : FuzzingParameterSet) (s1 s2 : Nat → Nat)
    (fuel : Nat) (allowed : List Int) (ks : List Nat) :
    ∀ (pb pb' : PatternBuilder), generate_slots fp s1 fuel allowed ks pb = some pb' →
      pb.gen ≤ pb'.gen ∧
        (SamplesAgree s1 s2 pb.gen pb'.gen →
          generate_slots fp s2 fuel allowed ks pb = some pb') := by
  induction ks with
  | nil =>
    intro pb pb' h
    simp only [generate_slots, Option.some.injEq] at h
    subst h
    exact ⟨Nat.le_refl _, fun _ => rfl⟩
  | cons k rest ih =>
    intro pb pb' h
    simp only [generate_slots] at h ⊢
    split at h
    · cases h
    · rename_i pb1 hrun
      obtain ⟨h1, h2⟩ := generate_slot_congr fp s1 s2 fuel allowed pb pb1 k hrun
      obtain ⟨h3, h4⟩ := ih pb1 pb' h
      refine ⟨by omega, ?_⟩
      intro hag
      rw [h2 (fun n hn1 hn2 => hag n hn1 (by omega))]
      exact h4 (fun n hn1 hn2 => hag n (by omega) hn2)

/-- C18 as stated fails: the constructor takes no seed, and two builders constructed alike
and run with the same fuzzing parameters build different arrays when their random engines yield
different samples (1, 0, 1, 0, ... for the first, 0, 0, 0, ... for the second). -/
theorem generate_depends_on_samples :
    (generate_frequency_based_pattern example_params example_samples 17
        (PatternBuilder.new { aggressors := [], agg_access_patterns := [], max_period := 0 })).map
      (fun pb => pb.pattern.aggressors.map (fun a => a.id))
      = some [1, 2, 2, 0, 0, 1, 1, 2, 1, 2, 2, 0, 0, 1, 1, 2] ∧
    (generate_frequency_based_pattern example_params zero_samples 17
        (PatternBuilder.new { aggressors := [], agg_access_patterns := [], max_period := 0 })).map
      (fun pb => pb.pattern.aggressors.map (fun a => a.id))
      = some [1, 2, 0, 1, 1, 2, 0, 1, 1, 2, 0, 1, 1, 2, 0, 1] := by
  decide!

/-- C18, amended: pattern building is deterministic given the samples of the random engine.
If a run of `generate_frequency_based_pattern` returns and a second builder in the same state
is run with the same fuzzing parameters and a sample stream that agrees with the first on the
samples the first run drew, the second run returns the same state, so the same `accesses`
array. -/
theorem generate_deterministic_given_samples (fp : FuzzingParameterSet)
    (samples1 samples2 : Nat → Nat) (fuel : Nat) (pb pb1 : PatternBuilder)
    (hrun : generate_frequency_based_pattern fp samples1 fuel pb = some pb1)
    (hagree : ∀ n, pb.gen ≤ n → n < pb1.gen → samples1 n = samples2 n) :
    generate_frequency_based_pattern fp samples2 fuel pb = some pb1 ∧
      (generate_frequency_based_pattern fp samples2 fuel pb).map (fun p => p.pattern.aggressors)
        = (generate_frequency_based_pattern fp samples1 fuel pb).map
            (fun p => p.pattern.aggressors) := by
  have h : generate_frequency_based_pattern fp samples2 fuel pb = some pb1 := by
    unfold generate_frequency_based_pattern at hrun ⊢
    simp only at hrun ⊢
    by_cases hal : allowed_multiplicators
        (fp.get_total_acts_pattern / fp.get_base_period) = []
    · rw [if_pos hal] at hrun
      cases hrun
    · rw [if_neg hal] at hrun ⊢
      exact (generate_slots_congr fp samples1 samples2 fuel _ _ _ pb1 hrun).2 hagree
  exact ⟨h, by rw [h, hrun]⟩

/-- Witness of the amended C18: the example run draws four samples, and a stream that agrees
with it on these four only gives the same state. -/
theorem generate_deterministic_given_samples_witness :
    ∃ pb1, generate_frequency_based_pattern example_params example_samples 17
        (PatternBuilder.new { aggressors := [], agg_access_patterns := [], max_period := 0 })
        = some pb1 ∧
      pb1.gen = 4 ∧ example_samples 4 ≠ example_samples_prefix 4 ∧
      generate_frequency_based_pattern example_params example_samples_prefix 17
        (PatternBuilder.new { aggressors := [], agg_access_patterns := [], max_period := 0 })
        = some pb1 := by
  obtain ⟨pb1, hrun, -⟩ := generate_spec example_params 4 example_params_good
    example_params_draws example_samples 2 17 example_samples_accepted (by decide) (by decide)
    (PatternBuilder.new { aggressors := [], agg_access_patterns := [], max_period := 0 }) rfl
  have hg : (generate_frequency_based_pattern example_params example_samples 17
      (PatternBuilder.new { aggressors := [], agg_access_patterns := [], max_period := 0 })).map
      (fun p => p.gen) = some 4 := by decide!
  rw [hrun] at hg
  have hg4 : pb1.gen = 4 := by simpa using hg
  refine ⟨pb1, hrun, hg4, by decide, ?_⟩
  refine (generate_deterministic_given_samples example_params example_samples
    example_samples_prefix 17 _ pb1 hrun ?_).1
  intro n _ hn
  rw [hg4] at hn
  simp only [example_samples, example_samples_prefix, if_pos hn]

/-! ## Theorems about the JIT hammering code -/

theorem get_random_indices_1_2 (rand : Nat → Nat) (fuel : Nat) :
    get_random_indices rand fuel 1 2 [] = some [0, 1] := by
  have h : (1 : Nat) = (2 + SIZE_MAX1 - 1) % SIZE_MAX1 := by decide
  unfold get_random_indices
  simp only [← h, if_true]
  rfl

theorem jit_hammering_code_eq (rand : Nat → Nat) (fuel agg_rounds hammering_intervals : Nat)
    (aggressor_pairs nops : List Nat) :
    jit_hammering_code rand fuel agg_rounds hammering_intervals aggressor_pairs nops
      = some (jit_prologue hammering_intervals nops ++ jit_body agg_rounds aggressor_pairs
          ++ jit_epilogue nops) := by
  unfold jit_hammering_code
  rw [get_random_indices_1_2]
  simp [jit_prologue, jit_body, jit_round, jit_epilogue, List.flatMap]

theorem jit_round_is_body (aggressor_pairs : List Nat) :
    ∀ i ∈ jit_round aggressor_pairs, i.is_body = true := by
  intro i hi
  simp only [jit_round, List.mem_append, List.mem_flatMap, List.mem_cons, List.mem_singleton,
    List.not_mem_nil, or_false] at hi
  rcases hi with (⟨a, -, h | h⟩ | ⟨a, -, h | h⟩) | h <;> subst h <;> rfl

theorem jit_body_is_body (agg_rounds : Nat) (aggressor_pairs : List Nat) :
    ∀ i ∈ jit_body agg_rounds aggressor_pairs, i.is_body = true := by
  intro i hi
  simp only [jit_body, List.mem_flatMap] at hi
  obtain ⟨_, -, h⟩ := hi
  exact jit_round_is_body aggressor_pairs i h

theorem jit_round_length (aggressor_pairs : List Nat) :
    (jit_round aggressor_pairs).length = 4 * aggressor_pairs.length + 1 := by
  have h : ∀ (f : Nat → Instr) (g : Instr) (l : List Nat),
      (l.flatMap (fun a => [f a, g])).length = 2 * l.length := by
    intro f g l
    induction l with
    | nil => rfl
    | cons a l ih => simp only [List.flatMap_cons, List.length_append, List.length_cons,
        List.length_nil, ih]; omega
  simp only [jit_round, List.length_append, h, List.length_singleton]
  omega

theorem jit_round_loads (aggressor_pairs : List Nat) :
    (jit_round aggressor_pairs).countP Instr.is_load = aggressor_pairs.length := by
  have h1 : ∀ (l : List Nat), (l.flatMap (fun addr =>
      [Instr.mov (.reg .rax) (.imm addr), Instr.mov (.reg .rbx) (.ptr .rax)])).countP
        Instr.is_load = l.length := by
    intro l
    induction l with
    | nil => rfl
    | cons a l ih =>
      simp only [List.flatMap_cons, List.countP_append, ih, List.length_cons]
      simp [List.countP_cons, Instr.is_load]
      omega
  have h2 : ∀ (l : List Nat), (l.flatMap (fun addr =>
      [Instr.mov (.reg .rax) (.imm addr), Instr.clflushopt (.ptr .rax)])).countP
        Instr.is_load = 0 := by
    intro l
    induction l with
    | nil => rfl
    | cons a l ih =>
      simp only [List.flatMap_cons, List.countP_append, ih]
      simp [List.countP_cons, Instr.is_load]
  simp only [jit_round, List.countP_append, h1, h2]
  simp [List.countP_cons, Instr.is_load]

theorem jit_body_length (agg_rounds : Nat) (aggressor_pairs : List Nat) :
    (jit_body agg_rounds aggressor_pairs).length
      = agg_rounds * (4 * aggressor_pairs.length + 1) := by
  unfold jit_body
  induction agg_rounds with
  | zero => simp
  | succ n ih =>
    rw [List.range_succ, List.flatMap_append, List.length_append, ih]
    simp only [List.flatMap_cons, List.flatMap_nil, List.append_nil, jit_round_length]
    ring

theorem jit_body_loads (agg_rounds : Nat) (aggressor_pairs : List Nat) :
    (jit_body agg_rounds aggressor_pairs).countP Instr.is_load
      = agg_rounds * aggressor_pairs.length := by
  unfold jit_body
  induction agg_rounds with
  | zero => simp
  | succ n ih =>
    rw [List.range_succ, List.flatMap_append, List.countP_append, ih]
    simp only [List.flatMap_cons, List.flatMap_nil, List.append_nil, jit_round_loads]
    ring
theorem jit_prologue_length (H : Nat) (nops : List Nat) : (jit_prologue H nops).length = 29 := rfl

theorem jit_epilogue_length (nops : List Nat) : (jit_epilogue nops).length = 31 := rfl

theorem jit_layout_length (H : Nat) (nops : List Nat) (E : List Instr) :
    (jit_layout H nops E).length = 29 + E.length + 31 := by
  simp only [jit_layout, List.length_append, jit_prologue_length, jit_epilogue_length]

theorem layout_get_pro (H : Nat) (nops : List Nat) (E : List Instr) (i : Nat) (h : i < 29) :
    (jit_layout H nops E)[i]? = (jit_prologue H nops)[i]? := by
  unfold jit_layout
  rw [List.append_assoc, List.getElem?_append_left (by rw [jit_prologue_length]; exact h)]

theorem layout_get_body (H : Nat) (nops : List Nat) (E : List Instr) (i : Nat)
    (h : i < E.length) : (jit_layout H nops E)[29 + i]? = E[i]? := by
  unfold jit_layout
  rw [List.append_assoc, List.getElem?_append_right (by rw [jit_prologue_length]; omega),
    jit_prologue_length, List.getElem?_append_left (by omega)]
  congr 1
  omega

theorem layout_get_epi (H : Nat) (nops : List Nat) (E : List Instr) (j : Nat) :
    (jit_layout H nops E)[29 + E.length + j]? = (jit_epilogue nops)[j]? := by
  unfold jit_layout
  rw [List.getElem?_append_right (by simp [jit_prologue_length])]
  congr 1
  simp [jit_prologue_length]

theorem bind_not_mem_body (E : List Instr) (hE : ∀ i ∈ E, i.is_body = true) (l : Label) :
    Instr.bind l ∉ E := by
  intro h
  have := hE _ h
  simp [Instr.is_body] at this

theorem label_pos_layout (H : Nat) (nops : List Nat) (E : List Instr)
    (hE : ∀ i ∈ E, i.is_body = true) (l : Label) :
    label_pos (jit_layout H nops E) l = some (match l with
      | .while1_begin => 4
      | .while1_end => 22
      | .for1_begin => 25
      | .while2_begin => 29 + E.length
      | .while2_end => 29 + E.length + 26
      | .for1_end => 29 + E.length + 28) := by
  have hmem : Instr.bind l ∈ jit_layout H nops E := by
    cases l <;> simp [jit_layout, jit_prologue, jit_epilogue]
  unfold label_pos
  rw [if_pos hmem]
  congr 1
  have hnb := bind_not_mem_body E hE
  cases l
  case while1_begin | while1_end | for1_begin =>
    unfold jit_layout
    rw [List.append_assoc, List.indexOf_append_of_mem (by simp [jit_prologue])]
    simp [jit_prologue, List.indexOf_cons]
  all_goals
    unfold jit_layout
    rw [List.indexOf_append_of_not_mem, List.length_append, jit_prologue_length]
    · simp [jit_epilogue, List.indexOf_cons]
    · simp only [List.mem_append, not_or]
      exact ⟨by simp [jit_prologue], hnb _⟩
theorem step_eq (prog : List Instr) (w : World) (s : Machine) (i : Instr)
    (h : prog[s.pc]? = some i) : step prog w s = exec prog w s i := by
  unfold step
  rw [h]
  cases i <;> rfl

theorem steps_add (prog : List Instr) (w : World) (a b : Nat) :
    ∀ s, steps prog w (a + b) s = (steps prog w a s).bind (steps prog w b) := by
  induction a with
  | zero => intro s; simp [steps]
  | succ a ih =>
    intro s
    rw [Nat.add_right_comm]
    simp only [steps]
    cases step prog w s with
    | none => rfl
    | some s1 => exact ih s1

theorem run_of_steps (prog : List Instr) (w : World) (f : Nat) :
    ∀ (k : Nat) (s s' : Machine), steps prog w k s = some s' →
      run prog w (k + f) s = run prog w f s' := by
  intro k
  induction k with
  | zero => intro s s' h; simp only [steps, Option.some.injEq] at h; subst h; simp
  | succ k ih =>
    intro s s' h
    simp only [steps] at h
    rw [Nat.add_right_comm]
    simp only [run]
    cases hs : step prog w s with
    | none => rw [hs] at h; simp at h
    | some s1 =>
      rw [hs] at h
      have hne : ¬ prog[s.pc]? = some Instr.ret := by
        intro hr
        simp [step, hr] at hs
      rw [if_neg hne]
      exact ih s1 s' h

theorem run_mono (prog : List Instr) (w : World) (k : Nat) :
    ∀ (f : Nat) (s x : Machine), run prog w f s = some x → run prog w (f + k) s = some x := by
  intro f
  induction f with
  | zero => intro s x h; simp [run] at h
  | succ f ih =>
    intro s x h
    rw [Nat.add_right_comm]
    simp only [run] at h ⊢
    split at h
    · rename_i hr; rw [if_pos hr]; exact h
    · rename_i hr
      rw [if_neg hr]
      cases hs : step prog w s with
      | none => rw [hs] at h; simp at h
      | some s1 => rw [hs] at h; exact ih s1 x h

theorem run_at_ret (prog : List Instr) (w : World) :
    ∀ (f : Nat) (s x : Machine), run prog w f s = some x → prog[x.pc]? = some Instr.ret := by
  intro f
  induction f with
  | zero => intro s x h; simp [run] at h
  | succ f ih =>
    intro s x h
    simp only [run] at h
    split at h
    · rename_i hr
      simp only [Option.some.injEq] at h
      subst h
      exact hr
    · cases hs : step prog w s with
      | none => rw [hs] at h; simp at h
      | some s1 => rw [hs] at h; exact ih s1 x h

theorem run_unique (prog : List Instr) (w : World) (f g : Nat) (s x y : Machine)
    (hx : run prog w f s = some x) (hy : run prog w g s = some y) : x = y := by
  have h1 := run_mono prog w g f s x hx
  have h2 := run_mono prog w f g s y hy
  rw [Nat.add_comm] at h2
  rw [h1] at h2
  exact Option.some.inj h2

theorem hammer_body_begin_layout (H : Nat) (nops : List Nat) (E : List Instr)
    (hE : ∀ i ∈ E, i.is_body = true) : hammer_body_begin (jit_layout H nops E) = 29 := by
  have h := label_pos_layout H nops E hE .for1_begin
  unfold label_pos at h
  split at h
  · simp only [Option.some.injEq] at h
    unfold hammer_body_begin
    rw [h]
  · simp at h

theorem hammer_body_end_layout (H : Nat) (nops : List Nat) (E : List Instr)
    (hE : ∀ i ∈ E, i.is_body = true) :
    hammer_body_end (jit_layout H nops E) = 29 + E.length := by
  have h := label_pos_layout H nops E hE .while2_begin
  unfold label_pos at h
  split at h
  · simp only [Option.some.injEq] at h
    unfold hammer_body_end
    rw [h]
  · simp at h

theorem hammer_body_layout (H : Nat) (nops : List Nat) (E : List Instr)
    (hE : ∀ i ∈ E, i.is_body = true) : hammer_body (jit_layout H nops E) = E := by
  unfold hammer_body
  rw [hammer_body_begin_layout H nops E hE, hammer_body_end_layout H nops E hE]
  unfold jit_layout
  rw [List.append_assoc, List.drop_left' (jit_prologue_length H nops), Nat.add_sub_cancel_left,
    List.take_left' rfl]

theorem hammer_loads_layout (H : Nat) (nops : List Nat) (E : List Instr)
    (hE : ∀ i ∈ E, i.is_body = true) (s : Machine) :
    hammer_loads (jit_layout H nops E) s
      = (s.loads.filter (fun l => decide (29 ≤ l.1 ∧ l.1 < 29 + E.length))).length := by
  unfold hammer_loads
  rw [hammer_body_begin_layout H nops E hE, hammer_body_end_layout H nops E hE]

theorem to_signed_1000 : to_signed 32 1000 = 1000 := by decide

/-- From the entry to `while1_begin`: the two NOP loads. -/
theorem exec_entry (H : Nat) (nops : List Nat) (E : List Instr)
    (hE : ∀ i ∈ E, i.is_body = true) (w : World) (s : Machine) (hpc : s.pc = 0) :
    ∃ s', steps (jit_layout H nops E) w 4 s = some s' ∧ s'.pc = 4 ∧
      hammer_loads (jit_layout H nops E) s' = hammer_loads (jit_layout H nops E) s ∧
      s'.rdtscp_count = s.rdtscp_count := by
  obtain ⟨pc, rax, rbx, rcx, rdx, rsi, flags, stack, rdtscp_count, loads⟩ := s
  simp only at hpc
  subst hpc
  simp [steps, step, layout_get_pro, jit_prologue, exec, Machine.next, Machine.write,
    Machine.read, Reg.width, hammer_loads_layout H nops E hE, List.filter_cons]

/-- One pass through the first synchronisation loop up to its `jg`. -/
theorem exec_while1 (H : Nat) (nops : List Nat) (E : List Instr)
    (hE : ∀ i ∈ E, i.is_body = true) (w : World) (s : Machine) (hpc : s.pc = 4) :
    ∃ s', steps (jit_layout H nops E) w 16 s = some s' ∧ s'.pc = 20 ∧
      s'.flags = to_signed 32 (measured w s.rdtscp_count) - 1000 ∧
      s'.rsi = s.rsi ∧
      hammer_loads (jit_layout H nops E) s' = hammer_loads (jit_layout H nops E) s ∧
      s'.rdtscp_count = s.rdtscp_count + 2 := by
  obtain ⟨pc, rax, rbx, rcx, rdx, rsi, flags, stack, rdtscp_count, loads⟩ := s
  simp only at hpc
  subst hpc
  simp [steps, step, layout_get_pro, jit_prologue, exec, Machine.next, Machine.write,
    Machine.read, Reg.width, hammer_loads_layout H nops E hE, List.filter_cons, measured,
    to_signed_1000]

/-- The `jg while1_end` is taken when the measurement shows a delay. -/
theorem exec_while1_exit (H : Nat) (nops : List Nat) (E : List Instr)
    (hE : ∀ i ∈ E, i.is_body = true) (w : World) (s : Machine) (hpc : s.pc = 20)
    (hf : 0 < s.flags) :
    ∃ s', steps (jit_layout H nops E) w 1 s = some s' ∧ s'.pc = 22 ∧
      s'.rsi = s.rsi ∧
      hammer_loads (jit_layout H nops E) s' = hammer_loads (jit_layout H nops E) s ∧
      s'.rdtscp_count = s.rdtscp_count := by
  obtain ⟨pc, rax, rbx, rcx, rdx, rsi, flags, stack, rdtscp_count, loads⟩ := s
  simp only at hpc hf
  subst hpc
  simp [steps, step, layout_get_pro, jit_prologue, exec, Machine.next, Machine.goto,
    label_pos_layout H nops E hE, hf, hammer_loads_layout H nops E hE]

/-- Otherwise `jmp while1_begin` starts the next pass. -/
theorem exec_while1_again (H : Nat) (nops : List Nat) (E : List Instr)
    (hE : ∀ i ∈ E, i.is_body = true) (w : World) (s : Machine) (hpc : s.pc = 20)
    (hf : ¬ 0 < s.flags) :
    ∃ s', steps (jit_layout H nops E) w 2 s = some s' ∧ s'.pc = 4 ∧
      s'.rsi = s.rsi ∧
      hammer_loads (jit_layout H nops E) s' = hammer_loads (jit_layout H nops E) s ∧
      s'.rdtscp_count = s.rdtscp_count := by
  obtain ⟨pc, rax, rbx, rcx, rdx, rsi, flags, stack, rdtscp_count, loads⟩ := s
  simp only at hpc hf
  subst hpc
  simp [steps, step, layout_get_pro, jit_prologue, exec, Machine.next, Machine.goto,
    label_pos_layout H nops E hE, hf, hammer_loads_layout H nops E hE]
theorem is_body_cases (i : Instr) (h : i.is_body = true) :
    (∃ v, i = Instr.mov (.reg .rax) (.imm v)) ∨ i = Instr.mov (.reg .rbx) (.ptr .rax) ∨
      i = Instr.clflushopt (.ptr .rax) ∨ i = Instr.mfence := by
  unfold Instr.is_body at h
  split at h <;> simp at h ⊢

/-- Straight-line execution of a segment of hammer-body instructions placed at position
`A.length`: control reaches the end of the segment, `rsi`, `rdx`, the stack and the number of
`rdtscp` are untouched, and the loads recorded at positions in `[lo, hi)` grow by the loads of
the segment. -/
theorem exec_segment (w : World) (lo hi : Nat) :
    ∀ (seg A B : List Instr) (s : Machine), (∀ i ∈ seg, i.is_body = true) →
      s.pc = A.length → lo ≤ A.length → A.length + seg.length ≤ hi →
      ∃ s', steps (A ++ seg ++ B) w seg.length s = some s' ∧ s'.pc = A.length + seg.length ∧
        s'.rsi = s.rsi ∧ s'.rdx = s.rdx ∧ s'.stack = s.stack ∧
        s'.rdtscp_count = s.rdtscp_count ∧
        (s'.loads.filter (fun l => decide (lo ≤ l.1 ∧ l.1 < hi))).length
          = (s.loads.filter (fun l => decide (lo ≤ l.1 ∧ l.1 < hi))).length
            + seg.countP Instr.is_load := by
  intro seg
  induction seg with
  | nil => intro A B s _ hpc _ _; exact ⟨s, rfl, by simpa using hpc, rfl, rfl, rfl, rfl, by simp⟩
  | cons i seg ih =>
    intro A B s hseg hpc hlo hhi
    have hib := hseg i (List.mem_cons_self _ _)
    have hfetch : (A ++ i :: seg ++ B)[s.pc]? = some i := by
      rw [hpc, List.append_assoc, List.getElem?_append_right (Nat.le_refl _)]
      simp
    have hstep := step_eq (A ++ i :: seg ++ B) w s i hfetch
    have hprog : A ++ i :: seg ++ B = (A ++ [i]) ++ seg ++ B := by simp
    simp only [List.length_cons] at hhi ⊢
    have key : ∀ s1 : Machine, exec (A ++ i :: seg ++ B) w s i = some s1 →
        s1.pc = s.pc + 1 → s1.rsi = s.rsi → s1.rdx = s.rdx → s1.stack = s.stack →
        s1.rdtscp_count = s.rdtscp_count →
        (s1.loads.filter (fun l => decide (lo ≤ l.1 ∧ l.1 < hi))).length
          = (s.loads.filter (fun l => decide (lo ≤ l.1 ∧ l.1 < hi))).length
            + (if i.is_load then 1 else 0) →
        ∃ s', steps (A ++ i :: seg ++ B) w (seg.length + 1) s = some s' ∧
          s'.pc = A.length + (seg.length + 1) ∧
          s'.rsi = s.rsi ∧ s'.rdx = s.rdx ∧ s'.stack = s.stack ∧
          s'.rdtscp_count = s.rdtscp_count ∧
          (s'.loads.filter (fun l => decide (lo ≤ l.1 ∧ l.1 < hi))).length
            = (s.loads.filter (fun l => decide (lo ≤ l.1 ∧ l.1 < hi))).length
              + (i :: seg).countP Instr.is_load := by
      intro s1 he h1 h2 h3 h4 h5 h6
      obtain ⟨s', hs', hp, hr, hd, hst, hc, hl⟩ := ih (A ++ [i]) B s1
        (fun j hj => hseg j (List.mem_cons_of_mem _ hj))
        (by simp [h1, hpc]) (by simp; omega) (by simp; omega)
      refine ⟨s', ?_, ?_, hr.trans h2, hd.trans h3, hst.trans h4, hc.trans h5, ?_⟩
      · simp only [steps]
        rw [hstep, he, hprog]
        exact hs'
      · rw [hp]; simp; omega
      · rw [hl, h6, List.countP_cons]
        omega
    obtain ⟨pc, rax, rbx, rcx, rdx, rsi, flags, stack, rdtscp_count, loads⟩ := s
    simp only at hpc
    rcases is_body_cases i hib with ⟨v, h⟩ | h | h | h <;> subst h
    · exact key _ rfl rfl rfl rfl rfl rfl (by simp [Machine.write, Machine.next, Instr.is_load])
    · refine key _ rfl rfl rfl rfl rfl rfl ?_
      have hin : lo ≤ pc ∧ pc < hi := by omega
      simp [Machine.write, Machine.next, Instr.is_load, List.filter_cons, hin]
    · exact key _ rfl rfl rfl rfl rfl rfl (by simp [Machine.next, Instr.is_load])
    · exact key _ rfl rfl rfl rfl rfl rfl (by simp [Machine.next, Instr.is_load])
theorem layout_get_epi0 (H : Nat) (nops : List Nat) (E : List Instr) :
    (jit_layout H nops E)[29 + E.length]? = (jit_epilogue nops)[0]? :=
  layout_get_epi H nops E 0

theorem layout_get_epi_assoc (H : Nat) (nops : List Nat) (E : List Instr) (j : Nat) :
    (jit_layout H nops E)[29 + (E.length + j)]? = (jit_epilogue nops)[j]? := by
  rw [← Nat.add_assoc]
  exact layout_get_epi H nops E j

theorem to_signed_zero : to_signed 64 0 = 0 := by decide

theorem to_signed_ne_zero (x : Nat) (h0 : 0 < x) (hx : x < 2 ^ 64) : to_signed 64 x ≠ 0 := by
  unfold to_signed
  split <;> omega

/-- After the first synchronisation loop: `mov rsi, hammering_intervals; mov edx, 0`. -/
theorem exec_init_counter (H : Nat) (nops : List Nat) (E : List Instr)
    (hE : ∀ i ∈ E, i.is_body = true) (w : World) (s : Machine) (hpc : s.pc = 22) :
    ∃ s', steps (jit_layout H nops E) w 3 s = some s' ∧ s'.pc = 25 ∧ s'.rsi = H % 2 ^ 64 ∧
      hammer_loads (jit_layout H nops E) s' = hammer_loads (jit_layout H nops E) s ∧
      s'.rdtscp_count = s.rdtscp_count := by
  obtain ⟨pc, rax, rbx, rcx, rdx, rsi, flags, stack, rdtscp_count, loads⟩ := s
  simp only at hpc
  subst hpc
  simp [steps, step, layout_get_pro, jit_prologue, exec, Machine.next, Machine.write,
    Machine.read, Reg.width, hammer_loads_layout H nops E hE]

/-- Loop head with `rsi = 0`: `jz for1_end` is taken and control reaches the final `ret`. -/
theorem exec_for1_exit (H : Nat) (nops : List Nat) (E : List Instr)
    (hE : ∀ i ∈ E, i.is_body = true) (w : World) (s : Machine) (hpc : s.pc = 25)
    (hrsi : s.rsi = 0) :
    ∃ s', steps (jit_layout H nops E) w 5 s = some s' ∧ s'.pc = 29 + E.length + 30 ∧
      s'.rsi = 0 ∧
      hammer_loads (jit_layout H nops E) s' = hammer_loads (jit_layout H nops E) s ∧
      s'.rdtscp_count = s.rdtscp_count := by
  obtain ⟨pc, rax, rbx, rcx, rdx, rsi, flags, stack, rdtscp_count, loads⟩ := s
  simp only at hpc hrsi
  subst hpc hrsi
  simp [steps, step, layout_get_pro, layout_get_epi_assoc, jit_prologue, jit_epilogue, exec,
    Machine.next, Machine.write, Machine.read, Machine.goto, Reg.width,
    label_pos_layout H nops E hE, hammer_loads_layout H nops E hE, to_signed_zero, Nat.add_assoc]

/-- Loop head with `rsi > 0`: the loop is entered and `rsi` is decremented. -/
theorem exec_for1_enter (H : Nat) (nops : List Nat) (E : List Instr)
    (hE : ∀ i ∈ E, i.is_body = true) (w : World) (s : Machine) (hpc : s.pc = 25)
    (h0 : 0 < s.rsi) (hlt : s.rsi < 2 ^ 64) :
    ∃ s', steps (jit_layout H nops E) w 4 s = some s' ∧ s'.pc = 29 ∧
      s'.rsi = s.rsi - 1 ∧
      hammer_loads (jit_layout H nops E) s' = hammer_loads (jit_layout H nops E) s ∧
      s'.rdtscp_count = s.rdtscp_count := by
  obtain ⟨pc, rax, rbx, rcx, rdx, rsi, flags, stack, rdtscp_count, loads⟩ := s
  simp only at hpc h0 hlt
  subst hpc
  have hne := to_signed_ne_zero rsi h0 hlt
  simp [steps, step, layout_get_pro, jit_prologue, exec,
    Machine.next, Machine.write, Machine.read, Machine.goto, Reg.width,
    label_pos_layout H nops E hE, hammer_loads_layout H nops E hE, to_signed_zero, hne]
  omega

/-- The unrolled hammer body runs straight through. -/
theorem exec_body (H : Nat) (nops : List Nat) (E : List Instr)
    (hE : ∀ i ∈ E, i.is_body = true) (w : World) (s : Machine) (hpc : s.pc = 29) :
    ∃ s', steps (jit_layout H nops E) w E.length s = some s' ∧ s'.pc = 29 + E.length ∧
      s'.rsi = s.rsi ∧
      hammer_loads (jit_layout H nops E) s'
        = hammer_loads (jit_layout H nops E) s + E.countP Instr.is_load ∧
      s'.rdtscp_count = s.rdtscp_count := by
  obtain ⟨s', h1, h2, h3, -, -, h6, h7⟩ := exec_segment w 29 (29 + E.length) E
    (jit_prologue H nops) (jit_epilogue nops) s hE (by rw [hpc]; rfl)
    (by rw [jit_prologue_length]) (by rw [jit_prologue_length])
  rw [jit_prologue_length] at h2
  refine ⟨s', h1, h2, h3, ?_, h6⟩
  rw [hammer_loads_layout H nops E hE, hammer_loads_layout H nops E hE]
  exact h7

/-- One pass through the second synchronisation loop up to its `jg`. -/
theorem exec_while2 (H : Nat) (nops : List Nat) (E : List Instr)
    (hE : ∀ i ∈ E, i.is_body = true) (w : World) (s : Machine) (hpc : s.pc = 29 + E.length) :
    ∃ s', steps (jit_layout H nops E) w 24 s = some s' ∧ s'.pc = 29 + E.length + 24 ∧
      s'.flags = to_signed 32 (measured w s.rdtscp_count) - 1000 ∧
      s'.rsi = s.rsi ∧
      hammer_loads (jit_layout H nops E) s' = hammer_loads (jit_layout H nops E) s ∧
      s'.rdtscp_count = s.rdtscp_count + 2 := by
  obtain ⟨pc, rax, rbx, rcx, rdx, rsi, flags, stack, rdtscp_count, loads⟩ := s
  simp only at hpc
  subst hpc
  simp [steps, step, layout_get_epi_assoc, layout_get_epi0, jit_epilogue, exec, Machine.next,
    Machine.write, Machine.read, Reg.width, hammer_loads_layout H nops E hE, List.filter_cons,
    measured, to_signed_1000, Nat.add_assoc]
/-- The `jg while2_end` is taken when the measurement shows a delay. -/
theorem exec_while2_exit (H : Nat) (nops : List Nat) (E : List Instr)
    (hE : ∀ i ∈ E, i.is_body = true) (w : World) (s : Machine)
    (hpc : s.pc = 29 + E.length + 24) (hf : 0 < s.flags) :
    ∃ s', steps (jit_layout H nops E) w 1 s = some s' ∧ s'.pc = 29 + E.length + 26 ∧
      s'.rsi = s.rsi ∧
      hammer_loads (jit_layout H nops E) s' = hammer_loads (jit_layout H nops E) s ∧
      s'.rdtscp_count = s.rdtscp_count := by
  obtain ⟨pc, rax, rbx, rcx, rdx, rsi, flags, stack, rdtscp_count, loads⟩ := s
  simp only at hpc hf
  subst hpc
  simp [steps, step, layout_get_epi_assoc, jit_epilogue, exec, Machine.next, Machine.goto,
    label_pos_layout H nops E hE, hf, hammer_loads_layout H nops E hE, Nat.add_assoc]

/-- Otherwise `jmp while2_begin` starts the next pass. -/
theorem exec_while2_again (H : Nat) (nops : List Nat) (E : List Instr)
    (hE : ∀ i ∈ E, i.is_body = true) (w : World) (s : Machine)
    (hpc : s.pc = 29 + E.length + 24) (hf : ¬ 0 < s.flags) :
    ∃ s', steps (jit_layout H nops E) w 2 s = some s' ∧ s'.pc = 29 + E.length ∧
      s'.rsi = s.rsi ∧
      hammer_loads (jit_layout H nops E) s' = hammer_loads (jit_layout H nops E) s ∧
      s'.rdtscp_count = s.rdtscp_count := by
  obtain ⟨pc, rax, rbx, rcx, rdx, rsi, flags, stack, rdtscp_count, loads⟩ := s
  simp only at hpc hf
  subst hpc
  simp [steps, step, layout_get_epi_assoc, jit_epilogue, exec, Machine.next, Machine.goto,
    label_pos_layout H nops E hE, hf, hammer_loads_layout H nops E hE, Nat.add_assoc]

/-- After the second synchronisation loop: `jmp for1_begin`. -/
theorem exec_for1_next (H : Nat) (nops : List Nat) (E : List Instr)
    (hE : ∀ i ∈ E, i.is_body = true) (w : World) (s : Machine)
    (hpc : s.pc = 29 + E.length + 26) :
    ∃ s', steps (jit_layout H nops E) w 2 s = some s' ∧ s'.pc = 25 ∧
      s'.rsi = s.rsi ∧
      hammer_loads (jit_layout H nops E) s' = hammer_loads (jit_layout H nops E) s ∧
      s'.rdtscp_count = s.rdtscp_count := by
  obtain ⟨pc, rax, rbx, rcx, rdx, rsi, flags, stack, rdtscp_count, loads⟩ := s
  simp only at hpc
  subst hpc
  simp [steps, step, layout_get_epi_assoc, jit_epilogue, exec, Machine.next, Machine.goto,
    label_pos_layout H nops E hE, hammer_loads_layout H nops E hE, Nat.add_assoc]

theorem run_after_steps (prog : List Instr) (w : World) (final : Machine) :
    ∀ (k f : Nat) (s s' : Machine), steps prog w k s = some s' →
      run prog w f s = some final → k < f ∧ run prog w (f - k) s' = some final := by
  intro k
  induction k with
  | zero =>
    intro f s s' h hr
    simp only [steps, Option.some.injEq] at h
    subst h
    cases f with
    | zero => simp [run] at hr
    | succ f => exact ⟨Nat.succ_pos f, hr⟩
  | succ k ih =>
    intro f s s' h hr
    simp only [steps] at h
    cases hs : step prog w s with
    | none => rw [hs] at h; simp at h
    | some s1 =>
      rw [hs] at h
      have hne : ¬ prog[s.pc]? = some Instr.ret := by
        intro hr'
        simp [step, hr'] at hs
      cases f with
      | zero => simp [run] at hr
      | succ f =>
        simp only [run, if_neg hne, hs] at hr
        obtain ⟨h1, h2⟩ := ih f s1 s' h hr
        refine ⟨by omega, ?_⟩
        rw [Nat.succ_sub_succ]
        exact h2

theorem run_before_steps (prog : List Instr) (w : World) (final : Machine) (k f : Nat)
    (s s' : Machine) (h : steps prog w k s = some s') (hr : run prog w f s' = some final) :
    run prog w (k + f) s = some final := by
  rw [run_of_steps prog w f k s s' h]
  exact hr

/-- A synchronisation loop, for every run that returns: control leaves the loop. -/
theorem sync_loop_of_returns (prog : List Instr) (w : World) (pb pj pe k1 : Nat)
    (hiter : ∀ s : Machine, s.pc = pb → ∃ s', steps prog w k1 s = some s' ∧ s'.pc = pj ∧
      s'.flags = to_signed 32 (measured w s.rdtscp_count) - 1000 ∧ s'.rsi = s.rsi ∧
      hammer_loads prog s' = hammer_loads prog s ∧ s'.rdtscp_count = s.rdtscp_count + 2)
    (hexit : ∀ s : Machine, s.pc = pj → 0 < s.flags → ∃ s', steps prog w 1 s = some s' ∧
      s'.pc = pe ∧ s'.rsi = s.rsi ∧ hammer_loads prog s' = hammer_loads prog s ∧
      s'.rdtscp_count = s.rdtscp_count)
    (hagain : ∀ s : Machine, s.pc = pj → ¬ 0 < s.flags → ∃ s', steps prog w 2 s = some s' ∧
      s'.pc = pb ∧ s'.rsi = s.rsi ∧ hammer_loads prog s' = hammer_loads prog s ∧
      s'.rdtscp_count = s.rdtscp_count)
    (final : Machine) :
    ∀ (f : Nat) (s : Machine), s.pc = pb → run prog w f s = some final →
      ∃ f' s', s'.pc = pe ∧ s'.rsi = s.rsi ∧ hammer_loads prog s' = hammer_loads prog s ∧
        run prog w f' s' = some final := by
  intro f
  induction f using Nat.strong_induction_on with
  | _ f ih =>
    intro s hpc hr
    obtain ⟨s1, hs1, hpc1, -, hrsi1, hl1, -⟩ := hiter s hpc
    obtain ⟨hk1, hr1⟩ := run_after_steps prog w final k1 f s s1 hs1 hr
    by_cases hf : 0 < s1.flags
    · obtain ⟨s2, hs2, hpc2, hrsi2, hl2, -⟩ := hexit s1 hpc1 hf
      obtain ⟨-, hr2⟩ := run_after_steps prog w final 1 _ s1 s2 hs2 hr1
      exact ⟨_, s2, hpc2, hrsi2.trans hrsi1, hl2.trans hl1, hr2⟩
    · obtain ⟨s2, hs2, hpc2, hrsi2, hl2, -⟩ := hagain s1 hpc1 hf
      obtain ⟨hk2, hr2⟩ := run_after_steps prog w final 2 _ s1 s2 hs2 hr1
      obtain ⟨f', s3, hpc3, hrsi3, hl3, hr3⟩ := ih (f - k1 - 2) (by omega) s2 hpc2 hr2
      exact ⟨f', s3, hpc3, hrsi3.trans (hrsi2.trans hrsi1), hl3.trans (hl2.trans hl1), hr3⟩

/-- A synchronisation loop, when a later measurement shows a delay: control leaves the loop
after finitely many steps. -/
theorem sync_loop_terminates (prog : List Instr) (w : World) (pb pj pe k1 : Nat)
    (hiter : ∀ s : Machine, s.pc = pb → ∃ s', steps prog w k1 s = some s' ∧ s'.pc = pj ∧
      s'.flags = to_signed 32 (measured w s.rdtscp_count) - 1000 ∧ s'.rsi = s.rsi ∧
      hammer_loads prog s' = hammer_loads prog s ∧ s'.rdtscp_count = s.rdtscp_count + 2)
    (hexit : ∀ s : Machine, s.pc = pj → 0 < s.flags → ∃ s', steps prog w 1 s = some s' ∧
      s'.pc = pe ∧ s'.rsi = s.rsi ∧ hammer_loads prog s' = hammer_loads prog s ∧
      s'.rdtscp_count = s.rdtscp_count)
    (hagain : ∀ s : Machine, s.pc = pj → ¬ 0 < s.flags → ∃ s', steps prog w 2 s = some s' ∧
      s'.pc = pb ∧ s'.rsi = s.rsi ∧ hammer_loads prog s' = hammer_loads prog s ∧
      s'.rdtscp_count = s.rdtscp_count) :
    ∀ (m : Nat) (s : Machine), s.pc = pb → Delay w (s.rdtscp_count + 2 * m) →
      ∃ k s', steps prog w k s = some s' ∧ s'.pc = pe ∧ s'.rsi = s.rsi ∧
        hammer_loads prog s' = hammer_loads prog s := by
  intro m
  induction m with
  | zero =>
    intro s hpc hd
    obtain ⟨s1, hs1, hpc1, hfl, hrsi1, hl1, -⟩ := hiter s hpc
    have hf : 0 < s1.flags := by
      rw [hfl]
      simp only [Delay, Nat.mul_zero, Nat.add_zero] at hd
      omega
    obtain ⟨s2, hs2, hpc2, hrsi2, hl2, -⟩ := hexit s1 hpc1 hf
    refine ⟨k1 + 1, s2, ?_, hpc2, hrsi2.trans hrsi1, hl2.trans hl1⟩
    rw [steps_add, hs1]
    exact hs2
  | succ m ih =>
    intro s hpc hd
    obtain ⟨s1, hs1, hpc1, -, hrsi1, hl1, hc1⟩ := hiter s hpc
    by_cases hf : 0 < s1.flags
    · obtain ⟨s2, hs2, hpc2, hrsi2, hl2, -⟩ := hexit s1 hpc1 hf
      refine ⟨k1 + 1, s2, ?_, hpc2, hrsi2.trans hrsi1, hl2.trans hl1⟩
      rw [steps_add, hs1]
      exact hs2
    · obtain ⟨s2, hs2, hpc2, hrsi2, hl2, hc2⟩ := hagain s1 hpc1 hf
      have hd2 : Delay w (s2.rdtscp_count + 2 * m) := by
        rw [hc2, hc1]
        have : s.rdtscp_count + 2 + 2 * m = s.rdtscp_count + 2 * (m + 1) := by omega
        rw [this]
        exact hd
      obtain ⟨k, s3, hs3, hpc3, hrsi3, hl3⟩ := ih s2 hpc2 hd2
      refine ⟨k1 + (2 + k), s3, ?_, hpc3, hrsi3.trans (hrsi2.trans hrsi1),
        hl3.trans (hl2.trans hl1)⟩
      rw [steps_add, hs1, Option.some_bind, steps_add, hs2]
      exact hs3
theorem layout_get_ret (H : Nat) (nops : List Nat) (E : List Instr) :
    (jit_layout H nops E)[29 + E.length + 30]? = some Instr.ret := by
  rw [layout_get_epi]
  rfl

theorem run_of_at_ret (prog : List Instr) (w : World) (f : Nat) (s final : Machine)
    (hret : prog[s.pc]? = some Instr.ret) (hr : run prog w f s = some final) : final = s := by
  cases f with
  | zero => simp [run] at hr
  | succ f =>
    simp only [run, if_pos hret, Option.some.injEq] at hr
    exact hr.symm

/-- The second synchronisation loop, for every run that returns. -/
theorem while2_of_returns (H : Nat) (nops : List Nat) (E : List Instr)
    (hE : ∀ i ∈ E, i.is_body = true) (w : World) (final : Machine) (f : Nat) (s : Machine)
    (hpc : s.pc = 29 + E.length) (hr : run (jit_layout H nops E) w f s = some final) :
    ∃ f' s', s'.pc = 29 + E.length + 26 ∧ s'.rsi = s.rsi ∧
      hammer_loads (jit_layout H nops E) s' = hammer_loads (jit_layout H nops E) s ∧
      run (jit_layout H nops E) w f' s' = some final :=
  sync_loop_of_returns (jit_layout H nops E) w (29 + E.length) (29 + E.length + 24)
    (29 + E.length + 26) 24 (exec_while2 H nops E hE w) (exec_while2_exit H nops E hE w)
    (exec_while2_again H nops E hE w) final f s hpc hr

/-- The hammer loop, for every run that returns: `rsi` iterations remain, each performs the
loads of the body once, and the run ends with `rsi = 0`. -/
theorem for1_of_returns (H : Nat) (nops : List Nat) (E : List Instr)
    (hE : ∀ i ∈ E, i.is_body = true) (w : World) (final : Machine) :
    ∀ (r f : Nat) (s : Machine), s.pc = 25 → s.rsi = r → r < 2 ^ 64 →
      run (jit_layout H nops E) w f s = some final →
      hammer_loads (jit_layout H nops E) final
          = hammer_loads (jit_layout H nops E) s + E.countP Instr.is_load * r ∧
        final.rsi = 0 ∧ final.pc = 29 + E.length + 30 := by
  intro r
  induction r with
  | zero =>
    intro f s hpc hrsi _ hr
    obtain ⟨s1, hs1, hpc1, hrsi1, hl1, -⟩ := exec_for1_exit H nops E hE w s hpc hrsi
    obtain ⟨-, hr1⟩ := run_after_steps _ w final 5 f s s1 hs1 hr
    have hret : (jit_layout H nops E)[s1.pc]? = some Instr.ret := by
      rw [hpc1]
      exact layout_get_ret H nops E
    have hfin := run_of_at_ret _ w _ s1 final hret hr1
    subst hfin
    exact ⟨by rw [hl1]; simp, hrsi1, hpc1⟩
  | succ r ih =>
    intro f s hpc hrsi hlt hr
    obtain ⟨s1, hs1, hpc1, hrsi1, hl1, -⟩ :=
      exec_for1_enter H nops E hE w s hpc (by omega) (by omega)
    obtain ⟨-, hr1⟩ := run_after_steps _ w final 4 f s s1 hs1 hr
    obtain ⟨s2, hs2, hpc2, hrsi2, hl2, -⟩ := exec_body H nops E hE w s1 hpc1
    obtain ⟨-, hr2⟩ := run_after_steps _ w final _ _ s1 s2 hs2 hr1
    obtain ⟨f3, s3, hpc3, hrsi3, hl3, hr3⟩ := while2_of_returns H nops E hE w final _ s2 hpc2 hr2
    obtain ⟨s4, hs4, hpc4, hrsi4, hl4, -⟩ := exec_for1_next H nops E hE w s3 hpc3
    obtain ⟨-, hr4⟩ := run_after_steps _ w final 2 f3 s3 s4 hs4 hr3
    have hrsi' : s4.rsi = r := by
      rw [hrsi4, hrsi3, hrsi2, hrsi1, hrsi]
      rfl
    obtain ⟨h1, h2, h3⟩ := ih _ s4 hpc4 hrsi' (by omega) hr4
    refine ⟨?_, h2, h3⟩
    rw [h1, hl4, hl3, hl2, hl1, Nat.mul_succ]
    omega

/-- Every run of the emitted code that returns has performed
`hammering_intervals` times the loads of the hammer body, and returns with `rsi = 0` from the
final `ret`. -/
theorem layout_run_of_returns (H : Nat) (nops : List Nat) (E : List Instr)
    (hE : ∀ i ∈ E, i.is_body = true) (hH : H < 2 ^ 64) (w : World) (f : Nat)
    (s final : Machine) (hpc : s.pc = 0)
    (hr : run (jit_layout H nops E) w f s = some final) :
    hammer_loads (jit_layout H nops E) final
        = hammer_loads (jit_layout H nops E) s + E.countP Instr.is_load * H ∧
      final.rsi = 0 ∧ final.pc = 29 + E.length + 30 := by
  obtain ⟨s1, hs1, hpc1, hl1, -⟩ := exec_entry H nops E hE w s hpc
  obtain ⟨-, hr1⟩ := run_after_steps _ w final 4 f s s1 hs1 hr
  obtain ⟨f2, s2, hpc2, -, hl2, hr2⟩ :=
    sync_loop_of_returns (jit_layout H nops E) w 4 20 22 16 (exec_while1 H nops E hE w)
      (exec_while1_exit H nops E hE w) (exec_while1_again H nops E hE w) final _ s1 hpc1 hr1
  obtain ⟨s3, hs3, hpc3, hrsi3, hl3, -⟩ := exec_init_counter H nops E hE w s2 hpc2
  obtain ⟨-, hr3⟩ := run_after_steps _ w final 3 f2 s2 s3 hs3 hr2
  rw [Nat.mod_eq_of_lt hH] at hrsi3
  obtain ⟨h1, h2, h3⟩ := for1_of_returns H nops E hE w final H _ s3 hpc3 hrsi3 hH hr3
  refine ⟨?_, h2, h3⟩
  rw [h1, hl3, hl2, hl1]

/-- The hammer loop returns when every synchronisation loop sees a delay at some point. -/
theorem for1_terminates (H : Nat) (nops : List Nat) (E : List Instr)
    (hE : ∀ i ∈ E, i.is_body = true) (w : World)
    (hdelay : ∀ c, ∃ m, Delay w (c + 2 * m)) :
    ∀ (r : Nat) (s : Machine), s.pc = 25 → s.rsi = r → r < 2 ^ 64 →
      ∃ f final, run (jit_layout H nops E) w f s = some final := by
  intro r
  induction r with
  | zero =>
    intro s hpc hrsi _
    obtain ⟨s1, hs1, hpc1, -, -, -⟩ := exec_for1_exit H nops E hE w s hpc hrsi
    have hret : (jit_layout H nops E)[s1.pc]? = some Instr.ret := by
      rw [hpc1]
      exact layout_get_ret H nops E
    have h1 : run (jit_layout H nops E) w 1 s1 = some s1 := by
      simp only [run, if_pos hret]
    exact ⟨5 + 1, s1, run_before_steps _ w s1 5 1 s s1 hs1 h1⟩
  | succ r ih =>
    intro s hpc hrsi hlt
    obtain ⟨s1, hs1, hpc1, hrsi1, -, -⟩ :=
      exec_for1_enter H nops E hE w s hpc (by omega) (by omega)
    obtain ⟨s2, hs2, hpc2, hrsi2, -, -⟩ := exec_body H nops E hE w s1 hpc1
    obtain ⟨m, hm⟩ := hdelay s2.rdtscp_count
    obtain ⟨k3, s3, hs3, hpc3, hrsi3, -⟩ :=
      sync_loop_terminates (jit_layout H nops E) w (29 + E.length) (29 + E.length + 24)
        (29 + E.length + 26) 24 (exec_while2 H nops E hE w) (exec_while2_exit H nops E hE w)
        (exec_while2_again H nops E hE w) m s2 hpc2 hm
    obtain ⟨s4, hs4, hpc4, hrsi4, -, -⟩ := exec_for1_next H nops E hE w s3 hpc3
    have hrsi' : s4.rsi = r := by
      rw [hrsi4, hrsi3, hrsi2, hrsi1, hrsi]
      rfl
    obtain ⟨f, final, hr⟩ := ih s4 hpc4 hrsi' (by omega)
    exact ⟨4 + (E.length + (k3 + (2 + f))), final,
      run_before_steps _ w final _ _ s s1 hs1
        (run_before_steps _ w final _ _ s1 s2 hs2
          (run_before_steps _ w final _ _ s2 s3 hs3
            (run_before_steps _ w final _ _ s3 s4 hs4 hr)))⟩

/-- The emitted code returns when every synchronisation loop sees a delay at some point. -/
theorem layout_run_terminates (H : Nat) (nops : List Nat) (E : List Instr)
    (hE : ∀ i ∈ E, i.is_body = true) (w : World)
    (hdelay : ∀ c, ∃ m, Delay w (c + 2 * m)) (s : Machine) (hpc : s.pc = 0) :
    ∃ f final, run (jit_layout H nops E) w f s = some final := by
  obtain ⟨s1, hs1, hpc1, -, -⟩ := exec_entry H nops E hE w s hpc
  obtain ⟨m, hm⟩ := hdelay s1.rdtscp_count
  obtain ⟨k2, s2, hs2, hpc2, -, -⟩ :=
    sync_loop_terminates (jit_layout H nops E) w 4 20 22 16 (exec_while1 H nops E hE w)
      (exec_while1_exit H nops E hE w) (exec_while1_again H nops E hE w) m s1 hpc1 hm
  obtain ⟨s3, hs3, hpc3, hrsi3, -, -⟩ := exec_init_counter H nops E hE w s2 hpc2
  obtain ⟨f, final, hr⟩ := for1_terminates H nops E hE w hdelay (H % 2 ^ 64) s3 hpc3 hrsi3
    (Nat.mod_lt _ (by decide))
  exact ⟨4 + (k2 + (3 + f)), final,
    run_before_steps _ w final _ _ s s1 hs1
      (run_before_steps _ w final _ _ s1 s2 hs2
        (run_before_steps _ w final _ _ s2 s3 hs3 hr))⟩
theorem layout_ends_with_ret (H : Nat) (nops : List Nat) (E : List Instr)
    (hE : ∀ i ∈ E, i.is_body = true) :
    ∃ init, jit_layout H nops E
        = init ++ [Instr.mov (.reg .eax) (.reg .edx), Instr.ret] ∧ Instr.ret ∉ init := by
  refine ⟨jit_prologue H nops ++ E ++ (jit_epilogue nops).take 29, ?_, ?_⟩
  · simp [jit_layout, jit_epilogue]
  · have hr : Instr.ret ∉ E := by
      intro h
      have := hE _ h
      simp [Instr.is_body] at this
    simp [jit_prologue, jit_epilogue, hr]

theorem layout_bound_labels (H : Nat) (nops : List Nat) (E : List Instr)
    (hE : ∀ i ∈ E, i.is_body = true) :
    (jit_layout H nops E).filterMap Instr.bound_label
      = [.while1_begin, .while1_end, .for1_begin, .while2_begin, .while2_end, .for1_end] := by
  have h0 : E.filterMap Instr.bound_label = [] := by
    rw [List.filterMap_eq_nil_iff]
    intro i hi
    rcases is_body_cases i (hE i hi) with ⟨v, h⟩ | h | h | h <;> subst h <;> rfl
  simp only [jit_layout, List.filterMap_append, h0]
  rfl

theorem layout_jump_targets (H : Nat) (nops : List Nat) (E : List Instr)
    (hE : ∀ i ∈ E, i.is_body = true) :
    (jit_layout H nops E).filterMap Instr.jump_target
      = [.while1_end, .while1_begin, .for1_end, .while2_end, .while2_begin, .for1_begin] := by
  have h0 : E.filterMap Instr.jump_target = [] := by
    rw [List.filterMap_eq_nil_iff]
    intro i hi
    rcases is_body_cases i (hE i hi) with ⟨v, h⟩ | h | h | h <;> subst h <;> rfl
  simp only [jit_layout, List.filterMap_append, h0]
  rfl

theorem layout_label_pos_lt (H : Nat) (nops : List Nat) (E : List Instr)
    (hE : ∀ i ∈ E, i.is_body = true) (l : Label) :
    ∃ p, label_pos (jit_layout H nops E) l = some p ∧ p < (jit_layout H nops E).length ∧
      (jit_layout H nops E)[p]? = some (Instr.bind l) := by
  rw [label_pos_layout H nops E hE l, jit_layout_length]
  refine ⟨_, rfl, ?_, ?_⟩
  · cases l <;> simp only <;> omega
  · cases l
    case while1_begin | while1_end | for1_begin =>
      simp only
      rw [layout_get_pro H nops E _ (by decide)]
      rfl
    case while2_begin => exact layout_get_epi H nops E 0
    all_goals
      simp only
      rw [layout_get_epi]
      rfl

theorem ret_position (prog init : List Instr) (x : Instr)
    (hprog : prog = init ++ [x, Instr.ret]) (hinit : Instr.ret ∉ init) (hx : x ≠ Instr.ret)
    (i : Nat) (hi : prog[i]? = some Instr.ret) : i + 1 = prog.length := by
  subst hprog
  rw [List.length_append]
  simp only [List.length_cons, List.length_nil]
  by_cases hlt : i < init.length
  · rw [List.getElem?_append_left hlt] at hi
    exact absurd (List.getElem?_mem hi) hinit
  · rw [List.getElem?_append_right (by omega)] at hi
    have h2 : i - init.length < 2 := by
      by_contra hge
      rw [List.getElem?_eq_none (by simp; omega)] at hi
      simp at hi
    have h01 : i - init.length = 0 ∨ i - init.length = 1 := by omega
    rcases h01 with h | h
    · rw [h] at hi
      simp at hi
      exact absurd hi hx
    · omega

theorem body_names_rsi (E : List Instr) (hE : ∀ i ∈ E, i.is_body = true) :
    E.filter (Instr.names .rsi) = [] := by
  rw [List.filter_eq_nil_iff]
  intro i hi
  rcases is_body_cases i (hE i hi) with ⟨v, h⟩ | h | h | h <;> subst h <;>
    simp [Instr.names, Operand.names]

theorem layout_names_rsi (H : Nat) (nops : List Nat) (E : List Instr)
    (hE : ∀ i ∈ E, i.is_body = true) :
    (jit_layout H nops E).filter (Instr.names .rsi)
      = [Instr.mov (.reg .rsi) (.imm H), Instr.cmp (.reg .rsi) (.imm 0),
         Instr.dec (.reg .rsi)] := by
  simp only [jit_layout, List.filter_append, body_names_rsi E hE]
  simp [jit_prologue, jit_epilogue, List.filter_cons, Instr.names, Operand.names]

theorem layout_loop_head (H : Nat) (nops : List Nat) (E : List Instr)
    (hE : ∀ i ∈ E, i.is_body = true) :
    ((jit_layout H nops E).drop (hammer_body_begin (jit_layout H nops E) - 6)).take 6
      = [Instr.mov (.reg .rsi) (.imm H), Instr.mov (.reg .edx) (.imm 0),
         Instr.bind .for1_begin, Instr.cmp (.reg .rsi) (.imm 0), Instr.jz .for1_end,
         Instr.dec (.reg .rsi)] := by
  rw [hammer_body_begin_layout H nops E hE]
  simp [jit_layout, jit_prologue]

theorem layout_loop_tail (H : Nat) (nops : List Nat) (E : List Instr) :
    (jit_layout H nops E).drop ((jit_layout H nops E).length - 4)
      = [Instr.jmp .for1_begin, Instr.bind .for1_end, Instr.mov (.reg .eax) (.reg .edx),
         Instr.ret] := by
  have h : (jit_layout H nops E).length - 4
      = (jit_prologue H nops ++ E).length + 27 := by
    rw [jit_layout_length, List.length_append, jit_prologue_length]
    omega
  rw [h]
  unfold jit_layout
  rw [← List.drop_drop, List.drop_left]
  rfl

theorem example_world_delay : ∀ c, ∃ m, Delay example_world (c + 2 * m) := by
  intro c
  refine ⟨0, ?_⟩
  have h : measured example_world (c + 2 * 0) = 2000 := by
    simp only [measured, example_world]
    omega
  unfold Delay
  rw [h]
  decide
/-- C19: for `hammering_intervals` in the `uint64_t` range, `jit_hammering_code` emits a
sequence whose unrolled hammer body contains `agg_rounds * len(aggressor_pairs)` loads; the
instructions naming `rsi` are `mov rsi, hammering_intervals`, `cmp rsi, 0` and `dec rsi`, placed
as `mov rsi, ..; mov edx, 0; for1_begin: cmp rsi, 0; jz for1_end; dec rsi` right before the
body, and the sequence ends with `jmp for1_begin; for1_end: mov eax, edx; ret`.  Every run of
the emitted code from its first instruction that returns has performed exactly
`agg_rounds * len(aggressor_pairs) * hammering_intervals` loads of the hammer body and returns
with `rsi = 0`; and a run returns whenever every synchronisation loop eventually measures a
delay. -/
theorem jit_hammer_loads_count (rand : Nat → Nat) (fuel agg_rounds hammering_intervals : Nat)
    (aggressor_pairs nops : List Nat) (hH : hammering_intervals < 2 ^ 64) :
    ∃ prog, jit_hammering_code rand fuel agg_rounds hammering_intervals aggressor_pairs nops
        = some prog ∧
      (hammer_body prog).countP Instr.is_load = agg_rounds * aggressor_pairs.length ∧
      prog.filter (Instr.names .rsi)
        = [Instr.mov (.reg .rsi) (.imm hammering_intervals), Instr.cmp (.reg .rsi) (.imm 0),
           Instr.dec (.reg .rsi)] ∧
      (prog.drop (hammer_body_begin prog - 6)).take 6
        = [Instr.mov (.reg .rsi) (.imm hammering_intervals), Instr.mov (.reg .edx) (.imm 0),
           Instr.bind .for1_begin, Instr.cmp (.reg .rsi) (.imm 0), Instr.jz .for1_end,
           Instr.dec (.reg .rsi)] ∧
      prog.drop (prog.length - 4)
        = [Instr.jmp .for1_begin, Instr.bind .for1_end, Instr.mov (.reg .eax) (.reg .edx),
           Instr.ret] ∧
      (∀ (w : World) (f : Nat) (s final : Machine), s.pc = 0 →
        run prog w f s = some final →
        hammer_loads prog final
            = hammer_loads prog s + agg_rounds * aggressor_pairs.length * hammering_intervals ∧
          final.rsi = 0) ∧
      ∀ (w : World) (s : Machine), (∀ c, ∃ m, Delay w (c + 2 * m)) → s.pc = 0 →
        ∃ f final, run prog w f s = some final := by
  have hE := jit_body_is_body agg_rounds aggressor_pairs
  refine ⟨_, jit_hammering_code_eq rand fuel agg_rounds hammering_intervals aggressor_pairs nops,
    ?_, layout_names_rsi _ _ _ hE, layout_loop_head _ _ _ hE, layout_loop_tail _ _ _, ?_, ?_⟩
  · rw [← jit_layout, hammer_body_layout _ _ _ hE, jit_body_loads]
  · intro w f s final hpc hr
    obtain ⟨h1, h2, -⟩ := layout_run_of_returns hammering_intervals nops _ hE hH w f s final hpc hr
    rw [jit_body_loads] at h1
    exact ⟨h1, h2⟩
  · intro w s hdelay hpc
    exact layout_run_terminates hammering_intervals nops _ hE w hdelay s hpc

theorem jit_hammer_loads_count_witness :
    (2 : Nat) < 2 ^ 64 ∧
    ∃ prog final, jit_hammering_code (fun _ => 0) 0 3 2 [4096, 8192] [64, 128] = some prog ∧
      (hammer_body prog).countP Instr.is_load = 3 * 2 ∧
      run prog example_world 200 example_entry = some final ∧
      hammer_loads prog final = 3 * 2 * 2 ∧ final.rsi = 0 := by
  obtain ⟨prog, hp, hbody, -, -, -, hrun, -⟩ :=
    jit_hammer_loads_count (fun _ => 0) 0 3 2 [4096, 8192] [64, 128] (by decide)
  have hsome : (run (jit_layout 2 [64, 128] (jit_body 3 [4096, 8192])) example_world 200
      example_entry).isSome = true := by decide!
  have hprog : prog = jit_layout 2 [64, 128] (jit_body 3 [4096, 8192]) := by
    rw [jit_hammering_code_eq] at hp
    exact (Option.some.inj hp).symm
  rw [← hprog] at hsome
  obtain ⟨final, hfinal⟩ := Option.isSome_iff_exists.mp hsome
  obtain ⟨h1, h2⟩ := hrun example_world 200 example_entry final rfl hfinal
  refine ⟨by decide, prog, final, hp, hbody, hfinal, ?_, h2⟩
  rw [h1]
  simp [hammer_loads, example_entry]

/-- C20: for every input, the sequence emitted by `jit_hammering_code` ends with
`mov eax, edx` followed by `ret` and contains no other `ret`; the labels bound in it are the six
labels of the function, each bound once; the jumps it contains are the six listed, and every
jump targets a label bound at a position inside the sequence; and every run of the emitted
code that returns, from any state, returns at the final `ret`. -/
theorem jit_returns_through_final_ret (rand : Nat → Nat)
    (fuel agg_rounds hammering_intervals : Nat) (aggressor_pairs nops : List Nat) :
    ∃ prog, jit_hammering_code rand fuel agg_rounds hammering_intervals aggressor_pairs nops
        = some prog ∧
      (∃ init, prog = init ++ [Instr.mov (.reg .eax) (.reg .edx), Instr.ret] ∧
        Instr.ret ∉ init) ∧
      prog.filterMap Instr.bound_label
        = [.while1_begin, .while1_end, .for1_begin, .while2_begin, .while2_end, .for1_end] ∧
      prog.filterMap Instr.jump_target
        = [.while1_end, .while1_begin, .for1_end, .while2_end, .while2_begin, .for1_begin] ∧
      (∀ i ∈ prog, ∀ l, i.jump_target = some l →
        ∃ p, label_pos prog l = some p ∧ p < prog.length ∧ prog[p]? = some (Instr.bind l)) ∧
      ∀ (w : World) (f : Nat) (s final : Machine), run prog w f s = some final →
        final.pc + 1 = prog.length ∧ prog[final.pc]? = some Instr.ret := by
  have hE := jit_body_is_body agg_rounds aggressor_pairs
  refine ⟨_, jit_hammering_code_eq rand fuel agg_rounds hammering_intervals aggressor_pairs nops,
    layout_ends_with_ret _ _ _ hE, layout_bound_labels _ _ _ hE, layout_jump_targets _ _ _ hE,
    fun _ _ l _ => layout_label_pos_lt _ _ _ hE l, ?_⟩
  intro w f s final hr
  have hret := run_at_ret _ w f s final hr
  obtain ⟨init, hinit, hno⟩ := layout_ends_with_ret hammering_intervals nops _ hE
  exact ⟨ret_position _ init _ hinit hno (by simp) final.pc hret, hret⟩

theorem jit_returns_through_final_ret_witness :
    ∃ prog final, jit_hammering_code (fun _ => 0) 0 1 1 [4096] [64, 128] = some prog ∧
      run prog example_world 100 example_entry = some final ∧
      final.pc + 1 = prog.length ∧ prog[final.pc]? = some Instr.ret := by
  obtain ⟨prog, hp, -, -, -, -, hrun⟩ :=
    jit_returns_through_final_ret (fun _ => 0) 0 1 1 [4096] [64, 128]
  have hsome : (run (jit_layout 1 [64, 128] (jit_body 1 [4096])) example_world 100
      example_entry).isSome = true := by decide!
  have hprog : prog = jit_layout 1 [64, 128] (jit_body 1 [4096]) := by
    rw [jit_hammering_code_eq] at hp
    exact (Option.some.inj hp).symm
  rw [← hprog] at hsome
  obtain ⟨final, hfinal⟩ := Option.isSome_iff_exists.mp hsome
  exact ⟨prog, final, hp, hfinal, hrun example_world 100 example_entry final hfinal⟩

/-! ### The unrolled rounds of the hammer body -/

theorem flatMap_pair_get (f : Nat → Instr) (g : Instr) (l : List Nat) (i : Nat)
    (hi : i < l.length) :
    (l.flatMap (fun a => [f a, g]))[2 * i]? = some (f (l.getD i 0)) ∧
      (l.flatMap (fun a => [f a, g]))[2 * i + 1]? = some g := by
  induction l generalizing i with
  | nil => simp at hi
  | cons a l ih =>
    cases i with
    | zero => simp
    | succ i =>
      have h := ih i (by simpa using hi)
      have e1 : 2 * (i + 1) = 2 * i + 1 + 1 := by ring
      have e2 : 2 * (i + 1) + 1 = 2 * i + 1 + 1 + 1 := by ring
      simp only [List.flatMap_cons, List.cons_append, List.nil_append, e1, e2,
        List.getElem?_cons_succ, List.getD_cons_succ]
      exact h

theorem flatMap_pair_length (f : Nat → Instr) (g : Instr) (l : List Nat) :
    (l.flatMap (fun a => [f a, g])).length = 2 * l.length := by
  induction l with
  | nil => rfl
  | cons a l ih =>
    simp only [List.flatMap_cons, List.length_append, List.length_cons, List.length_nil, ih]
    omega

/-- Positions of one round: loads at `2i`, `2i+1`, flushes at `2n+2i`, `2n+2i+1`, the
`mfence` at `4n`. -/
theorem jit_round_get (aggressor_pairs : List Nat) :
    (∀ i, i < aggressor_pairs.length →
      (jit_round aggressor_pairs)[2 * i]?
        = some (Instr.mov (.reg .rax) (.imm (aggressor_pairs.getD i 0))) ∧
      (jit_round aggressor_pairs)[2 * i + 1]? = some (Instr.mov (.reg .rbx) (.ptr .rax)) ∧
      (jit_round aggressor_pairs)[2 * aggressor_pairs.length + 2 * i]?
        = some (Instr.mov (.reg .rax) (.imm (aggressor_pairs.getD i 0))) ∧
      (jit_round aggressor_pairs)[2 * aggressor_pairs.length + 2 * i + 1]?
        = some (Instr.clflushopt (.ptr .rax))) ∧
    (jit_round aggressor_pairs)[4 * aggressor_pairs.length]? = some Instr.mfence := by
  have hl1 := flatMap_pair_length (fun addr => Instr.mov (.reg .rax) (.imm addr))
    (Instr.mov (.reg .rbx) (.ptr .rax)) aggressor_pairs
  have hl2 := flatMap_pair_length (fun addr => Instr.mov (.reg .rax) (.imm addr))
    (Instr.clflushopt (.ptr .rax)) aggressor_pairs
  constructor
  · intro i hi
    obtain ⟨h1, h2⟩ := flatMap_pair_get (fun addr => Instr.mov (.reg .rax) (.imm addr))
      (Instr.mov (.reg .rbx) (.ptr .rax)) aggressor_pairs i hi
    obtain ⟨h3, h4⟩ := flatMap_pair_get (fun addr => Instr.mov (.reg .rax) (.imm addr))
      (Instr.clflushopt (.ptr .rax)) aggressor_pairs i hi
    unfold jit_round
    refine ⟨?_, ?_, ?_, ?_⟩
    · rw [List.append_assoc, List.getElem?_append_left (by rw [hl1]; omega)]
      exact h1
    · rw [List.append_assoc, List.getElem?_append_left (by rw [hl1]; omega)]
      exact h2
    · rw [List.append_assoc, List.getElem?_append_right (by rw [hl1]; omega), hl1,
        List.getElem?_append_left (by rw [hl2]; omega)]
      rw [show 2 * aggressor_pairs.length + 2 * i - 2 * aggressor_pairs.length = 2 * i by omega]
      exact h3
    · rw [List.append_assoc, List.getElem?_append_right (by rw [hl1]; omega), hl1,
        List.getElem?_append_left (by rw [hl2]; omega)]
      rw [show 2 * aggressor_pairs.length + 2 * i + 1 - 2 * aggressor_pairs.length
        = 2 * i + 1 by omega]
      exact h4
  · unfold jit_round
    rw [List.getElem?_append_right (by rw [List.length_append, hl1, hl2]; omega),
      List.length_append, hl1, hl2]
    rw [show 4 * aggressor_pairs.length - (2 * aggressor_pairs.length + 2 * aggressor_pairs.length)
      = 0 by omega]
    rfl

/-- The `r`-th block of a list made of `R` copies of a block. -/
theorem flatMap_const_block (B : List Instr) (R r : Nat) (hr : r < R) :
    (((List.range R).flatMap (fun _ => B)).drop (r * B.length)).take B.length = B := by
  induction R generalizing r with
  | zero => omega
  | succ R ih =>
    have hsplit : (List.range (R + 1)).flatMap (fun _ => B)
        = B ++ (List.range R).flatMap (fun _ => B) := by
      rw [List.range_succ_eq_map, List.flatMap_cons, List.flatMap_map]
    rw [hsplit]
    cases r with
    | zero => simp
    | succ r =>
      have e : (r + 1) * B.length = B.length + r * B.length := by ring
      rw [e, ← List.drop_drop, List.drop_left]
      exact ih r (by omega)
theorem jit_round_counts (aggressor_pairs : List Nat) :
    (jit_round aggressor_pairs).countP Instr.is_mfence = 1 ∧
      (jit_round aggressor_pairs).countP Instr.is_flush = aggressor_pairs.length := by
  have h1a : ∀ (l : List Nat), (l.flatMap (fun addr =>
      [Instr.mov (.reg .rax) (.imm addr), Instr.mov (.reg .rbx) (.ptr .rax)])).countP
        Instr.is_mfence = 0 := by
    intro l
    induction l with
    | nil => rfl
    | cons a l ih =>
      simp only [List.flatMap_cons, List.countP_append, ih]
      simp [List.countP_cons, Instr.is_mfence]
  have h1b : ∀ (l : List Nat), (l.flatMap (fun addr =>
      [Instr.mov (.reg .rax) (.imm addr), Instr.clflushopt (.ptr .rax)])).countP
        Instr.is_mfence = 0 := by
    intro l
    induction l with
    | nil => rfl
    | cons a l ih =>
      simp only [List.flatMap_cons, List.countP_append, ih]
      simp [List.countP_cons, Instr.is_mfence]
  have h2 : ∀ (l : List Nat), (l.flatMap (fun addr =>
      [Instr.mov (.reg .rax) (.imm addr), Instr.mov (.reg .rbx) (.ptr .rax)])).countP
        Instr.is_flush = 0 := by
    intro l
    induction l with
    | nil => rfl
    | cons a l ih =>
      simp only [List.flatMap_cons, List.countP_append, ih]
      simp [List.countP_cons, Instr.is_flush]
  have h3 : ∀ (l : List Nat), (l.flatMap (fun addr =>
      [Instr.mov (.reg .rax) (.imm addr), Instr.clflushopt (.ptr .rax)])).countP
        Instr.is_flush = l.length := by
    intro l
    induction l with
    | nil => rfl
    | cons a l ih =>
      simp only [List.flatMap_cons, List.countP_append, ih, List.length_cons]
      simp [List.countP_cons, Instr.is_flush]
      omega
  constructor
  · simp only [jit_round, List.countP_append, h1a, h1b]
    simp [List.countP_cons, Instr.is_mfence]
  · simp only [jit_round, List.countP_append, h2, h3]
    simp [List.countP_cons, Instr.is_flush]

theorem hammer_round_eq (agg_rounds hammering_intervals : Nat)
    (aggressor_pairs nops : List Nat) (r : Nat) (hr : r < agg_rounds) :
    hammer_round (jit_layout hammering_intervals nops (jit_body agg_rounds aggressor_pairs))
      aggressor_pairs.length r = jit_round aggressor_pairs := by
  unfold hammer_round
  rw [hammer_body_layout _ _ _ (jit_body_is_body agg_rounds aggressor_pairs), jit_body,
    ← jit_round_length aggressor_pairs]
  exact flatMap_const_block (jit_round aggressor_pairs) agg_rounds r hr

/-- C21: the hammer body emitted by `jit_hammering_code` consists of `agg_rounds` rounds of
`4 * n + 1` instructions, `n = len(aggressor_pairs)`.  In every round, for every `i < n`, the
load of `aggressor_pairs[i]` (`mov rax, aggressor_pairs[i]; mov rbx, [rax]` at positions `2i`,
`2i+1`) is followed in the same round by the flush of the same address
(`mov rax, aggressor_pairs[i]; clflushopt [rax]` at positions `2n+2i`, `2n+2i+1`), and the
round ends with an `mfence` at position `4n`, the only `mfence` of the round; a round holds
`n` loads and `n` flushes. -/
theorem jit_round_flush_after_load (rand : Nat → Nat)
    (fuel agg_rounds hammering_intervals : Nat) (aggressor_pairs nops : List Nat) :
    ∃ prog, jit_hammering_code rand fuel agg_rounds hammering_intervals aggressor_pairs nops
        = some prog ∧
      (hammer_body prog).length = agg_rounds * (4 * aggressor_pairs.length + 1) ∧
      ∀ r, r < agg_rounds →
        (∀ i, i < aggressor_pairs.length →
          (hammer_round prog aggressor_pairs.length r)[2 * i]?
            = some (Instr.mov (.reg .rax) (.imm (aggressor_pairs.getD i 0))) ∧
          (hammer_round prog aggressor_pairs.length r)[2 * i + 1]?
            = some (Instr.mov (.reg .rbx) (.ptr .rax)) ∧
          (hammer_round prog aggressor_pairs.length r)[2 * aggressor_pairs.length + 2 * i]?
            = some (Instr.mov (.reg .rax) (.imm (aggressor_pairs.getD i 0))) ∧
          (hammer_round prog aggressor_pairs.length r)[2 * aggressor_pairs.length + 2 * i + 1]?
            = some (Instr.clflushopt (.ptr .rax))) ∧
        (hammer_round prog aggressor_pairs.length r)[4 * aggressor_pairs.length]?
          = some Instr.mfence ∧
        (hammer_round prog aggressor_pairs.length r).length = 4 * aggressor_pairs.length + 1 ∧
        (hammer_round prog aggressor_pairs.length r).countP Instr.is_mfence = 1 ∧
        (hammer_round prog aggressor_pairs.length r).countP Instr.is_load
          = aggressor_pairs.length ∧
        (hammer_round prog aggressor_pairs.length r).countP Instr.is_flush
          = aggressor_pairs.length := by
  refine ⟨_, jit_hammering_code_eq rand fuel agg_rounds hammering_intervals aggressor_pairs nops,
    ?_, ?_⟩
  · rw [← jit_layout, hammer_body_layout _ _ _ (jit_body_is_body agg_rounds aggressor_pairs),
      jit_body_length]
  · intro r hr
    rw [← jit_layout, hammer_round_eq agg_rounds hammering_intervals aggressor_pairs nops r hr]
    exact ⟨(jit_round_get aggressor_pairs).1, (jit_round_get aggressor_pairs).2,
      jit_round_length aggressor_pairs, (jit_round_counts aggressor_pairs).1,
      jit_round_loads aggressor_pairs, (jit_round_counts aggressor_pairs).2⟩
/-! ### The counter `edx` -/

theorem sync_loads_layout (H : Nat) (nops : List Nat) (E : List Instr)
    (hE : ∀ i ∈ E, i.is_body = true) (s : Machine) :
    sync_loads (jit_layout H nops E) s
      = (s.loads.filter (fun l => decide (29 + E.length < l.1))).length := by
  unfold sync_loads
  rw [hammer_body_end_layout H nops E hE]

/-- Straight-line execution of a segment of hammer-body instructions placed at position
`A.length`: the loads it records are at positions of the segment. -/
theorem exec_segment_loads (w : World) :
    ∀ (seg A B : List Instr) (s : Machine), (∀ i ∈ seg, i.is_body = true) →
      s.pc = A.length →
      ∃ s' new, steps (A ++ seg ++ B) w seg.length s = some s' ∧
        s'.pc = A.length + seg.length ∧ s'.rsi = s.rsi ∧ s'.rdx = s.rdx ∧
        s'.stack = s.stack ∧ s'.rdtscp_count = s.rdtscp_count ∧
        s'.loads = new ++ s.loads ∧
        ∀ l ∈ new, A.length ≤ l.1 ∧ l.1 < A.length + seg.length := by
  intro seg
  induction seg with
  | nil =>
    intro A B s _ hpc
    exact ⟨s, [], rfl, by simpa using hpc, rfl, rfl, rfl, rfl, rfl, by simp⟩
  | cons i seg ih =>
    intro A B s hseg hpc
    have hib := hseg i (List.mem_cons_self _ _)
    have hfetch : (A ++ i :: seg ++ B)[s.pc]? = some i := by
      rw [hpc, List.append_assoc, List.getElem?_append_right (Nat.le_refl _)]
      simp
    have hstep := step_eq (A ++ i :: seg ++ B) w s i hfetch
    have hprog : A ++ i :: seg ++ B = (A ++ [i]) ++ seg ++ B := by simp
    simp only [List.length_cons]
    have key : ∀ (s1 : Machine) (n1 : List (Nat × Nat)),
        exec (A ++ i :: seg ++ B) w s i = some s1 →
        s1.pc = s.pc + 1 → s1.rsi = s.rsi → s1.rdx = s.rdx → s1.stack = s.stack →
        s1.rdtscp_count = s.rdtscp_count → s1.loads = n1 ++ s.loads →
        (∀ l ∈ n1, l.1 = s.pc) →
        ∃ s' new, steps (A ++ i :: seg ++ B) w (seg.length + 1) s = some s' ∧
          s'.pc = A.length + (seg.length + 1) ∧ s'.rsi = s.rsi ∧ s'.rdx = s.rdx ∧
          s'.stack = s.stack ∧ s'.rdtscp_count = s.rdtscp_count ∧
          s'.loads = new ++ s.loads ∧
          ∀ l ∈ new, A.length ≤ l.1 ∧ l.1 < A.length + (seg.length + 1) := by
      intro s1 n1 he h1 h2 h3 h4 h5 h6 h7
      obtain ⟨s', new, hs', hp, hr, hd, hst, hc, hl, hn⟩ := ih (A ++ [i]) B s1
        (fun j hj => hseg j (List.mem_cons_of_mem _ hj)) (by simp [h1, hpc])
      refine ⟨s', new ++ n1, ?_, ?_, hr.trans h2, hd.trans h3, hst.trans h4, hc.trans h5,
        ?_, ?_⟩
      · simp only [steps]
        rw [hstep, he, hprog]
        exact hs'
      · rw [hp]; simp; omega
      · rw [hl, h6, List.append_assoc]
      · intro l hl'
        rcases List.mem_append.mp hl' with h | h
        · have := hn l h
          simp only [List.length_append, List.length_singleton] at this
          omega
        · have := h7 l h
          omega
    obtain ⟨pc, rax, rbx, rcx, rdx, rsi, flags, stack, rdtscp_count, loads⟩ := s
    simp only at hpc
    rcases is_body_cases i hib with ⟨v, h⟩ | h | h | h <;> subst h
    · exact key _ [] rfl rfl rfl rfl rfl rfl rfl (by simp)
    · exact key _ [(pc, rax)] rfl rfl rfl rfl rfl rfl rfl (by simp)
    · exact key _ [] rfl rfl rfl rfl rfl rfl rfl (by simp)
    · exact key _ [] rfl rfl rfl rfl rfl rfl rfl (by simp)
/-- From the entry to `while1_begin`, for the counter. -/
theorem entry_counter (H : Nat) (nops : List Nat) (E : List Instr)
    (hE : ∀ i ∈ E, i.is_body = true) (w : World) (s : Machine) (hpc : s.pc = 0) :
    ∃ s', steps (jit_layout H nops E) w 4 s = some s' ∧ s'.pc = 4 ∧
      sync_loads (jit_layout H nops E) s' = sync_loads (jit_layout H nops E) s := by
  obtain ⟨pc, rax, rbx, rcx, rdx, rsi, flags, stack, rdtscp_count, loads⟩ := s
  simp only at hpc
  subst hpc
  have h1 : ¬ 29 + E.length < 1 := by omega
  have h3 : ¬ 29 + E.length < 3 := by omega
  have h14 : ¬ 29 + E.length < 14 := by omega
  have h16 : ¬ 29 + E.length < 16 := by omega
  simp [steps, step, layout_get_pro, jit_prologue, exec, Machine.next, Machine.write,
    Machine.read, Reg.width, sync_loads_layout H nops E hE, List.filter_cons, h1, h3, h14, h16]

theorem while1_counter (H : Nat) (nops : List Nat) (E : List Instr)
    (hE : ∀ i ∈ E, i.is_body = true) (w : World) (s : Machine) (hpc : s.pc = 4) :
    ∃ s', steps (jit_layout H nops E) w 16 s = some s' ∧ s'.pc = 20 ∧
      sync_loads (jit_layout H nops E) s' = sync_loads (jit_layout H nops E) s := by
  obtain ⟨pc, rax, rbx, rcx, rdx, rsi, flags, stack, rdtscp_count, loads⟩ := s
  simp only at hpc
  subst hpc
  have h1 : ¬ 29 + E.length < 1 := by omega
  have h3 : ¬ 29 + E.length < 3 := by omega
  have h14 : ¬ 29 + E.length < 14 := by omega
  have h16 : ¬ 29 + E.length < 16 := by omega
  simp [steps, step, layout_get_pro, jit_prologue, exec, Machine.next, Machine.write,
    Machine.read, Reg.width, sync_loads_layout H nops E hE, List.filter_cons, h1, h3, h14, h16]

theorem while1_exit_counter (H : Nat) (nops : List Nat) (E : List Instr)
    (hE : ∀ i ∈ E, i.is_body = true) (w : World) (s : Machine) (hpc : s.pc = 20)
    (hf : 0 < s.flags) :
    ∃ s', steps (jit_layout H nops E) w 1 s = some s' ∧ s'.pc = 22 ∧
      sync_loads (jit_layout H nops E) s' = sync_loads (jit_layout H nops E) s := by
  obtain ⟨pc, rax, rbx, rcx, rdx, rsi, flags, stack, rdtscp_count, loads⟩ := s
  simp only at hpc hf
  subst hpc
  simp [steps, step, layout_get_pro, jit_prologue, exec, Machine.next, Machine.goto,
    label_pos_layout H nops E hE, hf, sync_loads_layout H nops E hE]

theorem while1_again_counter (H : Nat) (nops : List Nat) (E : List Instr)
    (hE : ∀ i ∈ E, i.is_body = true) (w : World) (s : Machine) (hpc : s.pc = 20)
    (hf : ¬ 0 < s.flags) :
    ∃ s', steps (jit_layout H nops E) w 2 s = some s' ∧ s'.pc = 4 ∧
      sync_loads (jit_layout H nops E) s' = sync_loads (jit_layout H nops E) s := by
  obtain ⟨pc, rax, rbx, rcx, rdx, rsi, flags, stack, rdtscp_count, loads⟩ := s
  simp only at hpc hf
  subst hpc
  simp [steps, step, layout_get_pro, jit_prologue, exec, Machine.next, Machine.goto,
    label_pos_layout H nops E hE, hf, sync_loads_layout H nops E hE]

/-- The initialisation `mov rsi, hammering_intervals; mov edx, 0`. -/
theorem init_counter (H : Nat) (nops : List Nat) (E : List Instr)
    (hE : ∀ i ∈ E, i.is_body = true) (w : World) (s : Machine) (hpc : s.pc = 22) :
    ∃ s', steps (jit_layout H nops E) w 3 s = some s' ∧ s'.pc = 25 ∧
      CounterInv (jit_layout H nops E) (sync_loads (jit_layout H nops E) s) s' := by
  obtain ⟨pc, rax, rbx, rcx, rdx, rsi, flags, stack, rdtscp_count, loads⟩ := s
  simp only at hpc
  subst hpc
  simp [steps, step, layout_get_pro, jit_prologue, exec, Machine.next, Machine.write,
    Machine.read, Reg.width, sync_loads_layout H nops E hE, CounterInv]
  omega

/-- Loop head with `rsi = 0`: control reaches the final `ret` with the counter in `eax`. -/
theorem for1_exit_counter (H : Nat) (nops : List Nat) (E : List Instr)
    (hE : ∀ i ∈ E, i.is_body = true) (w : World) (n0 : Nat) (s : Machine) (hpc : s.pc = 25)
    (hrsi : s.rsi = 0) (hinv : CounterInv (jit_layout H nops E) n0 s) :
    ∃ s', steps (jit_layout H nops E) w 5 s = some s' ∧ s'.pc = 29 + E.length + 30 ∧
      n0 ≤ sync_loads (jit_layout H nops E) s' ∧
      s'.rax = (sync_loads (jit_layout H nops E) s' - n0) % 2 ^ 32 ∧
      s'.rdx = s'.rax := by
  obtain ⟨pc, rax, rbx, rcx, rdx, rsi, flags, stack, rdtscp_count, loads⟩ := s
  simp only at hpc hrsi
  subst hpc hrsi
  obtain ⟨-, h2, h3⟩ := hinv
  simp only [sync_loads_layout H nops E hE] at h2 h3
  simp [steps, step, layout_get_pro, layout_get_epi_assoc, jit_prologue, jit_epilogue, exec,
    Machine.next, Machine.write, Machine.read, Machine.goto, Reg.width,
    label_pos_layout H nops E hE, sync_loads_layout H nops E hE, to_signed_zero, Nat.add_assoc,
    h2, h3]

/-- Loop head with `rsi > 0`, for the counter. -/
theorem for1_enter_counter (H : Nat) (nops : List Nat) (E : List Instr)
    (hE : ∀ i ∈ E, i.is_body = true) (w : World) (n0 : Nat) (s : Machine) (hpc : s.pc = 25)
    (h0 : 0 < s.rsi) (hinv : CounterInv (jit_layout H nops E) n0 s) :
    ∃ s', steps (jit_layout H nops E) w 4 s = some s' ∧ s'.pc = 29 ∧
      CounterInv (jit_layout H nops E) n0 s' := by
  obtain ⟨pc, rax, rbx, rcx, rdx, rsi, flags, stack, rdtscp_count, loads⟩ := s
  simp only at hpc h0
  subst hpc
  obtain ⟨h1, h2, h3⟩ := hinv
  simp only [sync_loads_layout H nops E hE] at h1 h2 h3
  have hne := to_signed_ne_zero rsi h0 h1
  simp [steps, step, layout_get_pro, jit_prologue, exec,
    Machine.next, Machine.write, Machine.read, Machine.goto, Reg.width,
    label_pos_layout H nops E hE, sync_loads_layout H nops E hE, to_signed_zero, hne,
    CounterInv, h2, h3]
  omega
/-- The hammer body leaves the counter alone. -/
theorem body_counter (H : Nat) (nops : List Nat) (E : List Instr)
    (hE : ∀ i ∈ E, i.is_body = true) (w : World) (n0 : Nat) (s : Machine) (hpc : s.pc = 29)
    (hinv : CounterInv (jit_layout H nops E) n0 s) :
    ∃ s', steps (jit_layout H nops E) w E.length s = some s' ∧ s'.pc = 29 + E.length ∧
      CounterInv (jit_layout H nops E) n0 s' := by
  obtain ⟨s', new, h1, h2, h3, h4, -, -, h7, h8⟩ := exec_segment_loads w E
    (jit_prologue H nops) (jit_epilogue nops) s hE (by rw [hpc]; rfl)
  rw [jit_prologue_length] at h2 h8
  refine ⟨s', h1, h2, ?_⟩
  have hsync : sync_loads (jit_layout H nops E) s' = sync_loads (jit_layout H nops E) s := by
    rw [sync_loads_layout H nops E hE, sync_loads_layout H nops E hE, h7, List.filter_append]
    have hnil : new.filter (fun l => decide (29 + E.length < l.1)) = [] := by
      rw [List.filter_eq_nil_iff]
      intro l hl
      have := h8 l hl
      simp only [decide_eq_true_eq]
      omega
    rw [hnil, List.nil_append]
  unfold CounterInv at hinv ⊢
  rw [hsync, h3, h4]
  exact hinv

/-- One pass through the post-hammer synchronisation loop up to its `jg`: two NOP loads, two
increments of `edx`, and `edx` restored after each `rdtscp`. -/
theorem while2_counter (H : Nat) (nops : List Nat) (E : List Instr)
    (hE : ∀ i ∈ E, i.is_body = true) (w : World) (n0 : Nat) (s : Machine)
    (hpc : s.pc = 29 + E.length) (hinv : CounterInv (jit_layout H nops E) n0 s) :
    ∃ s', steps (jit_layout H nops E) w 24 s = some s' ∧ s'.pc = 29 + E.length + 24 ∧
      s'.flags = to_signed 32 (measured w s.rdtscp_count) - 1000 ∧
      s'.rdtscp_count = s.rdtscp_count + 2 ∧
      sync_loads (jit_layout H nops E) s' = sync_loads (jit_layout H nops E) s + 2 ∧
      CounterInv (jit_layout H nops E) n0 s' := by
  obtain ⟨pc, rax, rbx, rcx, rdx, rsi, flags, stack, rdtscp_count, loads⟩ := s
  simp only at hpc
  subst hpc
  obtain ⟨h1, h2, h3⟩ := hinv
  simp only [sync_loads_layout H nops E hE] at h1 h2 h3
  have c13 : 29 + E.length < 29 + (E.length + 13) := by omega
  have c16 : 29 + E.length < 29 + (E.length + 16) := by omega
  simp [steps, step, layout_get_epi_assoc, layout_get_epi0, jit_epilogue, exec, Machine.next,
    Machine.write, Machine.read, Reg.width, sync_loads_layout H nops E hE, List.filter_cons,
    measured, to_signed_1000, Nat.add_assoc, CounterInv, c13, c16, h3]
  omega

theorem while2_exit_counter (H : Nat) (nops : List Nat) (E : List Instr)
    (hE : ∀ i ∈ E, i.is_body = true) (w : World) (n0 : Nat) (s : Machine)
    (hpc : s.pc = 29 + E.length + 24) (hf : 0 < s.flags)
    (hinv : CounterInv (jit_layout H nops E) n0 s) :
    ∃ s', steps (jit_layout H nops E) w 1 s = some s' ∧ s'.pc = 29 + E.length + 26 ∧
      s'.rdtscp_count = s.rdtscp_count ∧
      sync_loads (jit_layout H nops E) s' = sync_loads (jit_layout H nops E) s ∧
      CounterInv (jit_layout H nops E) n0 s' := by
  obtain ⟨pc, rax, rbx, rcx, rdx, rsi, flags, stack, rdtscp_count, loads⟩ := s
  simp only at hpc hf
  subst hpc
  obtain ⟨h1, h2, h3⟩ := hinv
  simp only [sync_loads_layout H nops E hE] at h1 h2 h3
  simp [steps, step, layout_get_epi_assoc, jit_epilogue, exec, Machine.next, Machine.goto,
    label_pos_layout H nops E hE, hf, sync_loads_layout H nops E hE, Nat.add_assoc, CounterInv,
    h2, h3]
  omega

theorem while2_again_counter (H : Nat) (nops : List Nat) (E : List Instr)
    (hE : ∀ i ∈ E, i.is_body = true) (w : World) (n0 : Nat) (s : Machine)
    (hpc : s.pc = 29 + E.length + 24) (hf : ¬ 0 < s.flags)
    (hinv : CounterInv (jit_layout H nops E) n0 s) :
    ∃ s', steps (jit_layout H nops E) w 2 s = some s' ∧ s'.pc = 29 + E.length ∧
      s'.rdtscp_count = s.rdtscp_count ∧
      sync_loads (jit_layout H nops E) s' = sync_loads (jit_layout H nops E) s ∧
      CounterInv (jit_layout H nops E) n0 s' := by
  obtain ⟨pc, rax, rbx, rcx, rdx, rsi, flags, stack, rdtscp_count, loads⟩ := s
  simp only at hpc hf
  subst hpc
  obtain ⟨h1, h2, h3⟩ := hinv
  simp only [sync_loads_layout H nops E hE] at h1 h2 h3
  simp [steps, step, layout_get_epi_assoc, jit_epilogue, exec, Machine.next, Machine.goto,
    label_pos_layout H nops E hE, hf, sync_loads_layout H nops E hE, Nat.add_assoc, CounterInv,
    h2, h3]
  omega

theorem for1_next_counter (H : Nat) (nops : List Nat) (E : List Instr)
    (hE : ∀ i ∈ E, i.is_body = true) (w : World) (n0 : Nat) (s : Machine)
    (hpc : s.pc = 29 + E.length + 26) (hinv : CounterInv (jit_layout H nops E) n0 s) :
    ∃ s', steps (jit_layout H nops E) w 2 s = some s' ∧ s'.pc = 25 ∧
      CounterInv (jit_layout H nops E) n0 s' := by
  obtain ⟨pc, rax, rbx, rcx, rdx, rsi, flags, stack, rdtscp_count, loads⟩ := s
  simp only at hpc
  subst hpc
  obtain ⟨h1, h2, h3⟩ := hinv
  simp only [sync_loads_layout H nops E hE] at h1 h2 h3
  simp [steps, step, layout_get_epi_assoc, jit_epilogue, exec, Machine.next, Machine.goto,
    label_pos_layout H nops E hE, sync_loads_layout H nops E hE, Nat.add_assoc, CounterInv,
    h2, h3]
  omega
/-- A synchronisation loop, for every run that returns and any invariant kept by its
passes: control leaves the loop with the invariant. -/
theorem sync_loop_inv (prog : List Instr) (w : World) (pb pj pe k1 : Nat)
    (Inv : Machine → Prop)
    (hiter : ∀ s : Machine, s.pc = pb → Inv s →
      ∃ s', steps prog w k1 s = some s' ∧ s'.pc = pj ∧ Inv s')
    (hexit : ∀ s : Machine, s.pc = pj → Inv s → 0 < s.flags →
      ∃ s', steps prog w 1 s = some s' ∧ s'.pc = pe ∧ Inv s')
    (hagain : ∀ s : Machine, s.pc = pj → Inv s → ¬ 0 < s.flags →
      ∃ s', steps prog w 2 s = some s' ∧ s'.pc = pb ∧ Inv s')
    (final : Machine) :
    ∀ (f : Nat) (s : Machine), s.pc = pb → Inv s → run prog w f s = some final →
      ∃ f' s', f' < f ∧ s'.pc = pe ∧ Inv s' ∧ run prog w f' s' = some final := by
  intro f
  induction f using Nat.strong_induction_on with
  | _ f ih =>
    intro s hpc hinv hr
    obtain ⟨s1, hs1, hpc1, hinv1⟩ := hiter s hpc hinv
    obtain ⟨hk1, hr1⟩ := run_after_steps prog w final k1 f s s1 hs1 hr
    by_cases hf : 0 < s1.flags
    · obtain ⟨s2, hs2, hpc2, hinv2⟩ := hexit s1 hpc1 hinv1 hf
      obtain ⟨-, hr2⟩ := run_after_steps prog w final 1 _ s1 s2 hs2 hr1
      exact ⟨_, s2, by omega, hpc2, hinv2, hr2⟩
    · obtain ⟨s2, hs2, hpc2, hinv2⟩ := hagain s1 hpc1 hinv1 hf
      obtain ⟨hk2, hr2⟩ := run_after_steps prog w final 2 _ s1 s2 hs2 hr1
      obtain ⟨f', s3, hf', hpc3, hinv3, hr3⟩ := ih (f - k1 - 2) (by omega) s2 hpc2 hinv2 hr2
      exact ⟨f', s3, by omega, hpc3, hinv3, hr3⟩

/-- The hammer loop, for every run that returns: the value left in `eax` is the number of NOP
loads of the post-hammer block counted by `edx`. -/
theorem for1_counter (H : Nat) (nops : List Nat) (E : List Instr)
    (hE : ∀ i ∈ E, i.is_body = true) (w : World) (n0 : Nat) (final : Machine) :
    ∀ (f : Nat) (s : Machine), s.pc = 25 → CounterInv (jit_layout H nops E) n0 s →
      run (jit_layout H nops E) w f s = some final →
      n0 ≤ sync_loads (jit_layout H nops E) final ∧
        final.rax = (sync_loads (jit_layout H nops E) final - n0) % 2 ^ 32 ∧
        final.rdx = final.rax := by
  intro f
  induction f using Nat.strong_induction_on with
  | _ f ih =>
    intro s hpc hinv hr
    by_cases hrsi : s.rsi = 0
    · obtain ⟨s1, hs1, hpc1, h1, h2, h3⟩ := for1_exit_counter H nops E hE w n0 s hpc hrsi hinv
      obtain ⟨-, hr1⟩ := run_after_steps _ w final 5 f s s1 hs1 hr
      have hret : (jit_layout H nops E)[s1.pc]? = some Instr.ret := by
        rw [hpc1]
        exact layout_get_ret H nops E
      have hfin := run_of_at_ret _ w _ s1 final hret hr1
      subst hfin
      exact ⟨h1, h2, h3⟩
    · obtain ⟨s1, hs1, hpc1, hinv1⟩ :=
        for1_enter_counter H nops E hE w n0 s hpc (by omega) hinv
      obtain ⟨hk1, hr1⟩ := run_after_steps _ w final 4 f s s1 hs1 hr
      obtain ⟨s2, hs2, hpc2, hinv2⟩ := body_counter H nops E hE w n0 s1 hpc1 hinv1
      obtain ⟨hk2, hr2⟩ := run_after_steps _ w final _ _ s1 s2 hs2 hr1
      obtain ⟨f3, s3, hf3, hpc3, hinv3, hr3⟩ :=
        sync_loop_inv (jit_layout H nops E) w (29 + E.length) (29 + E.length + 24)
          (29 + E.length + 26) 24 (CounterInv (jit_layout H nops E) n0)
          (fun s hpc hinv => by
            obtain ⟨s', h1, h2, -, -, -, h6⟩ := while2_counter H nops E hE w n0 s hpc hinv
            exact ⟨s', h1, h2, h6⟩)
          (fun s hpc hinv hf => by
            obtain ⟨s', h1, h2, -, -, h5⟩ := while2_exit_counter H nops E hE w n0 s hpc hf hinv
            exact ⟨s', h1, h2, h5⟩)
          (fun s hpc hinv hf => by
            obtain ⟨s', h1, h2, -, -, h5⟩ := while2_again_counter H nops E hE w n0 s hpc hf hinv
            exact ⟨s', h1, h2, h5⟩)
          final _ s2 hpc2 hinv2 hr2
      obtain ⟨s4, hs4, hpc4, hinv4⟩ := for1_next_counter H nops E hE w n0 s3 hpc3 hinv3
      obtain ⟨hk4, hr4⟩ := run_after_steps _ w final 2 f3 s3 s4 hs4 hr3
      exact ih (f3 - 2) (by omega) s4 hpc4 hinv4 hr4

/-- Every run of the emitted code that returns leaves in `eax` the number of NOP loads of the
post-hammer synchronisation block it executed, modulo `2^32`. -/
theorem layout_run_counter (H : Nat) (nops : List Nat) (E : List Instr)
    (hE : ∀ i ∈ E, i.is_body = true) (w : World) (f : Nat) (s final : Machine)
    (hpc : s.pc = 0) (hr : run (jit_layout H nops E) w f s = some final) :
    sync_loads (jit_layout H nops E) s ≤ sync_loads (jit_layout H nops E) final ∧
      final.rax = (sync_loads (jit_layout H nops E) final
        - sync_loads (jit_layout H nops E) s) % 2 ^ 32 ∧
      final.rdx = final.rax := by
  obtain ⟨s1, hs1, hpc1, hl1⟩ := entry_counter H nops E hE w s hpc
  obtain ⟨-, hr1⟩ := run_after_steps _ w final 4 f s s1 hs1 hr
  obtain ⟨f2, s2, -, hpc2, hl2, hr2⟩ :=
    sync_loop_inv (jit_layout H nops E) w 4 20 22 16
      (fun x => sync_loads (jit_layout H nops E) x = sync_loads (jit_layout H nops E) s)
      (fun x hpc hinv => by
        obtain ⟨s', h1, h2, h3⟩ := while1_counter H nops E hE w x hpc
        exact ⟨s', h1, h2, h3.trans hinv⟩)
      (fun x hpc hinv hf => by
        obtain ⟨s', h1, h2, h3⟩ := while1_exit_counter H nops E hE w x hpc hf
        exact ⟨s', h1, h2, h3.trans hinv⟩)
      (fun x hpc hinv hf => by
        obtain ⟨s', h1, h2, h3⟩ := while1_again_counter H nops E hE w x hpc hf
        exact ⟨s', h1, h2, h3.trans hinv⟩)
      final _ s1 hpc1 hl1 hr1
  obtain ⟨s3, hs3, hpc3, hinv3⟩ := init_counter H nops E hE w s2 hpc2
  obtain ⟨-, hr3⟩ := run_after_steps _ w final 3 f2 s2 s3 hs3 hr2
  rw [hl2] at hinv3
  exact for1_counter H nops E hE w _ final _ s3 hpc3 hinv3 hr3

theorem layout_touches_edx (H : Nat) (nops : List Nat) (E : List Instr)
    (hE : ∀ i ∈ E, i.is_body = true) :
    ((jit_layout H nops E).drop (hammer_body_begin (jit_layout H nops E) - 5)).filter
        Instr.touches_edx
      = [Instr.mov (.reg .edx) (.imm 0), Instr.push (.reg .edx), Instr.rdtscp,
         Instr.pop (.reg .edx), Instr.inc (.reg .edx), Instr.inc (.reg .edx),
         Instr.push (.reg .edx), Instr.rdtscp, Instr.pop (.reg .edx),
         Instr.mov (.reg .eax) (.reg .edx)] := by
  have hbody : E.filter Instr.touches_edx = [] := by
    rw [List.filter_eq_nil_iff]
    intro i hi
    rcases is_body_cases i (hE i hi) with ⟨v, h⟩ | h | h | h <;> subst h <;>
      simp [Instr.touches_edx, Instr.names, Operand.names]
  rw [hammer_body_begin_layout H nops E hE]
  have hdrop : (jit_layout H nops E).drop (29 - 5)
      = (jit_prologue H nops).drop 24 ++ E ++ jit_epilogue nops := by
    unfold jit_layout
    rw [List.append_assoc, List.drop_append_of_le_length (by rw [jit_prologue_length]; omega),
      List.append_assoc]
  rw [hdrop, List.filter_append, List.filter_append, hbody]
  simp [jit_prologue, jit_epilogue, List.filter_cons, Instr.touches_edx, Instr.names,
    Operand.names]

theorem layout_sync_block (H : Nat) (nops : List Nat) (E : List Instr)
    (hE : ∀ i ∈ E, i.is_body = true) :
    ((jit_layout H nops E).drop (hammer_body_end (jit_layout H nops E))).filter
        (fun i => i.touches_edx || i.is_load)
      = [Instr.push (.reg .edx), Instr.rdtscp, Instr.pop (.reg .edx),
         Instr.mov (.reg .rax) (.ptr .rax), Instr.inc (.reg .edx),
         Instr.mov (.reg .rax) (.ptr .rax), Instr.inc (.reg .edx),
         Instr.push (.reg .edx), Instr.rdtscp, Instr.pop (.reg .edx),
         Instr.mov (.reg .eax) (.reg .edx)] := by
  rw [hammer_body_end_layout H nops E hE]
  have hdrop : (jit_layout H nops E).drop (29 + E.length) = jit_epilogue nops := by
    unfold jit_layout
    rw [List.drop_left' (by rw [List.length_append, jit_prologue_length])]
  rw [hdrop]
  simp [jit_epilogue, List.filter_cons, Instr.touches_edx, Instr.names, Operand.names,
    Instr.is_load]
/-- C22: in the sequence emitted by `jit_hammering_code`, from `mov edx, 0` on the only
instructions that touch `edx` are, in order, `mov edx, 0`, then in the post-hammer block
`push edx; rdtscp; pop edx`, two `inc edx`, `push edx; rdtscp; pop edx`, and the final
`mov eax, edx`; in the post-hammer block each of the two NOP loads is followed by one
`inc edx`.  Every run of the emitted code from its first instruction that returns leaves in
`eax` the number of NOP loads of the post-hammer block it executed, modulo `2^32`, which as an
`int` is that number when it is below `2^31`; and a run returns whenever every synchronisation
loop eventually measures a delay. -/
theorem jit_returns_nop_count (rand : Nat → Nat) (fuel agg_rounds hammering_intervals : Nat)
    (aggressor_pairs nops : List Nat) :
    ∃ prog, jit_hammering_code rand fuel agg_rounds hammering_intervals aggressor_pairs nops
        = some prog ∧
      (prog.drop (hammer_body_begin prog - 5)).filter Instr.touches_edx
        = [Instr.mov (.reg .edx) (.imm 0), Instr.push (.reg .edx), Instr.rdtscp,
           Instr.pop (.reg .edx), Instr.inc (.reg .edx), Instr.inc (.reg .edx),
           Instr.push (.reg .edx), Instr.rdtscp, Instr.pop (.reg .edx),
           Instr.mov (.reg .eax) (.reg .edx)] ∧
      (prog.drop (hammer_body_end prog)).filter (fun i => i.touches_edx || i.is_load)
        = [Instr.push (.reg .edx), Instr.rdtscp, Instr.pop (.reg .edx),
           Instr.mov (.reg .rax) (.ptr .rax), Instr.inc (.reg .edx),
           Instr.mov (.reg .rax) (.ptr .rax), Instr.inc (.reg .edx),
           Instr.push (.reg .edx), Instr.rdtscp, Instr.pop (.reg .edx),
           Instr.mov (.reg .eax) (.reg .edx)] ∧
      (∀ (w : World) (f : Nat) (s final : Machine), s.pc = 0 →
        run prog w f s = some final →
        sync_loads prog s ≤ sync_loads prog final ∧
          final.read .eax = (sync_loads prog final - sync_loads prog s) % 2 ^ 32 ∧
          (sync_loads prog final - sync_loads prog s < 2 ^ 31 →
            to_signed 32 (final.read .eax)
              = ((sync_loads prog final - sync_loads prog s : Nat) : Int))) ∧
      ∀ (w : World) (s : Machine), (∀ c, ∃ m, Delay w (c + 2 * m)) → s.pc = 0 →
        ∃ f final, run prog w f s = some final := by
  have hE := jit_body_is_body agg_rounds aggressor_pairs
  refine ⟨_, jit_hammering_code_eq rand fuel agg_rounds hammering_intervals aggressor_pairs nops,
    layout_touches_edx _ _ _ hE, layout_sync_block _ _ _ hE, ?_, ?_⟩
  · rw [← jit_layout]
    intro w f s final hpc hr
    obtain ⟨h1, h2, -⟩ := layout_run_counter hammering_intervals nops _ hE w f s final hpc hr
    have heax : final.read .eax
        = (sync_loads (jit_layout hammering_intervals nops (jit_body agg_rounds aggressor_pairs))
            final
          - sync_loads (jit_layout hammering_intervals nops (jit_body agg_rounds aggressor_pairs))
            s) % 2 ^ 32 := by
      show final.rax % 2 ^ 32 = _
      rw [h2, Nat.mod_mod]
    refine ⟨h1, heax, ?_⟩
    intro hlt
    rw [heax, Nat.mod_eq_of_lt (by omega)]
    unfold to_signed
    rw [if_pos (by simpa using hlt)]
  · intro w s hdelay hpc
    exact layout_run_terminates hammering_intervals nops _ hE w hdelay s hpc

theorem jit_returns_nop_count_witness :
    ∃ prog final, jit_hammering_code (fun _ => 0) 0 1 2 [4096] [64, 128] = some prog ∧
      run prog example_world 200 example_entry = some final ∧
      sync_loads prog final = 4 ∧ final.read .eax = 4 := by
  obtain ⟨prog, hp, -, -, hrun, -⟩ :=
    jit_returns_nop_count (fun _ => 0) 0 1 2 [4096] [64, 128]
  have hprog : prog = jit_layout 2 [64, 128] (jit_body 1 [4096]) := by
    rw [jit_hammering_code_eq] at hp
    exact (Option.some.inj hp).symm
  have hsync : (run (jit_layout 2 [64, 128] (jit_body 1 [4096])) example_world 200
      example_entry).map (sync_loads (jit_layout 2 [64, 128] (jit_body 1 [4096])))
        = some 4 := by decide!
  rw [← hprog] at hsync
  obtain ⟨final, hfinal, h4⟩ := Option.map_eq_some'.mp hsync
  obtain ⟨-, h2, -⟩ := hrun example_world 200 example_entry final rfl hfinal
  refine ⟨prog, final, hp, hfinal, h4, ?_⟩
  rw [h2, h4]
  have h0 : sync_loads prog example_entry = 0 := by simp [sync_loads, example_entry]
  rw [h0]
  decide

theorem jit_round_flush_after_load_witness :
    ∃ prog, jit_hammering_code (fun _ => 0) 0 2 1 [4096, 8192] [64, 128] = some prog ∧
      (hammer_round prog 2 1)[2 * 1 + 1]? = some (Instr.mov (.reg .rbx) (.ptr .rax)) ∧
      (hammer_round prog 2 1)[2 * 2 + 2 * 1]?
        = some (Instr.mov (.reg .rax) (.imm 8192)) ∧
      (hammer_round prog 2 1)[2 * 2 + 2 * 1 + 1]? = some (Instr.clflushopt (.ptr .rax)) ∧
      (hammer_round prog 2 1)[4 * 2]? = some Instr.mfence := by
  obtain ⟨prog, hp, -, h⟩ :=
    jit_round_flush_after_load (fun _ => 0) 0 2 1 [4096, 8192] [64, 128]
  obtain ⟨h1, h2, -⟩ := h 1 (by decide)
  obtain ⟨-, h4, h5, h6⟩ := h1 1 (by decide)
  exact ⟨prog, hp, h4, h5, h6, h2⟩

/-! ## Theorems about improving the parameters -/

theorem total_removed_succ (fn : Nat → Int) (na nri : Int) (c : Nat) :
    total_removed fn na nri (c + 1)
      = total_removed fn na nri c + removed_in_round fn na nri (c + 1) := by
  simp [total_removed, List.range_succ]

theorem total_removed_mono (fn : Nat → Int) (na nri : Int) (c d : Nat) (h : c ≤ d) :
    total_removed fn na nri c ≤ total_removed fn na nri d := by
  induction d with
  | zero =>
    have : c = 0 := by omega
    subst this
    exact Nat.le_refl _
  | succ d ih =>
    by_cases hc : c = d + 1
    · subst hc; exact Nat.le_refl _
    · have := ih (by omega)
      rw [total_removed_succ]
      omega

/-- The loop of `hammer_and_improve_params` from a state reached after `c` rounds. -/
theorem hammer_and_improve_loop_spec (fn : Nat → Int) (rand : Nat → Nat) (rand_fuel : Nat)
    (na nri agg_rounds : Int) (nops init : List Nat) (r : ImprovedParams) :
    ∀ (fuel c : Nat) (aggs : List Nat) (rounds : List OptimizationRound),
      c < 25 →
      rounds = (List.range c).map (fun i => round_record fn na nri (i + 1)) →
      (∀ j, 1 ≤ j → j ≤ c → 10 < acts_to_next_refresh fn na nri j) →
      total_removed fn na nri c ≤ init.length →
      aggs = init.take (init.length - total_removed fn na nri c) →
      hammer_and_improve_loop fn rand rand_fuel na nri agg_rounds nops fuel c aggs rounds
        = some r →
      c < r.optimization_rounds ∧ r.optimization_rounds ≤ 25 ∧
        r.rounds = (List.range r.optimization_rounds).map
          (fun i => round_record fn na nri (i + 1)) ∧
        (∀ j, 1 ≤ j → j < r.optimization_rounds → 10 < acts_to_next_refresh fn na nri j) ∧
        (r.optimization_rounds < 25 →
          acts_to_next_refresh fn na nri r.optimization_rounds ≤ 10) ∧
        total_removed fn na nri r.optimization_rounds ≤ init.length ∧
        r.aggressor_pairs
          = init.take (init.length - total_removed fn na nri r.optimization_rounds) ∧
        jit_hammering_code rand rand_fuel (agg_rounds % 2 ^ 64).toNat (nri % 2 ^ 64).toNat
          r.aggressor_pairs nops = some r.fn_code ∧
        nri ≠ 0 ∧ na ≠ 0 := by
  intro fuel
  induction fuel with
  | zero => intro c aggs rounds _ _ _ _ _ h; simp [hammer_and_improve_loop] at h
  | succ fuel ih =>
    intro c aggs rounds hc hrounds hgt hsum haggs h
    simp only [hammer_and_improve_loop] at h
    split at h
    · cases h
    · rename_i hz
      simp only [not_or] at hz
      have hto : na - ((fn (c + 1 - 1)).tdiv nri).tmod na
          = acts_to_next_refresh fn na nri (c + 1) := rfl
      have hrem : ((na - ((fn (c + 1 - 1)).tdiv nri).tmod na).tdiv (2 * ((c + 1 : Nat) : Int))).toNat
          = removed_in_round fn na nri (c + 1) := rfl
      rw [hrem, hto] at h
      split at h
      · cases h
      · rename_i hlen
        have hlen' : removed_in_round fn na nri (c + 1) ≤ aggs.length := by omega
        have halen : aggs.length = init.length - total_removed fn na nri c := by
          rw [haggs, List.length_take]
          omega
        have hsum' : total_removed fn na nri (c + 1) ≤ init.length := by
          rw [total_removed_succ]
          omega
        have haggs' : aggs.take (aggs.length - removed_in_round fn na nri (c + 1))
            = init.take (init.length - total_removed fn na nri (c + 1)) := by
          rw [halen, haggs, List.take_take, total_removed_succ]
          congr 1
          omega
        have hrounds' : rounds ++
            [{ num_activations_to_next_refresh := acts_to_next_refresh fn na nri (c + 1),
               removed := removed_in_round fn na nri (c + 1) }]
            = (List.range (c + 1)).map (fun i => round_record fn na nri (i + 1)) := by
          rw [hrounds, List.range_succ, List.map_append]
          rfl
        rw [haggs', hrounds'] at h
        split at h
        · cases h
        · rename_i code hcode
          split at h
          · rename_i hcont
            have hgt' : ∀ j, 1 ≤ j → j ≤ c + 1 → 10 < acts_to_next_refresh fn na nri j := by
              intro j h1 h2
              by_cases hj : j = c + 1
              · subst hj; exact hcont.1
              · exact hgt j h1 (by omega)
            obtain ⟨h1, h2, h3, h4, h5, h6, h7, h8, -⟩ :=
              ih (c + 1) _ _ hcont.2 rfl hgt' hsum' rfl h
            exact ⟨by omega, h2, h3, h4, h5, h6, h7, h8, hz.1, hz.2⟩
          · rename_i hstop
            simp only [Option.some.injEq] at h
            subst h
            refine ⟨Nat.lt_succ_self c, (show c + 1 ≤ 25 by omega), rfl, ?_, ?_, hsum', rfl,
              hcode, hz.1, hz.2⟩
            · intro j h1 h2
              have h2' : j < c + 1 := h2
              exact hgt j h1 (by omega)
            · intro h25
              have h25' : c + 1 < 25 := h25
              by_contra hcon
              have hcon' : ¬ acts_to_next_refresh fn na nri (c + 1) ≤ 10 := hcon
              exact hstop ⟨by omega, h25'⟩

/-- The loop of `hammer_and_improve_params` returns when no division by zero and no
`pop_back` on an empty vector occurs. -/
theorem hammer_and_improve_loop_returns (fn : Nat → Int) (rand : Nat → Nat) (rand_fuel : Nat)
    (na nri agg_rounds : Int) (nops init : List Nat) (hnri : nri ≠ 0) (hna : na ≠ 0)
    (hsum : total_removed fn na nri 25 ≤ init.length) :
    ∀ (fuel c : Nat) (aggs : List Nat) (rounds : List OptimizationRound),
      c < 25 → 25 ≤ c + fuel →
      aggs = init.take (init.length - total_removed fn na nri c) →
      ∃ r, hammer_and_improve_loop fn rand rand_fuel na nri agg_rounds nops fuel c aggs rounds
        = some r := by
  intro fuel
  induction fuel with
  | zero => intro c aggs rounds hc hf; omega
  | succ fuel ih =>
    intro c aggs rounds hc hf haggs
    simp only [hammer_and_improve_loop]
    rw [if_neg (by simp [hnri, hna])]
    have hto : na - ((fn (c + 1 - 1)).tdiv nri).tmod na
        = acts_to_next_refresh fn na nri (c + 1) := rfl
    have hrem : ((na - ((fn (c + 1 - 1)).tdiv nri).tmod na).tdiv (2 * ((c + 1 : Nat) : Int))).toNat
        = removed_in_round fn na nri (c + 1) := rfl
    rw [hrem, hto]
    have hs1 := total_removed_mono fn na nri (c + 1) 25 (by omega)
    have hs0 := total_removed_succ fn na nri c
    have halen : aggs.length = init.length - total_removed fn na nri c := by
      rw [haggs, List.length_take]
      omega
    rw [if_neg (by omega)]
    have haggs' : aggs.take (aggs.length - removed_in_round fn na nri (c + 1))
        = init.take (init.length - total_removed fn na nri (c + 1)) := by
      rw [halen, haggs, List.take_take, total_removed_succ]
      congr 1
      omega
    rw [haggs', jit_hammering_code_eq]
    simp only
    split
    · rename_i hcont
      exact ih (c + 1) _ _ hcont.2 (by omega) rfl
    · exact ⟨_, rfl⟩
theorem tdiv_nonpos_iff (a b : Int) (hb : 0 < b) : a.tdiv b ≤ 0 ↔ a < b := by
  rcases le_or_lt 0 a with ha | ha
  · rw [Int.tdiv_eq_ediv ha (le_of_lt hb)]
    constructor
    · intro h
      have := Int.lt_mul_ediv_self_add (x := a) hb
      nlinarith
    · intro h
      rw [Int.ediv_eq_zero_of_lt ha h]
  · constructor
    · intro _; omega
    · intro _
      have h1 : a.tdiv b = -((-a).tdiv b) := by rw [Int.neg_tdiv, neg_neg]
      rw [h1]
      have := Int.tdiv_nonneg (a := -a) (b := b) (by omega) (by omega)
      omega

theorem removed_in_round_eq_zero (fn : Nat → Int) (na nri : Int) (j : Nat) (hj : 1 ≤ j) :
    removed_in_round fn na nri j = 0 ↔ acts_to_next_refresh fn na nri j < 2 * (j : Int) := by
  unfold removed_in_round
  rw [Int.toNat_eq_zero, tdiv_nonpos_iff _ _ (by omega)]

/-- C23: whatever values the calls of the jitted function return, a call of
`hammer_and_improve_params` that returns has performed `optimization_rounds` rounds with
`1 <= optimization_rounds <= 25`; in every round `j` it computed
`num_activations_to_next_refresh = num_activations - ((fn() / num_refresh_intervals) %
num_activations)` from the value of the `j`-th call; in every round before the last this value
was above 10, and in the last round it was at most 10 unless the last round is round 25.  The
call returns (25 rounds of fuel suffice) when `num_refresh_intervals` and `num_activations`
are not 0 and `aggressor_pairs` holds at least as many elements as are removed. -/
theorem hammer_and_improve_rounds (fn : Nat → Int) (rand : Nat → Nat) (rand_fuel : Nat)
    (num_activations num_refresh_intervals agg_rounds : Int)
    (nops aggressor_pairs : List Nat) :
    (∀ (fuel : Nat) (r : ImprovedParams),
      hammer_and_improve_params fn rand rand_fuel num_activations num_refresh_intervals
        agg_rounds nops aggressor_pairs fuel = some r →
      1 ≤ r.optimization_rounds ∧ r.optimization_rounds ≤ 25 ∧
        r.rounds = (List.range r.optimization_rounds).map
          (fun i => round_record fn num_activations num_refresh_intervals (i + 1)) ∧
        (∀ j, 1 ≤ j → j < r.optimization_rounds →
          10 < num_activations
            - ((fn (j - 1)).tdiv num_refresh_intervals).tmod num_activations) ∧
        (r.optimization_rounds < 25 →
          num_activations - ((fn (r.optimization_rounds - 1)).tdiv
            num_refresh_intervals).tmod num_activations ≤ 10)) ∧
    (num_refresh_intervals ≠ 0 → num_activations ≠ 0 →
      total_removed fn num_activations num_refresh_intervals 25 ≤ aggressor_pairs.length →
      ∀ fuel, 25 ≤ fuel →
        ∃ r, hammer_and_improve_params fn rand rand_fuel num_activations num_refresh_intervals
          agg_rounds nops aggressor_pairs fuel = some r) := by
  constructor
  · intro fuel r h
    obtain ⟨h1, h2, h3, h4, h5, -⟩ := hammer_and_improve_loop_spec fn rand rand_fuel
      num_activations num_refresh_intervals agg_rounds nops aggressor_pairs r fuel 0
      aggressor_pairs [] (by decide) rfl (by intro j h1 h2; omega)
      (by simp [total_removed]) (by simp [total_removed]) h
    exact ⟨by omega, h2, h3, h4, h5⟩
  · intro hnri hna hsum fuel hfuel
    exact hammer_and_improve_loop_returns fn rand rand_fuel num_activations
      num_refresh_intervals agg_rounds nops aggressor_pairs hnri hna hsum fuel 0
      aggressor_pairs [] (by decide) (by omega) (by simp [total_removed])

theorem hammer_and_improve_rounds_witness :
    ∃ r, hammer_and_improve_params (fun n => 10 * (n : Int)) (fun _ => 0) 0 100 1 1 [64, 128]
        (List.range 300) 25 = some r ∧
      1 ≤ r.optimization_rounds ∧ r.optimization_rounds ≤ 25 ∧
      (r.optimization_rounds < 25 →
        (100 : Int) - ((10 * ((r.optimization_rounds - 1 : Nat) : Int)).tdiv 1).tmod 100
          ≤ 10) := by
  obtain ⟨hspec, hret⟩ := hammer_and_improve_rounds (fun n => 10 * (n : Int)) (fun _ => 0) 0
    100 1 1 [64, 128] (List.range 300)
  obtain ⟨r, hr⟩ := hret (by decide) (by decide) (by decide!) 25 (Nat.le_refl _)
  obtain ⟨h1, h2, -, -, h5⟩ := hspec 25 r hr
  exact ⟨r, hr, h1, h2, h5⟩

/-- C24 as stated fails: with `num_activations = 100`, `num_refresh_intervals = 1` and a
first call of `fn` that returns 90, the number of activations to the next REFRESH is 10 in
round 1, which is the only round, and 5 of the 10 aggressors are removed in it. -/
theorem improve_removes_at_threshold :
    (hammer_and_improve_params (fun _ => 90) (fun _ => 0) 0 100 1 1 [64, 128]
        [1, 2, 3, 4, 5, 6, 7, 8, 9, 10] 25).map
      (fun r => (r.optimization_rounds, r.rounds, r.aggressor_pairs))
      = some (1, [{ num_activations_to_next_refresh := 10, removed := 5 }],
          [1, 2, 3, 4, 5]) := by
  decide!

/-- C24, amended: in every round `j` of a call of `hammer_and_improve_params` that returns,
the code removes `num_activations_to_next_refresh / (2 * j)` aggressors from the end of
`aggressor_pairs`, whether or not the number of activations to the next REFRESH exceeds 10;
no aggressor is removed in round `j` exactly when that number is below `2 * j`.  The threshold
10 only decides whether another round follows. -/
theorem improve_removed_per_round (fn : Nat → Int) (rand : Nat → Nat) (rand_fuel : Nat)
    (num_activations num_refresh_intervals agg_rounds : Int)
    (nops aggressor_pairs : List Nat) (fuel : Nat) (r : ImprovedParams)
    (h : hammer_and_improve_params fn rand rand_fuel num_activations num_refresh_intervals
      agg_rounds nops aggressor_pairs fuel = some r) :
    r.rounds = (List.range r.optimization_rounds).map
        (fun i => round_record fn num_activations num_refresh_intervals (i + 1)) ∧
      (∀ j, (round_record fn num_activations num_refresh_intervals j).removed
        = ((num_activations
            - ((fn (j - 1)).tdiv num_refresh_intervals).tmod num_activations).tdiv
              (2 * (j : Int))).toNat) ∧
      (∀ j, 1 ≤ j →
        ((round_record fn num_activations num_refresh_intervals j).removed = 0 ↔
          (round_record fn num_activations num_refresh_intervals j).num_activations_to_next_refresh
            < 2 * (j : Int))) ∧
      (r.rounds.map (fun x => x.removed)).sum ≤ aggressor_pairs.length ∧
      r.aggressor_pairs
        = aggressor_pairs.take
            (aggressor_pairs.length - (r.rounds.map (fun x => x.removed)).sum) := by
  obtain ⟨-, -, h3, -, -, h6, h7, -⟩ := hammer_and_improve_loop_spec fn rand rand_fuel
    num_activations num_refresh_intervals agg_rounds nops aggressor_pairs r fuel 0
    aggressor_pairs [] (by decide) rfl (by intro j h1 h2; omega)
    (by simp [total_removed]) (by simp [total_removed]) h
  have hsum : (r.rounds.map (fun x => x.removed)).sum
      = total_removed fn num_activations num_refresh_intervals r.optimization_rounds := by
    rw [h3, List.map_map]
    rfl
  refine ⟨h3, fun j => rfl, ?_, ?_, ?_⟩
  · intro j hj
    exact removed_in_round_eq_zero fn num_activations num_refresh_intervals j hj
  · rw [hsum]; exact h6
  · rw [hsum]; exact h7

theorem improve_removed_per_round_witness :
    ∃ r, hammer_and_improve_params (fun _ => 90) (fun _ => 0) 0 100 1 1 [64, 128]
        [1, 2, 3, 4, 5, 6, 7, 8, 9, 10] 25 = some r ∧
      r.rounds = (List.range r.optimization_rounds).map
        (fun i => round_record (fun _ => 90) 100 1 (i + 1)) ∧
      r.aggressor_pairs
        = [1, 2, 3, 4, 5, 6, 7, 8, 9, 10].take
            (10 - (r.rounds.map (fun x => x.removed)).sum) := by
  have hsome : (hammer_and_improve_params (fun _ => 90) (fun _ => 0) 0 100 1 1 [64, 128]
      [1, 2, 3, 4, 5, 6, 7, 8, 9, 10] 25).isSome = true := by decide!
  obtain ⟨r, hr⟩ := Option.isSome_iff_exists.mp hsome
  obtain ⟨h1, -, -, -, h5⟩ := improve_removed_per_round (fun _ => 90) (fun _ => 0) 0 100 1 1
    [64, 128] [1, 2, 3, 4, 5, 6, 7, 8, 9, 10] 25 r hr
  exact ⟨r, hr, h1, h5⟩

/-! ## Theorems about the parameters -/

theorem lookup_filter_le (probabilities : List (Int × Int)) (m k : Int) (hk : k ≤ m) :
    (probabilities.filter (fun p => decide (p.1 ≤ m))).lookup k = probabilities.lookup k := by
  induction probabilities with
  | nil => rfl
  | cons p ps ih =>
    obtain ⟨a, b⟩ := p
    by_cases ha : a ≤ m
    · rw [List.filter_cons_of_pos (by simpa using ha)]
      by_cases hka : k = a
      · subst hka
        simp [List.lookup]
      · have hne : (k == a) = false := by simpa using hka
        simp only [List.lookup, hne]
        exact ih
    · rw [List.filter_cons_of_neg (by simpa using ha)]
      have hne : (k == a) = false := by
        have : k ≠ a := by omega
        simpa using this
      simp only [List.lookup, hne]
      exact ih

/-- C26: for a range with `max >= 0`, `build_distribution(range, probabilities)` builds a
weight vector of length `range.max + 1` whose entry `i` is `probabilities[i]` when `i` is a key
and 0 otherwise; keys above `range.max` are ignored.  For `N_sided = (1, 2)` and
`{1: 2, 2: 8}` the weights are `[0, 2, 8]`: the distribution yields 1 with probability 2/10,
2 with probability 8/10, and never 0. -/
theorem build_distribution_weights (range_N_sided : Range) (probabilities : List (Int × Int))
    (hmax : 0 ≤ range_N_sided.max) :
    ((build_distribution range_N_sided probabilities).length : Int) = range_N_sided.max + 1 ∧
      (∀ i : Nat, (i : Int) ≤ range_N_sided.max →
        (build_distribution range_N_sided probabilities)[i]?
          = some ((probabilities.lookup (i : Int)).getD 0)) ∧
      build_distribution range_N_sided
          (probabilities.filter (fun p => decide (p.1 ≤ range_N_sided.max)))
        = build_distribution range_N_sided probabilities ∧
      build_distribution { min := 1, max := 2 } [(1, 2), (2, 8)] = [0, 2, 8] ∧
      discrete_probability (build_distribution { min := 1, max := 2 } [(1, 2), (2, 8)]) 1
        = 2 / 10 ∧
      discrete_probability (build_distribution { min := 1, max := 2 } [(1, 2), (2, 8)]) 2
        = 8 / 10 ∧
      discrete_probability (build_distribution { min := 1, max := 2 } [(1, 2), (2, 8)]) 0
        = 0 := by
  have hex : build_distribution { min := 1, max := 2 } [(1, 2), (2, 8)] = [0, 2, 8] := by
    decide
  refine ⟨?_, ?_, ?_, hex, ?_, ?_, ?_⟩
  · unfold build_distribution
    rw [List.length_map, List.length_range, Int.toNat_of_nonneg (by omega)]
  · intro i hi
    unfold build_distribution
    rw [List.getElem?_map, List.getElem?_range (by omega)]
    simp only [Option.map_some']
    cases probabilities.lookup (i : Int) <;> rfl
  · unfold build_distribution
    apply List.map_congr_left
    intro i hi
    rw [List.mem_range] at hi
    rw [lookup_filter_le probabilities range_N_sided.max i (by omega)]
  · rw [hex]; norm_num [discrete_probability]
  · rw [hex]; norm_num [discrete_probability]
  · rw [hex]; norm_num [discrete_probability]

theorem build_distribution_weights_witness :
    (0 : Int) ≤ 3 ∧
    ((build_distribution { min := 1, max := 3 } [(1, 2), (2, 8), (7, 5)]).length : Int)
      = 3 + 1 ∧
    build_distribution { min := 1, max := 3 }
        ([(1, 2), (2, 8), (7, 5)].filter (fun p => decide (p.1 ≤ (3 : Int))))
      = build_distribution { min := 1, max := 3 } [(1, 2), (2, 8), (7, 5)] :=
  ⟨by decide,
    (build_distribution_weights { min := 1, max := 3 } [(1, 2), (2, 8), (7, 5)] (by decide)).1,
    (build_distribution_weights { min := 1, max := 3 } [(1, 2), (2, 8), (7, 5)]
      (by decide)).2.2.1⟩
/-! ## Theorems about pointer chasing -/

theorem lookup_cons_isSome (a b : Nat) (v : Nat) (m : List (Nat × Nat)) :
    (List.lookup b ((a, v) :: m)).isSome = true ↔ b = a ∨ (List.lookup b m).isSome = true := by
  by_cases h : b = a
  · subst h; simp [List.lookup]
  · have hne : (b == a) = false := by simpa using h
    simp [List.lookup, hne, h]

theorem lookup_cons_isSome_int (a b : Nat) (v : Int) (m : List (Nat × Int)) :
    (List.lookup b ((a, v) :: m)).isSome = true ↔ b = a ∨ (List.lookup b m).isSome = true := by
  by_cases h : b = a
  · subst h; simp [List.lookup]
  · have hne : (b == a) = false := by simpa using h
    simp [List.lookup, hne, h]

/-- A step for an address not handled before, added to the first chase. -/
theorem chase_step_fresh_first (st : ChaseState) (a : Nat) (hinv : ChaseInv st)
    (hnew : st.address_to_chase_mapping.lookup a = none)
    (hle : st.elems_first ≤ st.elems_second) :
    ∃ st', chase_step st a = some st' ∧ ChaseInv st' ∧
      st'.elems_first = st.elems_first + 1 ∧ st'.elems_second = st.elems_second ∧
      st'.chases = st.chases ++ [true] ∧
      ∀ b, (st'.address_to_chase_mapping.lookup b).isSome = true ↔
        (b = a ∨ (st.address_to_chase_mapping.lookup b).isSome = true) := by
  have hcond : ((st.address_to_chase_mapping.lookup a).isSome = true ∧
      (match st.address_to_chase_mapping.lookup a with
        | some start => decide (start = st.first_start)
        | none => false) = true) ∨
      (¬ (st.address_to_chase_mapping.lookup a).isSome = true ∧
        st.elems_first ≤ st.elems_second) := by
    right
    rw [hnew]
    exact ⟨by simp, hle⟩
  unfold chase_step
  simp only [if_pos hcond]
  by_cases h0 : st.first_start = 0
  · simp only [if_pos h0]
    refine ⟨_, rfl, ?_, rfl, rfl, rfl, ?_⟩
    · constructor
      · intro t ht
        simp only [Option.some.injEq] at ht
        subst ht
        simp [List.lookup]
      · intro t ht
        exact (lookup_cons_isSome _ _ _ _).mpr (Or.inr (hinv.second_cur_seen t ht))
      · intro t ht hs
        simp only [Option.some.injEq] at ht
        subst ht
        have := hinv.second_cur_seen _ hs
        rw [hnew] at this
        simp at this
      · intro t ht
        obtain ⟨h1, h2, h3⟩ := hinv.occupied_seen t ht
        refine ⟨(lookup_cons_isSome _ _ _ _).mpr (Or.inr h1), ?_, h3⟩
        intro hc
        simp only [Option.some.injEq] at hc
        subst hc
        rw [hnew] at h1
        simp at h1
      · intro _; simp
      · exact hinv.second_init
    · intro b
      exact lookup_cons_isSome _ _ _ _
  · simp only [if_neg h0]
    obtain ⟨t, ht⟩ := Option.ne_none_iff_exists'.mp (hinv.first_init h0)
    have hocc : st.occupied_slots.lookup t = none := by
      cases hl : st.occupied_slots.lookup t with
      | none => rfl
      | some v =>
        have := (hinv.occupied_seen t (by rw [hl]; rfl)).2.1
        exact absurd ht this
    have henc : encode_into_slot st t a = some { st with
        occupied_slots := (t, 0) :: st.occupied_slots
        encoded := st.encoded ++ [(t, 0, a)] } := by
      unfold encode_into_slot
      simp only [hocc]
      rw [if_neg (by decide)]
      rfl
    simp only [ht, henc]
    have hta : t ≠ a := by
      intro h
      subst h
      have := hinv.first_cur_seen _ ht
      rw [hnew] at this
      simp at this
    refine ⟨_, rfl, ?_, rfl, rfl, rfl, ?_⟩
    · constructor
      · intro x hx
        simp only [Option.some.injEq] at hx
        subst hx
        simp [List.lookup]
      · intro x hx
        exact (lookup_cons_isSome _ _ _ _).mpr (Or.inr (hinv.second_cur_seen x hx))
      · intro x hx hs
        simp only [Option.some.injEq] at hx
        subst hx
        have := hinv.second_cur_seen _ hs
        rw [hnew] at this
        simp at this
      · intro x hx
        rcases (lookup_cons_isSome_int _ _ _ _).mp hx with h | h
        · subst h
          refine ⟨(lookup_cons_isSome _ _ _ _).mpr (Or.inr (hinv.first_cur_seen _ ht)), ?_,
            hinv.curs_ne _ ht⟩
          intro hc
          simp only [Option.some.injEq] at hc
          exact hta hc.symm
        · obtain ⟨h1, h2, h3⟩ := hinv.occupied_seen x h
          refine ⟨(lookup_cons_isSome _ _ _ _).mpr (Or.inr h1), ?_, h3⟩
          intro hc
          simp only [Option.some.injEq] at hc
          subst hc
          rw [hnew] at h1
          simp at h1
      · intro _; simp
      · exact hinv.second_init
    · intro b
      exact lookup_cons_isSome _ _ _ _
/-- A step for an address not handled before, added to the second chase. -/
theorem chase_step_fresh_second (st : ChaseState) (a : Nat) (hinv : ChaseInv st)
    (hnew : st.address_to_chase_mapping.lookup a = none)
    (hlt : st.elems_second < st.elems_first) :
    ∃ st', chase_step st a = some st' ∧ ChaseInv st' ∧
      st'.elems_first = st.elems_first ∧ st'.elems_second = st.elems_second + 1 ∧
      st'.chases = st.chases ++ [false] ∧
      ∀ b, (st'.address_to_chase_mapping.lookup b).isSome = true ↔
        (b = a ∨ (st.address_to_chase_mapping.lookup b).isSome = true) := by
  have hcond : ¬ (((st.address_to_chase_mapping.lookup a).isSome = true ∧
      (match st.address_to_chase_mapping.lookup a with
        | some start => decide (start = st.first_start)
        | none => false) = true) ∨
      (¬ (st.address_to_chase_mapping.lookup a).isSome = true ∧
        st.elems_first ≤ st.elems_second)) := by
    rw [hnew]
    simp
    omega
  unfold chase_step
  simp only [if_neg hcond]
  by_cases h0 : st.second_start = 0
  · simp only [if_pos h0]
    refine ⟨_, rfl, ?_, rfl, rfl, rfl, ?_⟩
    · constructor
      · intro t ht
        exact (lookup_cons_isSome _ _ _ _).mpr (Or.inr (hinv.first_cur_seen t ht))
      · intro t ht
        simp only [Option.some.injEq] at ht
        subst ht
        simp [List.lookup]
      · intro t ht hs
        simp only [Option.some.injEq] at hs
        subst hs
        have := hinv.first_cur_seen _ ht
        rw [hnew] at this
        simp at this
      · intro t ht
        obtain ⟨h1, h2, h3⟩ := hinv.occupied_seen t ht
        refine ⟨(lookup_cons_isSome _ _ _ _).mpr (Or.inr h1), h2, ?_⟩
        intro hc
        simp only [Option.some.injEq] at hc
        subst hc
        rw [hnew] at h1
        simp at h1
      · exact hinv.first_init
      · intro _; simp
    · intro b
      exact lookup_cons_isSome _ _ _ _
  · simp only [if_neg h0]
    obtain ⟨t, ht⟩ := Option.ne_none_iff_exists'.mp (hinv.second_init h0)
    have hocc : st.occupied_slots.lookup t = none := by
      cases hl : st.occupied_slots.lookup t with
      | none => rfl
      | some v =>
        have := (hinv.occupied_seen t (by rw [hl]; rfl)).2.2
        exact absurd ht this
    have henc : encode_into_slot st t a = some { st with
        occupied_slots := (t, 0) :: st.occupied_slots
        encoded := st.encoded ++ [(t, 0, a)] } := by
      unfold encode_into_slot
      simp only [hocc]
      rw [if_neg (by decide)]
      rfl
    simp only [ht, henc]
    have hta : t ≠ a := by
      intro h
      subst h
      have := hinv.second_cur_seen _ ht
      rw [hnew] at this
      simp at this
    refine ⟨_, rfl, ?_, rfl, rfl, rfl, ?_⟩
    · constructor
      · intro x hx
        exact (lookup_cons_isSome _ _ _ _).mpr (Or.inr (hinv.first_cur_seen x hx))
      · intro x hx
        simp only [Option.some.injEq] at hx
        subst hx
        simp [List.lookup]
      · intro x hx hs
        simp only [Option.some.injEq] at hs
        subst hs
        have := hinv.first_cur_seen _ hx
        rw [hnew] at this
        simp at this
      · intro x hx
        rcases (lookup_cons_isSome_int _ _ _ _).mp hx with h | h
        · subst h
          refine ⟨(lookup_cons_isSome _ _ _ _).mpr (Or.inr (hinv.second_cur_seen _ ht)),
            fun hc => hinv.curs_ne _ hc ht, ?_⟩
          intro hc
          simp only [Option.some.injEq] at hc
          exact hta hc.symm
        · obtain ⟨h1, h2, h3⟩ := hinv.occupied_seen x h
          refine ⟨(lookup_cons_isSome _ _ _ _).mpr (Or.inr h1), h2, ?_⟩
          intro hc
          simp only [Option.some.injEq] at hc
          subst hc
          rw [hnew] at h1
          simp at h1
      · exact hinv.first_init
      · intro _; simp
    · intro b
      exact lookup_cons_isSome _ _ _ _

/-- The loop over pairwise distinct addresses not handled before: the addresses go to the
first and the second chase in turns. -/
theorem chase_loop_alternates :
    ∀ (rest : List Nat) (st : ChaseState), rest.Nodup →
      (∀ a ∈ rest, st.address_to_chase_mapping.lookup a = none) → ChaseInv st →
      (st.elems_first = st.elems_second ∨ st.elems_first = st.elems_second + 1) →
      ∃ st', chase_loop rest st = some st' ∧
        st'.chases = st.chases ++ (List.range rest.length).map
          (fun i => decide ((st.elems_first + st.elems_second + i) % 2 = 0)) ∧
        st'.elems_first + st'.elems_second = st.elems_first + st.elems_second + rest.length ∧
        (st'.elems_first = st'.elems_second ∨ st'.elems_first = st'.elems_second + 1) := by
  intro rest
  induction rest with
  | nil =>
    intro st _ _ _ hbal
    exact ⟨st, rfl, by simp, by simp, hbal⟩
  | cons a rest ih =>
    intro st hnd hnew hinv hbal
    have hnd' := (List.nodup_cons.mp hnd).2
    have ha : a ∉ rest := (List.nodup_cons.mp hnd).1
    have hnew_a := hnew a (List.mem_cons_self _ _)
    have hrange : ∀ (c : Nat) (b : Bool),
        b = decide ((st.elems_first + st.elems_second + 0) % 2 = 0) →
        c = st.elems_first + st.elems_second + 1 →
        [b] ++ (List.range rest.length).map (fun i => decide ((c + i) % 2 = 0))
          = (List.range (rest.length + 1)).map
              (fun i => decide ((st.elems_first + st.elems_second + i) % 2 = 0)) := by
      intro c b hb hc
      rw [List.range_succ_eq_map, List.map_cons, List.map_map, hb, hc]
      simp only [List.singleton_append, List.cons.injEq, true_and]
      apply List.map_congr_left
      intro i _
      simp only [Function.comp]
      congr 2
      omega
    have hnew' : ∀ (st' : ChaseState),
        (∀ b, (st'.address_to_chase_mapping.lookup b).isSome = true ↔
          (b = a ∨ (st.address_to_chase_mapping.lookup b).isSome = true)) →
        ∀ x ∈ rest, st'.address_to_chase_mapping.lookup x = none := by
      intro st' hmap x hx
      have h1 := hnew x (List.mem_cons_of_mem _ hx)
      have hxa : x ≠ a := fun h => ha (h ▸ hx)
      cases hl : st'.address_to_chase_mapping.lookup x with
      | none => rfl
      | some v =>
        have := (hmap x).mp (by rw [hl]; rfl)
        rcases this with h | h
        · exact absurd h hxa
        · rw [h1] at h; simp at h
    rcases hbal with hb | hb
    · obtain ⟨st1, hs1, hinv1, he1, he2, hc1, hm1⟩ :=
        chase_step_fresh_first st a hinv hnew_a (by omega)
      obtain ⟨st', hs', hc', hsum', hbal'⟩ := ih st1 hnd' (hnew' st1 hm1) hinv1
        (Or.inr (by omega))
      refine ⟨st', ?_, ?_, ?_, hbal'⟩
      · simp only [chase_loop, hs1]; exact hs'
      · rw [hc', hc1, List.append_assoc, List.length_cons]
        congr 1
        exact hrange _ _ (by rw [hb]; simp; omega) (by omega)
      · rw [hsum', List.length_cons]; omega
    · obtain ⟨st1, hs1, hinv1, he1, he2, hc1, hm1⟩ :=
        chase_step_fresh_second st a hinv hnew_a (by omega)
      obtain ⟨st', hs', hc', hsum', hbal'⟩ := ih st1 hnd' (hnew' st1 hm1) hinv1
        (Or.inl (by omega))
      refine ⟨st', ?_, ?_, ?_, hbal'⟩
      · simp only [chase_loop, hs1]; exact hs'
      · rw [hc', hc1, List.append_assoc, List.length_cons]
        congr 1
        exact hrange _ _ (by rw [hb]; simp; omega) (by omega)
      · rw [hsum', List.length_cons]; omega
theorem encode_into_slot_eq (st : ChaseState) (t a : Nat) :
    ∃ slot : Int,
      (slot = 0 ∨ ∃ k, st.occupied_slots.lookup t = some k ∧ slot = k + 1) ∧
      encode_into_slot st t a
        = if slot < 0 ∨ num_slots ≤ slot then none
          else some { st with
            occupied_slots := (t, slot) :: st.occupied_slots
            encoded := st.encoded ++ [(t, slot.toNat, a)] } := by
  unfold encode_into_slot
  cases hl : st.occupied_slots.lookup t with
  | none => exact ⟨0, Or.inl rfl, rfl⟩
  | some k => exact ⟨k + 1, Or.inr ⟨k, rfl, rfl⟩, rfl⟩

theorem encode_into_slot_hist (pre : List Nat) (st : ChaseState) (H : ChaseHist pre st)
    (t a : Nat) :
    (∀ st', encode_into_slot st t a = some st' →
      st'.first_start = st.first_start ∧ st'.second_start = st.second_start ∧
      st'.first_cur = st.first_cur ∧ st'.second_cur = st.second_cur ∧
      st'.elems_first = st.elems_first ∧ st'.elems_second = st.elems_second ∧
      st'.address_to_chase_mapping = st.address_to_chase_mapping ∧
      st'.chases = st.chases ∧
      ∀ t' k, st'.occupied_slots.lookup t' = some k → 0 ≤ k ∧ k < (pre.length : Int) + 1) ∧
    (pre.length < 128 → ∃ st', encode_into_slot st t a = some st') := by
  obtain ⟨slot, hslot, heq⟩ := encode_into_slot_eq st t a
  have hb : 0 ≤ slot ∧ slot < (pre.length : Int) + 1 := by
    rcases hslot with h | ⟨k, hk, h⟩
    · omega
    · have := H.occupied t k hk
      omega
  rw [heq]
  constructor
  · intro st' h
    split at h
    · cases h
    · simp only [Option.some.injEq] at h
      subst h
      refine ⟨rfl, rfl, rfl, rfl, rfl, rfl, rfl, rfl, ?_⟩
      intro t' k hk
      simp only [List.lookup] at hk
      split at hk
      · simp only [Option.some.injEq] at hk
        subst hk
        exact hb
      · have := H.occupied t' k hk
        omega
  · intro hlen
    rw [if_neg]
    · exact ⟨_, rfl⟩
    · unfold num_slots
      omega
theorem mem_zip_of_mem (pre : List Nat) (chases : List Bool) (h : chases.length = pre.length)
    (x : Nat) (hx : x ∈ pre) : ∃ c, (x, c) ∈ pre.zip chases := by
  obtain ⟨i, hi, rfl⟩ := List.getElem_of_mem hx
  refine ⟨chases[i], ?_⟩
  have : (pre.zip chases)[i]? = some (pre[i], chases[i]) := by
    rw [List.getElem?_zip_eq_some]
    exact ⟨List.getElem?_eq_getElem hi, List.getElem?_eq_getElem (by omega)⟩
  exact List.getElem?_mem this

theorem zip_snoc (pre : List Nat) (chases : List Bool) (h : chases.length = pre.length)
    (a : Nat) (b : Bool) :
    (pre ++ [a]).zip (chases ++ [b]) = pre.zip chases ++ [(a, b)] := by
  rw [List.zip_append h.symm]
  rfl

/-- Adding a non-null address to the first chase keeps what is known of the state. -/
theorem hist_extend_first (pre : List Nat) (st st' : ChaseState) (a : Nat)
    (H : ChaseHist pre st) (ha : a ≠ 0)
    (hsame : ∀ c, (a, c) ∈ pre.zip st.chases → c = true)
    (h1 : st'.first_start = if st.first_start = 0 then a else st.first_start)
    (h2 : st'.second_start = st.second_start)
    (h3 : st'.first_cur = some a) (h4 : st'.second_cur = st.second_cur)
    (h5 : st'.elems_first = st.elems_first + 1) (h6 : st'.elems_second = st.elems_second)
    (h7 : st'.address_to_chase_mapping
      = (a, st'.first_start) :: st.address_to_chase_mapping)
    (h8 : st'.chases = st.chases ++ [true])
    (h9 : ∀ t k, st'.occupied_slots.lookup t = some k → 0 ≤ k ∧ k < (pre.length : Int) + 1) :
    ChaseHist (pre ++ [a]) st' := by
  have hf0 : st.first_start = 0 → pre = [] := by
    intro h
    by_contra hne
    exact H.first_nz hne h
  have hfnz : st'.first_start ≠ 0 := by
    rw [h1]
    split
    · exact ha
    · assumption
  constructor
  · rw [h8, List.length_append, List.length_append, H.len]; rfl
  · rw [h5, h6, List.length_append, List.length_singleton, ← H.counts]; omega
  · intro x
    rw [h7, lookup_cons_isSome, H.seen, List.mem_append, List.mem_singleton]
    tauto
  · intro x c hxc
    rw [h8, zip_snoc pre st.chases H.len] at hxc
    rcases List.mem_append.mp hxc with hold | hnew
    · obtain ⟨hb1, hb2⟩ := H.binding x c hold
      have hpre : pre ≠ [] := by
        intro h
        rw [h] at hold
        simp at hold
      have hfs : st'.first_start = st.first_start := by
        rw [h1, if_neg (H.first_nz hpre)]
      have hstart : st'.start_of c = st.start_of c := by
        unfold ChaseState.start_of
        rw [hfs, h2]
      rw [hstart]
      refine ⟨?_, hb2⟩
      rw [h7]
      by_cases hxa : x = a
      · subst hxa
        have hc := hsame c hold
        subst hc
        simp [List.lookup, ChaseState.start_of, hfs]
      · have hne : (x == a) = false := by simpa using hxa
        simp only [List.lookup, hne]
        exact hb1
    · simp only [List.mem_singleton, Prod.mk.injEq] at hnew
      obtain ⟨rfl, rfl⟩ := hnew
      refine ⟨?_, ?_⟩
      · rw [h7]
        simp [List.lookup, ChaseState.start_of]
      · simpa [ChaseState.start_of] using hfnz
  · intro _; exact hfnz
  · intro _
    rw [h1, List.mem_append, List.mem_singleton]
    by_cases h0 : st.first_start = 0
    · rw [if_pos h0]; exact Or.inr rfl
    · rw [if_neg h0]; exact Or.inl (H.first_seen h0)
  · intro h
    rw [h2] at h ⊢
    exact List.mem_append_left _ (H.second_seen h)
  · intro h
    rw [h2] at h ⊢
    have hpre : pre ≠ [] := List.ne_nil_of_mem (H.second_seen h)
    rw [h1, if_neg (H.first_nz hpre)]
    exact H.starts_ne h
  · intro _; rw [h3]; simp
  · intro h
    rw [h2] at h
    rw [h4]
    exact H.second_init h
  · intro t k hk
    have := h9 t k hk
    rw [List.length_append, List.length_singleton]
    push_cast
    exact this

/-- Adding a non-null address to the second chase keeps what is known of the state. -/
theorem hist_extend_second (pre : List Nat) (st st' : ChaseState) (a : Nat)
    (H : ChaseHist pre st) (ha : a ≠ 0) (hpre : pre ≠ [])
    (hsame : ∀ c, (a, c) ∈ pre.zip st.chases → c = false)
    (h1 : st'.first_start = st.first_start)
    (h2 : st'.second_start = if st.second_start = 0 then a else st.second_start)
    (h3 : st'.first_cur = st.first_cur) (h4 : st'.second_cur = some a)
    (h5 : st'.elems_first = st.elems_first) (h6 : st'.elems_second = st.elems_second + 1)
    (h7 : st'.address_to_chase_mapping
      = (a, st'.second_start) :: st.address_to_chase_mapping)
    (h8 : st'.chases = st.chases ++ [false])
    (h9 : ∀ t k, st'.occupied_slots.lookup t = some k → 0 ≤ k ∧ k < (pre.length : Int) + 1) :
    ChaseHist (pre ++ [a]) st' := by
  have hsnz : st'.second_start ≠ 0 := by
    rw [h2]
    split
    · exact ha
    · assumption
  have hnew : st.second_start = 0 → a ∉ pre := by
    intro h0 hmem
    obtain ⟨c, hc⟩ := mem_zip_of_mem pre st.chases H.len a hmem
    have hcf := hsame c hc
    subst hcf
    have := (H.binding a false hc).2
    simp [ChaseState.start_of, h0] at this
  constructor
  · rw [h8, List.length_append, List.length_append, H.len]; rfl
  · rw [h5, h6, List.length_append, List.length_singleton, ← H.counts]; omega
  · intro x
    rw [h7, lookup_cons_isSome, H.seen, List.mem_append, List.mem_singleton]
    tauto
  · intro x c hxc
    rw [h8, zip_snoc pre st.chases H.len] at hxc
    rcases List.mem_append.mp hxc with hold | hnew'
    · obtain ⟨hb1, hb2⟩ := H.binding x c hold
      have hstart : st'.start_of c = st.start_of c := by
        unfold ChaseState.start_of
        cases c with
        | true => simp [h1]
        | false =>
          have hnz : st.second_start ≠ 0 := by simpa [ChaseState.start_of] using hb2
          simp [h2, hnz]
      rw [hstart]
      refine ⟨?_, hb2⟩
      rw [h7]
      by_cases hxa : x = a
      · subst hxa
        have hc := hsame c hold
        subst hc
        have hnz : st.second_start ≠ 0 := by simpa [ChaseState.start_of] using hb2
        simp [List.lookup, ChaseState.start_of, h2, hnz]
      · have hne : (x == a) = false := by simpa using hxa
        simp only [List.lookup, hne]
        exact hb1
    · simp only [List.mem_singleton, Prod.mk.injEq] at hnew'
      obtain ⟨rfl, rfl⟩ := hnew'
      refine ⟨?_, ?_⟩
      · rw [h7]
        simp [List.lookup, ChaseState.start_of]
      · simpa [ChaseState.start_of] using hsnz
  · intro _; rw [h1]; exact H.first_nz hpre
  · intro h
    rw [h1] at h ⊢
    exact List.mem_append_left _ (H.first_seen h)
  · intro _
    rw [h2, List.mem_append, List.mem_singleton]
    by_cases h0 : st.second_start = 0
    · rw [if_pos h0]; exact Or.inr rfl
    · rw [if_neg h0]; exact Or.inl (H.second_seen h0)
  · intro _
    rw [h1, h2]
    by_cases h0 : st.second_start = 0
    · rw [if_pos h0]
      intro heq
      exact hnew h0 (heq ▸ H.first_seen (H.first_nz hpre))
    · rw [if_neg h0]
      exact H.starts_ne h0
  · intro h
    rw [h1] at h
    rw [h3]
    exact H.first_init h
  · intro _; rw [h4]; simp
  · intro t k hk
    have := h9 t k hk
    rw [List.length_append, List.length_singleton]
    push_cast
    exact this
/-- One step of `encode_double_ptr_chasing` for a non-null address keeps what is known of
the state, and it has a result while fewer than 128 addresses have been handled. -/
theorem chase_step_hist (pre : List Nat) (st : ChaseState) (a : Nat) (H : ChaseHist pre st)
    (ha : a ≠ 0) :
    (∀ st', chase_step st a = some st' → ChaseHist (pre ++ [a]) st') ∧
      (pre.length < 128 → ∃ st', chase_step st a = some st') := by
  unfold chase_step
  by_cases hcond : ((st.address_to_chase_mapping.lookup a).isSome = true ∧
      (match st.address_to_chase_mapping.lookup a with
        | some start => decide (start = st.first_start)
        | none => false) = true) ∨
      (¬ (st.address_to_chase_mapping.lookup a).isSome = true ∧
        st.elems_first ≤ st.elems_second)
  · simp only [if_pos hcond]
    have hsame : ∀ c, (a, c) ∈ pre.zip st.chases → c = true := by
      intro c hc
      obtain ⟨hb1, hb2⟩ := H.binding a c hc
      rcases hcond with ⟨-, hp⟩ | ⟨hn, -⟩
      · rw [hb1] at hp
        simp only [decide_eq_true_eq] at hp
        cases c with
        | true => rfl
        | false =>
          exfalso
          simp only [ChaseState.start_of] at hp hb2
          exact H.starts_ne (by simpa using hb2) hp.symm
      · rw [hb1] at hn
        simp at hn
    by_cases h0 : st.first_start = 0
    · simp only [if_pos h0]
      constructor
      · intro st' h
        simp only [Option.some.injEq] at h
        subst h
        exact hist_extend_first pre st _ a H ha hsame (by simp [h0]) rfl rfl rfl rfl rfl rfl rfl
          (fun t k hk => by have := H.occupied t k hk; omega)
      · intro _; exact ⟨_, rfl⟩
    · simp only [if_neg h0]
      obtain ⟨t, ht⟩ := Option.ne_none_iff_exists'.mp (H.first_init h0)
      simp only [ht]
      obtain ⟨hp, he⟩ := encode_into_slot_hist pre st H t a
      constructor
      · intro st' h
        cases henc : encode_into_slot st t a with
        | none => rw [henc] at h; simp at h
        | some st1 =>
          rw [henc] at h
          simp only [Option.some.injEq] at h
          subst h
          obtain ⟨e1, e2, e3, e4, e5, e6, e7, e8, e9⟩ := hp st1 henc
          exact hist_extend_first pre st _ a H ha hsame (by simp [h0, e1]) e2 rfl e4
            (by simp [e5]) e6 (by simp [e7]) (by simp [e8]) e9
      · intro hlen
        obtain ⟨st1, henc⟩ := he hlen
        rw [henc]
        exact ⟨_, rfl⟩
  · simp only [if_neg hcond]
    have hpre : pre ≠ [] := by
      intro hnil
      apply hcond
      right
      have h1 := H.counts
      rw [hnil] at h1
      simp only [List.length_nil] at h1
      refine ⟨?_, by omega⟩
      intro hs
      have := (H.seen a).mp hs
      rw [hnil] at this
      simp at this
    have hsame : ∀ c, (a, c) ∈ pre.zip st.chases → c = false := by
      intro c hc
      obtain ⟨hb1, hb2⟩ := H.binding a c hc
      cases c with
      | false => rfl
      | true =>
        exfalso
        apply hcond
        left
        rw [hb1]
        simp [ChaseState.start_of]
    by_cases h0 : st.second_start = 0
    · simp only [if_pos h0]
      constructor
      · intro st' h
        simp only [Option.some.injEq] at h
        subst h
        exact hist_extend_second pre st _ a H ha hpre hsame rfl (by simp [h0]) rfl rfl rfl rfl
          rfl rfl (fun t k hk => by have := H.occupied t k hk; omega)
      · intro _; exact ⟨_, rfl⟩
    · simp only [if_neg h0]
      obtain ⟨t, ht⟩ := Option.ne_none_iff_exists'.mp (H.second_init h0)
      simp only [ht]
      obtain ⟨hp, he⟩ := encode_into_slot_hist pre st H t a
      constructor
      · intro st' h
        cases henc : encode_into_slot st t a with
        | none => rw [henc] at h; simp at h
        | some st1 =>
          rw [henc] at h
          simp only [Option.some.injEq] at h
          subst h
          obtain ⟨e1, e2, e3, e4, e5, e6, e7, e8, e9⟩ := hp st1 henc
          exact hist_extend_second pre st _ a H ha hpre hsame e1 (by simp [h0, e2]) e3 rfl
            e5 (by simp [e6]) (by simp [e7]) (by simp [e8]) e9
      · intro hlen
        obtain ⟨st1, henc⟩ := he hlen
        rw [henc]
        exact ⟨_, rfl⟩

/-- The loop of `encode_double_ptr_chasing` over non-null addresses keeps what is known of the
state, and it has a result when at most 128 addresses are handled in all. -/
theorem chase_loop_hist :
    ∀ (rest pre : List Nat) (st : ChaseState), ChaseHist pre st → (∀ a ∈ rest, a ≠ 0) →
      (∀ st', chase_loop rest st = some st' → ChaseHist (pre ++ rest) st') ∧
        (pre.length + rest.length ≤ 128 → ∃ st', chase_loop rest st = some st') := by
  intro rest
  induction rest with
  | nil =>
    intro pre st H _
    constructor
    · intro st' h
      simp only [chase_loop, Option.some.injEq] at h
      subst h
      simpa using H
    · intro _; exact ⟨st, rfl⟩
  | cons a rest ih =>
    intro pre st H hnz
    obtain ⟨hs, he⟩ := chase_step_hist pre st a H (hnz a (List.mem_cons_self _ _))
    constructor
    · intro st' h
      simp only [chase_loop] at h
      cases hstep : chase_step st a with
      | none => rw [hstep] at h; simp at h
      | some st1 =>
        rw [hstep] at h
        have := (ih (pre ++ [a]) st1 (hs st1 hstep)
          (fun x hx => hnz x (List.mem_cons_of_mem _ hx))).1 st' h
        simpa using this
    · intro hlen
      simp only [List.length_cons] at hlen
      obtain ⟨st1, hstep⟩ := he (by omega)
      obtain ⟨st', h'⟩ := (ih (pre ++ [a]) st1 (hs st1 hstep)
        (fun x hx => hnz x (List.mem_cons_of_mem _ hx))).2
        (by rw [List.length_append, List.length_singleton]; omega)
      exact ⟨st', by simp only [chase_loop, hstep]; exact h'⟩

theorem chase_hist_init :
    ChaseHist []
      { first_start := 0, second_start := 0, first_cur := none, second_cur := none,
        elems_first := 0, elems_second := 0, address_to_chase_mapping := [],
        occupied_slots := [], encoded := [], chases := [] } := by
  constructor <;> simp [ChaseState.start_of]

theorem chase_inv_init :
    ChaseInv
      { first_start := 0, second_start := 0, first_cur := none, second_cur := none,
        elems_first := 0, elems_second := 0, address_to_chase_mapping := [],
        occupied_slots := [], encoded := [], chases := [] } := by
  constructor <;> simp
/-! ### The two chains left behind by `encode_double_ptr_chasing` -/

theorem chase_step_adds (st st' : ChaseState) (a : Nat) (h : chase_step st a = some st') :
    ∃ c : Bool,
      c = (match st.address_to_chase_mapping.lookup a with
            | some start => decide (start = st.first_start)
            | none => decide (st.elems_first ≤ st.elems_second)) ∧
      st'.chases = st.chases ++ [c] ∧
      st'.elems_first = st.elems_first + (if c then 1 else 0) ∧
      st'.elems_second = st.elems_second + (if c then 0 else 1) ∧
      st'.address_to_chase_mapping = (a, st'.start_of c) :: st.address_to_chase_mapping ∧
      st'.start_of c = (if st.start_of c = 0 then a else st.start_of c) ∧
      st'.start_of (!c) = st.start_of (!c) ∧
      st'.cur_of c = some a ∧
      st'.cur_of (!c) = st.cur_of (!c) ∧
      ((st.start_of c = 0 ∧ st'.encoded = st.encoded ∧
          st'.occupied_slots = st.occupied_slots) ∨
       (st.start_of c ≠ 0 ∧ ∃ t, st.cur_of c = some t ∧
          st'.encoded = st.encoded ++ [(t, (next_slot st t).toNat, a)] ∧
          st'.occupied_slots = (t, next_slot st t) :: st.occupied_slots)) := by
  have henc : ∀ t st1, encode_into_slot st t a = some st1 →
      st1 = { st with
        occupied_slots := (t, next_slot st t) :: st.occupied_slots
        encoded := st.encoded ++ [(t, (next_slot st t).toNat, a)] } := by
    intro t st1 h1
    unfold encode_into_slot at h1
    simp only at h1
    split at h1
    · cases h1
    · simp only [Option.some.injEq] at h1
      rw [← h1]
      rfl
  have hsel : ∀ b : Bool,
      (((st.address_to_chase_mapping.lookup a).isSome = true ∧
        (match st.address_to_chase_mapping.lookup a with
          | some start => decide (start = st.first_start)
          | none => false) = true) ∨
        (¬ (st.address_to_chase_mapping.lookup a).isSome = true ∧
          st.elems_first ≤ st.elems_second) ↔ b = true) →
      b = (match st.address_to_chase_mapping.lookup a with
            | some start => decide (start = st.first_start)
            | none => decide (st.elems_first ≤ st.elems_second)) := by
    intro b hb
    cases hl : st.address_to_chase_mapping.lookup a with
    | none =>
      rw [hl] at hb
      cases b <;> simp at hb <;> simp [hb]
    | some s =>
      rw [hl] at hb
      cases b <;> simp at hb <;> simp [hb]
  simp only [chase_step] at h
  split_ifs at h with hcond h0 h0
  · simp only [Option.some.injEq] at h
    subst h
    refine ⟨true, hsel true (by simpa using hcond), rfl, rfl, rfl, rfl, ?_, rfl, rfl, rfl,
      Or.inl ⟨h0, rfl, rfl⟩⟩
    simp [ChaseState.start_of, h0]
  · cases ht : st.first_cur with
    | none => rw [ht] at h; simp at h
    | some t =>
      simp only [ht] at h
      cases he : encode_into_slot st t a with
      | none => simp [he] at h
      | some st1 =>
        simp only [he, Option.some.injEq] at h
        have h1 := henc t st1 he
        subst h1
        subst h
        refine ⟨true, hsel true (by simpa using hcond), rfl, rfl, rfl, rfl, ?_, rfl, rfl, rfl,
          Or.inr ⟨h0, t, ht, rfl, rfl⟩⟩
        simp [ChaseState.start_of, h0]
  · simp only [Option.some.injEq] at h
    subst h
    refine ⟨false, hsel false (by simpa using hcond), rfl, rfl, rfl, rfl, ?_, rfl, rfl, rfl,
      Or.inl ⟨h0, rfl, rfl⟩⟩
    simp [ChaseState.start_of, h0]
  · cases ht : st.second_cur with
    | none => rw [ht] at h; simp at h
    | some t =>
      simp only [ht] at h
      cases he : encode_into_slot st t a with
      | none => simp [he] at h
      | some st1 =>
        simp only [he, Option.some.injEq] at h
        have h1 := henc t st1 he
        subst h1
        subst h
        refine ⟨false, hsel false (by simpa using hcond), rfl, rfl, rfl, rfl, ?_, rfl, rfl,
          rfl, Or.inr ⟨h0, t, ht, rfl, rfl⟩⟩
        simp [ChaseState.start_of, h0]

theorem mem_chase_elems (pre : List Nat) (chases : List Bool) (c : Bool) (x : Nat) :
    x ∈ chase_elems pre chases c ↔ (x, c) ∈ pre.zip chases := by
  unfold chase_elems
  simp only [List.mem_map, List.mem_filter, beq_iff_eq]
  constructor
  · rintro ⟨⟨y, c'⟩, ⟨hm, hc⟩, hy⟩
    simp only at hc hy
    subst hc; subst hy
    exact hm
  · intro h
    exact ⟨(x, c), ⟨h, rfl⟩, rfl⟩

theorem chase_elems_mem_pre (pre : List Nat) (chases : List Bool) (c : Bool) (x : Nat)
    (h : x ∈ chase_elems pre chases c) : x ∈ pre :=
  (List.of_mem_zip ((mem_chase_elems pre chases c x).mp h)).1

theorem chase_elems_snoc (pre : List Nat) (chases : List Bool)
    (hlen : chases.length = pre.length) (a : Nat) (c0 c : Bool) :
    chase_elems (pre ++ [a]) (chases ++ [c0]) c
      = chase_elems pre chases c ++ (if c0 = c then [a] else []) := by
  unfold chase_elems
  rw [zip_snoc pre chases hlen, List.filter_append, List.map_append]
  congr 1
  by_cases h : c0 = c
  · simp [h]
  · simp [h]

theorem chase_elems_disjoint (pre : List Nat) (st : ChaseState) (H : ChaseHist pre st)
    (x : Nat) (c : Bool) (hx : x ∈ chase_elems pre st.chases c) :
    x ∉ chase_elems pre st.chases (!c) := by
  intro hx'
  obtain ⟨b1, n1⟩ := H.binding x c ((mem_chase_elems _ _ _ _).mp hx)
  obtain ⟨b2, n2⟩ := H.binding x (!c) ((mem_chase_elems _ _ _ _).mp hx')
  rw [b1] at b2
  simp only [Option.some.injEq] at b2
  cases c <;> simp only [ChaseState.start_of, Bool.not_true, Bool.not_false, if_true,
    if_false, Bool.false_eq_true] at b2 n1 n2
  · exact H.starts_ne n1 b2.symm
  · exact H.starts_ne n2 b2

theorem chase_links_snoc (a : Nat) :
    ∀ (F seen : List Nat),
      chase_links seen (F ++ [a])
        = chase_links seen F ++
          (match F.getLast? with
            | none => []
            | some t => [(t, (seen ++ F.dropLast).count t, a)]) := by
  intro F
  induction F with
  | nil => intro seen; rfl
  | cons x F ih =>
    intro seen
    cases F with
    | nil =>
      simp [chase_links]
    | cons y F =>
      have h1 : (x :: y :: F) ++ [a] = x :: y :: (F ++ [a]) := rfl
      rw [h1, chase_links, chase_links]
      have h2 := ih (seen ++ [x])
      have h3 : y :: (F ++ [a]) = (y :: F) ++ [a] := rfl
      rw [h3, h2, List.cons_append]
      congr 2
      have h4 : (x :: y :: F).getLast? = (y :: F).getLast? := by
        simp [List.getLast?_cons_cons]
      rw [h4]
      have h5 : (x :: y :: F).dropLast = x :: (y :: F).dropLast := by
        simp [List.dropLast]
      rw [h5]
      simp

theorem chase_links_targets :
    ∀ (F seen : List Nat), (chase_links seen F).map (fun e => e.1) = F.dropLast := by
  intro F
  induction F with
  | nil => intro seen; rfl
  | cons x F ih =>
    intro seen
    cases F with
    | nil => rfl
    | cons y F =>
      rw [chase_links, List.map_cons, ih]
      simp [List.dropLast]

theorem chase_links_count (F seen : List Nat) (t : Nat) :
    (chase_links seen F).countP (fun e => e.1 == t) = F.dropLast.count t := by
  rw [← chase_links_targets F seen, List.count, List.countP_map]
  rfl

theorem next_slot_cons (st st' : ChaseState) (t : Nat) (v : Int)
    (h : st'.occupied_slots = (t, v) :: st.occupied_slots) (t' : Nat) :
    next_slot st' t' = if t' = t then v + 1 else next_slot st t' := by
  unfold next_slot
  rw [h]
  by_cases ht : t' = t
  · subst ht
    simp [List.lookup]
  · have hne : (t' == t) = false := by simpa using ht
    simp only [List.lookup, hne, if_neg ht]

theorem next_slot_same (st st' : ChaseState) (h : st'.occupied_slots = st.occupied_slots)
    (t' : Nat) : next_slot st' t' = next_slot st t' := by
  unfold next_slot
  rw [h]

/-- One step of `encode_double_ptr_chasing` for a non-null address keeps the description of
the two chases. -/
theorem chase_step_links (pre : List Nat) (st st' : ChaseState) (a : Nat)
    (H : ChaseHist pre st) (H' : ChaseHist (pre ++ [a]) st') (L : ChaseLinks pre st)
    (hpre : ∀ x ∈ pre, x ≠ 0) (h : chase_step st a = some st') :
    ChaseLinks (pre ++ [a]) st' := by
  obtain ⟨c0, -, hch, he1, he2, -, hs, hs', hcur, hcur', henc⟩ := chase_step_adds st st' a h
  have hF : ∀ c, chase_elems (pre ++ [a]) st'.chases c
      = chase_elems pre st.chases c ++ (if c0 = c then [a] else []) := by
    intro c
    rw [hch]
    exact chase_elems_snoc pre st.chases H.len a c0 c
  have hF0 : chase_elems (pre ++ [a]) st'.chases c0 = chase_elems pre st.chases c0 ++ [a] := by
    rw [hF c0, if_pos rfl]
  have hF1 : chase_elems (pre ++ [a]) st'.chases (!c0) = chase_elems pre st.chases (!c0) := by
    rw [hF (!c0), if_neg (by cases c0 <;> simp), List.append_nil]
  have hsub : ∀ c x, x ∈ chase_elems pre st.chases c →
      x ∈ chase_elems (pre ++ [a]) st'.chases c := by
    intro c x hx
    rw [hF c]
    exact List.mem_append_left _ hx
  have hdisj := chase_elems_disjoint (pre ++ [a]) st' H'
  have hcases : ∀ c, c = c0 ∨ c = !c0 := by
    intro c; cases c <;> cases c0 <;> simp
  have hempty : st.start_of c0 = 0 ↔ chase_elems pre st.chases c0 = [] := by
    rw [L.start c0]
    cases hl : chase_elems pre st.chases c0 with
    | nil => simp
    | cons x xs =>
      have hx : x ∈ pre := chase_elems_mem_pre pre st.chases c0 x (by rw [hl]; simp)
      have := hpre x hx
      simp [this]
  -- an earlier store into the container of `a` means that `a` is in the chase chosen now
  have hold : ∀ e ∈ st.encoded, ∀ c,
      (e.1 ∈ chase_elems (pre ++ [a]) st'.chases c ↔ e.1 ∈ chase_elems pre st.chases c) := by
    intro e he c
    constructor
    · intro hm
      obtain ⟨c1, hc1⟩ := L.targets e he
      rcases hcases c with hc | hc
      · subst hc
        rcases hcases c1 with hc1' | hc1'
        · subst hc1'; exact hc1
        · subst hc1'
          exact absurd (hsub _ _ hc1) (hdisj _ _ hm)
      · subst hc
        rw [hF1] at hm
        exact hm
    · exact hsub c e.1
  have hfilter : ∀ c, st.encoded.filter
        (fun e => decide (e.1 ∈ chase_elems (pre ++ [a]) st'.chases c))
      = chase_links [] (chase_elems pre st.chases c) := by
    intro c
    rw [← L.links c]
    apply List.filter_congr
    intro e he
    simp only [decide_eq_decide]
    exact hold e he c
  constructor
  · -- start
    intro c
    rcases hcases c with hc | hc
    · subst hc
      rw [hs, hF0, L.start c]
      cases hl : chase_elems pre st.chases c with
      | nil => simp
      | cons x xs =>
        have hx : x ∈ pre := chase_elems_mem_pre pre st.chases c x (by rw [hl]; simp)
        have := hpre x hx
        simp [this]
    · subst hc
      rw [hs', hF1, L.start]
  · -- cur
    intro c
    rcases hcases c with hc | hc
    · subst hc
      rw [hcur, hF0]
      simp
    · subst hc
      rw [hcur', hF1, L.cur]
  · -- links
    intro c
    rcases henc with ⟨h0, he, -⟩ | ⟨h0, t, ht, he, -⟩
    · rw [he, hfilter c]
      rcases hcases c with hc | hc
      · subst hc
        rw [hF0, hempty.mp h0]
        rfl
      · subst hc
        rw [hF1]
    · have htl : (chase_elems pre st.chases c0).getLast? = some t := by
        rw [← L.cur c0]; exact ht
      have htm : t ∈ chase_elems pre st.chases c0 := List.mem_of_getLast?_eq_some htl
      rw [he, List.filter_append, hfilter c]
      rcases hcases c with hc | hc
      · subst hc
        have hnew : [(t, (next_slot st t).toNat, a)].filter
              (fun e => decide (e.1 ∈ chase_elems (pre ++ [a]) st'.chases c))
            = [(t, (next_slot st t).toNat, a)] := by
          simp [hsub c t htm]
        have hslot : (next_slot st t).toNat = (chase_elems pre st.chases c).dropLast.count t := by
          rw [L.slots t, Int.toNat_ofNat,
            ← chase_links_count (chase_elems pre st.chases c) [] t, ← L.links c,
            List.countP_filter]
          apply List.countP_congr
          intro e _
          simp only [beq_iff_eq, Bool.and_eq_true, decide_eq_true_eq]
          constructor
          · intro h1; exact ⟨h1, h1 ▸ htm⟩
          · intro h1; exact h1.1
        rw [hnew, hF0, chase_links_snoc, htl, hslot]
        simp only [List.nil_append]
      · subst hc
        have hnew : [(t, (next_slot st t).toNat, a)].filter
              (fun e => decide (e.1 ∈ chase_elems (pre ++ [a]) st'.chases (!c0)))
            = [] := by
          have := hdisj t c0 (hsub c0 t htm)
          simp [this]
        rw [hnew, hF1, List.append_nil]
  · -- targets
    intro e he
    rcases henc with ⟨h0, he', -⟩ | ⟨h0, t, ht, he', -⟩
    · rw [he'] at he
      obtain ⟨c, hc⟩ := L.targets e he
      exact ⟨c, hsub c _ hc⟩
    · rw [he'] at he
      rcases List.mem_append.mp he with hm | hm
      · obtain ⟨c, hc⟩ := L.targets e hm
        exact ⟨c, hsub c _ hc⟩
      · simp only [List.mem_singleton] at hm
        subst hm
        have htl : (chase_elems pre st.chases c0).getLast? = some t := by
          rw [← L.cur c0]; exact ht
        exact ⟨c0, hsub c0 t (List.mem_of_getLast?_eq_some htl)⟩
  · -- slots
    intro t'
    rcases henc with ⟨h0, he, ho⟩ | ⟨h0, t, ht, he, ho⟩
    · rw [next_slot_same st st' ho, he, L.slots]
    · rw [next_slot_cons st st' t _ ho, he, List.countP_append]
      by_cases htt : t' = t
      · subst htt
        rw [if_pos rfl, L.slots]
        simp
      · rw [if_neg htt, L.slots]
        have : (t == t') = false := by simpa using fun h => htt h.symm
        simp [this]
  · rw [he1, L.count_first, hF true]
    cases c0 <;> simp
  · rw [he2, L.count_second, hF false]
    cases c0 <;> simp

/-- The loop of `encode_double_ptr_chasing` over non-null addresses keeps the description of
the two chases. -/
theorem chase_loop_links :
    ∀ (rest pre : List Nat) (st : ChaseState), ChaseHist pre st → ChaseLinks pre st →
      (∀ x ∈ pre, x ≠ 0) → (∀ a ∈ rest, a ≠ 0) →
      ∀ st', chase_loop rest st = some st' → ChaseLinks (pre ++ rest) st' := by
  intro rest
  induction rest with
  | nil =>
    intro pre st _ L _ _ st' h
    simp only [chase_loop, Option.some.injEq] at h
    subst h
    simpa using L
  | cons a rest ih =>
    intro pre st H L hpre hnz st' h
    simp only [chase_loop] at h
    cases hstep : chase_step st a with
    | none => rw [hstep] at h; simp at h
    | some st1 =>
      rw [hstep] at h
      have ha := hnz a (List.mem_cons_self _ _)
      have H1 := (chase_step_hist pre st a H ha).1 st1 hstep
      have L1 := chase_step_links pre st st1 a H H1 L hpre hstep
      have := ih (pre ++ [a]) st1 H1 L1
        (fun x hx => by
          rcases List.mem_append.mp hx with hx | hx
          · exact hpre x hx
          · simp only [List.mem_singleton] at hx
            rw [hx]; exact ha)
        (fun x hx => hnz x (List.mem_cons_of_mem _ hx)) st' h
      simpa using this

theorem chase_links_init :
    ChaseLinks []
      { first_start := 0, second_start := 0, first_cur := none, second_cur := none,
        elems_first := 0, elems_second := 0, address_to_chase_mapping := [],
        occupied_slots := [], encoded := [], chases := [] } := by
  constructor
  · intro c; cases c <;> rfl
  · intro c; cases c <;> rfl
  · intro c; rfl
  · intro e he; simp at he
  · intro t; rfl
  · rfl
  · rfl

theorem eq_snoc_snoc (pre : List Nat) (t : Nat) (h : pre.dropLast.getLast? = some t) :
    ∃ q z, pre = q ++ [t, z] := by
  rcases List.eq_nil_or_concat pre with rfl | ⟨d, z, rfl⟩
  · simp at h
  · rw [List.concat_eq_append, List.dropLast_concat] at h
    rcases List.eq_nil_or_concat d with rfl | ⟨q, t', rfl⟩
    · simp at h
    · rw [List.concat_eq_append, List.getLast?_concat] at h
      simp only [Option.some.injEq] at h
      subst h
      exact ⟨q, z, by simp⟩

theorem zip_drop_two_snoc (q : List Nat) (t z a : Nat) :
    (q ++ [t, z] ++ [a]).zip ((q ++ [t, z] ++ [a]).drop 2)
      = (q ++ [t, z]).zip ((q ++ [t, z]).drop 2) ++ [(t, a)] := by
  have hd : (q ++ [t, z] ++ [a]).drop 2 = (q ++ [t, z]).drop 2 ++ [a] :=
    List.drop_append_of_le_length (by simp)
  have hlen : q.length = ((q ++ [t, z]).drop 2).length := by simp
  rw [hd]
  generalize (q ++ [t, z]).drop 2 = D at hlen
  have e1 : q ++ [t, z] ++ [a] = q ++ [t, z, a] := by simp
  rw [e1, List.zip_append hlen]
  have e2 : (q ++ [t, z]).zip D = q.zip D := by
    conv_lhs => rw [← List.append_nil D]
    rw [List.zip_append hlen]
    simp
  rw [e2]
  rfl

theorem zip_drop_two_short (pre : List Nat) (h : pre.length ≤ 2) :
    pre.zip (pre.drop 2) = [] := by
  rw [List.drop_eq_nil_of_le h]
  simp

/-- One step of `encode_double_ptr_chasing` for a non-null address that differs from the
non-null addresses handled before. -/
theorem chase_step_alt (pre : List Nat) (st st' : ChaseState) (a : Nat)
    (A : ChaseAlt pre st) (hnd : (pre ++ [a]).Nodup) (hnz : ∀ x ∈ pre, x ≠ 0)
    (h : chase_step st a = some st') : ChaseAlt (pre ++ [a]) st' := by
  obtain ⟨c, hsel, -, he1, he2, hmap, hs, hs', hcur, hcur', henc⟩ := chase_step_adds st st' a h
  have hndp : pre.Nodup := (List.nodup_append.mp hnd).1
  have hanew : a ∉ pre := by
    intro hm
    exact (List.nodup_append.mp hnd).2.2 hm (List.mem_singleton_self a)
  have hlook : st.address_to_chase_mapping.lookup a = none := by
    cases hl : st.address_to_chase_mapping.lookup a with
    | none => rfl
    | some v => exact absurd ((A.seen a).mp (by rw [hl]; rfl)) hanew
  have hc : c = decide (pre.length % 2 = 0) := by
    rw [hsel, hlook]
    simp only [A.elems_first, A.elems_second]
    congr 1
    apply propext
    constructor <;> intro h1 <;> omega
  have hlen : (pre ++ [a]).length = pre.length + 1 := by simp
  have hpar : decide ((pre ++ [a]).length % 2 = 0) = !c := by
    rw [hc, hlen]
    by_cases hp : pre.length % 2 = 0
    · have : ¬ (pre.length + 1) % 2 = 0 := by omega
      simp [hp, this]
    · have : (pre.length + 1) % 2 = 0 := by omega
      simp [hp, this]
  have hnc : (!decide (pre.length % 2 = 0)) = !c := by rw [hc]
  constructor
  · -- start_first
    cases c with
    | true =>
      rw [hs, A.start_first]
      cases pre with
      | nil => simp
      | cons x r =>
        have := hnz x (List.mem_cons_self _ _)
        simp [this]
    | false =>
      have := hs'
      simp only [Bool.not_false] at this
      rw [this, A.start_first]
      cases pre with
      | nil => simp at hc
      | cons x r => simp
  · -- start_second
    cases c with
    | true =>
      have := hs'
      simp only [Bool.not_true] at this
      rw [this, A.start_second]
      rcases pre with _ | ⟨x, _ | ⟨y, r⟩⟩
      · simp
      · simp at hc
      · simp
    | false =>
      rw [hs, A.start_second]
      rcases pre with _ | ⟨x, _ | ⟨y, r⟩⟩
      · simp at hc
      · simp
      · have := hnz y (by simp)
        simp [this]
  · -- cur_next
    rw [hpar, hcur', ← hnc, A.cur_last, List.dropLast_concat]
  · -- cur_last
    rw [hpar, Bool.not_not, hcur, List.getLast?_concat]
  · rw [he1, A.elems_first, hlen, hc]
    by_cases hp : pre.length % 2 = 0
    · simp only [hp, decide_True, if_true]; omega
    · simp only [hp, decide_False, Bool.false_eq_true, if_false]; omega
  · rw [he2, A.elems_second, hlen, hc]
    by_cases hp : pre.length % 2 = 0
    · simp only [hp, decide_True, if_true]; omega
    · simp only [hp, decide_False, Bool.false_eq_true, if_false]; omega
  · intro x
    rw [hmap, lookup_cons_isSome, A.seen, List.mem_append, List.mem_singleton]
    tauto
  · -- occupied
    intro t ht
    rw [List.dropLast_concat]
    rcases henc with ⟨-, -, ho⟩ | ⟨-, t0, ht0, -, ho⟩
    · rw [ho] at ht
      exact List.mem_of_mem_dropLast (A.occupied t ht)
    · rw [ho] at ht
      rcases (lookup_cons_isSome_int _ _ _ _).mp ht with h1 | h1
      · subst h1
        rw [hc, A.cur_next] at ht0
        exact List.mem_of_getLast?_eq_some ht0
      · exact List.mem_of_mem_dropLast (A.occupied t h1)
  · -- encoded
    rcases henc with ⟨h0, he, -⟩ | ⟨h0, t, ht, he, -⟩
    · have hshort : pre.length ≤ 1 := by
        cases c with
        | true =>
          rw [A.start_first] at h0
          cases pre with
          | nil => simp
          | cons x r =>
            have := hnz x (List.mem_cons_self _ _)
            simp at h0
            exact absurd h0 this
        | false =>
          rw [A.start_second] at h0
          rcases pre with _ | ⟨x, _ | ⟨y, r⟩⟩
          · simp
          · simp
          · have := hnz y (by simp)
            simp at h0
            exact absurd h0 this
      rw [he, A.encoded, zip_drop_two_short pre (by omega),
        zip_drop_two_short (pre ++ [a]) (by rw [hlen]; omega)]
    · rw [hc, A.cur_next] at ht
      obtain ⟨q, z, hq⟩ := eq_snoc_snoc pre t ht
      have hslot : next_slot st t = 0 := by
        unfold next_slot
        cases hl : st.occupied_slots.lookup t with
        | none => rfl
        | some v =>
          exfalso
          have hm := A.occupied t (by rw [hl]; rfl)
          rw [hq] at hm hndp
          have h2 : (q ++ [t, z]).dropLast.dropLast = q := by
            have : q ++ [t, z] = (q ++ [t]) ++ [z] := by simp
            rw [this, List.dropLast_concat, List.dropLast_concat]
          rw [h2] at hm
          have h3 := (List.nodup_append.mp hndp).2.2 hm (by simp)
          exact h3
      rw [he, A.encoded, hslot, hq, zip_drop_two_snoc, List.map_append]
      rfl

/-- The loop of `encode_double_ptr_chasing` over pairwise distinct non-null addresses. -/
theorem chase_loop_alt :
    ∀ (rest pre : List Nat) (st : ChaseState), ChaseAlt pre st → (pre ++ rest).Nodup →
      (∀ x ∈ pre ++ rest, x ≠ 0) →
      ∀ st', chase_loop rest st = some st' → ChaseAlt (pre ++ rest) st' := by
  intro rest
  induction rest with
  | nil =>
    intro pre st A _ _ st' h
    simp only [chase_loop, Option.some.injEq] at h
    subst h
    simpa using A
  | cons a rest ih =>
    intro pre st A hnd hnz st' h
    simp only [chase_loop] at h
    cases hstep : chase_step st a with
    | none => rw [hstep] at h; simp at h
    | some st1 =>
      rw [hstep] at h
      have e : pre ++ a :: rest = (pre ++ [a]) ++ rest := by simp
      rw [e] at hnd hnz ⊢
      have A1 := chase_step_alt pre st st1 a A (List.nodup_append.mp hnd).1
        (fun x hx => hnz x (List.mem_append_left _ (List.mem_append_left _ hx))) hstep
      exact ih (pre ++ [a]) st1 A1 hnd hnz st' h

theorem chase_alt_init :
    ChaseAlt []
      { first_start := 0, second_start := 0, first_cur := none, second_cur := none,
        elems_first := 0, elems_second := 0, address_to_chase_mapping := [],
        occupied_slots := [], encoded := [], chases := [] } := by
  constructor <;> simp [ChaseState.start_of, ChaseState.cur_of]

/-- C25: for every list of pairwise distinct non-null addresses, `encode_double_ptr_chasing`
started with both start pointers null returns, and it adds the addresses to the first and the
second chase alternately in input order: the address at position `i` goes to the first chase
exactly when `i` is even.  The two chains are what the call leaves behind: `*first_start` is
the first address and `*second_start` the second one (null when there is none), and the stores
made are, in input order, the pointer to the address at position `i + 2` written to slot 0 of
the container at the address at position `i`; so the stores into the containers of either
chase link each of its addresses to the one added to it next.  The first chase holds
`ceil(n/2)` and the second `floor(n/2)` addresses, which is also what the counters
`elems_first` and `elems_second` say, so the two lengths differ by at most one. -/
theorem encode_splits_alternately (aggressors : List Nat) (hnd : aggressors.Nodup)
    (hnz : ∀ a ∈ aggressors, a ≠ 0) :
    ∃ st, encode_double_ptr_chasing aggressors 0 0 = some st ∧
      st.chases = (List.range aggressors.length).map (fun i => decide (i % 2 = 0)) ∧
      st.first_start = aggressors.headD 0 ∧
      st.second_start = (aggressors.drop 1).headD 0 ∧
      st.encoded = (aggressors.zip (aggressors.drop 2)).map (fun p => (p.1, 0, p.2)) ∧
      (∀ c, st.start_of c = (chase_elems aggressors st.chases c).headD 0 ∧
        st.encoded.filter (fun e => decide (e.1 ∈ chase_elems aggressors st.chases c))
          = chase_links [] (chase_elems aggressors st.chases c)) ∧
      (chase_elems aggressors st.chases true).length = (aggressors.length + 1) / 2 ∧
      (chase_elems aggressors st.chases false).length = aggressors.length / 2 ∧
      st.elems_first = (aggressors.length + 1) / 2 ∧
      st.elems_second = aggressors.length / 2 ∧
      st.elems_second ≤ st.elems_first ∧ st.elems_first ≤ st.elems_second + 1 := by
  obtain ⟨st, h1, h2, h3, h4⟩ := chase_loop_alternates aggressors
    { first_start := 0, second_start := 0, first_cur := none, second_cur := none,
      elems_first := 0, elems_second := 0, address_to_chase_mapping := [],
      occupied_slots := [], encoded := [], chases := [] } hnd
    (fun a _ => rfl) chase_inv_init (Or.inl rfl)
  have A := chase_loop_alt aggressors [] _ chase_alt_init (by simpa using hnd)
    (by simpa using hnz) st h1
  have L := chase_loop_links aggressors [] _ chase_hist_init chase_links_init
    (fun x hx => by simp at hx) hnz st h1
  simp only [List.nil_append] at A L
  refine ⟨st, h1, ?_, A.start_first, A.start_second, A.encoded,
    fun c => ⟨L.start c, L.links c⟩, ?_, ?_, A.elems_first, A.elems_second, ?_, ?_⟩
  · rw [h2]
    simp
  · rw [← L.count_first, A.elems_first]
  · rw [← L.count_second, A.elems_second]
  · rw [A.elems_first, A.elems_second]; omega
  · rw [A.elems_first, A.elems_second]; omega

/-- Witness for C25: five addresses; the chain from `*first_start` is 10, 30, 50 and the chain
from `*second_start` is 20, 40. -/
theorem encode_splits_alternately_witness :
    [10, 20, 30, 40, 50].Nodup ∧ (∀ a ∈ [10, 20, 30, 40, 50], a ≠ 0) ∧
    ∃ st, encode_double_ptr_chasing [10, 20, 30, 40, 50] 0 0 = some st ∧
      st.chases = [true, false, true, false, true] ∧
      st.first_start = 10 ∧ st.second_start = 20 ∧
      st.encoded = [(10, 0, 30), (20, 0, 40), (30, 0, 50)] ∧
      st.elems_first = 3 ∧ st.elems_second = 2 := by
  obtain ⟨st, h1, h2, h3, h4, h5, -, -, -, h6, h7, -⟩ :=
    encode_splits_alternately [10, 20, 30, 40, 50] (by decide) (by decide)
  exact ⟨by decide, by decide, st, h1, h2, h3, h4, h5, h6, h7⟩

/-- C30: in `encode_double_ptr_chasing` started with both start pointers null on a list
without null address, whenever the call returns, every later occurrence of an address has been
added to the same chase (first or second) as its first occurrence.  The two chases are what the
call leaves behind: for each of them, the start pointer is the first address added to it, and
the stores made into the containers of its addresses are exactly the links from each address
added to it to the one added next, each in the next free slot of the container; no other store
is made, and no address is in both chases.  The call returns for lists of at most 128 addresses
(a slot number never leaves the 128 slots of a container). -/
theorem encode_keeps_chase (aggressors : List Nat) (hnz : ∀ a ∈ aggressors, a ≠ 0) :
    (∀ st, encode_double_ptr_chasing aggressors 0 0 = some st →
      st.chases.length = aggressors.length ∧
      (∀ i j, i < j → j < aggressors.length → aggressors[i]? = aggressors[j]? →
        st.chases[i]? = st.chases[j]?) ∧
      (∀ c, st.start_of c = (chase_elems aggressors st.chases c).headD 0 ∧
        st.encoded.filter (fun e => decide (e.1 ∈ chase_elems aggressors st.chases c))
          = chase_links [] (chase_elems aggressors st.chases c)) ∧
      (∀ e ∈ st.encoded, ∃ c, e.1 ∈ chase_elems aggressors st.chases c) ∧
      (∀ x c, x ∈ chase_elems aggressors st.chases c →
        x ∉ chase_elems aggressors st.chases (!c))) ∧
    (aggressors.length ≤ 128 → ∃ st, encode_double_ptr_chasing aggressors 0 0 = some st) := by
  obtain ⟨hs, he⟩ := chase_loop_hist aggressors [] _ chase_hist_init hnz
  constructor
  · intro st h
    have H := hs st h
    have L := chase_loop_links aggressors [] _ chase_hist_init chase_links_init
      (fun x hx => by simp at hx) hnz st h
    simp only [List.nil_append] at H L
    refine ⟨H.len, ?_, fun c => ⟨L.start c, L.links c⟩, L.targets,
      chase_elems_disjoint aggressors st H⟩
    intro i j hij hj heq
    have hi : i < aggressors.length := by omega
    have hci : i < st.chases.length := by rw [H.len]; exact hi
    have hcj : j < st.chases.length := by rw [H.len]; exact hj
    rw [List.getElem?_eq_getElem hi, List.getElem?_eq_getElem hj] at heq
    simp only [Option.some.injEq] at heq
    rw [List.getElem?_eq_getElem hci, List.getElem?_eq_getElem hcj]
    have hzi : (aggressors[i], st.chases[i]) ∈ aggressors.zip st.chases := by
      have : (aggressors.zip st.chases)[i]? = some (aggressors[i], st.chases[i]) := by
        rw [List.getElem?_zip_eq_some]
        exact ⟨List.getElem?_eq_getElem hi, List.getElem?_eq_getElem hci⟩
      exact List.getElem?_mem this
    have hzj : (aggressors[j], st.chases[j]) ∈ aggressors.zip st.chases := by
      have : (aggressors.zip st.chases)[j]? = some (aggressors[j], st.chases[j]) := by
        rw [List.getElem?_zip_eq_some]
        exact ⟨List.getElem?_eq_getElem hj, List.getElem?_eq_getElem hcj⟩
      exact List.getElem?_mem this
    obtain ⟨b1, n1⟩ := H.binding _ _ hzi
    obtain ⟨b2, n2⟩ := H.binding _ _ hzj
    rw [heq, b2] at b1
    simp only [Option.some.injEq] at b1
    congr 1
    cases hci' : st.chases[i] <;> cases hcj' : st.chases[j] <;>
      simp only [hci', hcj', ChaseState.start_of, if_true, if_false, Bool.false_eq_true]
        at b1 n1 n2 ⊢
    · exact absurd b1 (H.starts_ne n1)
    · exact absurd b1.symm (H.starts_ne n2)
  · intro hlen
    exact he (by simpa using hlen)

/-- Witness for C30: the address 10 occurs three times and always goes to the first chase, the
address 20 occurs three times and always goes to the second one, whatever the lengths are. -/
theorem encode_keeps_chase_witness :
    (∀ a ∈ [10, 20, 10, 10, 30, 20, 20, 40], a ≠ 0) ∧
    ∃ st, encode_double_ptr_chasing [10, 20, 10, 10, 30, 20, 20, 40] 0 0 = some st ∧
      st.chases = [true, false, true, true, false, false, false, true] ∧
      st.chases[1]? = st.chases[6]? ∧
      st.first_start = 10 ∧ st.second_start = 20 ∧
      st.encoded = [(10, 0, 10), (10, 1, 10), (20, 0, 30), (30, 0, 20), (20, 1, 20),
        (10, 2, 40)] ∧
      st.encoded.filter (fun e => decide (e.1 ∈ [10, 10, 10, 40]))
        = chase_links [] [10, 10, 10, 40] ∧
      st.encoded.filter (fun e => decide (e.1 ∈ [20, 30, 20, 20]))
        = chase_links [] [20, 30, 20, 20] := by
  have hnz : ∀ a ∈ [10, 20, 10, 10, 30, 20, 20, 40], a ≠ 0 := by decide
  obtain ⟨hs, he⟩ := encode_keeps_chase [10, 20, 10, 10, 30, 20, 20, 40] hnz
  obtain ⟨st, hst⟩ := he (by decide)
  have h1 : st.chases = [true, false, true, true, false, false, false, true] := by
    have hch : (encode_double_ptr_chasing [10, 20, 10, 10, 30, 20, 20, 40] 0 0).map
        (fun s => s.chases) = some [true, false, true, true, false, false, false, true] := by
      decide
    rw [hst] at hch
    simpa using hch
  have h2 : st.first_start = 10 ∧ st.second_start = 20 := by
    have hch : (encode_double_ptr_chasing [10, 20, 10, 10, 30, 20, 20, 40] 0 0).map
        (fun s => (s.first_start, s.second_start)) = some (10, 20) := by
      decide
    rw [hst] at hch
    simpa using hch
  have h4 : st.encoded = [(10, 0, 10), (10, 1, 10), (20, 0, 30), (30, 0, 20), (20, 1, 20),
      (10, 2, 40)] := by
    have hch : (encode_double_ptr_chasing [10, 20, 10, 10, 30, 20, 20, 40] 0 0).map
        (fun s => s.encoded) = some [(10, 0, 10), (10, 1, 10), (20, 0, 30), (30, 0, 20),
          (20, 1, 20), (10, 2, 40)] := by
      decide
    rw [hst] at hch
    simpa using hch
  obtain ⟨-, hsame, hchains, -, -⟩ := hs st hst
  have ht := (hchains true).2
  have hf := (hchains false).2
  rw [h1] at ht hf
  exact ⟨hnz, st, hst, h1, hsame 1 6 (by decide) (by decide) (by decide), h2.1, h2.2, h4, ht, hf⟩

/-! ## Further theorems about the frequency-based pattern builder -/

/-- C28: `all_slots_full` on a vector of `nbp` periods of `bp` slots (`pattern_length = nbp * bp`,
which fits an `int`) and an offset `k < bp`.  It returns `-1` if and only if every slot whose
index is congruent to `k` modulo `bp` holds a real ID; and when it does not return `-1`, it
returns the smallest index congruent to `k` modulo `bp` whose slot holds the placeholder. -/
theorem all_slots_full_next_empty (nbp bp k : Nat) (hk : k < bp) (hL : nbp * bp < 2 ^ 31)
    (aggs : List Aggressor) (hlen : aggs.length = nbp * bp) :
    (all_slots_full k bp (nbp * bp) aggs = -1 ↔
      ∀ s, s < nbp * bp → s % bp = k → (aggs.getD s default).id ≠ ID_PLACEHOLDER_AGG) ∧
    (all_slots_full k bp (nbp * bp) aggs ≠ -1 →
      ∃ s : Nat, all_slots_full k bp (nbp * bp) aggs = (s : Int) ∧ s < nbp * bp ∧ s % bp = k ∧
        (aggs.getD s default).id = ID_PLACEHOLDER_AGG ∧
        ∀ s', s' < s → s' % bp = k → (aggs.getD s' default).id ≠ ID_PLACEHOLDER_AGG) := by
  have hbp : 0 < bp := by omega
  have hdecomp : ∀ s, s % bp = k → s = (s / bp) * bp + k := by
    intro s hs
    have := Nat.div_add_mod s bp
    rw [hs, Nat.mul_comm] at this
    exact this.symm
  have hmod : ∀ q, (q * bp + k) % bp = k := by
    intro q
    rw [Nat.add_comm, Nat.add_mul_mod_self_right, Nat.mod_eq_of_lt hk]
  have hlt : ∀ q, q < nbp → q * bp + k < nbp * bp := by
    intro q hq
    have : (q + 1) * bp ≤ nbp * bp := Nat.mul_le_mul_right _ hq
    rw [Nat.add_mul] at this
    omega
  have hq : ∀ s, s < nbp * bp → s / bp < nbp := by
    intro s hs
    exact (Nat.div_lt_iff_lt_mul hbp).mpr hs
  rcases all_slots_full_spec nbp bp k hk hL aggs hlen with ⟨h1, h2⟩ | ⟨q0, hq0, h1, h2, h3⟩
  · refine ⟨⟨fun _ s hs hsk => ?_, fun _ => h1⟩, fun hne => absurd h1 hne⟩
    have := h2 (s / bp) (hq s hs)
    rw [← hdecomp s hsk] at this
    exact this
  · have hne : all_slots_full k bp (nbp * bp) aggs ≠ -1 := by
      rw [h1]
      intro h
      have : (0 : Int) ≤ ((q0 * bp + k : Nat) : Int) := Int.ofNat_nonneg _
      omega
    refine ⟨⟨fun h => absurd h hne, fun h => ?_⟩, fun _ => ?_⟩
    · exact absurd (h _ (hlt q0 hq0) (hmod q0)) h2
    · refine ⟨q0 * bp + k, h1, hlt q0 hq0, hmod q0, ?_, ?_⟩
      · unfold Filled at h2
        exact not_not.mp h2
      · intro s' hs' hsk
        have hs'' := hdecomp s' hsk
        have hlt' : s' / bp < q0 := by
          by_contra hcon
          have : q0 * bp ≤ (s' / bp) * bp := Nat.mul_le_mul_right _ (by omega)
          omega
        have := h3 (s' / bp) hlt'
        rw [← hs''] at this
        exact this

/-- Witness for C28: two periods of two slots, offset 1, slot 1 filled and slot 3 empty: the
result is 3. -/
theorem all_slots_full_next_empty_witness :
    (1 < 2 ∧ 2 * 2 < 2 ^ 31 ∧
      ([{ id := 1 }, { id := 2 }, { id := 1 }, { id := ID_PLACEHOLDER_AGG }]
        : List Aggressor).length = 2 * 2) ∧
    all_slots_full 1 2 (2 * 2)
      [{ id := 1 }, { id := 2 }, { id := 1 }, { id := ID_PLACEHOLDER_AGG }] = 3 ∧
    ((all_slots_full 1 2 (2 * 2)
        [{ id := 1 }, { id := 2 }, { id := 1 }, { id := ID_PLACEHOLDER_AGG }] = -1 ↔
      ∀ s, s < 2 * 2 → s % 2 = 1 →
        (([{ id := 1 }, { id := 2 }, { id := 1 }, { id := ID_PLACEHOLDER_AGG }]
          : List Aggressor).getD s default).id ≠ ID_PLACEHOLDER_AGG) ∧
    (all_slots_full 1 2 (2 * 2)
        [{ id := 1 }, { id := 2 }, { id := 1 }, { id := ID_PLACEHOLDER_AGG }] ≠ -1 →
      ∃ s : Nat, all_slots_full 1 2 (2 * 2)
          [{ id := 1 }, { id := 2 }, { id := 1 }, { id := ID_PLACEHOLDER_AGG }] = (s : Int) ∧
        s < 2 * 2 ∧ s % 2 = 1 ∧
        (([{ id := 1 }, { id := 2 }, { id := 1 }, { id := ID_PLACEHOLDER_AGG }]
          : List Aggressor).getD s default).id = ID_PLACEHOLDER_AGG ∧
        ∀ s', s' < s → s' % 2 = 1 →
          (([{ id := 1 }, { id := 2 }, { id := 1 }, { id := ID_PLACEHOLDER_AGG }]
            : List Aggressor).getD s' default).id ≠ ID_PLACEHOLDER_AGG)) :=
  ⟨⟨by decide, by decide, rfl⟩, by decide,
    all_slots_full_next_empty 2 2 1 (by decide) (by decide) _ rfl⟩

/-! ### The vector passed to `get_random_gaussian` -/

theorem get_random_gaussian_first (samples : Nat → Nat) (list : List Int) (fuel gen r g : Nat)
    (h : get_random_gaussian samples list fuel gen = some (r, g)) :
    gen < g ∧ samples (g - 1) = r ∧ ∀ n, gen ≤ n → n + 1 < g → list.length ≤ samples n := by
  induction fuel generalizing gen with
  | zero => simp [get_random_gaussian] at h
  | succ fuel ih =>
    simp only [get_random_gaussian] at h
    split at h
    · rename_i hge
      obtain ⟨h1, h2, h3⟩ := ih _ h
      refine ⟨by omega, h2, ?_⟩
      intro n hn1 hn2
      rcases Nat.eq_or_lt_of_le hn1 with heq | hlt
      · subst heq; exact hge
      · exact h3 n hlt hn2
    · simp only [Option.some.injEq, Prod.mk.injEq] at h
      obtain ⟨h1, h2⟩ := h
      subst h2
      refine ⟨by omega, ?_, ?_⟩
      · simpa using h1
      · intro n hn1 hn2
        omega

theorem get_random_gaussian_nil (samples : Nat → Nat) (fuel gen : Nat) :
    get_random_gaussian samples [] fuel gen = none := by
  induction fuel generalizing gen with
  | zero => rfl
  | succ fuel ih =>
    simp only [get_random_gaussian, List.length_nil, ge_iff_le, Nat.zero_le, if_true]
    exact ih _

theorem draw_and_fill_keeps_drawn (fp : FuzzingParameterSet) (samples : Nat → Nat)
    (fuel N A slot : Nat) (mults mults' : List Int) (pb pb' : PatternBuilder)
    (h : draw_and_fill fp samples fuel N A slot mults pb = some (mults', pb')) :
    mults' ≠ [] := by
  obtain ⟨r, g, m, ws, -, hm, hmults, -, -⟩ :=
    draw_and_fill_some fp samples fuel N A slot mults mults' pb pb' h
  have hmem : m ∈ mults := by
    rw [List.get?_eq_getElem?] at hm
    exact List.getElem?_mem hm
  have : m ∈ mults' := by
    rw [hmults]
    unfold remove_smaller_than
    rw [List.mem_filter]
    exact ⟨hmem, by simp⟩
  intro hnil
  rw [hnil] at this
  simp at this

theorem refill_loop_lists_ne_nil (fp : FuzzingParameterSet) (samples : Nat → Nat)
    (fuel k N A : Nat) :
    ∀ (rounds : Nat) (mults : List Int) (pb : PatternBuilder), mults ≠ [] →
      ∀ l ∈ refill_loop_lists fp samples fuel k N A rounds mults pb, l ≠ [] := by
  intro rounds
  induction rounds with
  | zero => intro mults pb _ l hl; simp [refill_loop_lists] at hl
  | succ rounds ih =>
    intro mults pb hm l hl
    simp only [refill_loop_lists] at hl
    split at hl
    · simp at hl
    · rcases List.mem_cons.mp hl with rfl | hl
      · exact hm
      · split at hl
        · simp at hl
        · rename_i mults1 pb1 hd
          exact ih mults1 pb1
            (draw_and_fill_keeps_drawn fp samples fuel N A _ mults mults1 pb pb1 hd) l hl

theorem generate_slot_lists_ne_nil (fp : FuzzingParameterSet) (samples : Nat → Nat)
    (fuel : Nat) (allowed : List Int) (hal : allowed ≠ []) (pb : PatternBuilder) (k : Nat) :
    ∀ l ∈ generate_slot_lists fp samples fuel allowed pb k, l ≠ [] := by
  intro l hl
  simp only [generate_slot_lists] at hl
  split at hl
  · simp at hl
  · rcases List.mem_cons.mp hl with rfl | hl
    · exact hal
    · split at hl
      · simp at hl
      · rename_i mults1 pb1 hd
        exact refill_loop_lists_ne_nil fp samples fuel k _ _ fuel mults1 pb1
          (draw_and_fill_keeps_drawn fp samples fuel _ _ _ allowed mults1 pb pb1 hd) l hl

theorem generate_slots_lists_ne_nil (fp : FuzzingParameterSet) (samples : Nat → Nat)
    (fuel : Nat) (allowed : List Int) (hal : allowed ≠ []) :
    ∀ (ks : List Nat) (pb : PatternBuilder),
      ∀ l ∈ generate_slots_lists fp samples fuel allowed ks pb, l ≠ [] := by
  intro ks
  induction ks with
  | nil => intro pb l hl; simp [generate_slots_lists] at hl
  | cons k rest ih =>
    intro pb l hl
    simp only [generate_slots_lists] at hl
    rcases List.mem_append.mp hl with hl | hl
    · exact generate_slot_lists_ne_nil fp samples fuel allowed hal pb k l hl
    · split at hl
      · simp at hl
      · rename_i pb1 _
        exact ih pb1 l hl

/-- C27: `get_random_gaussian`, and the vectors passed to it by
`generate_frequency_based_pattern`.  Every vector passed to `get_random_gaussian` during a run
is non-empty, whatever the parameters are (a run with an empty `allowed_multiplicators` ends at
line 86 and makes no call).  A call that returns gives an index `r < list.size()`, so that
`list.at(r)` is in range; `r` is the first sample drawn by this call that is below
`list.size()` (`g` is the number of samples drawn once the call has returned, the samples
`gen .. g - 2` were rejected).  On a non-empty vector the call returns once a sample below
`list.size()` comes within the `fuel` draws allowed. -/
theorem get_random_gaussian_valid_index (fp : FuzzingParameterSet)
    (samples : Nat → Nat) (fuel : Nat) (pb : PatternBuilder) :
    (∀ l ∈ gaussian_lists fp samples fuel pb, l ≠ []) ∧
    (∀ (list : List Int) (gen r g : Nat),
      get_random_gaussian samples list fuel gen = some (r, g) →
        r < list.length ∧ (list.get? r).isSome = true ∧ gen < g ∧ samples (g - 1) = r ∧
        ∀ n, gen ≤ n → n + 1 < g → list.length ≤ samples n) ∧
    (∀ (list : List Int) (gen T : Nat), list ≠ [] → SamplesAccepted samples T → T ≤ fuel →
      ∃ r g, get_random_gaussian samples list fuel gen = some (r, g)) := by
  refine ⟨?_, ?_, ?_⟩
  · unfold gaussian_lists
    simp only
    by_cases hal :
        allowed_multiplicators (fp.get_total_acts_pattern / fp.get_base_period) = []
    · rw [if_pos hal]
      intro l hl
      cases hl
    · rw [if_neg hal]
      exact generate_slots_lists_ne_nil fp samples fuel _ hal _ _
  · intro list gen r g h
    have hlt := get_random_gaussian_lt samples list fuel gen r g h
    obtain ⟨h1, h2, h3⟩ := get_random_gaussian_first samples list fuel gen r g h
    refine ⟨hlt, ?_, h1, h2, h3⟩
    rw [List.get?_eq_getElem?, List.getElem?_eq_getElem hlt]
    rfl
  · intro list gen T hne hs hT
    obtain ⟨n, hn1, hn2⟩ := hs gen list.length (List.length_pos.mpr hne)
    exact get_random_gaussian_isSome samples list fuel gen ⟨n, by omega, hn2⟩

/-- Witness for C27: the vectors passed during the run on the example parameters (16
activations, base period 4) with the sample stream 1, 0, 1, 0, ..., and the first call of that
run.  With 3 activations and a base period of 4 the vector `allowed_multiplicators` is empty
and no call is made. -/
theorem get_random_gaussian_valid_index_witness :
    (∀ l ∈ gaussian_lists example_params example_samples 17
        (PatternBuilder.new { aggressors := [], agg_access_patterns := [], max_period := 0 }),
      l ≠ []) ∧
    gaussian_lists example_params example_samples 17
        (PatternBuilder.new { aggressors := [], agg_access_patterns := [], max_period := 0 })
      ≠ [] ∧
    gaussian_lists example_params_short zero_samples 100
        (PatternBuilder.new { aggressors := [], agg_access_patterns := [], max_period := 0 })
      = [] ∧
    get_random_gaussian example_samples [1, 2, 4] 17 0 = some (1, 1) :=
  ⟨(get_random_gaussian_valid_index example_params example_samples 17
      (PatternBuilder.new { aggressors := [], agg_access_patterns := [], max_period := 0 })).1,
    by decide!, by decide!, by decide⟩

/-! ### Termination of `generate_frequency_based_pattern` -/

theorem countP_lt_of_imp {α : Type} (l : List α) (p1 p2 : α → Bool)
    (himp : ∀ x ∈ l, p2 x = true → p1 x = true) (x0 : α) (hx0 : x0 ∈ l)
    (h1 : p1 x0 = true) (h2 : p2 x0 = false) : l.countP p2 < l.countP p1 := by
  induction l with
  | nil => simp at hx0
  | cons a l ih =>
    have hmono : l.countP p2 ≤ l.countP p1 :=
      List.countP_mono_left (fun x hx => himp x (List.mem_cons_of_mem _ hx))
    rcases List.mem_cons.mp hx0 with rfl | hx
    · rw [List.countP_cons, List.countP_cons]
      simp only [h1, h2, if_true, Bool.false_eq_true, if_false]
      omega
    · have hlt := ih (fun x hx => himp x (List.mem_cons_of_mem _ hx)) hx
      have ha := himp a (List.mem_cons_self _ _)
      rw [List.countP_cons, List.countP_cons]
      cases hp2 : p2 a with
      | true =>
        simp only [ha hp2, if_true]
        omega
      | false =>
        cases hp1 : p1 a with
        | true =>
          simp only [Bool.false_eq_true, if_false, if_true]
          omega
        | false =>
          simp only [Bool.false_eq_true, if_false]
          omega

theorem stride_placeholders_le (bp nbp k : Nat) (aggs : List Aggressor) :
    stride_placeholders bp nbp k aggs ≤ nbp := by
  unfold stride_placeholders
  have := List.countP_le_length
    (fun q => decide ((aggs.getD (q * bp + k) default).id = ID_PLACEHOLDER_AGG))
    (l := List.range nbp)
  simpa using this

theorem fill_slots_aggressors_vals (idx j : Nat) (aggs : List Aggressor) (L : Nat)
    (as : List Nat) :
    ∀ w ∈ (fill_slots_aggressors idx j aggs L as).1, ∃ a ∈ as, w.2 = aggs.getD a default := by
  induction as with
  | nil => intro w hw; simp [fill_slots_aggressors] at hw
  | cons a rest ih =>
    intro w hw
    simp only [fill_slots_aggressors] at hw
    split at hw
    · simp at hw
    · rcases List.mem_cons.mp hw with rfl | hw
      · exact ⟨a, List.mem_cons_self _ _, rfl⟩
      · obtain ⟨b, hb, hv⟩ := ih w hw
        exact ⟨b, List.mem_cons_of_mem _ hb, hv⟩

theorem fill_slots_amplitude_vals (idx : Nat) (aggs : List Aggressor) (L : Nat)
    (js : List Nat) :
    ∀ w ∈ (fill_slots_amplitude idx aggs L js).1,
      ∃ a, a < aggs.length ∧ w.2 = aggs.getD a default := by
  induction js with
  | nil => intro w hw; simp [fill_slots_amplitude] at hw
  | cons j rest ih =>
    intro w hw
    simp only [fill_slots_amplitude] at hw
    have hfirst : ∀ w ∈ (fill_slots_aggressors idx j aggs L (List.range aggs.length)).1,
        ∃ a, a < aggs.length ∧ w.2 = aggs.getD a default := by
      intro w hw
      obtain ⟨a, ha, hv⟩ := fill_slots_aggressors_vals idx j aggs L _ w hw
      exact ⟨a, List.mem_range.mp ha, hv⟩
    split at hw
    · exact hfirst w hw
    · rcases List.mem_append.mp hw with hw | hw
      · exact hfirst w hw
      · exact ih w hw

theorem fill_slots_amplitude_first (idx : Nat) (aggs : List Aggressor) (L A : Nat)
    (hidx : idx ≤ L) (hL : L < SIZE_MAX1) (hA : 1 ≤ A) (hN : 1 ≤ aggs.length) :
    (idx, aggs.getD 0 default) ∈ (fill_slots_amplitude idx aggs L (List.range A)).1 := by
  obtain ⟨A', rfl⟩ : ∃ A', A = A' + 1 := ⟨A - 1, by omega⟩
  obtain ⟨N', hN'⟩ : ∃ N', aggs.length = N' + 1 := ⟨aggs.length - 1, by omega⟩
  have hmod : idx % SIZE_MAX1 = idx := Nat.mod_eq_of_lt (by omega)
  have hin : (idx, aggs.getD 0 default)
      ∈ (fill_slots_aggressors idx 0 aggs L (List.range aggs.length)).1 := by
    rw [hN', List.range_succ_eq_map]
    simp only [fill_slots_aggressors, Nat.mul_zero, Nat.add_zero, hmod]
    rw [if_neg (by omega)]
    exact List.mem_cons_self _ _
  rw [List.range_succ_eq_map]
  simp only [fill_slots_amplitude]
  split
  · exact hin
  · exact List.mem_append_left _ hin

theorem fill_slots_periods_returns (P A : Nat) (aggs : List Aggressor) (L : Nat) (hP : 1 ≤ P)
    (hPL : L + P < SIZE_MAX1) :
    ∀ (fuel idx : Nat), L - idx < fuel →
      ∃ ws, fill_slots_periods P A aggs L fuel idx = some ws ∧
        (∀ w ∈ ws, ∃ a, a < aggs.length ∧ w.2 = aggs.getD a default) ∧
        (idx < L → 1 ≤ A → 1 ≤ aggs.length → (idx, aggs.getD 0 default) ∈ ws) := by
  intro fuel
  induction fuel with
  | zero => intro idx h; omega
  | succ fuel ih =>
    intro idx hfuel
    simp only [fill_slots_periods]
    by_cases hidx : idx < L
    · rw [if_pos hidx]
      have hvals := fill_slots_amplitude_vals idx aggs L (List.range A)
      by_cases hr : (fill_slots_amplitude idx aggs L (List.range A)).2 = true
      · rw [if_pos hr]
        refine ⟨_, rfl, hvals, ?_⟩
        intro _ hA hN
        exact fill_slots_amplitude_first idx aggs L A (by omega) (by omega) hA hN
      · rw [if_neg hr]
        have hmod : (idx + P) % SIZE_MAX1 = idx + P := Nat.mod_eq_of_lt (by omega)
        obtain ⟨ws, hws, hv, -⟩ := ih (idx + P) (by omega)
        rw [hmod, hws]
        refine ⟨_, rfl, ?_, ?_⟩
        · intro w hw
          rcases List.mem_append.mp hw with hw | hw
          · exact hvals w hw
          · exact hv w hw
        · intro _ hA hN
          exact List.mem_append_left _
            (fill_slots_amplitude_first idx aggs L A (by omega) (by omega) hA hN)
    · rw [if_neg hidx]
      exact ⟨[], rfl, by simp, fun h => absurd h hidx⟩

theorem draw_and_fill_returns (fp : FuzzingParameterSet) (nbp : Nat) (G : GoodParams fp nbp)
    (samples : Nat → Nat) (T fuel : Nat) (hs : SamplesAccepted samples T) (hT : T ≤ fuel)
    (hfuel : fp.get_total_acts_pattern < fuel) (N A slot μ : Nat) (mults : List Int)
    (pb : PatternBuilder) (hN : 1 ≤ N) (hA : 1 ≤ A)
    (hslot : slot < fp.get_total_acts_pattern) (hm : MultsOK nbp μ mults)
    (hlen : pb.pattern.aggressors.length = fp.get_total_acts_pattern) :
    ∃ (e : Nat) (mults' : List Int) (pb' : PatternBuilder) (rec : FillRecord),
      draw_and_fill fp samples fuel N A slot mults pb = some (mults', pb') ∧
      MultsOK nbp (2 ^ e) mults' ∧
      pb'.pattern.aggressors.length = fp.get_total_acts_pattern ∧
      pb'.fills = pb.fills ++ [rec] ∧ rec.before = pb.pattern.aggressors ∧
      rec.access_pattern.offset = slot ∧
      pb'.pattern.aggressors = apply_writes rec.before rec.writes ∧
      Filled pb'.pattern.aggressors slot ∧
      (∀ s, s < fp.get_total_acts_pattern → Filled pb.pattern.aggressors s →
        Filled pb'.pattern.aggressors s) := by
  obtain ⟨hL, hbp, hnbp, hint, -⟩ := G
  have hmlen : 0 < mults.length := List.length_pos.mpr hm.1
  obtain ⟨n, hn1, hn2⟩ := hs pb.gen mults.length hmlen
  obtain ⟨r, g, hg⟩ := get_random_gaussian_isSome samples mults fuel pb.gen ⟨n, by omega, hn2⟩
  have hr := get_random_gaussian_lt samples mults fuel pb.gen r g hg
  obtain ⟨e, he, hd, hle, hm'⟩ := remove_smaller_than_ok nbp μ mults hm r hr
  have hP : fp.get_base_period * 2 ^ e ≤ fp.get_total_acts_pattern := by
    rw [hL, Nat.mul_comm]; exact Nat.mul_le_mul_right _ hle
  have hPpos : 1 ≤ fp.get_base_period * 2 ^ e := Nat.mul_pos hbp (Nat.two_pow_pos e)
  have hPmod : (fp.get_base_period * 2 ^ e) % SIZE_MAX1 = fp.get_base_period * 2 ^ e :=
    Nat.mod_eq_of_lt (by unfold SIZE_MAX1; omega)
  obtain ⟨hlenA, hidA⟩ :=
    get_n_aggressors_loop_spec fp.get_num_aggressors N pb.aggressor_id_counter
  have hlenA' : (get_n_aggressors N fp.get_num_aggressors pb.aggressor_id_counter).1.length = N :=
    hlenA
  obtain ⟨ws, hws, hvals, hfirst⟩ := fill_slots_periods_returns (fp.get_base_period * 2 ^ e) A
    (get_n_aggressors N fp.get_num_aggressors pb.aggressor_id_counter).1
    fp.get_total_acts_pattern hPpos (by unfold SIZE_MAX1; omega) fuel slot (by omega)
  have hval : ∀ w ∈ ws, w.2.id ≠ ID_PLACEHOLDER_AGG := by
    intro w hw
    obtain ⟨a, ha, hv⟩ := hvals w hw
    rw [hv, List.getD_eq_getElem _ _ ha]
    exact ne_placeholder_of_nonneg _ (hidA _ (List.getElem_mem _))
  have hw0 := hfirst hslot hA (by rw [hlenA']; exact hN)
  have hrun : draw_and_fill fp samples fuel N A slot mults pb
      = some (remove_smaller_than mults ((2 ^ e : Nat) : Int),
          { pattern :=
              { aggressors := apply_writes pb.pattern.aggressors ws
                agg_access_patterns := pb.pattern.agg_access_patterns ++
                  [{ period := fp.get_base_period * 2 ^ e, amplitude := A,
                     aggressors :=
                       (get_n_aggressors N fp.get_num_aggressors pb.aggressor_id_counter).1,
                     offset := slot }]
                max_period := pb.pattern.max_period }
            aggressor_id_counter :=
              (get_n_aggressors N fp.get_num_aggressors pb.aggressor_id_counter).2
            gen := g
            fills := pb.fills ++
              [{ access_pattern :=
                   { period := fp.get_base_period * 2 ^ e, amplitude := A,
                     aggressors :=
                       (get_n_aggressors N fp.get_num_aggressors pb.aggressor_id_counter).1,
                     offset := slot },
                 before := pb.pattern.aggressors, writes := ws }] }) := by
    unfold draw_and_fill
    rw [hg]
    simp only [he, Int.toNat_ofNat, hPmod]
    unfold fill_slots_writes
    rw [hws]
  refine ⟨e, _, _, _, hrun, hm', ?_, rfl, rfl, rfl, rfl, ?_, ?_⟩
  · simp only [apply_writes_length, hlen]
  · exact (filled_apply_writes _ ws slot (by rw [hlen]; exact hslot) hval).mpr
      (Or.inr ⟨_, hw0, rfl⟩)
  · intro s hs' hf
    exact (filled_apply_writes _ ws s (by rw [hlen]; exact hs') hval).mpr (Or.inl hf)

theorem stride_placeholders_lt (bp nbp k q0 : Nat) (hk : k < bp) (hq0 : q0 < nbp)
    (old new : List Aggressor)
    (hmono : ∀ s, s < nbp * bp → Filled old s → Filled new s)
    (hold : ¬ Filled old (q0 * bp + k)) (hnew : Filled new (q0 * bp + k)) :
    stride_placeholders bp nbp k new < stride_placeholders bp nbp k old := by
  unfold stride_placeholders
  apply countP_lt_of_imp _ _ _ _ q0 (List.mem_range.mpr hq0)
  · unfold Filled at hold
    simpa using hold
  · unfold Filled at hnew
    simpa using hnew
  · intro q hq hp
    have hq' := List.mem_range.mp hq
    have hlt : q * bp + k < nbp * bp := (slot_lt_iff bp nbp q k hk).mpr hq'
    have hp' : ¬ Filled new (q * bp + k) := by
      unfold Filled
      simpa using hp
    have : ¬ Filled old (q * bp + k) := fun h => hp' (hmono _ hlt h)
    unfold Filled at this
    simpa using this

theorem refill_loop_returns (fp : FuzzingParameterSet) (nbp : Nat) (G : GoodParams fp nbp)
    (samples : Nat → Nat) (T fuel : Nat) (hs : SamplesAccepted samples T) (hT : T ≤ fuel)
    (hfuel : fp.get_total_acts_pattern < fuel) (k N A : Nat) (hk : k < fp.get_base_period)
    (hN : 1 ≤ N) (hA : 1 ≤ A) :
    ∀ (rounds μ : Nat) (mults : List Int) (pb : PatternBuilder),
      MultsOK nbp μ mults →
      pb.pattern.aggressors.length = fp.get_total_acts_pattern →
      stride_placeholders fp.get_base_period nbp k pb.pattern.aggressors < rounds →
      ∃ (pb' : PatternBuilder) (new : List FillRecord),
        refill_loop fp samples fuel k N A rounds mults pb = some pb' ∧
        pb'.fills = pb.fills ++ new ∧
        new.length ≤ stride_placeholders fp.get_base_period nbp k pb.pattern.aggressors ∧
        pb'.pattern.aggressors.length = fp.get_total_acts_pattern ∧
        ∀ f ∈ new, FillProgress fp nbp f ∧ f.access_pattern.offset % fp.get_base_period = k := by
  have hL := G.total
  have hint := G.int_range
  intro rounds
  induction rounds with
  | zero => intro μ mults pb _ _ h; omega
  | succ rounds ih =>
    intro μ mults pb hm hlen hrounds
    simp only [refill_loop]
    rw [hL] at hlen hint
    rcases all_slots_full_spec nbp fp.get_base_period k hk hint pb.pattern.aggressors hlen with
      ⟨h1, -⟩ | ⟨q0, hq0, h1, h2, -⟩
    · rw [hL, h1, if_pos rfl]
      exact ⟨pb, [], rfl, by simp, by simp, by rw [hlen], by simp⟩
    · have hne : ((q0 * fp.get_base_period + k : Nat) : Int) ≠ -1 := by
        have : (0 : Int) ≤ ((q0 * fp.get_base_period + k : Nat) : Int) := Int.ofNat_nonneg _
        omega
      have hasf : all_slots_full k fp.get_base_period fp.get_total_acts_pattern
          pb.pattern.aggressors = ((q0 * fp.get_base_period + k : Nat) : Int) := by
        rw [hL]; exact h1
      rw [hasf, if_neg hne, Int.toNat_ofNat]
      have hslot : q0 * fp.get_base_period + k < fp.get_total_acts_pattern := by
        rw [hL]; exact (slot_lt_iff _ nbp q0 k hk).mpr hq0
      rw [← hL] at hlen
      obtain ⟨e, mults1, pb1, rec, hrun, hm1, hlen1, hfills1, hbefore, hoff, haggs, hfilled,
        hmono⟩ := draw_and_fill_returns fp nbp G samples T fuel hs hT hfuel N A
          (q0 * fp.get_base_period + k) μ mults pb hN hA hslot hm hlen
      have hmod : (q0 * fp.get_base_period + k) % fp.get_base_period = k := by
        rw [Nat.add_comm, Nat.add_mul_mod_self_right, Nat.mod_eq_of_lt hk]
      have hdec : stride_placeholders fp.get_base_period nbp k pb1.pattern.aggressors
          < stride_placeholders fp.get_base_period nbp k pb.pattern.aggressors :=
        stride_placeholders_lt fp.get_base_period nbp k q0 hk hq0 _ _
          (by rw [← hL]; exact hmono) h2 hfilled
      obtain ⟨pb', new, hrun', hfills', hcount, hlen', hprog⟩ :=
        ih (2 ^ e) mults1 pb1 hm1 hlen1 (by omega)
      rw [hrun]
      simp only
      rw [hrun']
      refine ⟨pb', rec :: new, rfl, ?_, ?_, hlen', ?_⟩
      · rw [hfills', hfills1, List.append_assoc, List.singleton_append]
      · simp only [List.length_cons]
        omega
      · intro f hf
        rcases List.mem_cons.mp hf with rfl | hf
        · refine ⟨⟨?_, ?_, ?_, ?_, ?_⟩, ?_⟩
          · rw [hoff]; exact hslot
          · rw [hoff, hmod, hbefore]; exact hasf
          · rw [hoff, hbefore]
            unfold Filled at h2
            exact not_not.mp h2
          · rw [hoff, ← haggs]; exact hfilled
          · rw [hoff, hmod, ← haggs, hbefore]; exact hdec
          · rw [hoff, hmod]
        · exact hprog f hf

theorem generate_slot_returns (fp : FuzzingParameterSet) (nbp : Nat) (G : GoodParams fp nbp)
    (samples : Nat → Nat) (T fuel : Nat) (hs : SamplesAccepted samples T) (hT : T ≤ fuel)
    (hfuel : fp.get_total_acts_pattern < fuel) (k : Nat) (hk : k < fp.get_base_period)
    (hN : 1 ≤ tuple_size fp k) (hA : 1 ≤ amplitude_of fp k) (pb : PatternBuilder)
    (hlen : pb.pattern.aggressors.length = fp.get_total_acts_pattern) :
    ∃ (pb' : PatternBuilder) (new : List FillRecord),
      generate_slot fp samples fuel (allowed_multiplicators nbp) pb k = some pb' ∧
      pb'.fills = pb.fills ++ new ∧ new.length ≤ nbp ∧
      pb'.pattern.aggressors.length = fp.get_total_acts_pattern ∧
      ∀ f ∈ new, FillProgress fp nbp f ∧ f.access_pattern.offset % fp.get_base_period = k := by
  have hL := G.total
  have hint := G.int_range
  have hnbp := G.periods
  unfold generate_slot
  simp only
  by_cases hfilled : (pb.pattern.aggressors.getD k default).id ≠ ID_PLACEHOLDER_AGG
  · rw [if_pos hfilled]
    exact ⟨pb, [], rfl, by simp, by simp, hlen, by simp⟩
  · rw [if_neg hfilled]
    have hbpL : fp.get_base_period ≤ fp.get_total_acts_pattern := by
      rw [hL]; exact Nat.le_mul_of_pos_left _ hnbp
    have hslot : k < fp.get_total_acts_pattern := by omega
    obtain ⟨e, mults1, pb1, rec, hrun, hm1, hlen1, hfills1, hbefore, hoff, haggs, hfilled1,
      hmono⟩ := draw_and_fill_returns fp nbp G samples T fuel hs hT hfuel (tuple_size fp k)
        (amplitude_of fp k) k 1 (allowed_multiplicators nbp) pb hN hA hslot
        (allowed_multiplicators_ok nbp hnbp) hlen
    have hold : ¬ Filled pb.pattern.aggressors (0 * fp.get_base_period + k) := by
      rw [Nat.zero_mul, Nat.zero_add]; exact hfilled
    have hdec : stride_placeholders fp.get_base_period nbp k pb1.pattern.aggressors
        < stride_placeholders fp.get_base_period nbp k pb.pattern.aggressors :=
      stride_placeholders_lt fp.get_base_period nbp k 0 hk hnbp _ _
        (by rw [← hL]; exact hmono) hold
        (by rw [Nat.zero_mul, Nat.zero_add]; exact hfilled1)
    have hle := stride_placeholders_le fp.get_base_period nbp k pb.pattern.aggressors
    have hnbpL : nbp ≤ fp.get_total_acts_pattern := by
      rw [hL]; exact Nat.le_mul_of_pos_right _ G.base
    obtain ⟨pb', new, hrun', hfills', hcount, hlen', hprog⟩ :=
      refill_loop_returns fp nbp G samples T fuel hs hT hfuel k (tuple_size fp k)
        (amplitude_of fp k) hk hN hA fuel (2 ^ e) mults1 pb1 hm1 hlen1 (by omega)
    have hasf : all_slots_full k fp.get_base_period fp.get_total_acts_pattern
        pb.pattern.aggressors = (k : Int) := by
      have hlen0 := hlen
      rw [hL] at hlen0 hint ⊢
      rcases all_slots_full_spec nbp fp.get_base_period k hk hint pb.pattern.aggressors hlen0
        with ⟨-, h2⟩ | ⟨q0, hq0, h1, -, h3⟩
      · exact absurd (h2 0 hnbp) hold
      · rcases Nat.eq_zero_or_pos q0 with hz | hpos
        · rw [h1, hz, Nat.zero_mul, Nat.zero_add]
        · exact absurd (h3 0 hpos) hold
    have hrun0 : draw_and_fill fp samples fuel
        (if fp.get_base_period - k = 1 then 1
          else fp.get_random_N_sided k (fp.get_base_period - k))
        (fp.get_random_amplitude k ((fp.get_base_period - k) /
          (if fp.get_base_period - k = 1 then 1
            else fp.get_random_N_sided k (fp.get_base_period - k))))
        k (allowed_multiplicators nbp) pb = some (mults1, pb1) := hrun
    rw [hrun0]
    simp only
    have hrun1 : refill_loop fp samples fuel k
        (if fp.get_base_period - k = 1 then 1
          else fp.get_random_N_sided k (fp.get_base_period - k))
        (fp.get_random_amplitude k ((fp.get_base_period - k) /
          (if fp.get_base_period - k = 1 then 1
            else fp.get_random_N_sided k (fp.get_base_period - k))))
        fuel mults1 pb1 = some pb' := hrun'
    rw [hrun1]
    have hmod : k % fp.get_base_period = k := Nat.mod_eq_of_lt hk
    refine ⟨pb', rec :: new, rfl, ?_, ?_, hlen', ?_⟩
    · rw [hfills', hfills1, List.append_assoc, List.singleton_append]
    · simp only [List.length_cons]
      omega
    · intro f hf
      rcases List.mem_cons.mp hf with rfl | hf
      · refine ⟨⟨?_, ?_, ?_, ?_, ?_⟩, ?_⟩
        · rw [hoff]; exact hslot
        · rw [hoff, hmod, hbefore]; exact hasf
        · rw [hoff, hbefore]
          exact not_not.mp hfilled
        · rw [hoff, ← haggs]; exact hfilled1
        · rw [hoff, hmod, ← haggs, hbefore]; exact hdec
        · rw [hoff, hmod]
      · exact hprog f hf

theorem countP_eq_zero_of_forall {α : Type} (l : List α) (p : α → Bool)
    (h : ∀ x ∈ l, p x = false) : l.countP p = 0 := by
  rw [List.countP_eq_zero]
  intro x hx
  rw [h x hx]
  simp

theorem generate_slots_returns (fp : FuzzingParameterSet) (nbp : Nat) (G : GoodParams fp nbp)
    (hN : ∀ k, k < fp.get_base_period → 1 ≤ tuple_size fp k)
    (hA : ∀ k, k < fp.get_base_period → 1 ≤ amplitude_of fp k)
    (samples : Nat → Nat) (T fuel : Nat) (hs : SamplesAccepted samples T) (hT : T ≤ fuel)
    (hfuel : fp.get_total_acts_pattern < fuel) :
    ∀ (ks : List Nat) (pb : PatternBuilder), ks.Nodup → (∀ k ∈ ks, k < fp.get_base_period) →
      pb.pattern.aggressors.length = fp.get_total_acts_pattern →
      ∃ (pb' : PatternBuilder) (new : List FillRecord),
        generate_slots fp samples fuel (allowed_multiplicators nbp) ks pb = some pb' ∧
        pb'.fills = pb.fills ++ new ∧
        (∀ f ∈ new, FillProgress fp nbp f ∧ f.access_pattern.offset % fp.get_base_period ∈ ks) ∧
        ∀ k, new.countP
          (fun f => decide (f.access_pattern.offset % fp.get_base_period = k)) ≤ nbp := by
  intro ks
  induction ks with
  | nil =>
    intro pb _ _ _
    exact ⟨pb, [], rfl, by simp, by simp, by simp⟩
  | cons k rest ih =>
    intro pb hnd hks hlen
    have hk := hks k (List.mem_cons_self _ _)
    obtain ⟨pb1, new1, hrun1, hfills1, hcount1, hlen1, hprog1⟩ :=
      generate_slot_returns fp nbp G samples T fuel hs hT hfuel k hk (hN k hk) (hA k hk) pb hlen
    obtain ⟨pb', new2, hrun2, hfills2, hprog2, hcount2⟩ :=
      ih pb1 (List.nodup_cons.mp hnd).2 (fun x hx => hks x (List.mem_cons_of_mem _ hx)) hlen1
    simp only [generate_slots]
    rw [hrun1]
    simp only
    rw [hrun2]
    refine ⟨pb', new1 ++ new2, rfl, ?_, ?_, ?_⟩
    · rw [hfills2, hfills1, List.append_assoc]
    · intro f hf
      rcases List.mem_append.mp hf with hf | hf
      · obtain ⟨h1, h2⟩ := hprog1 f hf
        exact ⟨h1, by rw [h2]; exact List.mem_cons_self _ _⟩
      · obtain ⟨h1, h2⟩ := hprog2 f hf
        exact ⟨h1, List.mem_cons_of_mem _ h2⟩
    · intro k'
      rw [List.countP_append]
      by_cases hkk : k' = k
      · subst hkk
        have h0 : new2.countP
            (fun f => decide (f.access_pattern.offset % fp.get_base_period = k')) = 0 := by
          apply countP_eq_zero_of_forall
          intro f hf
          have hmem := (hprog2 f hf).2
          have hne : f.access_pattern.offset % fp.get_base_period ≠ k' := by
            intro h
            rw [h] at hmem
            exact (List.nodup_cons.mp hnd).1 hmem
          simpa using hne
        have h1 := List.countP_le_length
          (fun f => decide (f.access_pattern.offset % fp.get_base_period = k')) (l := new1)
        omega
      · have h0 : new1.countP
            (fun f => decide (f.access_pattern.offset % fp.get_base_period = k')) = 0 := by
          apply countP_eq_zero_of_forall
          intro f hf
          have hmem := (hprog1 f hf).2
          have hne : f.access_pattern.offset % fp.get_base_period ≠ k' := by
            rw [hmem]
            exact fun h => hkk h.symm
          simpa using hne
        have h2 := hcount2 k'
        omega

theorem tuple_size_bounds (fp : FuzzingParameterSet) (D : GoodDraws fp) (k : Nat)
    (hk : k < fp.get_base_period) :
    1 ≤ tuple_size fp k ∧ tuple_size fp k ≤ fp.get_base_period - k := by
  unfold tuple_size
  by_cases h1 : fp.get_base_period - k = 1
  · rw [if_pos h1]
    omega
  · rw [if_neg h1]
    exact D.1 k hk

theorem amplitude_of_bounds (fp : FuzzingParameterSet) (D : GoodDraws fp) (k : Nat)
    (hk : k < fp.get_base_period) :
    1 ≤ amplitude_of fp k ∧
      amplitude_of fp k ≤ (fp.get_base_period - k) / tuple_size fp k := by
  unfold amplitude_of
  exact D.2 k (tuple_size fp k) hk (tuple_size_bounds fp D k hk).1
    (tuple_size_bounds fp D k hk).2

theorem generate_progress (fp : FuzzingParameterSet) (nbp : Nat) (G : GoodParams fp nbp)
    (hN : ∀ k, k < fp.get_base_period → 1 ≤ tuple_size fp k)
    (hA : ∀ k, k < fp.get_base_period → 1 ≤ amplitude_of fp k)
    (samples : Nat → Nat) (T fuel : Nat) (hs : SamplesAccepted samples T) (hT : T ≤ fuel)
    (hfuel : fp.get_total_acts_pattern < fuel) (pb : PatternBuilder) (hfills : pb.fills = []) :
    ∃ pb', generate_frequency_based_pattern fp samples fuel pb = some pb' ∧
      (∀ f ∈ pb'.fills, FillProgress fp nbp f) ∧
      ∀ k, pb'.fills.countP
        (fun f => decide (f.access_pattern.offset % fp.get_base_period = k)) ≤ nbp := by
  unfold generate_frequency_based_pattern
  simp only
  have hn : fp.get_total_acts_pattern / fp.get_base_period = nbp := by
    rw [G.total]; exact Nat.mul_div_cancel _ G.base
  rw [hn, if_neg (allowed_multiplicators_ok nbp G.periods).1]
  obtain ⟨pb', new, hrun, hf, hprog, hcount⟩ :=
    generate_slots_returns fp nbp G hN hA samples T fuel hs hT hfuel
      (List.range fp.get_base_period)
      { pb with
        pattern :=
          { aggressors := List.replicate fp.get_total_acts_pattern default
            agg_access_patterns := pb.pattern.agg_access_patterns
            max_period := ((allowed_multiplicators nbp).getLastD 0).toNat * fp.get_base_period } }
      (List.nodup_range _) (fun k hk => List.mem_range.mp hk) (by simp)
  refine ⟨pb', hrun, ?_, ?_⟩
  · intro f hfm
    rw [hf] at hfm
    simp only [hfills, List.nil_append] at hfm
    exact (hprog f hfm).1
  · intro k
    rw [hf]
    simp only [hfills, List.nil_append]
    exact hcount k

/-- C29: `generate_frequency_based_pattern` terminates.  When `total_acts_pattern` is `nbp >= 1`
times `base_period >= 1` (and fits an `int`), every drawn tuple size and amplitude is at least 1
and within the room left in the base period (`N <= base_period - k`,
`A <= (base_period - k) / N`), and rejection sampling ends within `T` draws, the run returns as
soon as `fuel` exceeds `T` and the pattern length.  Every fill it made (the first fill of a
start slot as well as every round of the refill loop) started at the slot `all_slots_full`
returns for the vector before the fill, that slot held the placeholder and holds a real ID
afterwards, and the number of placeholder slots in the strided subsequence is smaller after the
fill than before it.  Every assignment `accesses[next_target] = ..` of every fill went to an
index below the pattern length, so no write is made past the end of the vector.  For each start
slot `k`, at most `nbp` fills were made, the first one before the refill loop: the loop ran at
most `nbp` times. -/
theorem generate_terminates (fp : FuzzingParameterSet) (nbp : Nat) (G : GoodParams fp nbp)
    (D : GoodDraws fp)
    (samples : Nat → Nat) (T fuel : Nat) (hs : SamplesAccepted samples T) (hT : T ≤ fuel)
    (hfuel : fp.get_total_acts_pattern < fuel) (pb : PatternBuilder) (hfills : pb.fills = []) :
    ∃ pb', generate_frequency_based_pattern fp samples fuel pb = some pb' ∧
      (∀ f ∈ pb'.fills, FillProgress fp nbp f ∧
        ∀ w ∈ f.writes, w.1 < fp.get_total_acts_pattern) ∧
      ∀ k, pb'.fills.countP
        (fun f => decide (f.access_pattern.offset % fp.get_base_period = k)) ≤ nbp := by
  obtain ⟨pb', hrun, hprog, hcount⟩ :=
    generate_progress fp nbp G (fun k hk => (tuple_size_bounds fp D k hk).1)
      (fun k hk => (amplitude_of_bounds fp D k hk).1) samples T fuel hs hT hfuel pb hfills
  obtain ⟨pb1, hrun1, O⟩ := generate_spec fp nbp G D samples T fuel hs hT hfuel pb hfills
  have heq : pb1 = pb' := Option.some.inj (hrun1.symm.trans hrun)
  subst heq
  refine ⟨pb1, hrun, ?_, hcount⟩
  intro f hf
  exact ⟨hprog f hf, fun w hw => ((O.fresh f hf).2 w hw).1⟩

/-- Witness for C29: the example parameters (16 slots, base period 4, so at most 4 fills per
start slot) with the sample stream 1, 0, 1, 0, ... -/
theorem generate_terminates_witness :
    ∃ pb', generate_frequency_based_pattern example_params example_samples 17
        (PatternBuilder.new { aggressors := [], agg_access_patterns := [], max_period := 0 })
          = some pb' ∧
      (∀ f ∈ pb'.fills, FillProgress example_params 4 f ∧
        ∀ w ∈ f.writes, w.1 < example_params.get_total_acts_pattern) ∧
      ∀ k, pb'.fills.countP
        (fun f => decide (f.access_pattern.offset % example_params.get_base_period = k)) ≤ 4 :=
  generate_terminates example_params 4 example_params_good example_params_draws
    example_samples 2 17 example_samples_accepted (by decide) (by decide) _ rfl

/-! ## Theorems about `get_random_indices` -/

theorem get_random_indices_loop_length (rand : Nat → Nat) (max num_indices : Nat) :
    ∀ (fuel n : Nat) (nums result : List Nat), nums.length ≤ num_indices →
      get_random_indices_loop rand max num_indices fuel n nums = some result →
      result.length = num_indices := by
  intro fuel
  induction fuel with
  | zero => intro n nums result _ h; simp [get_random_indices_loop] at h
  | succ fuel ih =>
    intro n nums result hle h
    simp only [get_random_indices_loop] at h
    split at h
    · rename_i hlt
      split at h
      · cases h
      · split at h
        · exact ih _ _ _ hle h
        · refine ih _ _ _ ?_ h
          rw [List.orderedInsert_length]
          omega
    · simp only [Option.some.injEq] at h
      subst h
      omega

/-- C31 does not hold of the code: for `max = 4`, `num_indices = 2`, an empty vector and
`rand()` returning 3 and then 1, `get_random_indices` leaves `[0, 0, 1, 3]` in `indices`: the
two value-initialised entries made by `indices.resize(num_indices)` followed by the two random
numbers inserted at the end.  The vector has 4 entries, not 2, and they are not pairwise
distinct.  Whenever the call takes the random branch on an empty vector and returns, the vector
has `2 * num_indices` entries and its first `num_indices` entries are 0. -/
theorem get_random_indices_appends :
    get_random_indices (fun n => if n = 0 then 3 else 1) 10 4 2 [] = some [0, 0, 1, 3] ∧
    (∀ (rand : Nat → Nat) (fuel max num_indices : Nat) (result : List Nat),
      max ≠ (num_indices + SIZE_MAX1 - 1) % SIZE_MAX1 →
      get_random_indices rand fuel max num_indices [] = some result →
      result.length = 2 * num_indices ∧
        result.take num_indices = List.replicate num_indices 0) := by
  refine ⟨by decide, ?_⟩
  intro rand fuel max num_indices result hne h
  unfold get_random_indices at h
  simp only [List.take_nil, List.nil_append, List.length_nil, Nat.sub_zero, if_neg hne] at h
  split at h
  · cases h
  · rename_i nums hnums
    simp only [Option.some.injEq] at h
    subst h
    have hlen := get_random_indices_loop_length rand max num_indices fuel 0 [] nums
      (Nat.zero_le _) hnums
    refine ⟨?_, ?_⟩
    · rw [List.length_append, List.length_replicate, hlen]
      omega
    · rw [List.take_append_of_le_length (by rw [List.length_replicate])]
      rw [List.take_of_length_le (by rw [List.length_replicate])]

/-! ## Further theorems about DRAMAddr -/

/-- C35: for each built-in configuration and every `v`, the address constructor gives the same
result for `v` and for `v mod 2^30`, its fields are within the masks (`bank <= BK_MASK`,
`row <= ROW_MASK`, `col <= COL_MASK`), and two addresses that differ only in bits `>= 30`
translate to the same `(bank, row, col)`. -/
theorem from_virt_low_bits (key : mem_config_t) (MemConfig : MemConfiguration)
    (hcfg : load_mem_config key = some MemConfig) (v : Nat) :
    DRAMAddr.from_virt MemConfig v = DRAMAddr.from_virt MemConfig (v % 2 ^ 30) ∧
    (DRAMAddr.from_virt MemConfig v).bank ≤ MemConfig.BK_MASK ∧
    (DRAMAddr.from_virt MemConfig v).row ≤ MemConfig.ROW_MASK ∧
    (DRAMAddr.from_virt MemConfig v).col ≤ MemConfig.COL_MASK ∧
    ∀ v', v' % 2 ^ 30 = v % 2 ^ 30 →
      DRAMAddr.from_virt MemConfig v' = DRAMAddr.from_virt MemConfig v := by
  have T := builtin_translatable key MemConfig hcfg
  have hmod : ∀ w, DRAMAddr.from_virt MemConfig w = DRAMAddr.from_virt MemConfig (w % 2 ^ 30) := by
    intro w
    rw [from_virt_eq_unpack, from_virt_eq_unpack, mtx_loop_mod _ T.rowsD]
  obtain ⟨h1, h2, h3⟩ := unpack_inRange MemConfig (mtx_loop MemConfig.DRAM_MTX v)
  refine ⟨hmod v, h1, h2, h3, ?_⟩
  intro v' hv
  rw [hmod v', hv, ← hmod v]

/-- Witness for C35: under the (1,1,1,16) configuration the addresses `0x40020000` and
`0x20000` (the same low 30 bits) both translate to bank 4, row 1, col 0. -/
theorem from_virt_low_bits_witness :
    DRAMAddr.from_virt Config_1_1_1_16 0x40020000 = { bank := 4, row := 1, col := 0 } ∧
    DRAMAddr.from_virt Config_1_1_1_16 0x40020000
      = DRAMAddr.from_virt Config_1_1_1_16 (0x40020000 % 2 ^ 30) ∧
    (DRAMAddr.from_virt Config_1_1_1_16 0x40020000).bank ≤ Config_1_1_1_16.BK_MASK ∧
    (DRAMAddr.from_virt Config_1_1_1_16 0x40020000).row ≤ Config_1_1_1_16.ROW_MASK ∧
    (DRAMAddr.from_virt Config_1_1_1_16 0x40020000).col ≤ Config_1_1_1_16.COL_MASK ∧
    ∀ v', v' % 2 ^ 30 = 0x40020000 % 2 ^ 30 →
      DRAMAddr.from_virt Config_1_1_1_16 v' = DRAMAddr.from_virt Config_1_1_1_16 0x40020000 :=
  ⟨by decide!, from_virt_low_bits (1, 1, 1, 16) Config_1_1_1_16 rfl 0x40020000⟩

theorem popcount_two_pow (n k : Nat) (hk : k < n) : popcount n (2 ^ k) = 1 := by
  induction n generalizing k with
  | zero => omega
  | succ n ih =>
    rw [popcount_succ]
    cases k with
    | zero => simp [popcount_zero_arg]
    | succ k =>
      have h1 : 2 ^ (k + 1) % 2 = 0 := by rw [Nat.pow_succ]; omega
      have h2 : 2 ^ (k + 1) / 2 = 2 ^ k := by rw [Nat.pow_succ]; omega
      rw [h1, h2, ih k (by omega)]

theorem parityl_and_two_pow (v k : Nat) (hk : k < 64) :
    parityl (v &&& 2 ^ k) = (v.testBit k).toNat := by
  rw [Nat.and_two_pow]
  cases v.testBit k with
  | true =>
    simp only [Bool.toNat_true, Nat.one_mul]
    unfold parityl popcountl
    rw [popcount_two_pow 64 k hk]
  | false =>
    simp only [Bool.toNat_false, Nat.zero_mul]
    exact parityl_zero

theorem and_two_bits (v a b : Nat) (hab : a ≠ b) :
    v &&& (2 ^ a ||| 2 ^ b) = (v &&& 2 ^ a) ^^^ (v &&& 2 ^ b) := by
  apply Nat.eq_of_testBit_eq
  intro i
  simp only [Nat.testBit_and, Nat.testBit_or, Nat.testBit_xor, Nat.testBit_two_pow]
  by_cases h1 : a = i <;> by_cases h2 : b = i <;> simp [h1, h2]
  omega

theorem parityl_and_two_bits (v a b : Nat) (hab : a ≠ b) (ha : a < 64) (hb : b < 64) :
    decide (parityl (v &&& (2 ^ a ||| 2 ^ b)) = 1) = xor (v.testBit a) (v.testBit b) := by
  rw [and_two_bits v a b hab, parityl_xor, parityl_and_two_pow v a ha,
    parityl_and_two_pow v b hb]
  cases v.testBit a <;> cases v.testBit b <;> decide

theorem testBit_loop_one_bit (mtx : List Nat) (v j k : Nat) (hj : j < 30) (hk : k < 64)
    (hrow : mtx.getD (29 - j) 0 = 2 ^ k) :
    (mtx_loop mtx v).testBit j = v.testBit k := by
  rw [testBit_mtx_loop, hrow, parityl_and_two_pow v k hk]
  cases v.testBit k <;> simp [hj]

theorem testBit_loop_two_bits (mtx : List Nat) (v j a b : Nat) (hj : j < 30) (hab : a ≠ b)
    (ha : a < 64) (hb : b < 64) (hrow : mtx.getD (29 - j) 0 = 2 ^ a ||| 2 ^ b) :
    (mtx_loop mtx v).testBit j = xor (v.testBit a) (v.testBit b) := by
  rw [testBit_mtx_loop, hrow, parityl_and_two_bits v a b hab ha hb]
  simp [hj]

theorem col_1_1_1_16 (v : Nat) : (DRAMAddr.from_virt Config_1_1_1_16 v).col = v % 2 ^ 13 := by
  rw [from_virt_eq_unpack, unpack_1_1_1_16]
  apply Nat.eq_of_testBit_eq
  intro j
  simp only [Nat.testBit_mod_two_pow, ← Nat.shiftRight_eq_div_pow, Nat.testBit_shiftRight]
  by_cases hj : j < 13
  · simp only [hj, decide_True, Bool.true_and]
    have hrow : Config_1_1_1_16.DRAM_MTX.getD (29 - (13 + j)) 0 = 2 ^ j := by
      interval_cases j <;> decide
    exact testBit_loop_one_bit _ v (13 + j) j (by omega) (by omega) hrow
  · simp [hj]

theorem row_1_1_1_16 (v : Nat) :
    (DRAMAddr.from_virt Config_1_1_1_16 v).row = v / 2 ^ 17 % 2 ^ 13 := by
  rw [from_virt_eq_unpack, unpack_1_1_1_16]
  apply Nat.eq_of_testBit_eq
  intro j
  simp only [Nat.testBit_mod_two_pow, ← Nat.shiftRight_eq_div_pow, Nat.testBit_shiftRight]
  by_cases hj : j < 13
  · simp only [hj, decide_True, Bool.true_and]
    have hrow : Config_1_1_1_16.DRAM_MTX.getD (29 - j) 0 = 2 ^ (17 + j) := by
      interval_cases j <;> decide
    exact testBit_loop_one_bit _ v j (17 + j) (by omega) (by omega) hrow
  · simp [hj]

theorem bank_1_1_1_16 (v : Nat) :
    (DRAMAddr.from_virt Config_1_1_1_16 v).bank < 2 ^ 4 ∧
    (DRAMAddr.from_virt Config_1_1_1_16 v).bank.testBit 3 = xor (v.testBit 6) (v.testBit 13) ∧
    (DRAMAddr.from_virt Config_1_1_1_16 v).bank.testBit 2 = xor (v.testBit 14) (v.testBit 17) ∧
    (DRAMAddr.from_virt Config_1_1_1_16 v).bank.testBit 1 = xor (v.testBit 15) (v.testBit 18) ∧
    (DRAMAddr.from_virt Config_1_1_1_16 v).bank.testBit 0 = xor (v.testBit 16) (v.testBit 19) := by
  rw [from_virt_eq_unpack, unpack_1_1_1_16]
  simp only [Nat.testBit_mod_two_pow, ← Nat.shiftRight_eq_div_pow, Nat.testBit_shiftRight]
  refine ⟨Nat.mod_lt _ (by decide), ?_, ?_, ?_, ?_⟩
  · simp only [show (3 : Nat) < 4 by decide, decide_True, Bool.true_and]
    exact testBit_loop_two_bits _ v (26 + 3) 6 13 (by decide) (by decide) (by decide)
      (by decide) (by decide)
  · simp only [show (2 : Nat) < 4 by decide, decide_True, Bool.true_and]
    exact testBit_loop_two_bits _ v (26 + 2) 14 17 (by decide) (by decide) (by decide)
      (by decide) (by decide)
  · simp only [show (1 : Nat) < 4 by decide, decide_True, Bool.true_and]
    exact testBit_loop_two_bits _ v (26 + 1) 15 18 (by decide) (by decide) (by decide)
      (by decide) (by decide)
  · simp only [show (0 : Nat) < 4 by decide, decide_True, Bool.true_and]
    exact testBit_loop_two_bits _ v (26 + 0) 16 19 (by decide) (by decide) (by decide)
      (by decide) (by decide)

theorem testBit_of_div_eq (v v' k : Nat) (h : v' / 2 ^ 6 = v / 2 ^ 6) (hk : 6 ≤ k) :
    v'.testBit k = v.testBit k := by
  have e : k = 6 + (k - 6) := by omega
  rw [e, ← Nat.testBit_shiftRight, ← Nat.testBit_shiftRight, Nat.shiftRight_eq_div_pow,
    Nat.shiftRight_eq_div_pow, h]

/-- C36: under the (1,1,1,16) configuration, for every address `v`: `col` is `v mod 2^13`
(bits 0..12), `row` is `(v >> 17) mod 2^13` (bits 17..29), and `bank` is a 4-bit value whose
bits, from most to least significant, are `v_6 xor v_13`, `v_14 xor v_17`, `v_15 xor v_18` and
`v_16 xor v_19`.  Consequently two addresses that differ only in bits 0..5 (same 64-byte
cacheline) have the same bank and row. -/
theorem from_virt_1_1_1_16_bits (v : Nat) :
    (DRAMAddr.from_virt Config_1_1_1_16 v).col = v % 2 ^ 13 ∧
    (DRAMAddr.from_virt Config_1_1_1_16 v).row = v / 2 ^ 17 % 2 ^ 13 ∧
    (DRAMAddr.from_virt Config_1_1_1_16 v).bank < 2 ^ 4 ∧
    (DRAMAddr.from_virt Config_1_1_1_16 v).bank.testBit 3 = xor (v.testBit 6) (v.testBit 13) ∧
    (DRAMAddr.from_virt Config_1_1_1_16 v).bank.testBit 2 = xor (v.testBit 14) (v.testBit 17) ∧
    (DRAMAddr.from_virt Config_1_1_1_16 v).bank.testBit 1 = xor (v.testBit 15) (v.testBit 18) ∧
    (DRAMAddr.from_virt Config_1_1_1_16 v).bank.testBit 0 = xor (v.testBit 16) (v.testBit 19) ∧
    ∀ v', v' / 2 ^ 6 = v / 2 ^ 6 →
      (DRAMAddr.from_virt Config_1_1_1_16 v').bank = (DRAMAddr.from_virt Config_1_1_1_16 v).bank ∧
      (DRAMAddr.from_virt Config_1_1_1_16 v').row
        = (DRAMAddr.from_virt Config_1_1_1_16 v).row := by
  obtain ⟨hb, h3, h2, h1, h0⟩ := bank_1_1_1_16 v
  refine ⟨col_1_1_1_16 v, row_1_1_1_16 v, hb, h3, h2, h1, h0, ?_⟩
  intro v' hv
  have hbit : ∀ k, 6 ≤ k → v'.testBit k = v.testBit k := fun k hk => testBit_of_div_eq v v' k hv hk
  obtain ⟨hb', h3', h2', h1', h0'⟩ := bank_1_1_1_16 v'
  constructor
  · apply Nat.eq_of_testBit_eq
    intro i
    by_cases hi : i < 4
    · interval_cases i
      · rw [h0', h0, hbit 16 (by decide), hbit 19 (by decide)]
      · rw [h1', h1, hbit 15 (by decide), hbit 18 (by decide)]
      · rw [h2', h2, hbit 14 (by decide), hbit 17 (by decide)]
      · rw [h3', h3, hbit 6 (by decide), hbit 13 (by decide)]
    · have hp : 2 ^ 4 ≤ 2 ^ i := Nat.pow_le_pow_right (by decide) (by omega)
      rw [Nat.testBit_lt_two_pow (by omega), Nat.testBit_lt_two_pow (by omega)]
  · rw [row_1_1_1_16, row_1_1_1_16]
    have e : ∀ w : Nat, w / 2 ^ 17 = w / 2 ^ 6 / 2 ^ 11 := by
      intro w
      rw [Nat.div_div_eq_div_mul, ← Nat.pow_add]
    rw [e v', e v, hv]

/-! ## Theorems about `remove_aggs` -/

theorem int_of_size_of_lt (x : Nat) (h : x < 2 ^ 31) : int_of_size x = (x : Int) := by
  unfold int_of_size to_signed
  have h1 : x % 2 ^ 32 = x := Nat.mod_eq_of_lt (by omega)
  rw [h1, if_pos (by simpa using h)]

theorem remove_aggs_loop_spec :
    ∀ (fuel : Nat) (N : Int) (aggressor_pairs : List Nat), aggressor_pairs.length < fuel →
      remove_aggs_loop fuel N aggressor_pairs
        = some (aggressor_pairs.take
            (aggressor_pairs.length - min (max (N - 1) 0).toNat aggressor_pairs.length)) := by
  intro fuel
  induction fuel with
  | zero => intro N aggs h; omega
  | succ fuel ih =>
    intro N aggs hfuel
    simp only [remove_aggs_loop]
    by_cases hc : N > 1 ∧ aggs.length > 0
    · rw [if_pos hc, ih (N - 1) aggs.dropLast (by rw [List.length_dropLast]; omega)]
      obtain ⟨hN, hlen⟩ := hc
      rw [List.length_dropLast, List.dropLast_eq_take, List.take_take]
      have h1 : (max (N - 1) 0).toNat = (max (N - 1 - 1) 0).toNat + 1 := by omega
      have h2 : min (aggs.length - 1 - min (max (N - 1 - 1) 0).toNat (aggs.length - 1))
          (aggs.length - 1)
            = aggs.length - min (max (N - 1) 0).toNat aggs.length := by
        rw [h1]
        omega
      rw [h2]
    · rw [if_neg hc]
      have hz : min (max (N - 1) 0).toNat aggs.length = 0 := by
        by_cases hN : N > 1
        · have : aggs.length = 0 := by
            by_contra hne
            exact hc ⟨hN, by omega⟩
          omega
        · have : (max (N - 1) 0).toNat = 0 := by omega
          omega
      rw [hz, Nat.sub_zero, List.take_length]

/-- C37: on a pattern of `s < 2^31` aggressors, `remove_aggs(N)` returns (within `s + 1`
rounds of its loop), it removes `min(max(N - 1, 0), s)` elements from the end and leaves the
elements before them unchanged, and the value it returns is the new length, which is what
`count_aggs()` returns afterwards; `remove_aggs(1)` removes nothing. -/
theorem remove_aggs_removes (N : Int) (aggressor_pairs : List Nat) (fuel : Nat)
    (hs : aggressor_pairs.length < 2 ^ 31) (hfuel : aggressor_pairs.length < fuel) :
    ∃ (r : Int) (rest : List Nat),
      remove_aggs N aggressor_pairs fuel = some (r, rest) ∧
      rest = aggressor_pairs.take
        (aggressor_pairs.length - min (max (N - 1) 0).toNat aggressor_pairs.length) ∧
      rest.length + min (max (N - 1) 0).toNat aggressor_pairs.length = aggressor_pairs.length ∧
      rest <+: aggressor_pairs ∧
      r = (rest.length : Int) ∧ r = (count_aggs rest : Int) ∧
      (N = 1 → rest = aggressor_pairs) := by
  have hrun := remove_aggs_loop_spec fuel N aggressor_pairs hfuel
  have hlen : (aggressor_pairs.take
      (aggressor_pairs.length - min (max (N - 1) 0).toNat aggressor_pairs.length)).length
        = aggressor_pairs.length - min (max (N - 1) 0).toNat aggressor_pairs.length := by
    rw [List.length_take]
    omega
  refine ⟨int_of_size (aggressor_pairs.take
      (aggressor_pairs.length - min (max (N - 1) 0).toNat aggressor_pairs.length)).length,
    aggressor_pairs.take
      (aggressor_pairs.length - min (max (N - 1) 0).toNat aggressor_pairs.length),
    ?_, rfl, ?_, ⟨_, List.take_append_drop _ _⟩, ?_, ?_, ?_⟩
  · unfold remove_aggs
    rw [hrun]
  · rw [hlen]
    omega
  · exact int_of_size_of_lt _ (by rw [hlen]; omega)
  · unfold count_aggs
    exact int_of_size_of_lt _ (by rw [hlen]; omega)
  · intro h1
    subst h1
    simp

/-- Witness for C37: `remove_aggs(3)` on five aggressors removes the last two and returns 3;
`remove_aggs(1)` removes nothing. -/
theorem remove_aggs_removes_witness :
    remove_aggs 3 [10, 20, 30, 40, 50] 6 = some (3, [10, 20, 30]) ∧
    remove_aggs 1 [10, 20, 30, 40, 50] 6 = some (5, [10, 20, 30, 40, 50]) ∧
    ∃ (r : Int) (rest : List Nat),
      remove_aggs 3 [10, 20, 30, 40, 50] 6 = some (r, rest) ∧
      rest = ([10, 20, 30, 40, 50] : List Nat).take
        (([10, 20, 30, 40, 50] : List Nat).length
          - min (max ((3 : Int) - 1) 0).toNat ([10, 20, 30, 40, 50] : List Nat).length) ∧
      rest.length + min (max ((3 : Int) - 1) 0).toNat ([10, 20, 30, 40, 50] : List Nat).length
        = ([10, 20, 30, 40, 50] : List Nat).length ∧
      rest <+: [10, 20, 30, 40, 50] ∧
      r = (rest.length : Int) ∧ r = (count_aggs rest : Int) ∧
      ((3 : Int) = 1 → rest = [10, 20, 30, 40, 50]) :=
  ⟨by decide, by decide,
    remove_aggs_removes 3 [10, 20, 30, 40, 50] 6 (by decide) (by decide)⟩

/-! ## Theorems about the random pattern of hammering pairs -/

theorem get_address_length (normalize_address : Nat → Nat) (row_increment : Nat) :
    ∀ (offsets : List Int) (cur_next_addr : Nat) (addresses : List Nat),
      (get_address normalize_address row_increment cur_next_addr offsets addresses).2.length
        = addresses.length + offsets.length := by
  intro offsets
  induction offsets with
  | nil => intro cur addresses; rfl
  | cons val offsets ih =>
    intro cur addresses
    simp only [get_address, ih, List.length_append, List.length_cons, List.length_nil]
    omega

theorem aggressor_candidates_loop_length (normalize_address : Nat → Nat) (row_increment : Nat)
    (agg_inter_distance agg_intra_distance : Int) :
    ∀ (n cur_next_addr : Nat) (aggressor_candidates : List Nat),
      (aggressor_candidates_loop normalize_address row_increment agg_inter_distance
        agg_intra_distance n cur_next_addr aggressor_candidates).2.length
        = aggressor_candidates.length + 2 * n := by
  intro n
  induction n with
  | zero => intro cur cands; rfl
  | succ n ih =>
    intro cur cands
    simp only [aggressor_candidates_loop, ih, get_address_length, List.length_cons,
      List.length_nil]
    omega

theorem pick_hammering_pair_even (rand_value : Int) (hr : 0 ≤ rand_value)
    (aggressor_candidates : List Nat) (p : Nat) (hp : 1 ≤ p) (hint : 2 * p < 2 ^ 31)
    (hlen : aggressor_candidates.length = 2 * p) :
    ∃ (rand_even_idx : Int) (agg1 agg2 : Nat),
      pick_hammering_pair rand_value aggressor_candidates
        = .picked rand_even_idx agg1 agg2 ∧
      0 ≤ rand_even_idx ∧ rand_even_idx % 2 = 0 ∧
      rand_even_idx + 1 < (aggressor_candidates.length : Int) ∧
      aggressor_candidates[rand_even_idx.toNat]? = some agg1 ∧
      aggressor_candidates[rand_even_idx.toNat + 1]? = some agg2 := by
  have hsize : int_of_size aggressor_candidates.length = 2 * (p : Int) := by
    rw [int_of_size_of_lt _ (by omega), hlen]
    push_cast
    rfl
  have hmod : (2 * (p : Int)).tmod 2 = 0 := by
    rw [Int.tmod_eq_emod (by omega) (by omega)]
    omega
  have hdiv : (2 * (p : Int) - 1).tdiv 2 + 1 = (p : Int) := by
    rw [Int.tdiv_eq_ediv (by omega) (by omega)]
    omega
  have hppos : (0 : Int) < (p : Int) := by omega
  have hq0 : 0 ≤ rand_value.tmod (p : Int) := by
    rw [Int.tmod_eq_emod hr (by omega)]
    exact Int.emod_nonneg _ (by omega)
  have hq1 : rand_value.tmod (p : Int) < (p : Int) := by
    rw [Int.tmod_eq_emod hr (by omega)]
    exact Int.emod_lt_of_pos _ hppos
  have hi0 : (rand_value.tmod (p : Int) * 2).toNat < aggressor_candidates.length := by
    rw [hlen]
    omega
  have hi1 : (rand_value.tmod (p : Int) * 2 + 1).toNat < aggressor_candidates.length := by
    rw [hlen]
    omega
  have hi2 : (rand_value.tmod (p : Int) * 2 + 1).toNat
      = (rand_value.tmod (p : Int) * 2).toNat + 1 := by omega
  refine ⟨rand_value.tmod (p : Int) * 2, aggressor_candidates[(rand_value.tmod (p : Int) * 2).toNat],
    aggressor_candidates[(rand_value.tmod (p : Int) * 2 + 1).toNat], ?_, by omega, by omega,
    by rw [hlen]; push_cast; omega, ?_, ?_⟩
  · unfold pick_hammering_pair
    simp only [hsize, hmod, hdiv, ne_eq, not_true_eq_false, if_false]
    rw [if_neg (by omega)]
    unfold vector_at
    rw [if_neg (by omega), if_neg (by omega), List.getElem?_eq_getElem hi0,
      List.getElem?_eq_getElem hi1]
  · exact List.getElem?_eq_getElem hi0
  · rw [← hi2]
    exact List.getElem?_eq_getElem hi1

/-- C38: in the pair-based `generate_random_pattern` with `num_hammering_pairs >= 1` (and
`2 * num_hammering_pairs` within the `int` range), the vector `aggressor_candidates` built at
lines 288-296 has exactly `2 * num_hammering_pairs` entries, and for every value `>= 0` returned
by `rand()` the pair selection of lines 317-325 does not abort and does not throw: it picks an
even index `rand_even_idx >= 0` with `rand_even_idx + 1` below the number of candidates, and the
two lookups return the candidates at `rand_even_idx` and `rand_even_idx + 1`. -/
theorem pair_selection_in_range (normalize_address : Nat → Nat)
    (row_increment random_start_address : Nat)
    (num_hammering_pairs agg_inter_distance agg_intra_distance : Int)
    (hp : 1 ≤ num_hammering_pairs) (hint : num_hammering_pairs < 2 ^ 30) :
    ((build_aggressor_candidates normalize_address row_increment random_start_address
        num_hammering_pairs agg_inter_distance agg_intra_distance).2.length : Int)
      = 2 * num_hammering_pairs ∧
    ∀ rand_value : Int, 0 ≤ rand_value →
      pick_hammering_pair rand_value
          (build_aggressor_candidates normalize_address row_increment random_start_address
            num_hammering_pairs agg_inter_distance agg_intra_distance).2 ≠ .aborted ∧
      ∃ (rand_even_idx : Int) (agg1 agg2 : Nat),
        pick_hammering_pair rand_value
          (build_aggressor_candidates normalize_address row_increment random_start_address
            num_hammering_pairs agg_inter_distance agg_intra_distance).2
          = .picked rand_even_idx agg1 agg2 ∧
        0 ≤ rand_even_idx ∧ rand_even_idx % 2 = 0 ∧
        rand_even_idx + 1 < 2 * num_hammering_pairs ∧
        (build_aggressor_candidates normalize_address row_increment random_start_address
          num_hammering_pairs agg_inter_distance agg_intra_distance).2[rand_even_idx.toNat]?
            = some agg1 ∧
        (build_aggressor_candidates normalize_address row_increment random_start_address
          num_hammering_pairs agg_inter_distance agg_intra_distance).2[rand_even_idx.toNat + 1]?
            = some agg2 := by
  have hlen : (build_aggressor_candidates normalize_address row_increment random_start_address
      num_hammering_pairs agg_inter_distance agg_intra_distance).2.length
        = 2 * num_hammering_pairs.toNat := by
    unfold build_aggressor_candidates
    rw [aggressor_candidates_loop_length]
    simp
  have hcast : ((2 * num_hammering_pairs.toNat : Nat) : Int) = 2 * num_hammering_pairs := by
    push_cast
    omega
  refine ⟨by rw [hlen, hcast], ?_⟩
  intro rand_value hr
  obtain ⟨idx, agg1, agg2, hpick, h0, h1, h2, h3, h4⟩ :=
    pick_hammering_pair_even rand_value hr _ num_hammering_pairs.toNat (by omega) (by omega) hlen
  rw [hlen, hcast] at h2
  refine ⟨?_, idx, agg1, agg2, hpick, h0, h1, h2, h3, h4⟩
  rw [hpick]
  intro h
  cases h

/-- Witness for C38: 3 hammering pairs, with `normalize_address` the identity, a row
increment of 8192 and distances 4 and 2: six candidates; `rand() = 7` picks the pair at the
indices 2 and 3. -/
theorem pair_selection_in_range_witness :
    (build_aggressor_candidates id 8192 0 3 4 2).2
      = [32768, 49152, 81920, 98304, 131072, 147456] ∧
    pick_hammering_pair 7 (build_aggressor_candidates id 8192 0 3 4 2).2
      = .picked 2 81920 98304 ∧
    ((build_aggressor_candidates id 8192 0 3 4 2).2.length : Int) = 2 * 3 ∧
    ∀ rand_value : Int, 0 ≤ rand_value →
      pick_hammering_pair rand_value (build_aggressor_candidates id 8192 0 3 4 2).2
        ≠ .aborted ∧
      ∃ (rand_even_idx : Int) (agg1 agg2 : Nat),
        pick_hammering_pair rand_value (build_aggressor_candidates id 8192 0 3 4 2).2
          = .picked rand_even_idx agg1 agg2 ∧
        0 ≤ rand_even_idx ∧ rand_even_idx % 2 = 0 ∧
        rand_even_idx + 1 < 2 * 3 ∧
        (build_aggressor_candidates id 8192 0 3 4 2).2[rand_even_idx.toNat]? = some agg1 ∧
        (build_aggressor_candidates id 8192 0 3 4 2).2[rand_even_idx.toNat + 1]?
          = some agg2 :=
  ⟨by decide!, by decide!,
    pair_selection_in_range id 8192 0 3 4 2 (by decide) (by decide)⟩

/-! ## Theorems about the random pattern of aggressor tuples -/

theorem size_sub_of_le (a b : Nat) (hb : b ≤ a) (ha : a < SIZE_MAX1) : size_sub a b = a - b := by
  unfold size_sub
  have h1 : b % SIZE_MAX1 = b := Nat.mod_eq_of_lt (by omega)
  rw [h1]
  have h2 : a + (SIZE_MAX1 - b) = (a - b) + SIZE_MAX1 := by omega
  rw [h2, Nat.add_mod_right]
  exact Nat.mod_eq_of_lt (by omega)

theorem valid_aggressors_exist_iff (total_acts_pattern : Nat) (aggressor_pairs : List Nat)
    (agg_candidates_by_size : List (Int × List (List Nat)))
    (h1 : aggressor_pairs.length ≤ total_acts_pattern) (h2 : total_acts_pattern < SIZE_MAX1)
    (h3 : total_acts_pattern - aggressor_pairs.length < 2 ^ 31) :
    valid_aggressors_exist total_acts_pattern aggressor_pairs agg_candidates_by_size = true ↔
      ∃ e ∈ agg_candidates_by_size,
        e.1 < ((total_acts_pattern - aggressor_pairs.length : Nat) : Int) ∧ e.2 ≠ [] := by
  unfold valid_aggressors_exist
  simp only [size_sub_of_le _ _ h1 h2, int_of_size_of_lt _ h3, List.any_eq_true,
    Bool.and_eq_true, decide_eq_true_eq, Bool.not_eq_true', List.isEmpty_eq_false]

/-- C34 does not hold of the code: with `total_acts_pattern = 2`, an empty `aggressor_pairs`
and one candidate tuple of size 2, the tuple fits into the remaining 2 activations, but
`valid_aggressors_exist` returns false; it returns true once 3 activations remain.  The
condition of the code is `size < remaining_accesses`: whenever
`0 <= total_acts_pattern - aggressor_pairs.size() < 2^31`, the lambda returns true exactly when
some tuple size `s` with a non-empty candidate list is strictly below the number of remaining
activations. -/
theorem valid_aggressors_exist_strict :
    valid_aggressors_exist 2 [] [(2, [[64, 128]])] = false ∧
    valid_aggressors_exist 3 [] [(2, [[64, 128]])] = true ∧
    (∀ (total_acts_pattern : Nat) (aggressor_pairs : List Nat)
        (agg_candidates_by_size : List (Int × List (List Nat))),
      aggressor_pairs.length ≤ total_acts_pattern → total_acts_pattern < SIZE_MAX1 →
      total_acts_pattern - aggressor_pairs.length < 2 ^ 31 →
      (valid_aggressors_exist total_acts_pattern aggressor_pairs agg_candidates_by_size = true ↔
        ∃ e ∈ agg_candidates_by_size,
          e.1 < ((total_acts_pattern - aggressor_pairs.length : Nat) : Int) ∧ e.2 ≠ [])) :=
  ⟨by decide, by decide, valid_aggressors_exist_iff⟩

theorem repeat_aggressor_set_final (aggressor_set : List Nat) :
    ∀ (fuel : Nat) (M : Int) (aggressor_pairs : List Nat) (r : Int × List Nat),
      repeat_aggressor_set aggressor_set fuel M aggressor_pairs = some r → r.1 = -1 := by
  intro fuel
  induction fuel with
  | zero => intro M pairs r h; simp [repeat_aggressor_set] at h
  | succ fuel ih =>
    intro M pairs r h
    simp only [repeat_aggressor_set] at h
    split at h
    · exact ih _ _ _ h
    · rename_i hM
      simp only [Option.some.injEq] at h
      subst h
      have : M = 0 := not_not.mp hM
      subst this
      rfl

theorem repeat_aggressor_set_length (aggressor_set : List Nat) :
    ∀ (fuel : Nat) (M : Nat) (aggressor_pairs : List Nat), M < fuel →
      ∃ r, repeat_aggressor_set aggressor_set fuel (M : Int) aggressor_pairs = some r ∧
        r.2.length = aggressor_pairs.length + M * aggressor_set.length := by
  intro fuel
  induction fuel with
  | zero => intro M pairs h; omega
  | succ fuel ih =>
    intro M pairs hM
    simp only [repeat_aggressor_set]
    cases M with
    | zero => exact ⟨(-1, pairs), by simp, by simp⟩
    | succ M =>
      rw [if_pos (by omega)]
      obtain ⟨r, hr, hlen⟩ := ih M (pairs ++ aggressor_set) (by omega)
      have e : ((M + 1 : Nat) : Int) - 1 = (M : Int) := by omega
      rw [e, hr]
      refine ⟨r, rfl, ?_⟩
      rw [hlen, List.length_append, Nat.succ_mul]
      omega

/-- C32 does not hold of the code: on the example (60 activations, 8 aggressors, tuples of 1
or 2 aggressors, amplitudes 1..7, `get_random_number(M_max)` returning `M_max`) the sixth round
starts with 56 of 60 accesses, `M_max = min(4, 7) = 4` and a set of 2 aggressors is appended 4
times: `aggressor_pairs` ends with 64 entries.  The amplitude is bounded by the remaining
accesses, but a set of `k` aggressors appended `M` times adds `M * k` entries. -/
theorem amplitude_exceeds_remaining :
    example_members.total_acts_pattern = 60 ∧
    (∀ n M_max, example_pattern_env.get_random_number n M_max ≤ M_max) ∧
    (generate_random_pattern example_members example_pattern_env 100).map
        (fun r => (r.aggressor_pairs.length, r.picks))
      = some (64,
          [([98304, 114688], 7), ([147456, 163840], 7), ([196608, 212992], 7), ([32768], 7),
           ([65536], 7), ([98304, 114688], 4)]) ∧
    (∀ (aggressor_set : List Nat) (fuel M : Nat) (aggressor_pairs : List Nat), M < fuel →
      ∃ r, repeat_aggressor_set aggressor_set fuel (M : Int) aggressor_pairs = some r ∧
        r.2.length = aggressor_pairs.length + M * aggressor_set.length) := by
  refine ⟨rfl, fun n M_max => Int.le_refl _, ?_, repeat_aggressor_set_length⟩
  decide!

/-- C33 does not hold of the code: on the example with `use_unused_pair_as_dummies == false`
the sets of two aggressors picked are `[98304, 114688]` with amplitude 3, then
`[147456, 163840]` and `[196608, 212992]` with amplitude 1, and the dummy pair retained at the
end is `[98304, 114688]`, the first of them, not one with the lowest amplitude.  The loop
`while (M--)` of line 400 always leaves `M == -1`, and line 404 compares this value with
`dummy_pair_accesses`. -/
theorem dummy_pair_is_first_pick :
    example_members_dummy.use_unused_pair_as_dummies = false ∧
    (generate_random_pattern example_members_dummy example_env_dummy 100).map
        (fun r => (r.picks, r.dummy_pair))
      = some ([([98304, 114688], 3), ([147456, 163840], 1), ([196608, 212992], 1),
               ([32768], 1), ([65536], 1), ([32768], 7), ([32768], 5)],
          [98304, 114688]) ∧
    (∀ (aggressor_set : List Nat) (fuel : Nat) (M : Int) (aggressor_pairs : List Nat)
        (r : Int × List Nat),
      repeat_aggressor_set aggressor_set fuel M aggressor_pairs = some r → r.1 = -1) := by
  refine ⟨rfl, ?_, repeat_aggressor_set_final⟩
  decide!

end Zenhammer
